import Mathlib

/-! Purse and signed-container model (opentxs)

A shallow embedding of `src/src/cash/Purse.cpp` and `src/src/core/Contract.cpp`.
Member names follow the C++ source.  Classes whose sources are not part of the
files at hand (tokens, owners, keys, the crypto provider) appear as parameters.
-/

namespace OpenTxs

/-- Identifier values (notary, instrument definition, nym), compared through their string form. -/
abbrev Identifier := String

/-- Outcome of a call that can reach an `OT_ASSERT`: the process aborts, or
the call returns a value.  `outOfFuel` is the loop bound of the model itself. -/
inductive Run (α : Type) where
  | assertFailed : Run α
  | outOfFuel : Run α
  | done : α → Run α
  deriving DecidableEq, Repr

/-- The value a call returned, if it returned. -/
def Run.value? {α : Type} : Run α → Option α
  | Run.done a => some a
  | _ => none

/-- Two-complement wrap of an integer into the `int64_t` range. -/
def wrapInt64 (x : Int) : Int := (x + 2 ^ 63) % 2 ^ 64 - 2 ^ 63

/-- The value `OT_TIME_ZERO`. -/
def OT_TIME_ZERO : Int := 0

/-- The class `OTNym_or_SymmetricKey` as the purse uses it: sealing a plaintext
into an armored envelope and opening an armored envelope, each of which can fail. -/
structure OTNym_or_SymmetricKey where
  Seal_or_Encrypt : String → Option String
  Open_or_Decrypt : String → Option String

/-- A pseudonym, used by the purse only as the signer handed on to the token. -/
structure Nym where
  m_nymID : Identifier
  deriving DecidableEq, Repr

/-- The key objects a password-protected purse owns (`OTSymmetricKey`, `OTCachedKey`):
whether the key is generated and what `SerializeTo` yields (`none` when it fails). -/
structure OTKey where
  IsGenerated : Bool
  SerializeTo : Option String
  deriving DecidableEq, Repr

/-- Member variables of `Purse`. -/
structure Purse where
  m_strVersion : String
  m_NymID : Identifier
  m_NotaryID : Identifier
  m_InstrumentDefinitionID : Identifier
  m_lTotalValue : Int
  m_bPasswordProtected : Bool
  m_bIsNymIDIncluded : Bool
  m_pSymmetricKey : Option OTKey
  m_pCachedKey : Option OTKey
  m_tLatestValidFrom : Int
  m_tEarliestValidTo : Int
  m_dequeTokens : List String
  deriving DecidableEq, Repr

/-- The interface of the `Token` class as `Purse.cpp` uses it.  `toText` is the
conversion `String strToken(theToken)`, `TokenFactory` builds a token from its
text with the notary and instrument definition ids of a purse (`none` is a null
pointer), `ReassignOwnership` returns its success flag with the token as it
leaves it, and `SignAndSave` is `ReleaseSignatures; SignContract; SaveContract`. -/
structure TokenClass (τ : Type) where
  GetInstrumentDefinitionID : τ → Identifier
  GetNotaryID : τ → Identifier
  GetDenomination : τ → Int
  GetValidFrom : τ → Int
  GetValidTo : τ → Int
  GetSpendable : τ → String
  toText : τ → String
  TokenFactory : String → Identifier → Identifier → Option τ
  ReassignOwnership : τ → OTNym_or_SymmetricKey → OTNym_or_SymmetricKey → Bool × τ
  SignAndSave : Nym → τ → τ

namespace Purse

/-- `Purse::Purse(NOTARY_ID, INSTRUMENT_DEFINITION_ID)` followed by `InitPurse`. -/
def create (NOTARY_ID INSTRUMENT_DEFINITION_ID : Identifier) : Purse :=
  { m_strVersion := "2.1"
    m_NymID := ""
    m_NotaryID := NOTARY_ID
    m_InstrumentDefinitionID := INSTRUMENT_DEFINITION_ID
    m_lTotalValue := 0
    m_bPasswordProtected := false
    m_bIsNymIDIncluded := false
    m_pSymmetricKey := none
    m_pCachedKey := none
    m_tLatestValidFrom := OT_TIME_ZERO
    m_tEarliestValidTo := OT_TIME_ZERO
    m_dequeTokens := [] }

/-- `Purse::Count`. -/
def Count (p : Purse) : Nat := p.m_dequeTokens.length

/-- `Purse::IsEmpty`. -/
def IsEmpty (p : Purse) : Bool := p.m_dequeTokens.isEmpty

/-- `Purse::Push`: the flag returned and the purse afterwards. -/
def Push {τ : Type} (K : TokenClass τ) (p : Purse) (theOwner : OTNym_or_SymmetricKey)
    (theToken : τ) : Bool × Purse :=
  if K.GetInstrumentDefinitionID theToken = p.m_InstrumentDefinitionID then
    match theOwner.Seal_or_Encrypt (K.toText theToken) with
    | some pArmor =>
      let p1 : Purse :=
        { p with
          m_dequeTokens := pArmor :: p.m_dequeTokens
          m_lTotalValue := wrapInt64 (p.m_lTotalValue + K.GetDenomination theToken) }
      let p2 : Purse :=
        if p1.m_tLatestValidFrom < K.GetValidFrom theToken then
          { p1 with m_tLatestValidFrom := K.GetValidFrom theToken }
        else p1
      let p3 : Purse :=
        if OT_TIME_ZERO = p2.m_tEarliestValidTo ∨ p2.m_tEarliestValidTo > K.GetValidTo theToken then
          { p2 with m_tEarliestValidTo := K.GetValidTo theToken }
        else p2
      (true, p3)
    | none => (false, p)
  else (false, p)

/-- The body of `Purse::Peek` once the front armor `pArmor` has been taken:
open the envelope, rebuild the token (asserted not null), check its scope. -/
def PeekArmor {τ : Type} (K : TokenClass τ) (p : Purse) (theOwner : OTNym_or_SymmetricKey)
    (pArmor : String) : Run (Option τ) :=
  match theOwner.Open_or_Decrypt pArmor with
  | some strToken =>
    match K.TokenFactory strToken p.m_NotaryID p.m_InstrumentDefinitionID with
    | none => Run.assertFailed
    | some pToken =>
      if K.GetInstrumentDefinitionID pToken ≠ p.m_InstrumentDefinitionID ∨
          K.GetNotaryID pToken ≠ p.m_NotaryID then
        Run.done none
      else Run.done (some pToken)
  | none => Run.done none

/-- `Purse::Peek`. -/
def Peek {τ : Type} (K : TokenClass τ) (p : Purse) (theOwner : OTNym_or_SymmetricKey) :
    Run (Option τ) :=
  match p.m_dequeTokens with
  | [] => Run.done none
  | pArmor :: _ => PeekArmor K p theOwner pArmor

/-- `Purse::Pop`: the token returned (`none` is a null pointer) and the purse afterwards. -/
def Pop {τ : Type} (K : TokenClass τ) (p : Purse) (theOwner : OTNym_or_SymmetricKey) :
    Run (Option τ × Purse) :=
  if p.m_dequeTokens.isEmpty then Run.done (none, p)
  else
    match Peek K p theOwner with
    | Run.assertFailed => Run.assertFailed
    | Run.outOfFuel => Run.outOfFuel
    | Run.done none => Run.done (none, p)
    | Run.done (some pToken) =>
      Run.done (some pToken,
        { p with
          m_dequeTokens := p.m_dequeTokens.tail
          m_lTotalValue := wrapInt64 (p.m_lTotalValue - K.GetDenomination pToken) })

end Purse

/-- The temporary map `std::map<std::string, Token*>` of `Purse::Merge`: the
entries in ascending key order. -/
abbrev mapOfTokenPointers (τ : Type) := List (String × τ)

/-- Lexicographic comparison of character sequences by character code. -/
def lexLess : List Char → List Char → Bool
  | [], [] => false
  | [], _ :: _ => true
  | _ :: _, [] => false
  | a :: as, b :: bs =>
    if a.toNat < b.toNat then true
    else if a.toNat = b.toNat then lexLess as bs
    else false

/-- The order `std::less<std::string>` of the map keys. -/
def stringLess (a b : String) : Bool := lexLess a.data b.data

/-- `std::map::insert`: the pair goes to its place in key order, and nothing
changes when the key is already present. -/
def mapInsert {τ : Type} (theKey : String) (pToken : τ) :
    mapOfTokenPointers τ → mapOfTokenPointers τ
  | [] => [(theKey, pToken)]
  | (k, v) :: rest =>
    if stringLess theKey k then (theKey, pToken) :: (k, v) :: rest
    else if theKey = k then (k, v) :: rest
    else (k, v) :: mapInsert theKey pToken rest

/-- The duplicate sweep of `Purse::Merge`: every entry of the map whose token
has the spendable id `ascTokenID` is erased (and its token deleted). -/
def eraseDuplicates {τ : Type} (K : TokenClass τ) (ascTokenID : String)
    (theMap : mapOfTokenPointers τ) : mapOfTokenPointers τ :=
  theMap.filter (fun it => decide (K.GetSpendable it.2 ≠ ascTokenID))

/-- One round of a drain loop of `Purse::Merge` on the map: the entries whose
token has the id `it.1` are swept, then the token `it.2` is inserted under `it.1`. -/
def mergeStep {τ : Type} (K : TokenClass τ) (theMap : mapOfTokenPointers τ)
    (it : String × τ) : mapOfTokenPointers τ :=
  mapInsert it.1 it.2 (eraseDuplicates K it.1 theMap)

/-- Every entry of the map is filed under the spendable id of its token. -/
def WellKeyed {τ : Type} (K : TokenClass τ) (theMap : mapOfTokenPointers τ) : Prop :=
  ∀ kv ∈ theMap, kv.1 = K.GetSpendable kv.2

/-- What `Purse::Merge` does to a token popped from the other purse once it is
on the map: `ReassignOwnership`, and on success release, sign and save. -/
def reassignToken {τ : Type} (K : TokenClass τ) (theSigner : Nym)
    (theOldNym theNewNym : OTNym_or_SymmetricKey) (pToken : τ) : τ :=
  match K.ReassignOwnership pToken theNewNym theOldNym with
  | (false, t) => t
  | (true, t) => K.SignAndSave theSigner t

namespace Purse

/-- First loop of `Purse::Merge`: `while (Count() > 0)` pop from this purse
(asserting the token is not null), sweep duplicates, insert. -/
def MergeDrainThis {τ : Type} (K : TokenClass τ) (theOldNym : OTNym_or_SymmetricKey) :
    Nat → Purse → mapOfTokenPointers τ → Run (Purse × mapOfTokenPointers τ)
  | 0, p, theMap => if 0 < p.Count then Run.outOfFuel else Run.done (p, theMap)
  | fuel + 1, p, theMap =>
    if 0 < p.Count then
      match Pop K p theOldNym with
      | Run.assertFailed => Run.assertFailed
      | Run.outOfFuel => Run.outOfFuel
      | Run.done (none, _) => Run.assertFailed
      | Run.done (some pToken, p1) =>
        let ascTokenID := K.GetSpendable pToken
        MergeDrainThis K theOldNym fuel p1
          (mapInsert ascTokenID pToken (eraseDuplicates K ascTokenID theMap))
    else Run.done (p, theMap)

/-- Second loop of `Purse::Merge`: the same over the other purse, followed for
each token by the reassignment of its ownership. -/
def MergeDrainNew {τ : Type} (K : TokenClass τ) (theSigner : Nym)
    (theOldNym theNewNym : OTNym_or_SymmetricKey) :
    Nat → Purse → mapOfTokenPointers τ → Run (Purse × mapOfTokenPointers τ)
  | 0, p, theMap => if 0 < p.Count then Run.outOfFuel else Run.done (p, theMap)
  | fuel + 1, p, theMap =>
    if 0 < p.Count then
      match Pop K p theNewNym with
      | Run.assertFailed => Run.assertFailed
      | Run.outOfFuel => Run.outOfFuel
      | Run.done (none, _) => Run.assertFailed
      | Run.done (some pToken, p1) =>
        let ascTokenID := K.GetSpendable pToken
        MergeDrainNew K theSigner theOldNym theNewNym fuel p1
          (mapInsert ascTokenID (reassignToken K theSigner theOldNym theNewNym pToken)
            (eraseDuplicates K ascTokenID theMap))
    else Run.done (p, theMap)

/-- Third loop of `Purse::Merge`: push every token of the map onto this purse;
a failed push clears `bSuccess` and the loop goes on. -/
def MergePushAll {τ : Type} (K : TokenClass τ) (theOldNym : OTNym_or_SymmetricKey) :
    mapOfTokenPointers τ → Bool → Purse → Bool × Purse
  | [], bSuccess, p => (bSuccess, p)
  | it :: rest, bSuccess, p =>
    match Push K p theOldNym it.2 with
    | (true, p1) => MergePushAll K theOldNym rest bSuccess p1
    | (false, p1) => MergePushAll K theOldNym rest false p1

/-- `Purse::Merge`: the flag returned, this purse and the other purse afterwards. -/
def Merge {τ : Type} (K : TokenClass τ) (p : Purse) (theSigner : Nym)
    (theOldNym theNewNym : OTNym_or_SymmetricKey) (theNewPurse : Purse) :
    Run (Bool × Purse × Purse) :=
  match MergeDrainThis K theOldNym p.Count p [] with
  | Run.assertFailed => Run.assertFailed
  | Run.outOfFuel => Run.outOfFuel
  | Run.done (p1, theMap1) =>
    match MergeDrainNew K theSigner theOldNym theNewNym theNewPurse.Count theNewPurse theMap1 with
    | Run.assertFailed => Run.assertFailed
    | Run.outOfFuel => Run.outOfFuel
    | Run.done (theNewPurse1, theMap2) =>
      match MergePushAll K theOldNym theMap2 true p1 with
      | (bSuccess, p2) => Run.done (bSuccess, p2, theNewPurse1)

/-- One call made on a purse by a client: a push of a token or a pop, each
under the owner the caller passes. -/
inductive Call (τ : Type) where
  | push : OTNym_or_SymmetricKey → τ → Call τ
  | pop : OTNym_or_SymmetricKey → Call τ

/-- The purse after a call (`assertFailed` when the call aborts the process). -/
def applyCall {τ : Type} (K : TokenClass τ) (p : Purse) : Call τ → Run Purse
  | Call.push theOwner theToken => Run.done (Push K p theOwner theToken).2
  | Call.pop theOwner =>
    match Pop K p theOwner with
    | Run.assertFailed => Run.assertFailed
    | Run.outOfFuel => Run.outOfFuel
    | Run.done (_, p1) => Run.done p1

/-- The purse after a sequence of calls made one after the other. -/
def applyCalls {τ : Type} (K : TokenClass τ) : Purse → List (Call τ) → Run Purse
  | p, [] => Run.done p
  | p, c :: cs =>
    match applyCall K p c with
    | Run.assertFailed => Run.assertFailed
    | Run.outOfFuel => Run.outOfFuel
    | Run.done p1 => applyCalls K p1 cs

/-- The purse after pushing the tokens of a list in order under one owner,
with the conjunction of the flags returned. -/
def pushAll {τ : Type} (K : TokenClass τ) (theOwner : OTNym_or_SymmetricKey) :
    Purse → List τ → Bool × Purse
  | p, [] => (true, p)
  | p, t :: ts =>
    match Push K p theOwner t with
    | (b, p1) => match pushAll K theOwner p1 ts with
      | (bs, p2) => (b && bs, p2)

end Purse

/-- The validity window as the specification words it: the maximum of the
`validFrom` values of the tokens. -/
def specLatestValidFrom {τ : Type} (K : TokenClass τ) (ts : List τ) : Option Int :=
  (ts.map K.GetValidFrom).max?

/-- The validity window as the specification words it: the minimum of the
`validTo` values of the tokens, those equal to zero left out. -/
def specEarliestValidTo {τ : Type} (K : TokenClass τ) (ts : List τ) : Option Int :=
  ((ts.map K.GetValidTo).filter (fun v => decide (v ≠ 0))).min?

/-! ## A concrete token class used to evaluate the model -/

/-- A plain token record: scope ids, denomination, validity window, spendable id. -/
structure SimpleToken where
  instrumentDefinitionID : Identifier
  notaryID : Identifier
  denomination : Int
  validFrom : Int
  validTo : Int
  spendable : String
  deriving DecidableEq, Repr

/-- The tokens the sample token class knows by their text. -/
def sampleTokens : List (String × SimpleToken) :=
  [ ("t1", ⟨"I", "N", 10, 100, 200, "id1"⟩),
    ("t2", ⟨"I", "N", 20, 150, 180, "id2"⟩),
    ("t3", ⟨"I", "N", 5, 120, 300, "id3"⟩),
    ("tX", ⟨"I", "N2", 7, 100, 200, "idX"⟩),
    ("tZ", ⟨"I", "N", 1, 110, 0, "idZ"⟩),
    ("tNeg", ⟨"I", "N", 1, -5, 50, "idNeg"⟩) ]

/-- The text of a sample token: the name under which `sampleTokens` lists it. -/
def sampleText (t : SimpleToken) : String :=
  match sampleTokens.find? (fun kv => decide (kv.2 = t)) with
  | some kv => kv.1
  | none => "?"

/-- A token class over `SimpleToken`: the factory looks the text up in
`sampleTokens`, reassignment succeeds and changes nothing. -/
def sampleClass : TokenClass SimpleToken :=
  { GetInstrumentDefinitionID := fun t => t.instrumentDefinitionID
    GetNotaryID := fun t => t.notaryID
    GetDenomination := fun t => t.denomination
    GetValidFrom := fun t => t.validFrom
    GetValidTo := fun t => t.validTo
    GetSpendable := fun t => t.spendable
    toText := sampleText
    TokenFactory := fun s _ _ => (sampleTokens.find? (fun kv => kv.1 == s)).map (fun kv => kv.2)
    ReassignOwnership := fun t _ _ => (true, t)
    SignAndSave := fun _ t => t }

/-- An owner whose envelope is the plaintext itself. -/
def plainOwner : OTNym_or_SymmetricKey :=
  { Seal_or_Encrypt := fun s => some s
    Open_or_Decrypt := fun e => some e }

/-- Sample tokens by name. -/
def tok1 : SimpleToken := ⟨"I", "N", 10, 100, 200, "id1"⟩

/-- Second sample token. -/
def tok2 : SimpleToken := ⟨"I", "N", 20, 150, 180, "id2"⟩

/-- Third sample token. -/
def tok3 : SimpleToken := ⟨"I", "N", 5, 120, 300, "id3"⟩

/-- A token of the right instrument definition and of another notary. -/
def tokX : SimpleToken := ⟨"I", "N2", 7, 100, 200, "idX"⟩

/-- A token whose `validTo` is zero. -/
def tokZ : SimpleToken := ⟨"I", "N", 1, 110, 0, "idZ"⟩

/-- A token whose `validFrom` is negative. -/
def tokNeg : SimpleToken := ⟨"I", "N", 1, -5, 50, "idNeg"⟩

/-- An empty purse of notary `N` and instrument definition `I`. -/
def samplePurse : Purse := Purse.create "N" "I"

/-- The purse A of the merge example: it holds `tok1` and `tok2`. -/
def purseA : Purse := (Purse.pushAll sampleClass plainOwner samplePurse [tok1, tok2]).2

/-- The purse B of the merge example: it holds `tok2` and `tok3`. -/
def purseB : Purse := (Purse.pushAll sampleClass plainOwner samplePurse [tok2, tok3]).2

/-- A token of another instrument definition. -/
def tokJ : SimpleToken := ⟨"J", "N", 3, 100, 200, "idJ"⟩

/-- The denomination of the sample token inside a (plain) envelope. -/
def sampleDenomOf (e : String) : Int :=
  ((sampleTokens.find? (fun kv => kv.1 == e)).map (fun kv => kv.2.denomination)).getD 0

/-- A sequence of calls: two pushes, a pop, the push of a token of another
notary, and a pop that this token blocks. -/
def sampleCalls : List (Purse.Call SimpleToken) :=
  [ Purse.Call.push plainOwner tok1, Purse.Call.push plainOwner tok2, Purse.Call.pop plainOwner,
    Purse.Call.push plainOwner tokX, Purse.Call.pop plainOwner ]

end OpenTxs

/-! ## Serialization of the purse (`UpdateContents`, `ProcessXMLNode`) -/

namespace OpenTxs

/-- An element as the XML reader hands it to `ProcessXMLNode`: its name, its
attributes, and the text field that follows the opening tag, if there is one.
The XML text itself (written by `Tag::output`, read by irrXML) is not modelled:
the reader is taken to deliver the elements, attributes and text in document
order as they were added to the tag. -/
structure XmlElement where
  nodeName : String
  attributes : List (String × String)
  text : Option String
  deriving DecidableEq, Repr

/-- The value of `xml->getAttributeValue(name)` as a `String`: empty when the
attribute is missing. -/
def XmlElement.getAttributeValue (xml : XmlElement) (name : String) : String :=
  match xml.attributes.find? (fun a => a.1 == name) with
  | some a => a.2
  | none => ""

/-- `String::Exists`: the string is not empty. -/
def OTString.Exists (s : String) : Bool := !s.data.isEmpty

/-- The helpers of the purse serialization whose sources are not part of the
files at hand: `formatLong` with `String::ToLong`, `formatTimestamp` with
`parseTimestamp`, and `SerializeFrom` of the two key classes (`none` when it
returns false). -/
structure PurseFormat where
  formatLong : Int → String
  ToLong : String → Int
  formatTimestamp : Int → String
  parseTimestamp : String → Int
  SymmetricKeyFrom : String → Option OTKey
  CachedKeyFrom : String → Option OTKey

/-- Modelled from the spec: `formatBool`, which is missing from the sources;
boolean attributes serialize as the literal strings `"true"` and `"false"`. -/
def formatBool (b : Bool) : String := if b then "true" else "false"

/-- The text that `LoadEncodedTextField` stores for node data `strNodeData`:
a newline in front of it is skipped. -/
def dropLeadingNewline (strNodeData : String) : String :=
  match strNodeData.data with
  | '\n' :: rest => String.mk rest
  | _ => strNodeData

/-- `Contract::LoadEncodedTextField(xml, ascOutput)`: the text field must exist
and be longer than two characters; a newline in front of it is removed. -/
def LoadEncodedTextField (xml : XmlElement) : Option String :=
  match xml.text with
  | none => none
  | some strNodeData =>
    if OTString.Exists strNodeData && decide (strNodeData.data.length > 2) then
      some (dropLeadingNewline strNodeData)
    else none

namespace Purse

/-- `Purse::Purse()`, the constructor the factory uses before loading. -/
def default : Purse := create "" ""

/-- The `purse` tag that `Purse::UpdateContents` writes, with its attributes
in the order in which they are added. -/
def purseTag (F : PurseFormat) (p : Purse) : XmlElement :=
  { nodeName := "purse"
    attributes :=
      [ ("version", p.m_strVersion),
        ("totalValue", F.formatLong p.m_lTotalValue),
        ("validFrom", F.formatTimestamp p.m_tLatestValidFrom),
        ("validTo", F.formatTimestamp p.m_tEarliestValidTo),
        ("isPasswordProtected", formatBool p.m_bPasswordProtected),
        ("isNymIDIncluded", formatBool p.m_bIsNymIDIncluded),
        ("nymID", if p.m_bIsNymIDIncluded && OTString.Exists p.m_NymID then p.m_NymID else ""),
        ("instrumentDefinitionID", p.m_InstrumentDefinitionID),
        ("notaryID", p.m_NotaryID) ]
    text := none }

/-- The `cachedKey` and `internalKey` tags that `Purse::UpdateContents` writes
for a password-protected purse whose two keys exist, are generated and
serialize to non-empty text; no tag otherwise. -/
def keyTags (p : Purse) : List XmlElement :=
  if p.m_bPasswordProtected then
    match p.m_pCachedKey, p.m_pSymmetricKey with
    | some cachedKey, some symmetricKey =>
      if !cachedKey.IsGenerated then []
      else if !symmetricKey.IsGenerated then []
      else
        match cachedKey.SerializeTo, symmetricKey.SerializeTo with
        | some ascCachedKey, some ascSymmetricKey =>
          if OTString.Exists ascCachedKey && OTString.Exists ascSymmetricKey then
            [ { nodeName := "cachedKey", attributes := [], text := some ascCachedKey },
              { nodeName := "internalKey", attributes := [], text := some ascSymmetricKey } ]
          else []
        | _, _ => []
    | _, _ => []
  else []

/-- The `token` tags that `Purse::UpdateContents` writes: one per envelope,
front of the deque first. -/
def tokenTags (p : Purse) : List XmlElement :=
  p.m_dequeTokens.map (fun pArmor =>
    { nodeName := "token", attributes := [], text := some pArmor })

/-- `Purse::UpdateContents`: the `purse` tag with its attributes, then the key
tags, then the token tags. -/
def UpdateContents (F : PurseFormat) (p : Purse) : List XmlElement :=
  purseTag F p :: (keyTags p ++ tokenTags p)

/-- `Purse::ProcessXMLNode` on one element: the code returned (1 processed,
0 unknown, -1 error) and the purse afterwards. -/
def ProcessXMLNode (F : PurseFormat) (p : Purse) (xml : XmlElement) : Int × Purse :=
  if xml.nodeName = "purse" then
    let p1 : Purse := { p with m_strVersion := xml.getAttributeValue "version" }
    let strTotalValue := xml.getAttributeValue "totalValue"
    let p2 : Purse :=
      if OTString.Exists strTotalValue && decide (F.ToLong strTotalValue > 0) then
        { p1 with m_lTotalValue := F.ToLong strTotalValue }
      else { p1 with m_lTotalValue := 0 }
    let str_valid_from := xml.getAttributeValue "validFrom"
    let str_valid_to := xml.getAttributeValue "validTo"
    let p3 : Purse :=
      if OTString.Exists str_valid_from then
        { p2 with m_tLatestValidFrom := F.parseTimestamp str_valid_from }
      else p2
    let p4 : Purse :=
      if OTString.Exists str_valid_to then
        { p3 with m_tEarliestValidTo := F.parseTimestamp str_valid_to }
      else p3
    let p5 : Purse :=
      { p4 with
        m_bPasswordProtected := decide (xml.getAttributeValue "isPasswordProtected" = "true")
        m_bIsNymIDIncluded := decide (xml.getAttributeValue "isNymIDIncluded" = "true") }
    let strNotaryID := xml.getAttributeValue "notaryID"
    if OTString.Exists strNotaryID then
      let p6 : Purse := { p5 with m_NotaryID := strNotaryID }
      let strInstrumentDefinitionID := xml.getAttributeValue "instrumentDefinitionID"
      if OTString.Exists strInstrumentDefinitionID then
        let p7 : Purse := { p6 with m_InstrumentDefinitionID := strInstrumentDefinitionID }
        let strNymID := xml.getAttributeValue "nymID"
        if p7.m_bIsNymIDIncluded then
          if OTString.Exists strNymID then (1, { p7 with m_NymID := strNymID })
          else (-1, { p7 with m_NymID := "" })
        else (1, { p7 with m_NymID := "" })
      else (-1, { p6 with m_InstrumentDefinitionID := "" })
    else (-1, { p5 with m_NotaryID := "" })
  else if xml.nodeName = "internalKey" then
    if !p.m_bPasswordProtected then (-1, p)
    else if OTString.Exists p.m_NymID then (-1, p)
    else
      match LoadEncodedTextField xml with
      | none => (-1, p)
      | some ascValue =>
        if !OTString.Exists ascValue then (-1, p)
        else
          let p1 : Purse := { p with m_pSymmetricKey := none }
          match F.SymmetricKeyFrom ascValue with
          | none => (-1, p1)
          | some pSymmetricKey => (1, { p1 with m_pSymmetricKey := some pSymmetricKey })
  else if xml.nodeName = "cachedKey" then
    if !p.m_bPasswordProtected then (-1, p)
    else if OTString.Exists p.m_NymID then (-1, p)
    else
      match LoadEncodedTextField xml with
      | none => (-1, p)
      | some ascValue =>
        if !OTString.Exists ascValue then (-1, p)
        else
          let p1 : Purse := { p with m_pCachedKey := none }
          match F.CachedKeyFrom ascValue with
          | none => (-1, p1)
          | some pCachedKey => (1, { p1 with m_pCachedKey := some pCachedKey })
  else if xml.nodeName = "token" then
    match LoadEncodedTextField xml with
    | none => (-1, p)
    | some pArmor =>
      if !OTString.Exists pArmor then (-1, p)
      else (1, { p with m_dequeTokens := pArmor :: p.m_dequeTokens })
  else (0, p)

/-- The loop of `Contract::LoadContractXML` over the elements of the document:
an element for which `ProcessXMLNode` returns -1 cancels the load. -/
def LoadContractXML (F : PurseFormat) : Purse → List XmlElement → Bool × Purse
  | p, [] => (true, p)
  | p, xml :: rest =>
    match ProcessXMLNode F p xml with
    | (retProcess, p1) =>
      if retProcess = -1 then (false, p1) else LoadContractXML F p1 rest

end Purse

/-- The digits of a natural number in base ten, most significant first
(`fuel` bounds the number of digits). -/
def decimalDigits : Nat → Nat → List Char
  | 0, _ => []
  | fuel + 1, n =>
    if n < 10 then [Char.ofNat (48 + n)]
    else decimalDigits fuel (n / 10) ++ [Char.ofNat (48 + n % 10)]

/-- The number a run of leading decimal digits denotes; it stops at the first
character that is not a digit. -/
def readDigits : Nat → List Char → Nat
  | acc, [] => acc
  | acc, c :: cs =>
    if 48 ≤ c.toNat ∧ c.toNat ≤ 57 then readDigits (acc * 10 + (c.toNat - 48)) cs else acc

/-- A decimal rendering of an integer. -/
def sampleFormatLong (v : Int) : String :=
  match v with
  | Int.ofNat n => String.mk (decimalDigits 20 n)
  | Int.negSucc n => String.mk ('-' :: decimalDigits 20 (n + 1))

/-- Reading of a decimal integer with an optional minus sign in front. -/
def sampleToLong (s : String) : Int :=
  match s.data with
  | '-' :: ds => - (readDigits 0 ds : Int)
  | ds => (readDigits 0 ds : Int)

/-- A serialization format used to evaluate the model: decimal numbers for
amounts and for timestamps, keys that load from any text. -/
def sampleFormat : PurseFormat :=
  { formatLong := sampleFormatLong
    ToLong := sampleToLong
    formatTimestamp := sampleFormatLong
    parseTimestamp := sampleToLong
    SymmetricKeyFrom := fun s => some ⟨true, some s⟩
    CachedKeyFrom := fun s => some ⟨true, some s⟩ }

/-- A purse with scope ids, a window and two envelopes. -/
def purseP : Purse :=
  { Purse.create "notary" "instrument" with
    m_lTotalValue := 30, m_tLatestValidFrom := 150, m_tEarliestValidTo := 180,
    m_dequeTokens := ["armor2", "armor1"] }

end OpenTxs

/-! ## The signed container (`Contract`) -/

namespace OpenTxs

/-- The four characters of `OTSignatureMetadata`: key type and the first
characters of the nym id, master credential id and child credential id. -/
structure OTSignatureMetadata where
  metaKeyType : Char
  metaNymID : Char
  metaMasterCredID : Char
  metaChildCredID : Char
  deriving DecidableEq, Repr

/-- An `OTSignature`: the armored text (`Get()`) and the metadata, `none` when
`HasMetadata()` is false. -/
structure OTSignature where
  payload : List Char
  metaData : Option OTSignatureMetadata
  deriving DecidableEq, Repr

/-- Member variables of `Contract` that the canonical text and the identifier
depend on.  `m_mapNyms` lists the entries of the map in ascending key order. -/
structure Contract where
  m_strName : List Char
  m_ID : Identifier
  m_strRawFile : List Char
  m_xmlUnsigned : List Char
  m_strSigHashType : List Char
  m_strContractType : List Char
  m_strVersion : List Char
  m_listSignatures : List OTSignature
  m_mapNyms : List (String × Nym)
  m_mapConditions : List (String × String)
  deriving DecidableEq, Repr

/-- What `Contract.cpp` takes from outside the files at hand: the constants
`Log::Version()` and `Identifier::DefaultHashAlgorithm`, the acceptance test of
`OTSignatureMetadata::SetMetadata`, `Identifier::CalculateDigest` (success flag
and the identifier it leaves), `String::DecodeIfArmored` (`none` when it
fails), the signature the crypto provider makes for a signer over a body under
a hash algorithm (`none` when signing fails), and the virtual members: the
element loop of `LoadContractXML` with `ProcessXMLNode`, `UpdateContents`,
`CreateContents` (which asserts in the base class), and the block of
`CreateContract` that adds the signer to the nyms. -/
structure ContractEnv where
  Version : List Char
  DefaultHashAlgorithm : List Char
  SetMetadata : Char → Char → Char → Char → Bool
  CalculateDigest : List Char → Bool × Identifier
  DecodeIfArmored : List Char → Option (List Char)
  SignContract : Nym → List Char → List Char → Option OTSignature
  processXML : Contract → Bool × Contract
  UpdateContents : Contract → Contract
  CreateContents : Contract → Run Contract
  addSigner : Contract → Nym → Contract

/-- The characters that trimming removes. -/
def isWhitespace (c : Char) : Bool :=
  c = ' ' || c = '\t' || c = '\n' || c = '\r' || c = '\x0b' || c = '\x0c'

/-- Modelled from the spec: `String::trim`, which is missing from the sources;
it trims leading and trailing whitespace. -/
def trim (s : List Char) : List Char :=
  ((s.dropWhile isWhitespace).reverse.dropWhile isWhitespace).reverse

/-- Reading loop of `sgets`: `budget` characters still fit into the buffer. -/
def sgetsAux : Nat → List Char → List Char → List Char × List Char × Bool
  | _, acc, [] => (acc.reverse, [], false)
  | 0, acc, c :: cs => (acc.reverse, c :: cs, true)
  | budget + 1, acc, c :: cs =>
    if c = '\n' then (acc.reverse, cs, !cs.isEmpty)
    else sgetsAux budget (c :: acc) cs

/-- Modelled from the spec: `String::sgets(buffer, 2048)`, which is missing
from the sources; the text is collected line by line, and the call returns
true if there is more to read.  The result is the line read (without its
newline, at most 2047 characters), the unread text, and the flag returned. -/
def sgets (unread : List Char) : List Char × List Char × Bool :=
  sgetsAux 2047 [] unread

/-- Whether `s` begins with `pre` (`line.compare(0, n, pre) == 0` for a `pre`
of `n` characters). -/
def startsWith : List Char → List Char → Bool
  | [], _ => true
  | _ :: _, [] => false
  | p :: ps, c :: cs => p = c && startsWith ps cs

/-- Whether `needle` occurs in `hay` (`hay.find(needle) != npos`). -/
def containsText (needle : List Char) : List Char → Bool
  | [] => startsWith needle []
  | c :: cs => startsWith needle (c :: cs) || containsText needle cs

/-- The character `line.at(i)`, read only where the length was checked. -/
def charAt (line : List Char) (i : Nat) : Char := line.getD i '\x00'

/-- The variables of `Contract::ParseRawFile` during its loop.  `pSig` is the
signature being collected; in the source it is the last element of
`m_listSignatures`, here `m_listSignatures` holds the signatures before it. -/
structure ParseState where
  unread : List Char
  bSignatureMode : Bool
  bContentMode : Bool
  bHaveEnteredContentMode : Bool
  m_xmlUnsigned : List Char
  m_strSigHashType : List Char
  m_listSignatures : List OTSignature
  pSig : Option OTSignature
  deriving DecidableEq, Repr

/-- How one round of the loop of `ParseRawFile` ends: `return false`, a failed
assertion, or the end of the round with the flag `bIsEOF`. -/
inductive ParseStep where
  | returnFalse : ParseState → ParseStep
  | assertFailed : ParseStep
  | next : ParseState → Bool → ParseStep
  deriving DecidableEq, Repr

/-- The statement `if (bIsEOF || !m_strRawFile.sgets(buffer1, 2048)) return
false; continue;` of `ParseRawFile`: one more line is read and dropped. -/
def skipLine (s : ParseState) (bIsEOF : Bool) : ParseStep :=
  if bIsEOF then ParseStep.returnFalse s
  else
    match sgets s.unread with
    | (_, unread2, more) =>
      if more then ParseStep.next { s with unread := unread2 } bIsEOF
      else ParseStep.returnFalse { s with unread := unread2 }

/-- The end of a round of `ParseRawFile`: the line goes to the signature in
signature mode, to the body in content mode. -/
def collectLine (s : ParseState) (bIsEOF : Bool) (line : List Char) : ParseStep :=
  if s.bSignatureMode then
    match s.pSig with
    | none => ParseStep.assertFailed
    | some sig =>
      ParseStep.next { s with pSig := some { sig with payload := sig.payload ++ line ++ ['\n'] } }
        bIsEOF
  else if s.bContentMode then
    ParseStep.next { s with m_xmlUnsigned := s.m_xmlUnsigned ++ line ++ ['\n'] } bIsEOF
  else ParseStep.next s bIsEOF

/-- One round of the `do ... while (!bIsEOF)` loop of `Contract::ParseRawFile`. -/
def parseStep (E : ContractEnv) (s0 : ParseState) : ParseStep :=
  match sgets s0.unread with
  | (line, unread1, more) =>
    let bIsEOF := !more
    let s : ParseState := { s0 with unread := unread1 }
    if line.length < 2 then
      if s.bSignatureMode then ParseStep.next s bIsEOF
      else collectLine s bIsEOF line
    else if charAt line 0 = '-' then
      if s.bSignatureMode then
        ParseStep.next
          { s with
            m_listSignatures := s.m_listSignatures ++ s.pSig.toList
            pSig := none
            bSignatureMode := false } bIsEOF
      else if !s.bHaveEnteredContentMode then
        if line.length > 3 && containsText "BEGIN".data line && charAt line 1 = '-' &&
            charAt line 2 = '-' && charAt line 3 = '-' then
          ParseStep.next { s with bHaveEnteredContentMode := true, bContentMode := true } bIsEOF
        else ParseStep.next s bIsEOF
      else if line.length > 3 && containsText "SIGNATURE".data line && charAt line 1 = '-' &&
          charAt line 2 = '-' && charAt line 3 = '-' then
        ParseStep.next
          { s with
            bSignatureMode := true
            bContentMode := false
            pSig := some { payload := [], metaData := none } } bIsEOF
      else if line.length < 3 || charAt line 1 ≠ ' ' || charAt line 2 ≠ '-' then
        ParseStep.returnFalse s
      else collectLine s bIsEOF line
    else if s.bHaveEnteredContentMode then
      if s.bSignatureMode && startsWith "Version:".data line then skipLine s bIsEOF
      else if s.bSignatureMode && startsWith "Comment:".data line then skipLine s bIsEOF
      else if s.bSignatureMode && startsWith "Meta:".data line then
        if line.length ≠ 13 then ParseStep.returnFalse s
        else
          match s.pSig with
          | none => ParseStep.assertFailed
          | some sig =>
            if E.SetMetadata (charAt line 9) (charAt line 10) (charAt line 11) (charAt line 12) then
              skipLine
                { s with
                  pSig := some { sig with
                    metaData := some ⟨charAt line 9, charAt line 10, charAt line 11,
                      charAt line 12⟩ } } bIsEOF
            else ParseStep.returnFalse s
      else if s.bContentMode && startsWith "Hash: ".data line then
        skipLine { s with m_strSigHashType := (line.drop 6).map Char.toUpper } bIsEOF
      else collectLine s bIsEOF line
    else collectLine s bIsEOF line

/-- The loop of `Contract::ParseRawFile`: the flag is false when a round ends
in `return false` and true when the loop ends at `bIsEOF`; with it come the
variables at that point. -/
def parseLoop (E : ContractEnv) : Nat → ParseState → Run (Bool × ParseState)
  | 0, _ => Run.outOfFuel
  | fuel + 1, s =>
    match parseStep E s with
    | ParseStep.returnFalse s1 => Run.done (false, s1)
    | ParseStep.assertFailed => Run.assertFailed
    | ParseStep.next s1 bIsEOF =>
      if bIsEOF then Run.done (true, s1) else parseLoop E fuel s1

namespace Contract

/-- `Contract::Contract()` with `Initialize`. -/
def create (E : ContractEnv) : Contract :=
  { m_strName := []
    m_ID := ""
    m_strRawFile := []
    m_xmlUnsigned := []
    m_strSigHashType := E.DefaultHashAlgorithm
    m_strContractType := "CONTRACT".data
    m_strVersion := "2.1".data
    m_listSignatures := []
    m_mapNyms := []
    m_mapConditions := [] }

/-- `Contract::Release` (`Release_Contract`): the name, the identifier and the
contract type stay. -/
def Release (E : ContractEnv) (c : Contract) : Contract :=
  { c with
    m_strSigHashType := E.DefaultHashAlgorithm
    m_xmlUnsigned := []
    m_strRawFile := []
    m_listSignatures := []
    m_mapConditions := []
    m_mapNyms := [] }

/-- `Contract::CalculateContractID`: the identifier computed from the trimmed raw file. -/
def CalculateContractID (E : ContractEnv) (c : Contract) : Identifier :=
  (E.CalculateDigest (trim c.m_strRawFile)).2

/-- `Contract::VerifyContractID`. -/
def VerifyContractID (E : ContractEnv) (c : Contract) : Bool :=
  decide (c.m_ID = CalculateContractID E c)

/-- `Contract::GetContractPublicNym`: the first entry of the map, in key
order, whose key is `signer` or `contract`. -/
def GetContractPublicNym (c : Contract) : Option Nym :=
  match c.m_mapNyms.find? (fun it => it.1 == "signer" || it.1 == "contract") with
  | some it => some it.2
  | none => none

/-- The text `AddBookendsAroundContent` writes for one signature. -/
def signatureBlock (E : ContractEnv) (strContractType : List Char) (pSig : OTSignature) :
    List Char :=
  "-----BEGIN ".data ++ strContractType ++ " SIGNATURE-----\n".data ++
  "Version: Open Transactions ".data ++ E.Version ++ "\n".data ++
  "Comment: http://github.com/FellowTraveler/Open-Transactions/wiki\n".data ++
  (match pSig.metaData with
    | some m =>
      "Meta:    ".data ++ [m.metaKeyType, m.metaNymID, m.metaMasterCredID, m.metaChildCredID] ++
        "\n".data
    | none => []) ++
  "\n".data ++ pSig.payload ++
  "-----END ".data ++ strContractType ++ " SIGNATURE-----\n\n".data

/-- `Contract::AddBookendsAroundContent`: the text put into `strOutput`. -/
def AddBookendsAroundContent (E : ContractEnv) (strContents strContractType strHashType : List Char)
    (listSignatures : List OTSignature) : List Char :=
  trim
    ("-----BEGIN SIGNED ".data ++ strContractType ++ "-----\nHash: ".data ++ strHashType ++
      "\n\n".data ++ strContents ++
      (listSignatures.map (signatureBlock E strContractType)).flatten)

/-- `Contract::LoadContractXML`: false without a body, otherwise the element loop. -/
def LoadContractXML (E : ContractEnv) (c : Contract) : Bool × Contract :=
  if c.m_xmlUnsigned.isEmpty then (false, c) else E.processXML c

/-- `Contract::ParseRawFile`. -/
def ParseRawFile (E : ContractEnv) (c : Contract) : Run (Bool × Contract) :=
  if c.m_strRawFile.length = 0 then Run.done (false, c)
  else
    let c1 : Contract := { c with m_strRawFile := trim c.m_strRawFile }
    match parseLoop E (c1.m_strRawFile.length + 1)
        { unread := c1.m_strRawFile
          bSignatureMode := false
          bContentMode := false
          bHaveEnteredContentMode := false
          m_xmlUnsigned := c1.m_xmlUnsigned
          m_strSigHashType := c1.m_strSigHashType
          m_listSignatures := c1.m_listSignatures
          pSig := none } with
    | Run.assertFailed => Run.assertFailed
    | Run.outOfFuel => Run.outOfFuel
    | Run.done (bLoop, s) =>
      let c2 : Contract :=
        { c1 with
          m_xmlUnsigned := s.m_xmlUnsigned
          m_strSigHashType := s.m_strSigHashType
          m_listSignatures := s.m_listSignatures ++ s.pSig.toList }
      if !bLoop then Run.done (false, c2)
      else if !s.bHaveEnteredContentMode then Run.done (false, c2)
      else if s.bContentMode then Run.done (false, c2)
      else if s.bSignatureMode then Run.done (false, c2)
      else Run.done (LoadContractXML E c2)

/-- `Contract::LoadContractFromString`. -/
def LoadContractFromString (E : ContractEnv) (c : Contract) (theStr : List Char) :
    Run (Bool × Contract) :=
  let c1 := Release E c
  if theStr.isEmpty then Run.done (false, c1)
  else
    match E.DecodeIfArmored theStr with
    | none => Run.done (false, c1)
    | some strContract => ParseRawFile E { c1 with m_strRawFile := strContract }

/-- `Contract::SignContract(theNym)`: `UpdateContents`, then the signature over
the trimmed body is appended when the provider makes one. -/
def SignContract (E : ContractEnv) (c : Contract) (theNym : Nym) : Bool × Contract :=
  let c1 := E.UpdateContents c
  match E.SignContract theNym (trim c1.m_xmlUnsigned) c1.m_strSigHashType with
  | some pSig => (true, { c1 with m_listSignatures := c1.m_listSignatures ++ [pSig] })
  | none => (false, c1)

/-- `Contract::RewriteContract`. -/
def RewriteContract (E : ContractEnv) (c : Contract) : List Char :=
  AddBookendsAroundContent E c.m_xmlUnsigned c.m_strContractType c.m_strSigHashType
    c.m_listSignatures

/-- `Contract::SaveContract()`: the raw file becomes the rewritten contract. -/
def SaveContract (E : ContractEnv) (c : Contract) : Contract :=
  { c with m_strRawFile := RewriteContract E c }

/-- `Contract::CreateContract`. -/
def CreateContract (E : ContractEnv) (c : Contract) (strContract : List Char) (theSigner : Nym) :
    Run (Bool × Contract) :=
  let c1 := Release E c
  if strContract.length < 3 then Run.done (false, c1)
  else
    let c2 : Contract :=
      if strContract.getLast? = some '\n' then { c1 with m_xmlUnsigned := strContract }
      else { c1 with m_xmlUnsigned := strContract ++ ['\n'] }
    match LoadContractXML E c2 with
    | (false, c3) => Run.done (false, c3)
    | (true, c3) =>
      let c4 := if (GetContractPublicNym c3).isNone then E.addSigner c3 theSigner else c3
      match E.CreateContents c4 with
      | Run.assertFailed => Run.assertFailed
      | Run.outOfFuel => Run.outOfFuel
      | Run.done c5 =>
        match SignContract E c5 theSigner with
        | (false, c6) => Run.done (false, c6)
        | (true, c6) =>
          let c7 := SaveContract E c6
          let strTemp := c7.m_strRawFile
          match LoadContractFromString E (Release E c7) strTemp with
          | Run.assertFailed => Run.assertFailed
          | Run.outOfFuel => Run.outOfFuel
          | Run.done (_, c8) =>
            Run.done (true, { c8 with m_ID := CalculateContractID E c8 })

end Contract

/-- An environment used to evaluate the model: the digest of a text is the text
itself, nothing is armored, every metadata is accepted, the signature of a body
is the line `SIG`, and every body loads. -/
def sampleEnv : ContractEnv :=
  { Version := "0.95".data
    DefaultHashAlgorithm := "SHA256".data
    SetMetadata := fun _ _ _ _ => true
    CalculateDigest := fun t => (true, String.mk t)
    DecodeIfArmored := fun t => some t
    SignContract := fun _ _ _ => some { payload := "SIG\n".data, metaData := none }
    processXML := fun c => (true, c)
    UpdateContents := fun c => c
    CreateContents := fun c => Run.done c
    addSigner := fun c n => { c with m_mapNyms := [("signer", n)] } }

/-- A canonical text, except that its hash header is in lower case. -/
def sampleRawLowerHash : List Char :=
  ("-----BEGIN SIGNED CONTRACT-----\nHash: sha256\n\n<a/>\n" ++
   "-----BEGIN CONTRACT SIGNATURE-----\nVersion: Open Transactions 0.95\n" ++
   "Comment: http://github.com/FellowTraveler/Open-Transactions/wiki\n\nSIG\n" ++
   "-----END CONTRACT SIGNATURE-----").data

/-- A canonical text with one line in front of the opening bookend. -/
def sampleRawLeadingLine : List Char :=
  ("junk\n-----BEGIN SIGNED CONTRACT-----\nHash: SHA256\n\n<a/>\n" ++
   "-----BEGIN CONTRACT SIGNATURE-----\nVersion: Open Transactions 0.95\n" ++
   "Comment: http://github.com/FellowTraveler/Open-Transactions/wiki\n\nSIG\n" ++
   "-----END CONTRACT SIGNATURE-----").data

/-- A canonical text: what `AddBookendsAroundContent` writes for the body
`<a/>`, the type `CONTRACT`, the hash `SHA256` and one signature `SIG`. -/
def sampleRaw : List Char :=
  ("-----BEGIN SIGNED CONTRACT-----\nHash: SHA256\n\n<a/>\n" ++
   "-----BEGIN CONTRACT SIGNATURE-----\nVersion: Open Transactions 0.95\n" ++
   "Comment: http://github.com/FellowTraveler/Open-Transactions/wiki\n\nSIG\n" ++
   "-----END CONTRACT SIGNATURE-----").data

end OpenTxs

namespace OpenTxs

/-- The text made of the given lines, each followed by a newline. -/
def unlines (ls : List (List Char)) : List Char :=
  (ls.map (fun l => l ++ ['\n'])).flatten

/-- A line that `sgets` reads whole: no newline in it, at most 2046 characters. -/
def fitsLine (l : List Char) : Bool :=
  !l.contains '\n' && decide (l.length < 2047)

/-- A line of a well-formed body: it fits the buffer, does not start with a
dash and does not start with `Hash: `. -/
def isBodyLine (l : List Char) : Bool :=
  fitsLine l && !(l.head? == some '-') && !startsWith "Hash: ".data l

/-- A line of a well-formed signature payload: it fits the buffer, has at least
two characters, and starts neither with a dash nor with `Version:`, `Comment:`
or `Meta:`. -/
def isPayloadLine (l : List Char) : Bool :=
  fitsLine l && decide (2 ≤ l.length) && !(l.head? == some '-') &&
  !startsWith "Version:".data l && !startsWith "Comment:".data l &&
  !startsWith "Meta:".data l

/-- A well-formed label (contract type, hash name, version): no newline in it
and at most 1900 characters, so that the lines built from it fit the buffer. -/
def isLabel (l : List Char) : Bool :=
  !l.contains '\n' && decide (l.length ≤ 1900)

/-- Metadata that `ParseRawFile` reads back: `SetMetadata` accepts the four
characters and none of them is a newline. -/
def isGoodMetadata (E : ContractEnv) (m : OTSignatureMetadata) : Bool :=
  E.SetMetadata m.metaKeyType m.metaNymID m.metaMasterCredID m.metaChildCredID &&
  !(m.metaKeyType == '\n') && !(m.metaNymID == '\n') && !(m.metaMasterCredID == '\n') &&
  !(m.metaChildCredID == '\n')

/-- A signature whose payload is made of the given lines. -/
def signatureOfLines (ls : List (List Char)) (m : Option OTSignatureMetadata) : OTSignature :=
  { payload := unlines ls, metaData := m }

end OpenTxs

namespace OpenTxs

/-- The loop of `ParseRawFile` started in `s` comes, after some rounds, to
`s1` with the text not yet at its end. -/
def Reaches (E : ContractEnv) (s s1 : ParseState) : Prop :=
  ∃ n, ∀ fuel, parseLoop E (fuel + n) s = parseLoop E fuel s1

/-- The loop of `ParseRawFile` started in `s` ends, after some rounds, with
the result `r`. -/
def Finishes (E : ContractEnv) (s : ParseState) (r : Bool × ParseState) : Prop :=
  ∃ n, parseLoop E n s = Run.done r

/-- The text `AddBookendsAroundContent` writes for one signature, without the
two newlines that end it. -/
def signatureBlockCore (E : ContractEnv) (strContractType : List Char) (pSig : OTSignature) :
    List Char :=
  "-----BEGIN ".data ++ strContractType ++ " SIGNATURE-----\n".data ++
  "Version: Open Transactions ".data ++ E.Version ++ "\n".data ++
  "Comment: http://github.com/FellowTraveler/Open-Transactions/wiki\n".data ++
  (match pSig.metaData with
    | some m =>
      "Meta:    ".data ++ [m.metaKeyType, m.metaNymID, m.metaMasterCredID, m.metaChildCredID] ++
        "\n".data
    | none => []) ++
  "\n".data ++ pSig.payload ++
  "-----END ".data ++ strContractType ++ " SIGNATURE-----".data

/-- A signature that `ParseRawFile` reads back from its block: the payload is
made of the lines `x.1`, each a payload line, and the metadata `x.2`, if any,
is good. -/
def isGoodSignature (E : ContractEnv) (x : List (List Char) × Option OTSignatureMetadata) : Bool :=
  x.1.all isPayloadLine &&
  (match x.2 with
    | some m => isGoodMetadata E m
    | none => true)

end OpenTxs

namespace OpenTxs

/-- The container a fresh one becomes by loading `sampleRaw`. -/
def sampleLoaded : Contract :=
  { Contract.create sampleEnv with
    m_strRawFile := sampleRaw
    m_xmlUnsigned := "<a/>\n".data
    m_listSignatures := [{ payload := "SIG\n".data, metaData := none }] }

/-- The container a fresh one becomes by `CreateContract` on the body `<a/>`. -/
def sampleCreated : Contract := { sampleLoaded with m_ID := String.mk sampleRaw }

end OpenTxs

namespace OpenTxs

/-- The purse `purseP` with a negative total value. -/
def purseNegative : Purse := { purseP with m_lTotalValue := -5 }

/-- The purse `purseP` without a notary id. -/
def purseNoNotary : Purse := { purseP with m_NotaryID := "" }

/-- The purse `purseP` with `isNymIDIncluded` set and no nym id. -/
def purseNoNym : Purse := { purseP with m_bIsNymIDIncluded := true }

/-- The purse `purseP` with an envelope of two characters in front. -/
def purseShortArmor : Purse := { purseP with m_dequeTokens := ["ab", "armor1"] }

/-- The purse `purseP` password-protected, with its two keys. -/
def purseWithKeys : Purse :=
  { purseP with
    m_bPasswordProtected := true
    m_pCachedKey := some ⟨true, some "cachedkeytext"⟩
    m_pSymmetricKey := some ⟨true, some "symmetrickeytext"⟩ }

/-- The purse `purseWithKeys` that also lists a nym id. -/
def purseKeysAndNym : Purse :=
  { purseWithKeys with m_bIsNymIDIncluded := true, m_NymID := "nym" }

end OpenTxs

/-! ## Further operations of the purse (`RecalculateExpirationDates`, `IsExpired`, `GenerateInternalKey`) -/

namespace OpenTxs

/-- Modelled from the spec: `Identifier::IsEmpty`, which is missing from the
sources; an identifier is empty when it holds nothing, as after `Release`. -/
def Identifier.IsEmpty (theID : Identifier) : Bool := decide (theID = "")

/-- The passphrase an `OTPassword` holds. -/
abbrev OTPassword := String

/-- What `Purse::GenerateInternalKey` asks of the key classes, which are not
part of the sources: `OTCachedKey::CreateMasterPassword` gives out a passphrase
and a master key (`none` is a null pointer), and `new OTSymmetricKey(thePassphrase)`
gives a key derived from the passphrase. -/
structure KeyProvider where
  CreateMasterPassword : OTPassword × Option OTKey
  newSymmetricKey : OTPassword → OTKey

namespace Purse

/-- Modelled from the spec: `Purse::IsPasswordProtected`, an accessor declared
in the header, which is missing from the sources; it reads the flag. -/
def IsPasswordProtected (p : Purse) : Bool := p.m_bPasswordProtected

/-- Modelled from the spec: `Purse::IsNymIDIncluded`, an accessor declared in
the header, which is missing from the sources; it reads the flag. -/
def IsNymIDIncluded (p : Purse) : Bool := p.m_bIsNymIDIncluded

/-- `Purse::GetNymID`: the flag returned and `theOutput`, released first. -/
def GetNymID (p : Purse) : Bool × Identifier :=
  if p.IsPasswordProtected then (false, "")
  else if p.IsNymIDIncluded && !p.m_NymID.IsEmpty then (true, p.m_NymID)
  else if !p.m_NymID.IsEmpty then (true, p.m_NymID)
  else (false, "")

/-- `Purse::GenerateInternalKey`: the flag returned and the purse afterwards. -/
def GenerateInternalKey (G : KeyProvider) (p : Purse) : Bool × Purse :=
  if p.IsPasswordProtected ∨ p.m_pSymmetricKey.isSome ∨ p.m_pCachedKey.isSome then (false, p)
  else if !p.IsEmpty then (false, p)
  else
    let thePassphrase := G.CreateMasterPassword.1
    let p1 : Purse := { p with m_pCachedKey := G.CreateMasterPassword.2 }
    match p1.m_pCachedKey with
    | none => (false, p1)
    | some pCachedKey =>
      if !pCachedKey.IsGenerated then (false, p1)
      else
        let p2 : Purse := { p1 with m_pSymmetricKey := some (G.newSymmetricKey thePassphrase) }
        if !(G.newSymmetricKey thePassphrase).IsGenerated then
          (false, { p2 with m_pSymmetricKey := none, m_pCachedKey := none })
        else
          (true,
            { p2 with
              m_NymID := ""
              m_bIsNymIDIncluded := false
              m_bPasswordProtected := true })

/-- `Purse::IsExpired`, with the value of `OTTimeGetCurrentTime()` passed in. -/
def IsExpired (CURRENT_TIME : Int) (p : Purse) : Bool :=
  if CURRENT_TIME ≥ p.m_tEarliestValidTo ∧ p.m_tEarliestValidTo > OT_TIME_ZERO then true
  else false

/-- `Purse::VerifyCurrentDate`, with the value of `OTTimeGetCurrentTime()` passed in. -/
def VerifyCurrentDate (CURRENT_TIME : Int) (p : Purse) : Bool :=
  if CURRENT_TIME ≥ p.m_tLatestValidFrom ∧
      (CURRENT_TIME ≤ p.m_tEarliestValidTo ∨ OT_TIME_ZERO = p.m_tEarliestValidTo) then true
  else false

/-- One round of the loop of `Purse::RecalculateExpirationDates` on the envelope
`pArmor`: an envelope that does not open is passed over, the token rebuilt from
an opened one is asserted not null, and the window is narrowed by its dates. -/
def RecalculateStep {τ : Type} (K : TokenClass τ) (theOwner : OTNym_or_SymmetricKey)
    (p : Purse) (pArmor : String) : Run Purse :=
  match theOwner.Open_or_Decrypt pArmor with
  | some strToken =>
    match K.TokenFactory strToken p.m_NotaryID p.m_InstrumentDefinitionID with
    | none => Run.assertFailed
    | some pToken =>
      let p1 : Purse :=
        if p.m_tLatestValidFrom < K.GetValidFrom pToken then
          { p with m_tLatestValidFrom := K.GetValidFrom pToken }
        else p
      let p2 : Purse :=
        if OT_TIME_ZERO = p1.m_tEarliestValidTo ∨ p1.m_tEarliestValidTo > K.GetValidTo pToken then
          { p1 with m_tEarliestValidTo := K.GetValidTo pToken }
        else p1
      Run.done p2
  | none => Run.done p

/-- The loop of `Purse::RecalculateExpirationDates` over the envelopes of the
deque, front first. -/
def RecalculateLoop {τ : Type} (K : TokenClass τ) (theOwner : OTNym_or_SymmetricKey) :
    List String → Purse → Run Purse
  | [], p => Run.done p
  | pArmor :: rest, p =>
    match RecalculateStep K theOwner p pArmor with
    | Run.assertFailed => Run.assertFailed
    | Run.outOfFuel => Run.outOfFuel
    | Run.done p1 => RecalculateLoop K theOwner rest p1

/-- `Purse::RecalculateExpirationDates`: both ends of the window are set to
`OT_TIME_ZERO`, then the loop runs over the deque. -/
def RecalculateExpirationDates {τ : Type} (K : TokenClass τ) (p : Purse)
    (theOwner : OTNym_or_SymmetricKey) : Run Purse :=
  RecalculateLoop K theOwner p.m_dequeTokens
    { p with m_tLatestValidFrom := OT_TIME_ZERO, m_tEarliestValidTo := OT_TIME_ZERO }

/-- The flags the pushes of the third loop of `Purse::Merge` return, in the
order of the map, each push made on the purse the one before left. -/
def pushFlags {τ : Type} (K : TokenClass τ) (theOldNym : OTNym_or_SymmetricKey) :
    mapOfTokenPointers τ → Purse → List Bool
  | [], _ => []
  | it :: rest, p =>
    (Push K p theOldNym it.2).1 :: pushFlags K theOldNym rest (Push K p theOldNym it.2).2

end Purse

/-- The window `RecalculateExpirationDates` computes, folded over the dates
`(validFrom, validTo)` of the tokens from the front of the deque on. -/
def narrowWindow (w : Int × Int) (d : Int × Int) : Int × Int :=
  (if w.1 < d.1 then d.1 else w.1, if OT_TIME_ZERO = w.2 ∨ w.2 > d.2 then d.2 else w.2)

/-- An owner who opens every envelope and cannot seal the text `t2`. -/
def sealFailsOwner : OTNym_or_SymmetricKey :=
  { Seal_or_Encrypt := fun s => if s = "t2" then none else some s
    Open_or_Decrypt := fun e => some e }

/-- An owner who can open no envelope. -/
def lockedOwner : OTNym_or_SymmetricKey :=
  { Seal_or_Encrypt := fun s => some s
    Open_or_Decrypt := fun _ => none }

/-- The sample token class with a `ReassignOwnership` that always fails. -/
def failingReassignClass : TokenClass SimpleToken :=
  { sampleClass with ReassignOwnership := fun t _ _ => (false, t) }

/-- A provider whose two keys are generated. -/
def sampleKeys : KeyProvider :=
  { CreateMasterPassword := ("secret", some ⟨true, some "master"⟩)
    newSymmetricKey := fun _ => ⟨true, some "symmetric"⟩ }

/-- The purse after the pushes of `tok1` and `tok2` and a pop. -/
def purseAfterPop : Purse :=
  { samplePurse with
    m_dequeTokens := ["t1"], m_lTotalValue := 10,
    m_tLatestValidFrom := 150, m_tEarliestValidTo := 180 }

/-- The purse holding `tokZ` under `tok1`: `tokZ` was pushed first. -/
def purseZeroFirst : Purse := (Purse.pushAll sampleClass plainOwner samplePurse [tokZ, tok1]).2

/-- The purse holding only `tokNeg`. -/
def purseNegFrom : Purse := (Purse.pushAll sampleClass plainOwner samplePurse [tokNeg]).2

end OpenTxs

namespace OpenTxs

/-- A text that ends while the body is being collected: no signature follows. -/
def sampleRawNoSignature : List Char :=
  "-----BEGIN SIGNED CONTRACT-----\nHash: SHA256\n\n<a/>".data

/-- A text that ends inside its signature: the closing line is missing. -/
def sampleRawOpenSignature : List Char :=
  ("-----BEGIN SIGNED CONTRACT-----\nHash: SHA256\n\n<a/>\n" ++
   "-----BEGIN CONTRACT SIGNATURE-----\nVersion: Open Transactions 0.95\n" ++
   "Comment: http://github.com/FellowTraveler/Open-Transactions/wiki\n\nSIG").data

/-- A text without an opening bookend. -/
def sampleRawNoBegin : List Char := "<a/>\nhello".data

end OpenTxs

/-! ## Signature verification and the nyms of a container -/

namespace OpenTxs

/-- The class `OTAsymmetricKey` as `Contract::VerifySignature` uses it: a name
for the key material, which only the crypto provider reads, and the pointer
`m_pMetadata` (`none` is a null pointer; the metadata object pointed to holds
four characters or, when `HasMetadata` is false, nothing). -/
structure OTAsymmetricKey where
  material : String
  m_pMetadata : Option (Option OTSignatureMetadata)
  deriving DecidableEq, Repr

/-- `m_mapNyms[theKey] = pNym` on the map kept in ascending key order: the
entry under the key is replaced, or the pair goes to its place. -/
def mapAssign (theKey : String) (pNym : Nym) : List (String × Nym) → List (String × Nym)
  | [] => [(theKey, pNym)]
  | (k, v) :: rest =>
    if stringLess theKey k then (theKey, pNym) :: (k, v) :: rest
    else if theKey = k then (k, pNym) :: rest
    else (k, v) :: mapAssign theKey pNym rest

namespace Contract

/-- `Contract::VerifySignature(theKey, theSignature, strHashType)`, with
`OTCrypto::It()->VerifySignature` passed in as `cryptoVerify`. -/
def VerifySignature (cryptoVerify : List Char → OTAsymmetricKey → OTSignature → List Char → Bool)
    (c : Contract) (theKey : OTAsymmetricKey) (theSignature : OTSignature)
    (strHashType : List Char) : Bool :=
  match theKey.m_pMetadata, theSignature.metaData with
  | some (some keyMeta), some sigMeta =>
    if sigMeta ≠ keyMeta then false
    else cryptoVerify (trim c.m_xmlUnsigned) theKey theSignature strHashType
  | _, _ => cryptoVerify (trim c.m_xmlUnsigned) theKey theSignature strHashType

/-- The loop of `Contract::VerifyWithKey` over the signatures. -/
def VerifyWithKeyLoop
    (cryptoVerify : List Char → OTAsymmetricKey → OTSignature → List Char → Bool)
    (c : Contract) (theKey : OTAsymmetricKey) : List OTSignature → Bool
  | [] => false
  | pSig :: rest =>
    match theKey.m_pMetadata, pSig.metaData with
    | some (some keyMeta), some sigMeta =>
      if sigMeta ≠ keyMeta then VerifyWithKeyLoop cryptoVerify c theKey rest
      else if VerifySignature cryptoVerify c theKey pSig c.m_strSigHashType then true
      else VerifyWithKeyLoop cryptoVerify c theKey rest
    | _, _ =>
      if VerifySignature cryptoVerify c theKey pSig c.m_strSigHashType then true
      else VerifyWithKeyLoop cryptoVerify c theKey rest

/-- `Contract::VerifyWithKey`. -/
def VerifyWithKey (cryptoVerify : List Char → OTAsymmetricKey → OTSignature → List Char → Bool)
    (c : Contract) (theKey : OTAsymmetricKey) : Bool :=
  VerifyWithKeyLoop cryptoVerify c theKey c.m_listSignatures

end Contract

/-- A provider used to evaluate the model: it accepts the signature `SIG` under
the key `good`. -/
def sampleVerify (_body : List Char) (theKey : OTAsymmetricKey) (theSignature : OTSignature)
    (_strHashType : List Char) : Bool :=
  decide (theKey.material = "good") && decide (theSignature.payload = "SIG\n".data)

end OpenTxs

namespace OpenTxs

/-- The opening of a canonical text: the bookend `-----BEGIN SIGNED type-----`,
the line `Hash: name` and a blank line. -/
def openingLines (strContractType strHashType : List Char) : List Char :=
  ('-' :: '-' :: '-' :: '-' :: ("-BEGIN SIGNED ".data ++ strContractType ++ "-----".data)) ++
    '\n' :: (("Hash: ".data ++ strHashType) ++ '\n' :: ['\n'])

/-- A line that `ParseRawFile` reads whole and that starts with a dash without
being a `SIGNATURE` bookend or a line escaped with `- -`: at least two
characters, the first a dash, not four dashes with `SIGNATURE` in the line, and
not a dash, a blank and a dash. -/
def isMalformedDashLine (l : List Char) : Bool :=
  fitsLine l && decide (2 ≤ l.length) && decide (charAt l 0 = '-') &&
  !(decide (l.length > 3) && containsText "SIGNATURE".data l && decide (charAt l 1 = '-') &&
    decide (charAt l 2 = '-') && decide (charAt l 3 = '-')) &&
  (decide (l.length < 3) || decide (charAt l 1 ≠ ' ') || decide (charAt l 2 ≠ '-'))

/-- The canonical text `sampleRaw` with a malformed dash line in front of it. -/
def sampleRawDashBefore : List Char := "-x\n".data ++ sampleRaw

/-- A text with a malformed dash line in its body. -/
def sampleRawDashInBody : List Char :=
  ("-----BEGIN SIGNED CONTRACT-----\nHash: SHA256\n\n<a/>\n-x\n<b/>\n" ++
   "-----BEGIN CONTRACT SIGNATURE-----\nVersion: Open Transactions 0.95\n" ++
   "Comment: http://github.com/FellowTraveler/Open-Transactions/wiki\n\nSIG\n" ++
   "-----END CONTRACT SIGNATURE-----").data

end OpenTxs

namespace OpenTxs

/-- A text made of the opening and the body `<a/>`, with no signature. -/
def sampleRawBodyOnly : List Char :=
  "-----BEGIN SIGNED CONTRACT-----\nHash: SHA256\n\n<a/>\n".data

end OpenTxs

namespace OpenTxs

namespace Purse

/-- Successive calls of `Purse::Pop` under one owner until the purse is empty
or a pop returns no token: the tokens returned, in order, and the purse left. -/
def popAll {τ : Type} (K : TokenClass τ) (theOwner : OTNym_or_SymmetricKey) :
    Nat → Purse → Run (List τ × Purse)
  | 0, p => if p.IsEmpty then Run.done ([], p) else Run.outOfFuel
  | fuel + 1, p =>
    if p.IsEmpty then Run.done ([], p)
    else
      match Pop K p theOwner with
      | Run.assertFailed => Run.assertFailed
      | Run.outOfFuel => Run.outOfFuel
      | Run.done (none, p1) => Run.done ([], p1)
      | Run.done (some pToken, p1) =>
        match popAll K theOwner fuel p1 with
        | Run.assertFailed => Run.assertFailed
        | Run.outOfFuel => Run.outOfFuel
        | Run.done (ts, p2) => Run.done (pToken :: ts, p2)

end Purse

/-- The purse holding `tok3`, `tok1` and `tok2`, pushed in this order. -/
def purseC : Purse := (Purse.pushAll sampleClass plainOwner samplePurse [tok3, tok1, tok2]).2

/-- A token with the spendable identity of `tok2` and another denomination. -/
def tok2b : SimpleToken := ⟨"I", "N", 50, 150, 180, "id2"⟩

/-- The sample token class with the token `tok2b` known under the text `t2b`. -/
def sampleClassB : TokenClass SimpleToken :=
  { sampleClass with
    toText := fun t => if t = tok2b then "t2b" else sampleText t
    TokenFactory := fun s a b => if s = "t2b" then some tok2b else sampleClass.TokenFactory s a b }

end OpenTxs

namespace OpenTxs

/-- The purse holding `tok2b` and `tok3`, pushed in this order. -/
def purseB2 : Purse := (Purse.pushAll sampleClassB plainOwner samplePurse [tok2b, tok3]).2

end OpenTxs

namespace OpenTxs

/-- A signature given by its payload line and its metadata. -/
def sampleSigFirst : List (List Char) × Option OTSignatureMetadata :=
  (["SIG1".data], some ⟨'S', 'A', 'B', 'C'⟩)

/-- A signature given by its two payload lines, without metadata. -/
def sampleSigLast : List (List Char) × Option OTSignatureMetadata :=
  (["SIG2".data, "more".data], none)

end OpenTxs

/-! ## Amounts of an asset contract (`ParseFormatted`, `formatLongAmount`) -/

namespace OpenTxs

/-- Two-complement wrap of an integer into the `int32_t` range. -/
def wrapInt32 (x : Int) : Int := (x + 2 ^ 31) % 2 ^ 32 - 2 ^ 31

/-- The C library test `isdigit` on a character, in the C locale. -/
def isdigit (c : Char) : Bool := decide (48 ≤ c.toNat ∧ c.toNat ≤ 57)

/-- The C library test `iscntrl` on a character, in the C locale. -/
def iscntrl (c : Char) : Bool := decide (c.toNat < 32 ∨ c.toNat = 127)

/-- The text `sss << value` puts on the stream for an `int64_t` value: its
decimal digits, after a minus sign when it is negative. -/
def streamInt (value : Int) : List Char :=
  if value < 0 then '-' :: decimalDigits 20 (-value).toNat else decimalDigits 20 value.toNat

/-- The text `sss << std::setfill('0') << std::setw(n) << value` puts on the
stream: the text of the value, with zeros in front of it up to the width `n`. -/
def streamIntWidth (n : Int) (value : Int) : List Char :=
  List.replicate (n.toNat - (streamInt value).length) '0' ++ streamInt value

/-- The local variables of `AssetContract::ParseFormatted` that its loop uses. -/
structure ParseFormattedState where
  lDollars : Int
  lSign : Int
  bHasEnteredDollars : Bool
  bHasEnteredCents : Bool
  nDigitsCollectedBeforeDot : Int
  nDigitsCollectedAfterDot : Int
  deque_cents : List Int
  deriving DecidableEq, Repr

namespace AssetContract

/-- One round of the `for` loop of `ParseFormatted` on the character
`theChar`: the variables afterwards, and whether the loop goes on (`continue`
or the end of the round) or ends (`break`). -/
def parseChar (theSeparator theDecimalPoint : Char) (nPower : Int)
    (st : ParseFormattedState) (theChar : Char) : Bool × ParseFormattedState :=
  if iscntrl theChar then (false, st)
  else if !isdigit theChar then
    if theSeparator = theChar then (true, st)
    else if theDecimalPoint = theChar then
      if st.bHasEnteredCents then (false, st)
      else (true, { st with bHasEnteredDollars := true, bHasEnteredCents := true })
    else if '-' = theChar then (true, { st with lSign := -1 })
    else if st.bHasEnteredDollars || st.bHasEnteredCents then (false, st)
    else (true, st)
  else if st.bHasEnteredCents then
    let st1 : ParseFormattedState :=
      { st with nDigitsCollectedAfterDot := wrapInt32 (st.nDigitsCollectedAfterDot + 1) }
    if st1.nDigitsCollectedAfterDot > nPower then (false, st1)
    else (true, { st1 with deque_cents := st1.deque_cents ++ [(theChar.toNat : Int) - 48] })
  else
    (true,
      { st with
        bHasEnteredDollars := true
        nDigitsCollectedBeforeDot := wrapInt32 (st.nDigitsCollectedBeforeDot + 1)
        lDollars := wrapInt64 (wrapInt64 (st.lDollars * 10) + ((theChar.toNat : Int) - 48)) })

/-- The `for` loop of `ParseFormatted` over the characters of the input. -/
def parseChars (theSeparator theDecimalPoint : Char) (nPower : Int) :
    List Char → ParseFormattedState → ParseFormattedState
  | [], st => st
  | theChar :: rest, st =>
    match parseChar theSeparator theDecimalPoint nPower st theChar with
    | (true, st1) => parseChars theSeparator theDecimalPoint nPower rest st1
    | (false, st1) => st1

/-- The loop `while (nTempPower > 0)` of `ParseFormatted`: `lCents` afterwards. -/
def centsLoop : Nat → Int → List Int → Int
  | 0, lCents, _ => lCents
  | nTempPower + 1, lCents, deque_cents =>
    match deque_cents with
    | front :: rest => centsLoop nTempPower (wrapInt64 (wrapInt64 (lCents + front) * 10)) rest
    | [] => centsLoop nTempPower (wrapInt64 (lCents * 10)) []

/-- `AssetContract::ParseFormatted`: the flag returned and `lResult`.  The two
pointers are asserted not null; of each text the first character is used (the
terminating zero when the text is empty). -/
def ParseFormatted (str_input : List Char) (nFactor nPower : Int)
    (szThousandSeparator szDecimalPoint : Option (List Char)) : Run (Bool × Int) :=
  match szThousandSeparator, szDecimalPoint with
  | some strSeparator, some strDecimalPoint =>
    let theSeparator := strSeparator.headD '\x00'
    let theDecimalPoint := strDecimalPoint.headD '\x00'
    let st := parseChars theSeparator theDecimalPoint nPower str_input
      { lDollars := 0, lSign := 1, bHasEnteredDollars := false, bHasEnteredCents := false,
        nDigitsCollectedBeforeDot := 0, nDigitsCollectedAfterDot := 0, deque_cents := [] }
    let lOutput := wrapInt64 (wrapInt64 (0 + st.lDollars) * nFactor)
    let lCents := (centsLoop nPower.toNat 0 st.deque_cents).tdiv 10
    Run.done (true, wrapInt64 (wrapInt64 (lOutput + lCents) * st.lSign))
  | _, _ => Run.assertFailed

/-- The function `separateThousands`: the text put on the stream.  The fuel
bounds the depth of the recursion, one level for each group of three digits. -/
def separateThousands : Nat → Int → List Char → Run (List Char)
  | 0, _, _ => Run.outOfFuel
  | fuel + 1, value, szSeparator =>
    if value < 1000 then Run.done (streamInt value)
    else
      match separateThousands fuel (value.tdiv 1000) szSeparator with
      | Run.assertFailed => Run.assertFailed
      | Run.outOfFuel => Run.outOfFuel
      | Run.done s => Run.done (s ++ szSeparator ++ streamIntWidth 3 (value.tmod 1000))

/-- `AssetContract::formatLongAmount`: the text returned.  A division by zero
ends the process; the recursion of `separateThousands` is given the seven
levels that an `int64_t` can need. -/
def formatLongAmount (lValue nFactor nPower : Int) (szCurrencySymbol : Option (List Char))
    (szThousandSeparator szDecimalPoint : List Char) : Run (List Char) :=
  let sign : List Char := if lValue < 0 then ['-'] else []
  let lValue1 := if lValue < 0 then wrapInt64 (-lValue) else lValue
  let symbol : List Char :=
    match szCurrencySymbol with
    | some s => s ++ [' ']
    | none => []
  if nFactor = 0 then Run.assertFailed
  else
    match separateThousands 7 (lValue1.tdiv nFactor) szThousandSeparator with
    | Run.assertFailed => Run.assertFailed
    | Run.outOfFuel => Run.outOfFuel
    | Run.done s =>
      let fraction : List Char :=
        if 1 < nFactor then szDecimalPoint ++ streamIntWidth nPower (lValue1.tmod nFactor)
        else []
      Run.done (sign ++ symbol ++ s ++ fraction)

end AssetContract

end OpenTxs

namespace OpenTxs

/-- The number a text of decimal digits denotes after the number `acc`. -/
def digitsValue (acc : Int) (l : List Char) : Int :=
  l.foldl (fun a c => a * 10 + ((c.toNat : Int) - 48)) acc

/-- The number the digits of a text denote after the number `acc`, the
thousands separator `,` being passed over. -/
def dollarsValue (acc : Int) (l : List Char) : Int :=
  l.foldl (fun a c => if c = ',' then a else a * 10 + ((c.toNat : Int) - 48)) acc

/-- The number a list of digits denotes, the first digit counting most. -/
def centsValue : List Int → Int
  | [] => 0
  | d :: rest => d * 10 ^ rest.length + centsValue rest

end OpenTxs

namespace OpenTxs

/-- The sample token class with a `ReassignOwnership` that fails for the token
of the identity `id3` and succeeds for every other token. -/
def partlyFailingClass : TokenClass SimpleToken :=
  { sampleClass with
    ReassignOwnership := fun t _ _ => (decide (t.spendable ≠ "id3"), t) }

end OpenTxs

/-! ## Theorems about `Purse::Push`, `Purse::Pop` and `Purse::Peek` -/

namespace OpenTxs
open Purse

theorem wrapInt64_add_left (a b : Int) : wrapInt64 (wrapInt64 a + b) = wrapInt64 (a + b) := by
  unfold wrapInt64; omega

theorem wrapInt64_sub_left (a b : Int) : wrapInt64 (wrapInt64 a - b) = wrapInt64 (a - b) := by
  unfold wrapInt64; omega

theorem wrapInt64_of_inRange (a : Int) (h1 : -2 ^ 63 ≤ a) (h2 : a < 2 ^ 63) :
    wrapInt64 a = a := by
  unfold wrapInt64; omega

/-- A push never changes the scope ids of the purse. -/
theorem Push_scope {τ : Type} (K : TokenClass τ) (p : Purse) (o : OTNym_or_SymmetricKey) (t : τ) :
    (Push K p o t).2.m_NotaryID = p.m_NotaryID ∧
    (Push K p o t).2.m_InstrumentDefinitionID = p.m_InstrumentDefinitionID := by
  unfold Push
  split
  · split
    · dsimp only
      split <;> split <;> exact ⟨rfl, rfl⟩
    · exact ⟨rfl, rfl⟩
  · exact ⟨rfl, rfl⟩

/-- What a successful push does to the purse. -/
theorem Push_true {τ : Type} (K : TokenClass τ) (p p1 : Purse) (o : OTNym_or_SymmetricKey) (t : τ)
    (h : Push K p o t = (true, p1)) :
    K.GetInstrumentDefinitionID t = p.m_InstrumentDefinitionID ∧
    (∃ pArmor, o.Seal_or_Encrypt (K.toText t) = some pArmor ∧
      p1.m_dequeTokens = pArmor :: p.m_dequeTokens) ∧
    p1.m_lTotalValue = wrapInt64 (p.m_lTotalValue + K.GetDenomination t) ∧
    p1.m_tLatestValidFrom =
      (if p.m_tLatestValidFrom < K.GetValidFrom t then K.GetValidFrom t else p.m_tLatestValidFrom) ∧
    p1.m_tEarliestValidTo =
      (if OT_TIME_ZERO = p.m_tEarliestValidTo ∨ p.m_tEarliestValidTo > K.GetValidTo t
        then K.GetValidTo t else p.m_tEarliestValidTo) := by
  unfold Push at h
  split at h
  · rename_i hI
    split at h
    · rename_i pArmor hSeal
      simp only [Prod.mk.injEq, true_and] at h
      subst h
      refine ⟨hI, ⟨pArmor, hSeal, ?_⟩, ?_, ?_, ?_⟩
      · split <;> split <;> rfl
      · split <;> split <;> rfl
      · split <;> split <;> simp_all
      · split <;> split <;> simp_all
    · simp at h
  · simp at h

/-- A failed push leaves the purse as it was. -/
theorem Push_false {τ : Type} (K : TokenClass τ) (p p1 : Purse) (o : OTNym_or_SymmetricKey) (t : τ)
    (h : Push K p o t = (false, p1)) : p1 = p := by
  unfold Push at h
  split at h
  · split at h
    · simp at h
    · simp at h; exact h.symm
  · simp at h; exact h.symm

end OpenTxs

namespace OpenTxs
open Purse

/-- What `Pop` returns, by cases on the deque and on the front envelope. -/
theorem Pop_cases {τ : Type} (K : TokenClass τ) (p : Purse) (o : OTNym_or_SymmetricKey)
    (r : Option τ × Purse) (h : Pop K p o = Run.done r) :
    (r = (none, p)) ∨
    (∃ pArmor rest pToken, p.m_dequeTokens = pArmor :: rest ∧
      PeekArmor K p o pArmor = Run.done (some pToken) ∧
      r = (some pToken,
        { p with
          m_dequeTokens := rest
          m_lTotalValue := wrapInt64 (p.m_lTotalValue - K.GetDenomination pToken) })) := by
  unfold Pop at h
  split at h
  · left; simpa using h.symm
  · rename_i hne
    cases hd : p.m_dequeTokens with
    | nil => simp [hd] at hne
    | cons pArmor rest =>
      have hpk : Peek K p o = PeekArmor K p o pArmor := by
        unfold Peek; rw [hd]
      rw [hpk] at h
      cases hp : PeekArmor K p o pArmor with
      | assertFailed => rw [hp] at h; simp at h
      | outOfFuel => rw [hp] at h; simp at h
      | done x =>
        rw [hp] at h
        cases x with
        | none => left; simpa using h.symm
        | some pToken =>
          right
          refine ⟨pArmor, rest, pToken, rfl, hp, ?_⟩
          simp only [Run.done.injEq] at h
          rw [← h, hd]
          rfl

/-- What a successful `PeekArmor` tells about the envelope. -/
theorem PeekArmor_some {τ : Type} (K : TokenClass τ) (p : Purse) (o : OTNym_or_SymmetricKey)
    (pArmor : String) (pToken : τ) (h : PeekArmor K p o pArmor = Run.done (some pToken)) :
    ∃ strToken, o.Open_or_Decrypt pArmor = some strToken ∧
      K.TokenFactory strToken p.m_NotaryID p.m_InstrumentDefinitionID = some pToken ∧
      K.GetInstrumentDefinitionID pToken = p.m_InstrumentDefinitionID ∧
      K.GetNotaryID pToken = p.m_NotaryID := by
  unfold PeekArmor at h
  split at h
  · rename_i strToken hOpen
    split at h
    · simp at h
    · rename_i t hF
      split at h
      · simp at h
      · rename_i hScope
        simp only [Run.done.injEq, Option.some.injEq] at h
        subst h
        simp only [ne_eq, not_or, not_not] at hScope
        exact ⟨strToken, hOpen, hF, hScope.1, hScope.2⟩
  · simp at h

/-- `PeekArmor` reads from the purse only its two scope ids. -/
theorem PeekArmor_congr {τ : Type} (K : TokenClass τ) (p q : Purse) (o : OTNym_or_SymmetricKey)
    (pArmor : String) (hN : p.m_NotaryID = q.m_NotaryID)
    (hI : p.m_InstrumentDefinitionID = q.m_InstrumentDefinitionID) :
    PeekArmor K p o pArmor = PeekArmor K q o pArmor := by
  unfold PeekArmor
  rw [hN, hI]

end OpenTxs

namespace OpenTxs
open Purse

/-- A pop never changes the scope ids of the purse. -/
theorem Pop_scope {τ : Type} (K : TokenClass τ) (p : Purse) (o : OTNym_or_SymmetricKey)
    (r : Option τ × Purse) (h : Pop K p o = Run.done r) :
    r.2.m_NotaryID = p.m_NotaryID ∧
    r.2.m_InstrumentDefinitionID = p.m_InstrumentDefinitionID := by
  rcases Pop_cases K p o r h with h1 | ⟨pArmor, rest, pToken, _, _, h1⟩
  · subst h1; exact ⟨rfl, rfl⟩
  · subst h1; exact ⟨rfl, rfl⟩

/-- The value invariant is kept by every call: with `denomOf` the denomination
of the token inside an envelope, respected by the sealing of the call (a push)
and by its opening (a pop). -/
theorem applyCall_totalValue {τ : Type} (K : TokenClass τ) (denomOf : String → Int)
    (c : Call τ) (p p1 : Purse)
    (hSeal : ∀ o T, c = Call.push o T → ∀ e, o.Seal_or_Encrypt (K.toText T) = some e →
      denomOf e = K.GetDenomination T)
    (hOpen : ∀ o, c = Call.pop o → ∀ e s T, o.Open_or_Decrypt e = some s →
      K.TokenFactory s p.m_NotaryID p.m_InstrumentDefinitionID = some T →
      K.GetDenomination T = denomOf e)
    (hInv : p.m_lTotalValue = wrapInt64 ((p.m_dequeTokens.map denomOf).sum))
    (hRun : applyCall K p c = Run.done p1) :
    p1.m_lTotalValue = wrapInt64 ((p1.m_dequeTokens.map denomOf).sum) ∧
    p1.m_NotaryID = p.m_NotaryID ∧
    p1.m_InstrumentDefinitionID = p.m_InstrumentDefinitionID := by
  cases c with
  | push o T =>
    simp only [applyCall, Run.done.injEq] at hRun
    have hs := Push_scope K p o T
    rw [hRun] at hs
    refine ⟨?_, hs.1, hs.2⟩
    cases hb : (Push K p o T).1 with
    | true =>
      have hP : Push K p o T = (true, p1) := by
        rw [← hRun, ← hb]
      obtain ⟨_, ⟨e, hse, hd⟩, ht, _, _⟩ := Push_true K p p1 o T hP
      rw [ht, hd, hInv, wrapInt64_add_left, List.map_cons, List.sum_cons,
        hSeal o T rfl e hse, add_comm]
    | false =>
      have hP : Push K p o T = (false, p1) := by
        rw [← hRun, ← hb]
      rw [Push_false K p p1 o T hP]
      exact hInv
  | pop o =>
    simp only [applyCall] at hRun
    cases hp : Pop K p o with
    | assertFailed => rw [hp] at hRun; simp at hRun
    | outOfFuel => rw [hp] at hRun; simp at hRun
    | done r =>
      rw [hp] at hRun
      simp only [Run.done.injEq] at hRun
      have hs := Pop_scope K p o r hp
      rw [hRun] at hs
      refine ⟨?_, hs.1, hs.2⟩
      rcases Pop_cases K p o r hp with h1 | ⟨pArmor, rest, pToken, hd, hpk, h1⟩
      · subst h1
        simp only at hRun
        subst hRun
        exact hInv
      · subst h1
        simp only at hRun
        subst hRun
        obtain ⟨s, hO, hF, _, _⟩ := PeekArmor_some K p o pArmor pToken hpk
        have hden := hOpen o rfl pArmor s pToken hO hF
        simp only
        rw [hInv, hd, wrapInt64_sub_left, List.map_cons, List.sum_cons, hden]
        congr 1
        ring

/-- The value invariant along a sequence of calls, from any purse that satisfies it. -/
theorem applyCalls_totalValue {τ : Type} (K : TokenClass τ) (denomOf : String → Int)
    (calls : List (Call τ)) :
    ∀ (p p1 : Purse),
    (∀ o T, Call.push o T ∈ calls → ∀ e, o.Seal_or_Encrypt (K.toText T) = some e →
      denomOf e = K.GetDenomination T) →
    (∀ o, Call.pop o ∈ calls → ∀ e s T, o.Open_or_Decrypt e = some s →
      K.TokenFactory s p.m_NotaryID p.m_InstrumentDefinitionID = some T →
      K.GetDenomination T = denomOf e) →
    p.m_lTotalValue = wrapInt64 ((p.m_dequeTokens.map denomOf).sum) →
    applyCalls K p calls = Run.done p1 →
    p1.m_lTotalValue = wrapInt64 ((p1.m_dequeTokens.map denomOf).sum) := by
  induction calls with
  | nil =>
    intro p p1 _ _ hInv hRun
    simp only [applyCalls, Run.done.injEq] at hRun
    subst hRun
    exact hInv
  | cons c cs ih =>
    intro p p1 hSeal hOpen hInv hRun
    simp only [applyCalls] at hRun
    cases hc : applyCall K p c with
    | assertFailed => rw [hc] at hRun; simp at hRun
    | outOfFuel => rw [hc] at hRun; simp at hRun
    | done q =>
      rw [hc] at hRun
      simp only at hRun
      obtain ⟨hq, hN, hI⟩ := applyCall_totalValue K denomOf c p q
        (fun o T hcT => hSeal o T (hcT ▸ List.mem_cons_self _ _))
        (fun o hcT => hOpen o (hcT ▸ List.mem_cons_self _ _)) hInv hc
      exact ih q p1
        (fun o T hm => hSeal o T (List.mem_cons_of_mem _ hm))
        (fun o hm => by rw [hN, hI]; exact hOpen o (List.mem_cons_of_mem _ hm))
        hq hRun

end OpenTxs

namespace OpenTxs
open Purse

/-- C2: from an empty purse of total value zero, after any sequence of `Push`
and `Pop` calls that runs to its end, `m_lTotalValue` is the `int64_t` sum of
the denominations of the tokens held in the deque, and is that sum exactly when
the sum fits in `int64_t`.  `denomOf` gives the denomination of the token inside
an envelope; that opening returns what sealing was given is the pair of
hypotheses `hSeal` (sealing a pushed token yields an envelope of its
denomination) and `hOpen` (the token rebuilt from an opened envelope has the
denomination of the envelope). -/
theorem totalValue_eq_sum_of_held {τ : Type} (K : TokenClass τ) (denomOf : String → Int)
    (calls : List (Call τ)) (p0 p : Purse)
    (hEmpty : p0.m_dequeTokens = []) (hZero : p0.m_lTotalValue = 0)
    (hSeal : ∀ o T, Call.push o T ∈ calls → ∀ e, o.Seal_or_Encrypt (K.toText T) = some e →
      denomOf e = K.GetDenomination T)
    (hOpen : ∀ o, Call.pop o ∈ calls → ∀ e s T, o.Open_or_Decrypt e = some s →
      K.TokenFactory s p0.m_NotaryID p0.m_InstrumentDefinitionID = some T →
      K.GetDenomination T = denomOf e)
    (hRun : applyCalls K p0 calls = Run.done p) :
    p.m_lTotalValue = wrapInt64 ((p.m_dequeTokens.map denomOf).sum) ∧
    (-2 ^ 63 ≤ (p.m_dequeTokens.map denomOf).sum → (p.m_dequeTokens.map denomOf).sum < 2 ^ 63 →
      p.m_lTotalValue = (p.m_dequeTokens.map denomOf).sum) := by
  have hInv : p0.m_lTotalValue = wrapInt64 ((p0.m_dequeTokens.map denomOf).sum) := by
    rw [hEmpty, hZero]; rfl
  have h := applyCalls_totalValue K denomOf calls p0 p hSeal hOpen hInv hRun
  exact ⟨h, fun h1 h2 => by rw [h, wrapInt64_of_inRange _ h1 h2]⟩

/-- The sample factory and `sampleDenomOf` agree on every text. -/
theorem sampleDenomOf_factory (s : String) (T : SimpleToken) (a b : Identifier)
    (h : sampleClass.TokenFactory s a b = some T) : T.denomination = sampleDenomOf s := by
  simp only [sampleClass, Option.map_eq_some'] at h
  obtain ⟨kv, hkv, rfl⟩ := h
  simp [sampleDenomOf, hkv]

set_option maxRecDepth 8000 in
/-- Witness of C2 on `sampleCalls`: the purse ends with `tokX` over `tok1` and a
total value of 17. -/
theorem totalValue_eq_sum_of_held_witness :
    ∃ p, applyCalls sampleClass samplePurse sampleCalls = Run.done p ∧
      p.m_dequeTokens = ["tX", "t1"] ∧ p.m_lTotalValue = 17 ∧
      p.m_lTotalValue = wrapInt64 ((p.m_dequeTokens.map sampleDenomOf).sum) := by
  refine ⟨{ samplePurse with
      m_dequeTokens := ["tX", "t1"], m_lTotalValue := 17,
      m_tLatestValidFrom := 150, m_tEarliestValidTo := 180 }, by decide, rfl, rfl, ?_⟩
  refine (totalValue_eq_sum_of_held sampleClass sampleDenomOf sampleCalls samplePurse _
    rfl rfl ?_ ?_ (by decide)).1
  · intro o T hm e hs
    simp only [sampleCalls, List.mem_cons, Call.push.injEq, List.mem_singleton, reduceCtorEq,
      or_false, false_or, List.not_mem_nil] at hm
    rcases hm with ⟨rfl, rfl⟩ | ⟨rfl, rfl⟩ | ⟨rfl, rfl⟩
    all_goals
      simp only [plainOwner, sampleClass, Option.some.injEq] at hs
      subst hs
      decide
  · intro o hm e s T hO hF
    simp only [sampleCalls, List.mem_cons, Call.pop.injEq, List.mem_singleton, reduceCtorEq,
      or_false, false_or, List.not_mem_nil, or_self] at hm
    subst hm
    simp only [plainOwner, Option.some.injEq] at hO
    subst hO
    exact sampleDenomOf_factory _ _ _ _ hF

/-- C3 (failing input): the token `tokX` has the instrument definition of the
purse and another notary.  The owner opens what it sealed and the token text
round-trips, `Push` returns true, and the `Pop` that follows returns no token
and leaves the envelope at the front. -/
theorem Push_then_Pop_other_notary :
    (∀ s, plainOwner.Seal_or_Encrypt s = some s ∧ plainOwner.Open_or_Decrypt s = some s) ∧
    sampleClass.TokenFactory (sampleClass.toText tokX) "N" "I" = some tokX ∧
    (Push sampleClass samplePurse plainOwner tokX).1 = true ∧
    Pop sampleClass (Push sampleClass samplePurse plainOwner tokX).2 plainOwner =
      Run.done (none, (Push sampleClass samplePurse plainOwner tokX).2) ∧
    (Push sampleClass samplePurse plainOwner tokX).2.m_dequeTokens = ["tX"] := by
  refine ⟨fun s => ⟨rfl, rfl⟩, by decide, by decide, by decide, by decide⟩

/-- Push then pop: when the token also has the notary id of the purse, the
owner opens what it sealed and the factory rebuilds from the text of the token
a token `T1`, the pop that follows a successful push returns `T1`. -/
theorem Push_then_Pop {τ : Type} (K : TokenClass τ) (p p1 : Purse) (o : OTNym_or_SymmetricKey)
    (T T1 : τ)
    (hOpen : ∀ s e, o.Seal_or_Encrypt s = some e → o.Open_or_Decrypt e = some s)
    (hText : K.TokenFactory (K.toText T) p.m_NotaryID p.m_InstrumentDefinitionID = some T1)
    (hI : K.GetInstrumentDefinitionID T1 = K.GetInstrumentDefinitionID T)
    (hN : K.GetNotaryID T1 = p.m_NotaryID)
    (hPush : Push K p o T = (true, p1)) :
    ∃ p2, Pop K p1 o = Run.done (some T1, p2) ∧ p2.m_dequeTokens = p.m_dequeTokens := by
  obtain ⟨hIT, ⟨e, hse, hd⟩, _, _, _⟩ := Push_true K p p1 o T hPush
  have hs := Push_scope K p o T
  rw [hPush] at hs
  have hpk : PeekArmor K p1 o e = Run.done (some T1) := by
    have hs1 : p1.m_NotaryID = p.m_NotaryID := hs.1
    have hs2 : p1.m_InstrumentDefinitionID = p.m_InstrumentDefinitionID := hs.2
    unfold PeekArmor
    rw [hOpen _ _ hse, hs1, hs2]
    simp only [hText]
    rw [if_neg]
    simp only [ne_eq, not_or, not_not]
    exact ⟨hI.trans hIT, hN⟩
  refine ⟨{ p1 with
      m_dequeTokens := p1.m_dequeTokens.tail
      m_lTotalValue := wrapInt64 (p1.m_lTotalValue - K.GetDenomination T1) }, ?_, ?_⟩
  · unfold Pop Peek
    rw [hd]
    simp only [List.isEmpty_cons, Bool.false_eq_true, if_false, hpk]
  · simp [hd]

/-- C4: a push of a token whose instrument definition id differs from that of
the purse returns false and leaves the whole purse unchanged, in particular the
token deque, the total value and the validity window. -/
theorem Push_wrong_instrument {τ : Type} (K : TokenClass τ) (p : Purse)
    (theOwner : OTNym_or_SymmetricKey) (theToken : τ)
    (h : K.GetInstrumentDefinitionID theToken ≠ p.m_InstrumentDefinitionID) :
    Push K p theOwner theToken = (false, p) := by
  unfold Push
  rw [if_neg h]

/-- Witness of C4: `tokJ` on a purse that holds `tok1`. -/
theorem Push_wrong_instrument_witness :
    Push sampleClass (Push sampleClass samplePurse plainOwner tok1).2 plainOwner tokJ =
      (false, (Push sampleClass samplePurse plainOwner tok1).2) :=
  Push_wrong_instrument sampleClass _ plainOwner tokJ (by decide)

/-- C5 (failing input): `tokX` has another notary id than the purse and the
instrument definition id of the purse; `Push` returns true and the purse holds
the token. -/
theorem Push_other_notary_accepted :
    sampleClass.GetNotaryID tokX ≠ samplePurse.m_NotaryID ∧
    sampleClass.GetInstrumentDefinitionID tokX = samplePurse.m_InstrumentDefinitionID ∧
    (Push sampleClass samplePurse plainOwner tokX).1 = true ∧
    (Push sampleClass samplePurse plainOwner tokX).2.m_dequeTokens = ["tX"] ∧
    (Push sampleClass samplePurse plainOwner tokX).2.m_lTotalValue = 7 := by
  decide

end OpenTxs

namespace OpenTxs
open Purse

/-- The window after a run of pushes that all succeed, from any purse: the
lower end never decreases and is the old one or the `validFrom` of a pushed
token, at least as large as each; while no pushed token has `validTo` zero, the
upper end is bounded by each `validTo` and is the old one or one of them, and a
zero upper end is replaced by the first `validTo`. -/
theorem pushAll_window {τ : Type} (K : TokenClass τ) (o : OTNym_or_SymmetricKey) (ts : List τ) :
    ∀ (p p1 : Purse), pushAll K o p ts = (true, p1) →
    (p.m_tLatestValidFrom ≤ p1.m_tLatestValidFrom ∧
      (∀ t ∈ ts, K.GetValidFrom t ≤ p1.m_tLatestValidFrom) ∧
      (p1.m_tLatestValidFrom = p.m_tLatestValidFrom ∨
        ∃ t ∈ ts, K.GetValidFrom t = p1.m_tLatestValidFrom)) ∧
    ((∀ t ∈ ts, K.GetValidTo t ≠ 0) →
      (ts = [] → p1.m_tEarliestValidTo = p.m_tEarliestValidTo) ∧
      (∀ t ∈ ts, p1.m_tEarliestValidTo ≤ K.GetValidTo t) ∧
      (p.m_tEarliestValidTo ≠ 0 → p1.m_tEarliestValidTo ≤ p.m_tEarliestValidTo) ∧
      ((p.m_tEarliestValidTo ≠ 0 ∧ p1.m_tEarliestValidTo = p.m_tEarliestValidTo) ∨
        ∃ t ∈ ts, K.GetValidTo t = p1.m_tEarliestValidTo) ∨ ts = []) := by
  induction ts with
  | nil =>
    intro p p1 h
    simp only [pushAll, Prod.mk.injEq, true_and] at h
    subst h
    simp
  | cons t ts ih =>
    intro p p1 h
    simp only [pushAll] at h
    cases hP : Push K p o t with
    | mk b q =>
      rw [hP] at h
      cases hA : pushAll K o q ts with
      | mk bs q1 =>
        rw [hA] at h
        simp only [Prod.mk.injEq, Bool.and_eq_true] at h
        obtain ⟨⟨hb, hbs⟩, rfl⟩ := h
        subst hb hbs
        obtain ⟨_, _, _, hL, hE⟩ := Push_true K p q o t hP
        obtain ⟨⟨i1, i2, i3⟩, i4⟩ := ih q q1 hA
        refine ⟨⟨?_, ?_, ?_⟩, ?_⟩
        · rw [hL] at i1; split at i1 <;> omega
        · intro u hu
          rcases List.mem_cons.1 hu with rfl | hu
          · rw [hL] at i1; split at i1 <;> omega
          · exact i2 u hu
        · rcases i3 with i3 | ⟨u, hu, hu2⟩
          · rw [hL] at i3
            split at i3
            · right; exact ⟨t, List.mem_cons_self _ _, i3.symm⟩
            · left; exact i3
          · right; exact ⟨u, List.mem_cons_of_mem _ hu, hu2⟩
        · intro hnz
          have ht : K.GetValidTo t ≠ 0 := hnz t (List.mem_cons_self _ _)
          have hts : ∀ u ∈ ts, K.GetValidTo u ≠ 0 := fun u hu => hnz u (List.mem_cons_of_mem _ hu)
          have hq0 : q.m_tEarliestValidTo ≠ 0 := by
            rw [hE]; unfold OT_TIME_ZERO; split <;> omega
          have hqt : q.m_tEarliestValidTo ≤ K.GetValidTo t := by
            rw [hE]; unfold OT_TIME_ZERO; split <;> omega
          have hqp : p.m_tEarliestValidTo ≠ 0 → q.m_tEarliestValidTo ≤ p.m_tEarliestValidTo := by
            rw [hE]; unfold OT_TIME_ZERO; split <;> omega
          have hqc : (p.m_tEarliestValidTo ≠ 0 ∧ q.m_tEarliestValidTo = p.m_tEarliestValidTo) ∨
              q.m_tEarliestValidTo = K.GetValidTo t := by
            rw [hE]; unfold OT_TIME_ZERO; split <;> omega
          left
          rcases i4 hts with ⟨j1, j2, j3, j4⟩ | rfl
          · have j3q := j3 hq0
            refine ⟨by simp, ?_, ?_, ?_⟩
            · intro u hu
              rcases List.mem_cons.1 hu with rfl | hu
              · omega
              · exact j2 u hu
            · intro hp0; have := hqp hp0; omega
            · rcases j4 with ⟨_, j4⟩ | ⟨u, hu, hu2⟩
              · rcases hqc with ⟨c1, c2⟩ | c
                · left; exact ⟨c1, by omega⟩
                · right; exact ⟨t, List.mem_cons_self _ _, by omega⟩
              · right; exact ⟨u, List.mem_cons_of_mem _ hu, hu2⟩
          · simp only [pushAll, Prod.mk.injEq, true_and] at hA
            subst hA
            refine ⟨by simp, ?_, hqp, ?_⟩
            · intro u hu
              simp only [List.mem_singleton] at hu
              subst hu
              exact hqt
            · rcases hqc with ⟨c1, c2⟩ | c
              · left; exact ⟨c1, c2⟩
              · right; exact ⟨t, List.mem_cons_self _ _, c.symm⟩

end OpenTxs

namespace OpenTxs
open Purse

/-- The minimum of a list of integers, by its two defining properties. -/
theorem int_min?_eq_some (xs : List Int) (a : Int) (h1 : a ∈ xs) (h2 : ∀ b ∈ xs, a ≤ b) :
    xs.min? = some a :=
  haveI : Std.Antisymm (fun (x1 x2 : Int) => x1 ≤ x2) := ⟨fun h1 h2 => Int.le_antisymm h1 h2⟩
  (List.min?_eq_some_iff (fun a => Int.le_refl a) (fun a b => by omega)
    (fun a b c => by omega)).2 ⟨h1, h2⟩

/-- The maximum of a list of integers, by its two defining properties. -/
theorem int_max?_eq_some (xs : List Int) (a : Int) (h1 : a ∈ xs) (h2 : ∀ b ∈ xs, b ≤ a) :
    xs.max? = some a :=
  haveI : Std.Antisymm (fun (x1 x2 : Int) => x1 ≤ x2) := ⟨fun h1 h2 => Int.le_antisymm h1 h2⟩
  (List.max?_eq_some_iff (fun a => Int.le_refl a) (fun a b => by omega)
    (fun a b c => by omega)).2 ⟨h1, h2⟩

/-- C10 (counterexample): after the successful pushes of `tok1` (valid to 200)
and `tokZ` (valid to 0) the upper end of the window is 0, not the minimum 200
of the non-zero `validTo` values; and after the successful push of `tokNeg`
(valid from -5) the lower end is 0, not the maximum -5 of the `validFrom`
values. -/
theorem window_not_max_min :
    ((pushAll sampleClass plainOwner samplePurse [tok1, tokZ]).1 = true ∧
      (pushAll sampleClass plainOwner samplePurse [tok1, tokZ]).2.m_tEarliestValidTo = 0 ∧
      specEarliestValidTo sampleClass [tok1, tokZ] = some 200) ∧
    ((pushAll sampleClass plainOwner samplePurse [tokNeg]).1 = true ∧
      (pushAll sampleClass plainOwner samplePurse [tokNeg]).2.m_tLatestValidFrom = 0 ∧
      specLatestValidFrom sampleClass [tokNeg] = some (-5)) := by
  decide

/-- C10 (amended): for every sequence of successful pushes onto a freshly
created purse in which no pushed token has `validTo` zero, `latestValidFrom` is
the maximum of zero and the `validFrom` values of the pushed tokens (so it is
their maximum once one of them is not negative), and `earliestValidTo` is the
minimum of the `validTo` values of the pushed tokens (zero when nothing was
pushed). -/
theorem window_after_pushes {τ : Type} (K : TokenClass τ) (o : OTNym_or_SymmetricKey)
    (NOTARY_ID INSTRUMENT_DEFINITION_ID : Identifier) (ts : List τ) (p1 : Purse)
    (hPush : pushAll K o (create NOTARY_ID INSTRUMENT_DEFINITION_ID) ts = (true, p1))
    (hnz : ∀ t ∈ ts, K.GetValidTo t ≠ 0) :
    (0 ≤ p1.m_tLatestValidFrom ∧
      (∀ t ∈ ts, K.GetValidFrom t ≤ p1.m_tLatestValidFrom) ∧
      (p1.m_tLatestValidFrom = 0 ∨ ∃ t ∈ ts, K.GetValidFrom t = p1.m_tLatestValidFrom)) ∧
    ((∃ t ∈ ts, 0 ≤ K.GetValidFrom t) →
      specLatestValidFrom K ts = some p1.m_tLatestValidFrom) ∧
    (ts = [] → p1.m_tEarliestValidTo = 0) ∧
    (ts ≠ [] → specEarliestValidTo K ts = some p1.m_tEarliestValidTo) := by
  obtain ⟨⟨i1, i2, i3⟩, i4⟩ := pushAll_window K o ts _ p1 hPush
  have hL0 : (create NOTARY_ID INSTRUMENT_DEFINITION_ID).m_tLatestValidFrom = 0 := rfl
  have hE0 : (create NOTARY_ID INSTRUMENT_DEFINITION_ID).m_tEarliestValidTo = 0 := rfl
  rw [hL0] at i1 i3
  rw [hE0] at i4
  refine ⟨⟨i1, i2, i3⟩, ?_, ?_, ?_⟩
  · rintro ⟨t, ht, ht0⟩
    unfold specLatestValidFrom
    apply int_max?_eq_some
    · rcases i3 with i3 | ⟨u, hu, hu2⟩
      · have := i2 t ht
        exact List.mem_map.2 ⟨t, ht, by omega⟩
      · exact List.mem_map.2 ⟨u, hu, hu2⟩
    · intro b hb
      obtain ⟨u, hu, rfl⟩ := List.mem_map.1 hb
      exact i2 u hu
  · intro hts
    rcases i4 hnz with ⟨j1, _⟩ | _
    · exact j1 hts
    · subst hts
      simp only [pushAll, Prod.mk.injEq, true_and] at hPush
      rw [← hPush]; rfl
  · intro hts
    rcases i4 hnz with ⟨_, j2, _, j4⟩ | h
    · unfold specEarliestValidTo
      have hf : (ts.map K.GetValidTo).filter (fun v => decide (v ≠ 0)) = ts.map K.GetValidTo := by
        rw [List.filter_eq_self]
        intro v hv
        obtain ⟨u, hu, rfl⟩ := List.mem_map.1 hv
        simpa using hnz u hu
      rw [hf]
      apply int_min?_eq_some
      · rcases j4 with ⟨c, _⟩ | ⟨u, hu, hu2⟩
        · exact absurd rfl c
        · exact List.mem_map.2 ⟨u, hu, hu2⟩
      · intro b hb
        obtain ⟨u, hu, rfl⟩ := List.mem_map.1 hb
        exact j2 u hu
    · exact absurd h hts

/-- Witness of C10: pushing `tok1` (100, 200) and then `tok2` (150, 180) gives
the window (150, 180). -/
theorem window_after_pushes_witness :
    (pushAll sampleClass plainOwner samplePurse [tok1, tok2]).2.m_tLatestValidFrom = 150 ∧
    (pushAll sampleClass plainOwner samplePurse [tok1, tok2]).2.m_tEarliestValidTo = 180 ∧
    specLatestValidFrom sampleClass [tok1, tok2] =
      some (pushAll sampleClass plainOwner samplePurse [tok1, tok2]).2.m_tLatestValidFrom ∧
    specEarliestValidTo sampleClass [tok1, tok2] =
      some (pushAll sampleClass plainOwner samplePurse [tok1, tok2]).2.m_tEarliestValidTo :=
  have h := window_after_pushes sampleClass plainOwner "N" "I" [tok1, tok2]
    (pushAll sampleClass plainOwner samplePurse [tok1, tok2]).2 (by decide) (by decide)
  ⟨by decide, by decide, h.2.1 ⟨tok1, by decide, by decide⟩, h.2.2.2 (by decide)⟩

end OpenTxs

/-! ## Theorems about `Purse::Merge` -/

namespace OpenTxs
open Purse

/-- Inserting under a key that the map does not hold adds exactly that entry. -/
theorem mapInsert_perm {τ : Type} (k : String) (v : τ) (m : mapOfTokenPointers τ)
    (h : k ∉ m.map Prod.fst) : (mapInsert k v m).Perm ((k, v) :: m) := by
  induction m with
  | nil => exact List.Perm.refl _
  | cons kv rest ih =>
    obtain ⟨k1, v1⟩ := kv
    simp only [List.map_cons, List.mem_cons, not_or] at h
    unfold mapInsert
    split
    · exact List.Perm.refl _
    · rw [if_neg h.1]
      exact ((ih h.2).cons (k1, v1)).trans (List.Perm.swap _ _ _)

/-- Membership in the map after the duplicate sweep. -/
theorem mem_eraseDuplicates {τ : Type} (K : TokenClass τ) (id : String)
    (m : mapOfTokenPointers τ) (kv : String × τ) :
    kv ∈ eraseDuplicates K id m ↔ kv ∈ m ∧ K.GetSpendable kv.2 ≠ id := by
  unfold eraseDuplicates
  simp [List.mem_filter]

/-- One round on a well-keyed map without repeated keys: the new entry joins
the entries of other ids, and the map stays well-keyed without repeated keys. -/
theorem mergeStep_spec {τ : Type} (K : TokenClass τ) (m : mapOfTokenPointers τ)
    (it : String × τ) (hW : WellKeyed K m) (hN : (m.map Prod.fst).Nodup)
    (hit : K.GetSpendable it.2 = it.1) :
    (mergeStep K m it).Perm (it :: eraseDuplicates K it.1 m) ∧
    WellKeyed K (mergeStep K m it) ∧ ((mergeStep K m it).map Prod.fst).Nodup := by
  have hnot : it.1 ∉ (eraseDuplicates K it.1 m).map Prod.fst := by
    intro hmem
    obtain ⟨kv, hkv, hk⟩ := List.mem_map.1 hmem
    have h1 := (mem_eraseDuplicates K it.1 m kv).1 hkv
    exact h1.2 ((hW kv h1.1).symm.trans hk)
  have hperm : (mergeStep K m it).Perm (it :: eraseDuplicates K it.1 m) :=
    mapInsert_perm it.1 it.2 _ hnot
  refine ⟨hperm, ?_, ?_⟩
  · intro kv hkv
    rcases List.mem_cons.1 (hperm.mem_iff.1 hkv) with rfl | h
    · exact hit.symm
    · exact hW kv ((mem_eraseDuplicates K it.1 m kv).1 h).1
  · have hsub : ((eraseDuplicates K it.1 m).map Prod.fst).Nodup := by
      unfold eraseDuplicates
      exact (List.Nodup.sublist ((List.filter_sublist m).map Prod.fst) hN)
    have h2 : ((mergeStep K m it).map Prod.fst).Perm
        (it.1 :: (eraseDuplicates K it.1 m).map Prod.fst) := by
      simpa using hperm.map Prod.fst
    exact (h2.nodup_iff).2 (List.nodup_cons.2 ⟨hnot, hsub⟩)

/-- The map after a run of rounds: well-keyed, without repeated keys, holding
only entries it had or was given, under exactly the keys it had or was given. -/
theorem foldl_mergeStep_spec {τ : Type} (K : TokenClass τ) (items : List (String × τ)) :
    ∀ (m : mapOfTokenPointers τ), WellKeyed K m → (m.map Prod.fst).Nodup →
    (∀ it ∈ items, K.GetSpendable it.2 = it.1) →
    WellKeyed K (items.foldl (mergeStep K) m) ∧
    ((items.foldl (mergeStep K) m).map Prod.fst).Nodup ∧
    (∀ kv ∈ items.foldl (mergeStep K) m, kv ∈ m ∨ kv ∈ items) ∧
    (∀ k, k ∈ (items.foldl (mergeStep K) m).map Prod.fst ↔
      k ∈ m.map Prod.fst ∨ k ∈ items.map Prod.fst) := by
  induction items with
  | nil =>
    intro m hW hN _
    exact ⟨hW, hN, fun kv h => Or.inl h, fun k => by simp⟩
  | cons it rest ih =>
    intro m hW hN hit
    obtain ⟨hperm, hW1, hN1⟩ :=
      mergeStep_spec K m it hW hN (hit it (List.mem_cons_self _ _))
    obtain ⟨j1, j2, j3, j4⟩ := ih (mergeStep K m it) hW1 hN1
      (fun x hx => hit x (List.mem_cons_of_mem _ hx))
    rw [List.foldl_cons]
    refine ⟨j1, j2, ?_, ?_⟩
    · intro kv hkv
      rcases j3 kv hkv with h | h
      · rcases List.mem_cons.1 (hperm.mem_iff.1 h) with rfl | h2
        · exact Or.inr (List.mem_cons_self _ _)
        · exact Or.inl ((mem_eraseDuplicates K it.1 m kv).1 h2).1
      · exact Or.inr (List.mem_cons_of_mem _ h)
    · intro k
      rw [j4 k]
      have hk : k ∈ (mergeStep K m it).map Prod.fst ↔ k = it.1 ∨ k ∈ m.map Prod.fst := by
        rw [(hperm.map Prod.fst).mem_iff]
        simp only [List.map_cons, List.mem_cons]
        constructor
        · rintro (h | h)
          · exact Or.inl h
          · obtain ⟨kv, hkv, rfl⟩ := List.mem_map.1 h
            exact Or.inr (List.mem_map.2 ⟨kv, ((mem_eraseDuplicates K it.1 m kv).1 hkv).1, rfl⟩)
        · rintro (h | h)
          · exact Or.inl h
          · by_cases hk : k = it.1
            · exact Or.inl hk
            · obtain ⟨kv, hkv, rfl⟩ := List.mem_map.1 h
              refine Or.inr (List.mem_map.2 ⟨kv, (mem_eraseDuplicates K it.1 m kv).2 ⟨hkv, ?_⟩, rfl⟩)
              rw [← hW kv hkv]; exact hk
      rw [hk]
      simp only [List.map_cons, List.mem_cons]
      tauto

end OpenTxs

namespace OpenTxs
open Purse

/-- A pop whose front envelope yields a token removes that envelope. -/
theorem Pop_of_PeekArmor {τ : Type} (K : TokenClass τ) (p : Purse) (o : OTNym_or_SymmetricKey)
    (e : String) (rest : List String) (T : τ) (hd : p.m_dequeTokens = e :: rest)
    (hpk : PeekArmor K p o e = Run.done (some T)) :
    Pop K p o = Run.done (some T,
      { p with
        m_dequeTokens := rest
        m_lTotalValue := wrapInt64 (p.m_lTotalValue - K.GetDenomination T) }) := by
  unfold Pop Peek
  rw [hd]
  simp only [List.isEmpty_cons, Bool.false_eq_true, if_false, hpk, List.tail_cons]

/-- The first drain loop of `Merge`, over a purse whose every envelope yields a
token: with fuel for each envelope it returns the emptied purse and the map
after one round per token. -/
theorem MergeDrainThis_spec {τ : Type} (K : TokenClass τ) (o : OTNym_or_SymmetricKey)
    (es : List String) :
    ∀ (ts : List τ) (fuel : Nat) (p : Purse) (m : mapOfTokenPointers τ),
    p.m_dequeTokens = es →
    List.Forall₂ (fun e T => PeekArmor K p o e = Run.done (some T)) es ts →
    es.length ≤ fuel →
    ∃ p1, MergeDrainThis K o fuel p m =
        Run.done (p1, (ts.map (fun T => (K.GetSpendable T, T))).foldl (mergeStep K) m) ∧
      p1.m_dequeTokens = [] ∧ p1.m_NotaryID = p.m_NotaryID ∧
      p1.m_InstrumentDefinitionID = p.m_InstrumentDefinitionID := by
  induction es with
  | nil =>
    intro ts fuel p m hd hF _
    cases hF
    refine ⟨p, ?_, hd, rfl, rfl⟩
    cases fuel <;> simp [MergeDrainThis, Count, hd]
  | cons e rest ih =>
    intro ts fuel p m hd hF hfuel
    cases hF with
    | cons hT hrest =>
      rename_i T ts1
      cases fuel with
      | zero => simp at hfuel
      | succ f =>
        have hpop := Pop_of_PeekArmor K p o e rest T hd hT
        obtain ⟨p1, h1, h2, h3, h4⟩ := ih ts1 f
          { p with
            m_dequeTokens := rest
            m_lTotalValue := wrapInt64 (p.m_lTotalValue - K.GetDenomination T) }
          (mergeStep K m (K.GetSpendable T, T)) rfl
          (hrest.imp (fun _ _ h => by rw [← h]; exact PeekArmor_congr K _ _ o _ rfl rfl))
          (by simp at hfuel; omega)
        refine ⟨p1, ?_, h2, h3, h4⟩
        simp only [MergeDrainThis, Count, hd, List.length_cons, Nat.zero_lt_succ, if_true, hpop,
          List.map_cons, List.foldl_cons]
        exact h1

/-- The second drain loop of `Merge`, over a purse whose every envelope yields a
token: it returns the emptied purse and the map after one round per token, each
token stored as its reassignment leaves it. -/
theorem MergeDrainNew_spec {τ : Type} (K : TokenClass τ) (theSigner : Nym)
    (theOldNym theNewNym : OTNym_or_SymmetricKey) (es : List String) :
    ∀ (ts : List τ) (fuel : Nat) (p : Purse) (m : mapOfTokenPointers τ),
    p.m_dequeTokens = es →
    List.Forall₂ (fun e T => PeekArmor K p theNewNym e = Run.done (some T)) es ts →
    es.length ≤ fuel →
    ∃ p1, MergeDrainNew K theSigner theOldNym theNewNym fuel p m =
        Run.done (p1, (ts.map (fun T => (K.GetSpendable T,
          reassignToken K theSigner theOldNym theNewNym T))).foldl (mergeStep K) m) ∧
      p1.m_dequeTokens = [] := by
  induction es with
  | nil =>
    intro ts fuel p m hd hF _
    cases hF
    refine ⟨p, ?_, hd⟩
    cases fuel <;> simp [MergeDrainNew, Count, hd]
  | cons e rest ih =>
    intro ts fuel p m hd hF hfuel
    cases hF with
    | cons hT hrest =>
      rename_i T ts1
      cases fuel with
      | zero => simp at hfuel
      | succ f =>
        have hpop := Pop_of_PeekArmor K p theNewNym e rest T hd hT
        obtain ⟨p1, h1, h2⟩ := ih ts1 f
          { p with
            m_dequeTokens := rest
            m_lTotalValue := wrapInt64 (p.m_lTotalValue - K.GetDenomination T) }
          (mergeStep K m (K.GetSpendable T, reassignToken K theSigner theOldNym theNewNym T)) rfl
          (hrest.imp (fun _ _ h => by rw [← h]; exact PeekArmor_congr K _ _ theNewNym _ rfl rfl))
          (by simp at hfuel; omega)
        refine ⟨p1, ?_, h2⟩
        simp only [MergeDrainNew, Count, hd, List.length_cons, Nat.zero_lt_succ, if_true, hpop,
          List.map_cons, List.foldl_cons]
        exact h1

/-- The push loop of `Merge` over a map whose every token has the instrument
definition of the purse and can be sealed: the flag is kept and the envelopes
are put in front of the deque, the last entry of the map coming first. -/
theorem MergePushAll_spec {τ : Type} (K : TokenClass τ) (o : OTNym_or_SymmetricKey)
    (m : mapOfTokenPointers τ) :
    ∀ (b : Bool) (p : Purse),
    (∀ kv ∈ m, K.GetInstrumentDefinitionID kv.2 = p.m_InstrumentDefinitionID ∧
      (o.Seal_or_Encrypt (K.toText kv.2)).isSome) →
    ∃ p1 es, MergePushAll K o m b p = (b, p1) ∧
      List.Forall₂ (fun e kv => o.Seal_or_Encrypt (K.toText kv.2) = some e) es m ∧
      p1.m_dequeTokens = es.reverse ++ p.m_dequeTokens := by
  induction m with
  | nil =>
    intro b p _
    exact ⟨p, [], rfl, List.Forall₂.nil, rfl⟩
  | cons kv rest ih =>
    intro b p h
    obtain ⟨hI, hS⟩ := h kv (List.mem_cons_self _ _)
    obtain ⟨e, he⟩ := Option.isSome_iff_exists.1 hS
    have hb : (Push K p o kv.2).1 = true := by
      unfold Push
      rw [if_pos hI, he]
    cases hP : Push K p o kv.2 with
    | mk b1 q =>
      rw [hP] at hb
      simp only at hb
      subst hb
      obtain ⟨_, ⟨e1, he1, hd⟩, _, _, _⟩ := Push_true K p q o kv.2 hP
      have hs := Push_scope K p o kv.2
      rw [hP] at hs
      obtain ⟨p1, es, h1, h2, h3⟩ := ih b q
        (fun x hx => by
          have := h x (List.mem_cons_of_mem _ hx)
          exact ⟨this.1.trans hs.2.symm, this.2⟩)
      refine ⟨p1, e1 :: es, ?_, List.Forall₂.cons he1 h2, ?_⟩
      · simp only [MergePushAll, hP, h1]
      · rw [h3, hd]; simp

end OpenTxs

namespace OpenTxs
open Purse

/-- Every element on the right of a pointwise relation has a partner on the left. -/
theorem forall₂_exists_left {α β : Type} (R : α → β → Prop) (l1 : List α) (l2 : List β)
    (h : List.Forall₂ R l1 l2) : ∀ b ∈ l2, ∃ a ∈ l1, R a b := by
  induction h with
  | nil => intro b hb; exact absurd hb (List.not_mem_nil _)
  | cons hab _ ih =>
    intro b hb
    rcases List.mem_cons.1 hb with rfl | hb
    · exact ⟨_, List.mem_cons_self _ _, hab⟩
    · obtain ⟨a, ha, hR⟩ := ih b hb
      exact ⟨a, List.mem_cons_of_mem _ ha, hR⟩

/-- C1: two purses A and B of the same notary and instrument definition, where
every envelope of A yields its token under `theOldNym` (the list `tsA`, front
first) and every envelope of B under `theNewNym` (the list `tsB`), where the
reassignment of a token of B keeps its spendable identity and its instrument
definition, and where every token can be sealed under `theOldNym`.  Then
`Merge` returns true, B is empty, and A holds the sealed text of exactly one
token for each spendable identity of `tsA` and `tsB`: the survivors have pairwise
different identities, their identities are those of `tsA` and `tsB`, each is a
token of `tsA` or the reassigned form of a token of `tsB`, and `Count` is the
number of distinct identities. -/
theorem Merge_union {τ : Type} (K : TokenClass τ) (A B : Purse) (theSigner : Nym)
    (theOldNym theNewNym : OTNym_or_SymmetricKey) (tsA tsB : List τ)
    (_hN : A.m_NotaryID = B.m_NotaryID)
    (hI : A.m_InstrumentDefinitionID = B.m_InstrumentDefinitionID)
    (hA : List.Forall₂ (fun e T => PeekArmor K A theOldNym e = Run.done (some T))
      A.m_dequeTokens tsA)
    (hB : List.Forall₂ (fun e T => PeekArmor K B theNewNym e = Run.done (some T))
      B.m_dequeTokens tsB)
    (hStable : ∀ T ∈ tsB,
      K.GetSpendable (reassignToken K theSigner theOldNym theNewNym T) = K.GetSpendable T ∧
      K.GetInstrumentDefinitionID (reassignToken K theSigner theOldNym theNewNym T) =
        K.GetInstrumentDefinitionID T)
    (hSealA : ∀ T ∈ tsA, (theOldNym.Seal_or_Encrypt (K.toText T)).isSome)
    (hSealB : ∀ T ∈ tsB, (theOldNym.Seal_or_Encrypt
      (K.toText (reassignToken K theSigner theOldNym theNewNym T))).isSome) :
    ∃ A1 B1 survivors,
      Merge K A theSigner theOldNym theNewNym B = Run.done (true, A1, B1) ∧
      B1.m_dequeTokens = [] ∧
      List.Forall₂ (fun e T => theOldNym.Seal_or_Encrypt (K.toText T) = some e)
        A1.m_dequeTokens survivors ∧
      (survivors.map K.GetSpendable).Nodup ∧
      (∀ id, id ∈ survivors.map K.GetSpendable ↔
        id ∈ tsA.map K.GetSpendable ∨ id ∈ tsB.map K.GetSpendable) ∧
      (∀ T ∈ survivors, T ∈ tsA ∨
        ∃ T0 ∈ tsB, T = reassignToken K theSigner theOldNym theNewNym T0) ∧
      A1.Count = ((tsA ++ tsB).map K.GetSpendable).dedup.length := by
  -- the two drains
  obtain ⟨p1, hD1, hp1d, _, hp1I⟩ :=
    MergeDrainThis_spec K theOldNym A.m_dequeTokens tsA A.Count A [] rfl hA (le_refl _)
  obtain ⟨B1, hD2, hB1d⟩ :=
    MergeDrainNew_spec K theSigner theOldNym theNewNym B.m_dequeTokens tsB B.Count B
      ((tsA.map (fun T => (K.GetSpendable T, T))).foldl (mergeStep K) []) rfl hB (le_refl _)
  -- the map after both drains
  let itemsA : List (String × τ) := tsA.map (fun T => (K.GetSpendable T, T))
  let itemsB : List (String × τ) :=
    tsB.map (fun T => (K.GetSpendable T, reassignToken K theSigner theOldNym theNewNym T))
  have hfold : itemsB.foldl (mergeStep K) (itemsA.foldl (mergeStep K) []) =
      (itemsA ++ itemsB).foldl (mergeStep K) [] := by
    rw [List.foldl_append]
  have hitems : ∀ it ∈ itemsA ++ itemsB, K.GetSpendable it.2 = it.1 := by
    intro it hit
    rcases List.mem_append.1 hit with h | h
    · obtain ⟨T, _, rfl⟩ := List.mem_map.1 h
      rfl
    · obtain ⟨T, hT, rfl⟩ := List.mem_map.1 h
      exact (hStable T hT).1
  obtain ⟨hW, hNd, hsub, hkeys⟩ := foldl_mergeStep_spec K (itemsA ++ itemsB) []
    (fun _ h => absurd h (List.not_mem_nil _)) List.nodup_nil hitems
  generalize hm : (itemsA ++ itemsB).foldl (mergeStep K) [] = m at hW hNd hsub hkeys
  -- every token of the map can be pushed
  have hscopeA : ∀ T ∈ tsA, K.GetInstrumentDefinitionID T = A.m_InstrumentDefinitionID := by
    intro T hT
    obtain ⟨e, _, hpk⟩ := forall₂_exists_left _ _ _ hA T hT
    exact (PeekArmor_some K A theOldNym e T hpk).choose_spec.2.2.1
  have hscopeB : ∀ T ∈ tsB, K.GetInstrumentDefinitionID T = B.m_InstrumentDefinitionID := by
    intro T hT
    obtain ⟨e, _, hpk⟩ := forall₂_exists_left _ _ _ hB T hT
    exact (PeekArmor_some K B theNewNym e T hpk).choose_spec.2.2.1
  have hpushable : ∀ kv ∈ m, K.GetInstrumentDefinitionID kv.2 = p1.m_InstrumentDefinitionID ∧
      (theOldNym.Seal_or_Encrypt (K.toText kv.2)).isSome := by
    intro kv hkv
    rcases hsub kv hkv with h | h
    · exact absurd h (List.not_mem_nil _)
    · rcases List.mem_append.1 h with h | h
      · obtain ⟨T, hT, rfl⟩ := List.mem_map.1 h
        exact ⟨(hscopeA T hT).trans hp1I.symm, hSealA T hT⟩
      · obtain ⟨T, hT, rfl⟩ := List.mem_map.1 h
        exact ⟨((hStable T hT).2.trans (hscopeB T hT)).trans (hI.symm.trans hp1I.symm),
          hSealB T hT⟩
  obtain ⟨A1, es, hPush, hF, hdq⟩ := MergePushAll_spec K theOldNym m true p1 hpushable
  rw [hp1d, List.append_nil] at hdq
  -- the identities held
  have hids : ∀ id, id ∈ (m.map Prod.snd).map K.GetSpendable ↔
      id ∈ tsA.map K.GetSpendable ∨ id ∈ tsB.map K.GetSpendable := by
    intro id
    have hmk : (m.map Prod.snd).map K.GetSpendable = m.map Prod.fst := by
      rw [List.map_map]
      exact List.map_congr_left (fun kv hkv => (hW kv hkv).symm)
    rw [hmk, hkeys id]
    simp [itemsA, itemsB, List.map_map, Function.comp_def]
  have hnodup : ((m.map Prod.snd).map K.GetSpendable).Nodup := by
    have hmk : (m.map Prod.snd).map K.GetSpendable = m.map Prod.fst := by
      rw [List.map_map]
      exact List.map_congr_left (fun kv hkv => (hW kv hkv).symm)
    rw [hmk]; exact hNd
  refine ⟨A1, B1, (m.map Prod.snd).reverse, ?_, hB1d, ?_, ?_, ?_, ?_, ?_⟩
  · unfold Merge
    rw [hD1]
    simp only
    rw [hD2]
    simp only
    rw [hfold, hm, hPush]
  · rw [hdq]
    rw [List.forall₂_reverse_iff]
    rw [List.forall₂_map_right_iff]
    exact hF
  · rw [List.map_reverse]
    exact List.nodup_reverse.2 hnodup
  · intro id
    rw [List.map_reverse, List.mem_reverse]
    exact hids id
  · intro T hT
    rw [List.mem_reverse] at hT
    obtain ⟨kv, hkv, rfl⟩ := List.mem_map.1 hT
    rcases hsub kv hkv with h | h
    · exact absurd h (List.not_mem_nil _)
    · rcases List.mem_append.1 h with h | h
      · obtain ⟨T0, hT0, rfl⟩ := List.mem_map.1 h
        exact Or.inl hT0
      · obtain ⟨T0, hT0, rfl⟩ := List.mem_map.1 h
        exact Or.inr ⟨T0, hT0, rfl⟩
  · have hlen : A1.Count = ((m.map Prod.snd).map K.GetSpendable).length := by
      unfold Count
      rw [hdq, List.length_reverse, hF.length_eq, List.length_map, List.length_map]
    rw [hlen]
    apply List.Perm.length_eq
    rw [List.perm_ext_iff_of_nodup hnodup (List.nodup_dedup _)]
    intro id
    rw [hids id, List.mem_dedup, List.map_append, List.mem_append]

set_option maxRecDepth 8000 in
/-- Witness of C1: A holds `tok1`, `tok2` and B holds `tok2`, `tok3`; after the
merge A holds three tokens and B none. -/
theorem Merge_union_witness :
    ∃ A1 B1 survivors,
      Merge sampleClass purseA ⟨"signer"⟩ plainOwner plainOwner purseB =
        Run.done (true, A1, B1) ∧
      B1.m_dequeTokens = [] ∧
      List.Forall₂ (fun e T => plainOwner.Seal_or_Encrypt (sampleClass.toText T) = some e)
        A1.m_dequeTokens survivors ∧
      (survivors.map sampleClass.GetSpendable).Nodup ∧
      (∀ id, id ∈ survivors.map sampleClass.GetSpendable ↔
        id ∈ [tok2, tok1].map sampleClass.GetSpendable ∨
        id ∈ [tok3, tok2].map sampleClass.GetSpendable) ∧
      (∀ T ∈ survivors, T ∈ [tok2, tok1] ∨
        ∃ T0 ∈ [tok3, tok2], T = reassignToken sampleClass ⟨"signer"⟩ plainOwner plainOwner T0) ∧
      A1.Count = (([tok2, tok1] ++ [tok3, tok2]).map sampleClass.GetSpendable).dedup.length :=
  Merge_union sampleClass purseA purseB ⟨"signer"⟩ plainOwner plainOwner
    [tok2, tok1] [tok3, tok2] (by decide) (by decide)
    (List.Forall₂.cons (by decide) (List.Forall₂.cons (by decide) List.Forall₂.nil))
    (List.Forall₂.cons (by decide) (List.Forall₂.cons (by decide) List.Forall₂.nil))
    (by decide) (by decide) (by decide)

set_option maxRecDepth 8000 in
/-- The merge example evaluated: A ends with the three envelopes and `Count` 3. -/
theorem Merge_example :
    ∃ A1 B1, Merge sampleClass purseA ⟨"signer"⟩ plainOwner plainOwner purseB =
        Run.done (true, A1, B1) ∧
      A1.m_dequeTokens = ["t3", "t2", "t1"] ∧ A1.Count = 3 ∧ B1.m_dequeTokens = [] :=
  ⟨{ samplePurse with
      m_dequeTokens := ["t3", "t2", "t1"], m_lTotalValue := 35,
      m_tLatestValidFrom := 150, m_tEarliestValidTo := 180 },
   { samplePurse with
      m_dequeTokens := [], m_lTotalValue := 0,
      m_tLatestValidFrom := 150, m_tEarliestValidTo := 180 },
   by decide, rfl, rfl, rfl⟩

end OpenTxs

/-! ## Theorems about the serialization of the purse -/

namespace OpenTxs
open Purse

theorem formatBool_eq_true (b : Bool) : decide (formatBool b = "true") = b := by
  cases b <;> decide

/-- Loading the `purse` tag written for `P` into any purse `q`. -/
theorem ProcessXMLNode_purseTag (F : PurseFormat) (P q : Purse)
    (hTotal : 0 ≤ P.m_lTotalValue)
    (hLong : F.ToLong (F.formatLong P.m_lTotalValue) = P.m_lTotalValue)
    (hLongE : 0 < P.m_lTotalValue → OTString.Exists (F.formatLong P.m_lTotalValue) = true)
    (hFromE : OTString.Exists (F.formatTimestamp P.m_tLatestValidFrom) = true)
    (hFrom : F.parseTimestamp (F.formatTimestamp P.m_tLatestValidFrom) = P.m_tLatestValidFrom)
    (hToE : OTString.Exists (F.formatTimestamp P.m_tEarliestValidTo) = true)
    (hTo : F.parseTimestamp (F.formatTimestamp P.m_tEarliestValidTo) = P.m_tEarliestValidTo)
    (hNotary : OTString.Exists P.m_NotaryID = true)
    (hInstr : OTString.Exists P.m_InstrumentDefinitionID = true)
    (hNym : P.m_bIsNymIDIncluded = true → OTString.Exists P.m_NymID = true) :
    ProcessXMLNode F q (purseTag F P) =
      (1, { q with
        m_strVersion := P.m_strVersion
        m_lTotalValue := P.m_lTotalValue
        m_tLatestValidFrom := P.m_tLatestValidFrom
        m_tEarliestValidTo := P.m_tEarliestValidTo
        m_bPasswordProtected := P.m_bPasswordProtected
        m_bIsNymIDIncluded := P.m_bIsNymIDIncluded
        m_NotaryID := P.m_NotaryID
        m_InstrumentDefinitionID := P.m_InstrumentDefinitionID
        m_NymID := if P.m_bIsNymIDIncluded then P.m_NymID else "" }) := by
  have hv : (purseTag F P).getAttributeValue "version" = P.m_strVersion := rfl
  have ht : (purseTag F P).getAttributeValue "totalValue" = F.formatLong P.m_lTotalValue := rfl
  have hf : (purseTag F P).getAttributeValue "validFrom" =
      F.formatTimestamp P.m_tLatestValidFrom := rfl
  have hto : (purseTag F P).getAttributeValue "validTo" =
      F.formatTimestamp P.m_tEarliestValidTo := rfl
  have hpp : (purseTag F P).getAttributeValue "isPasswordProtected" =
      formatBool P.m_bPasswordProtected := rfl
  have hin : (purseTag F P).getAttributeValue "isNymIDIncluded" =
      formatBool P.m_bIsNymIDIncluded := rfl
  have hny : (purseTag F P).getAttributeValue "nymID" =
      (if P.m_bIsNymIDIncluded && OTString.Exists P.m_NymID then P.m_NymID else "") := rfl
  have hi : (purseTag F P).getAttributeValue "instrumentDefinitionID" =
      P.m_InstrumentDefinitionID := rfl
  have hn : (purseTag F P).getAttributeValue "notaryID" = P.m_NotaryID := rfl
  have hname : (purseTag F P).nodeName = "purse" := rfl
  unfold ProcessXMLNode
  rw [if_pos hname]
  simp only [hv, ht, hf, hto, hpp, hin, hny, hi, hn, hLong, hFrom, hTo, hFromE, hToE, hNotary,
    hInstr, formatBool_eq_true, if_true]
  have hz : ¬ 0 < P.m_lTotalValue → P.m_lTotalValue = 0 := fun h => by omega
  cases hinc : P.m_bIsNymIDIncluded with
  | false =>
    by_cases hpos : 0 < P.m_lTotalValue
    · simp [hLongE hpos, hpos]
    · simp [hpos, hz hpos]
  | true =>
    have hny1 := hNym hinc
    by_cases hpos : 0 < P.m_lTotalValue
    · simp [hLongE hpos, hpos, hny1]
    · simp [hpos, hz hpos, hny1]

end OpenTxs

namespace OpenTxs
open Purse

/-- A text of more than two characters loads as an encoded text field, and what
is stored is not empty. -/
theorem LoadEncodedTextField_long (name : String) (e : String) (h : 2 < e.data.length) :
    LoadEncodedTextField { nodeName := name, attributes := [], text := some e } =
      some (dropLeadingNewline e) ∧
    OTString.Exists (dropLeadingNewline e) = true := by
  obtain ⟨d⟩ := e
  simp only at h
  constructor
  · unfold LoadEncodedTextField OTString.Exists
    cases d with
    | nil => simp at h
    | cons c cs =>
      have h1 : 1 < cs.length := by simp only [List.length_cons] at h; omega
      simp [h1]
  · unfold dropLeadingNewline OTString.Exists
    match d, h with
    | c :: c2 :: cs, _ =>
      simp only
      split
      · rename_i rest heq
        simp only [List.cons.injEq] at heq
        rw [← heq.2]; rfl
      · rfl

/-- Loading the `token` tags of a list of envelopes that are each longer than
two characters: the load succeeds and puts them in front of the deque, the
last one written coming first. -/
theorem LoadContractXML_tokens (F : PurseFormat) (es : List String) :
    ∀ (p : Purse), (∀ e ∈ es, 2 < e.data.length) →
    LoadContractXML F p
        (es.map (fun pArmor => { nodeName := "token", attributes := [], text := some pArmor })) =
      (true, { p with
        m_dequeTokens := (es.map dropLeadingNewline).reverse ++ p.m_dequeTokens }) := by
  induction es with
  | nil => intro p _; simp [LoadContractXML]
  | cons e rest ih =>
    intro p h
    obtain ⟨h1, h2⟩ := LoadEncodedTextField_long "token" e (h e (List.mem_cons_self _ _))
    have hstep : ProcessXMLNode F p { nodeName := "token", attributes := [], text := some e } =
        (1, { p with m_dequeTokens := dropLeadingNewline e :: p.m_dequeTokens }) := by
      unfold ProcessXMLNode
      simp only [h1, h2]
      simp
    simp only [List.map_cons, LoadContractXML, hstep]
    rw [if_neg (by decide)]
    rw [ih _ (fun x hx => h x (List.mem_cons_of_mem _ hx))]
    simp

end OpenTxs

namespace OpenTxs
open Purse

/-- The key tags are none, or the `cachedKey` tag followed by the `internalKey`
tag of a password-protected purse. -/
theorem keyTags_cases (P : Purse) :
    keyTags P = [] ∨
    (P.m_bPasswordProtected = true ∧ ∃ a b, keyTags P =
      [ { nodeName := "cachedKey", attributes := [], text := some a },
        { nodeName := "internalKey", attributes := [], text := some b } ]) := by
  unfold keyTags
  split
  · rename_i hpp
    split
    · split
      · left; rfl
      · split
        · left; rfl
        · split
          · split
            · right; exact ⟨hpp, _, _, rfl⟩
            · left; rfl
          · left; rfl
    · left; rfl
  · left; rfl

/-- Loading the key tags written for `P` into a purse `p` that has the
password-protection flag of `P` and, when there are key tags, no nym id: when
the text of each key tag loads and the loader of its key class accepts it, the
load goes on after them with only the two keys of `p` changed. -/
theorem LoadContractXML_keyTags (F : PurseFormat) (P p : Purse) (rest : List XmlElement)
    (hpp : p.m_bPasswordProtected = P.m_bPasswordProtected)
    (hnym : keyTags P ≠ [] → p.m_NymID = "")
    (hKeys : ∀ x ∈ keyTags P, ∃ a, LoadEncodedTextField x = some a ∧
      OTString.Exists a = true ∧
      (x.nodeName = "cachedKey" → (F.CachedKeyFrom a).isSome) ∧
      (x.nodeName = "internalKey" → (F.SymmetricKeyFrom a).isSome)) :
    ∃ sk ck, LoadContractXML F p (keyTags P ++ rest) =
      LoadContractXML F { p with m_pSymmetricKey := sk, m_pCachedKey := ck } rest := by
  rcases keyTags_cases P with h | ⟨hP, a, b, h⟩
  · rw [h]
    exact ⟨p.m_pSymmetricKey, p.m_pCachedKey, rfl⟩
  · have hne : keyTags P ≠ [] := by rw [h]; simp
    have hn := hnym hne
    rw [h] at hKeys
    obtain ⟨a1, ha1, hea1, hca1, _⟩ := hKeys _ (List.mem_cons_self _ _)
    obtain ⟨b1, hb1, heb1, _, hsb1⟩ := hKeys _ (List.mem_cons_of_mem _ (List.mem_cons_self _ _))
    obtain ⟨ck, hck⟩ := Option.isSome_iff_exists.1 (hca1 rfl)
    obtain ⟨sk, hsk⟩ := Option.isSome_iff_exists.1 (hsb1 rfl)
    have hppp : p.m_bPasswordProtected = true := hpp.trans hP
    have hex : OTString.Exists p.m_NymID = false := by rw [hn]; rfl
    refine ⟨some sk, some ck, ?_⟩
    rw [h]
    have step1 : ProcessXMLNode F p { nodeName := "cachedKey", attributes := [], text := some a } =
        (1, { p with m_pCachedKey := some ck }) := by
      unfold ProcessXMLNode
      simp [hppp, hex, ha1, hea1, hck]
    have step2 : ProcessXMLNode F { p with m_pCachedKey := some ck }
        { nodeName := "internalKey", attributes := [], text := some b } =
        (1, { p with m_pCachedKey := some ck, m_pSymmetricKey := some sk }) := by
      unfold ProcessXMLNode
      simp [hppp, hex, hb1, heb1, hsk]
    simp only [List.cons_append, List.nil_append, LoadContractXML, step1, step2]
    rw [if_neg (by decide), if_neg (by decide)]
    rfl

/-- C6 (amended): for every purse `P` with a total value that is not negative,
non-empty notary and instrument definition ids, a non-empty nym id when
`isNymIDIncluded` is set, envelopes longer than two characters, key tags (if
any are written) only without `isNymIDIncluded` and with texts that the key
loaders accept, and a total value and two timestamps that the text formats
carry back, loading what `UpdateContents` writes for `P` into a purse without
tokens succeeds and yields a purse equal to `P` in notary id, instrument
definition id, total value, validity window, password-protection flag and
token count. -/
theorem load_UpdateContents (F : PurseFormat) (P q : Purse)
    (hq : q.m_dequeTokens = [])
    (hTotal : 0 ≤ P.m_lTotalValue)
    (hLong : F.ToLong (F.formatLong P.m_lTotalValue) = P.m_lTotalValue)
    (hLongE : 0 < P.m_lTotalValue → OTString.Exists (F.formatLong P.m_lTotalValue) = true)
    (hFromE : OTString.Exists (F.formatTimestamp P.m_tLatestValidFrom) = true)
    (hFrom : F.parseTimestamp (F.formatTimestamp P.m_tLatestValidFrom) = P.m_tLatestValidFrom)
    (hToE : OTString.Exists (F.formatTimestamp P.m_tEarliestValidTo) = true)
    (hTo : F.parseTimestamp (F.formatTimestamp P.m_tEarliestValidTo) = P.m_tEarliestValidTo)
    (hNotary : OTString.Exists P.m_NotaryID = true)
    (hInstr : OTString.Exists P.m_InstrumentDefinitionID = true)
    (hNym : P.m_bIsNymIDIncluded = true → OTString.Exists P.m_NymID = true)
    (hKeyNym : keyTags P ≠ [] → P.m_bIsNymIDIncluded = false)
    (hKeys : ∀ x ∈ keyTags P, ∃ a, LoadEncodedTextField x = some a ∧
      OTString.Exists a = true ∧
      (x.nodeName = "cachedKey" → (F.CachedKeyFrom a).isSome) ∧
      (x.nodeName = "internalKey" → (F.SymmetricKeyFrom a).isSome))
    (hTokens : ∀ e ∈ P.m_dequeTokens, 2 < e.data.length) :
    ∃ P1, LoadContractXML F q (UpdateContents F P) = (true, P1) ∧
      P1.m_NotaryID = P.m_NotaryID ∧
      P1.m_InstrumentDefinitionID = P.m_InstrumentDefinitionID ∧
      P1.m_lTotalValue = P.m_lTotalValue ∧
      P1.m_tLatestValidFrom = P.m_tLatestValidFrom ∧
      P1.m_tEarliestValidTo = P.m_tEarliestValidTo ∧
      P1.m_bPasswordProtected = P.m_bPasswordProtected ∧
      P1.Count = P.Count := by
  have h1 := ProcessXMLNode_purseTag F P q hTotal hLong hLongE hFromE hFrom hToE hTo hNotary
    hInstr hNym
  obtain ⟨sk, ck, h2⟩ := LoadContractXML_keyTags F P
    { q with
      m_strVersion := P.m_strVersion
      m_lTotalValue := P.m_lTotalValue
      m_tLatestValidFrom := P.m_tLatestValidFrom
      m_tEarliestValidTo := P.m_tEarliestValidTo
      m_bPasswordProtected := P.m_bPasswordProtected
      m_bIsNymIDIncluded := P.m_bIsNymIDIncluded
      m_NotaryID := P.m_NotaryID
      m_InstrumentDefinitionID := P.m_InstrumentDefinitionID
      m_NymID := if P.m_bIsNymIDIncluded then P.m_NymID else "" }
    (tokenTags P) rfl
    (fun hne => by simp [hKeyNym hne]) hKeys
  have hload : LoadContractXML F q (UpdateContents F P) =
      (true, { q with
        m_strVersion := P.m_strVersion
        m_lTotalValue := P.m_lTotalValue
        m_tLatestValidFrom := P.m_tLatestValidFrom
        m_tEarliestValidTo := P.m_tEarliestValidTo
        m_bPasswordProtected := P.m_bPasswordProtected
        m_bIsNymIDIncluded := P.m_bIsNymIDIncluded
        m_NotaryID := P.m_NotaryID
        m_InstrumentDefinitionID := P.m_InstrumentDefinitionID
        m_NymID := if P.m_bIsNymIDIncluded then P.m_NymID else ""
        m_pSymmetricKey := sk
        m_pCachedKey := ck
        m_dequeTokens := (P.m_dequeTokens.map dropLeadingNewline).reverse ++ q.m_dequeTokens }) := by
    unfold UpdateContents
    simp only [LoadContractXML, h1]
    rw [if_neg (by decide), h2]
    unfold tokenTags
    rw [LoadContractXML_tokens F P.m_dequeTokens _ hTokens]
  refine ⟨_, hload, rfl, rfl, rfl, rfl, rfl, rfl, ?_⟩
  simp [Count, hq]

end OpenTxs

namespace OpenTxs
open Purse

set_option maxRecDepth 8000 in
/-- C6 (counterexample): with a format that carries the numbers back, five
purses that do not come back from their own serialization.  A total value of
-5 is loaded as 0; a purse without notary id, one with `isNymIDIncluded` and
no nym id, one with key tags and a nym id, and one with an envelope of two
characters fail to load. -/
theorem load_UpdateContents_fails :
    (sampleToLong (sampleFormatLong (-5)) = -5 ∧
      (LoadContractXML sampleFormat Purse.default (UpdateContents sampleFormat purseNegative)).1
        = true ∧
      (LoadContractXML sampleFormat Purse.default
        (UpdateContents sampleFormat purseNegative)).2.m_lTotalValue = 0 ∧
      purseNegative.m_lTotalValue = -5) ∧
    (LoadContractXML sampleFormat Purse.default (UpdateContents sampleFormat purseNoNotary)).1
      = false ∧
    (LoadContractXML sampleFormat Purse.default (UpdateContents sampleFormat purseNoNym)).1
      = false ∧
    (LoadContractXML sampleFormat Purse.default (UpdateContents sampleFormat purseKeysAndNym)).1
      = false ∧
    (LoadContractXML sampleFormat Purse.default (UpdateContents sampleFormat purseShortArmor)).1
      = false := by
  decide

set_option maxRecDepth 8000 in
/-- Witness of C6: the password-protected purse `purseWithKeys` comes back from
its serialization. -/
theorem load_UpdateContents_witness :
    ∃ P1, LoadContractXML sampleFormat Purse.default (UpdateContents sampleFormat purseWithKeys) =
        (true, P1) ∧
      P1.m_NotaryID = "notary" ∧
      P1.m_InstrumentDefinitionID = "instrument" ∧
      P1.m_lTotalValue = 30 ∧
      P1.m_tLatestValidFrom = 150 ∧
      P1.m_tEarliestValidTo = 180 ∧
      P1.m_bPasswordProtected = true ∧
      P1.Count = 2 :=
  load_UpdateContents sampleFormat purseWithKeys Purse.default rfl (by decide) (by decide)
    (fun _ => by decide) (by decide) (by decide) (by decide) (by decide) (by decide) (by decide)
    (by decide) (fun _ => by decide)
    (fun x hx => by
      have hk : keyTags purseWithKeys =
          [ { nodeName := "cachedKey", attributes := [], text := some "cachedkeytext" },
            { nodeName := "internalKey", attributes := [], text := some "symmetrickeytext" } ] := by
        decide
      rw [hk] at hx
      simp only [List.mem_cons, List.mem_singleton, List.not_mem_nil, or_false] at hx
      rcases hx with rfl | rfl
      · exact ⟨"cachedkeytext", by decide, by decide, fun _ => rfl, fun _ => rfl⟩
      · exact ⟨"symmetrickeytext", by decide, by decide, fun _ => rfl, fun _ => rfl⟩)
    (by decide)

end OpenTxs

/-! ## Theorems about the identifier of a container -/

namespace OpenTxs
open Contract

/-- `ParseRawFile` changes neither the identifier nor, beyond trimming it, the
raw file, when the element loop changes neither. -/
theorem ParseRawFile_frame (E : ContractEnv) (c c1 : Contract) (b : Bool)
    (hFrame : ∀ x, (E.processXML x).2.m_ID = x.m_ID ∧
      (E.processXML x).2.m_strRawFile = x.m_strRawFile)
    (h : ParseRawFile E c = Run.done (b, c1)) :
    c1.m_ID = c.m_ID ∧ (b = true → c1.m_strRawFile = trim c.m_strRawFile) := by
  unfold ParseRawFile at h
  split at h
  · simp only [Run.done.injEq, Prod.mk.injEq] at h
    obtain ⟨rfl, rfl⟩ := h
    exact ⟨rfl, fun h => by simp at h⟩
  · simp only at h
    split at h
    · simp at h
    · simp at h
    · rename_i bLoop s _
      split at h
      · simp only [Run.done.injEq, Prod.mk.injEq] at h
        obtain ⟨rfl, rfl⟩ := h
        exact ⟨rfl, fun h => by simp at h⟩
      · split at h
        · simp only [Run.done.injEq, Prod.mk.injEq] at h
          obtain ⟨rfl, rfl⟩ := h
          exact ⟨rfl, fun h => by simp at h⟩
        · split at h
          · simp only [Run.done.injEq, Prod.mk.injEq] at h
            obtain ⟨rfl, rfl⟩ := h
            exact ⟨rfl, fun h => by simp at h⟩
          · split at h
            · simp only [Run.done.injEq, Prod.mk.injEq] at h
              obtain ⟨rfl, rfl⟩ := h
              exact ⟨rfl, fun h => by simp at h⟩
            · simp only [Run.done.injEq] at h
              unfold LoadContractXML at h
              split at h
              · simp only [Prod.mk.injEq] at h
                obtain ⟨rfl, rfl⟩ := h
                exact ⟨rfl, fun h => by simp at h⟩
              · have hf := hFrame
                  { c with
                    m_strRawFile := trim c.m_strRawFile
                    m_xmlUnsigned := s.m_xmlUnsigned
                    m_strSigHashType := s.m_strSigHashType
                    m_listSignatures := s.m_listSignatures ++ s.pSig.toList }
                rw [h] at hf
                exact ⟨hf.1, fun _ => hf.2⟩

set_option maxRecDepth 100000 in
/-- C8 (counterexample): a fresh container, whose identifier is empty, loads
the canonical text `sampleRaw`; the load returns true, the identifier is still
empty and differs from the digest of the raw text, so `VerifyContractID`
returns false. -/
theorem load_without_identifier_check :
    (LoadContractFromString sampleEnv (Contract.create sampleEnv) sampleRaw).value?.map
      (fun r => (r.1, r.2.m_ID, decide (CalculateContractID sampleEnv r.2 = String.mk sampleRaw),
        VerifyContractID sampleEnv r.2)) =
      some (true, "", true, false) := by
  decide

/-- C8 (amended): a successful load of a container from text neither computes
nor checks the identifier: the identifier is the one the container had before
the load, the raw text stored is the trimmed decoded text, and `VerifyContractID`
afterwards returns true exactly when the identifier held before the load is
the digest of that raw text.  (The element loop is taken to leave identifier
and raw text alone.) -/
theorem LoadContractFromString_keeps_identifier (E : ContractEnv) (c c1 : Contract)
    (theStr : List Char)
    (hFrame : ∀ x, (E.processXML x).2.m_ID = x.m_ID ∧
      (E.processXML x).2.m_strRawFile = x.m_strRawFile)
    (h : LoadContractFromString E c theStr = Run.done (true, c1)) :
    c1.m_ID = c.m_ID ∧
    (∃ strContract, E.DecodeIfArmored theStr = some strContract ∧
      c1.m_strRawFile = trim strContract) ∧
    VerifyContractID E c1 = decide (c.m_ID = CalculateContractID E c1) := by
  unfold LoadContractFromString at h
  simp only at h
  split at h
  · simp at h
  · split at h
    · simp at h
    · rename_i strContract hdec
      obtain ⟨h1, h2⟩ := ParseRawFile_frame E _ c1 true hFrame h
      have hid : c1.m_ID = c.m_ID := h1
      refine ⟨hid, ⟨strContract, hdec, h2 rfl⟩, ?_⟩
      unfold VerifyContractID
      rw [hid]

set_option maxRecDepth 100000 in
/-- Witness of C8 (amended): the fresh container that loads `sampleRaw`. -/
theorem LoadContractFromString_keeps_identifier_witness :
    LoadContractFromString sampleEnv (Contract.create sampleEnv) sampleRaw =
      Run.done (true, sampleLoaded) ∧
    sampleLoaded.m_ID = (Contract.create sampleEnv).m_ID ∧
    VerifyContractID sampleEnv sampleLoaded =
      decide ((Contract.create sampleEnv).m_ID = CalculateContractID sampleEnv sampleLoaded) :=
  have h := LoadContractFromString_keeps_identifier sampleEnv (Contract.create sampleEnv)
    sampleLoaded sampleRaw (fun _ => ⟨rfl, rfl⟩) (by decide)
  ⟨by decide, h.1, h.2.2⟩

/-- C9: after every `CreateContract` call that returns true, the identifier of
the container is `CalculateContractID` of the raw text it stores, the digest of
the trimmed raw text, and `VerifyContractID` returns true. -/
theorem CreateContract_identifier (E : ContractEnv) (c c1 : Contract) (strContract : List Char)
    (theSigner : Nym) (h : CreateContract E c strContract theSigner = Run.done (true, c1)) :
    c1.m_ID = CalculateContractID E c1 ∧
    c1.m_ID = (E.CalculateDigest (trim c1.m_strRawFile)).2 ∧
    VerifyContractID E c1 = true := by
  have key : c1.m_ID = CalculateContractID E c1 := by
    unfold CreateContract at h
    simp only at h
    split at h
    · simp at h
    · split at h
      · simp at h
      · split at h
        · simp at h
        · simp at h
        · split at h
          · simp at h
          · split at h
            · simp at h
            · simp at h
            · simp only [Run.done.injEq, Prod.mk.injEq, true_and] at h
              subst h
              rfl
  exact ⟨key, key, by unfold VerifyContractID; simp [key.symm]⟩

set_option maxRecDepth 100000 in
/-- Witness of C9: `CreateContract` on the body `<a/>` returns true and leaves a
container that verifies its identifier. -/
theorem CreateContract_identifier_witness :
    CreateContract sampleEnv (Contract.create sampleEnv) "<a/>".data ⟨"me"⟩ =
      Run.done (true, sampleCreated) ∧
    sampleCreated.m_ID = CalculateContractID sampleEnv sampleCreated ∧
    VerifyContractID sampleEnv sampleCreated = true :=
  have h := CreateContract_identifier sampleEnv (Contract.create sampleEnv) sampleCreated
    "<a/>".data ⟨"me"⟩ (by decide)
  ⟨by decide, h.1, h.2.2⟩

end OpenTxs

/-! ## Theorems about the canonical text (`ParseRawFile`, `AddBookendsAroundContent`) -/

namespace OpenTxs
open Contract

set_option maxRecDepth 100000 in
/-- C7 (counterexample): two texts that `ParseRawFile` accepts and that the
serialization of what was parsed does not reproduce.  The first is canonical
except for a hash header in lower case, which comes back in upper case; the
second has one line in front of the opening bookend, which is dropped. -/
theorem AddBookends_not_inverse :
    (ParseRawFile sampleEnv
        { Contract.create sampleEnv with m_strRawFile := sampleRawLowerHash }).value?.map
      (fun r => (r.1, decide (AddBookendsAroundContent sampleEnv r.2.m_xmlUnsigned
        r.2.m_strContractType r.2.m_strSigHashType r.2.m_listSignatures =
          trim sampleRawLowerHash))) = some (true, false) ∧
    (ParseRawFile sampleEnv
        { Contract.create sampleEnv with m_strRawFile := sampleRawLeadingLine }).value?.map
      (fun r => (r.1, decide (AddBookendsAroundContent sampleEnv r.2.m_xmlUnsigned
        r.2.m_strContractType r.2.m_strSigHashType r.2.m_listSignatures =
          trim sampleRawLeadingLine))) = some (true, false) := by
  decide

/-- Reading a line that ends in a newline and fits into the buffer. -/
theorem sgetsAux_line (l : List Char) :
    ∀ (budget : Nat) (acc rest : List Char), '\n' ∉ l → l.length < budget →
    sgetsAux budget acc (l ++ '\n' :: rest) = (acc.reverse ++ l, rest, !rest.isEmpty) := by
  induction l with
  | nil =>
    intro budget acc rest _ hb
    cases budget with
    | zero => simp at hb
    | succ b => simp [sgetsAux]
  | cons c cs ih =>
    intro budget acc rest hn hb
    cases budget with
    | zero => simp at hb
    | succ b =>
      have hc : c ≠ '\n' := fun h => hn (by simp [h])
      have hcs : '\n' ∉ cs := fun h => hn (List.mem_cons_of_mem _ h)
      have h := ih b (c :: acc) rest hcs (by simp at hb; omega)
      simp only [List.cons_append, sgetsAux, if_neg hc]
      show sgetsAux b (c :: acc) (cs ++ '\n' :: rest) = _
      rw [h]
      simp

/-- Reading the last line of the text, which has no newline and fits into the buffer. -/
theorem sgetsAux_last (l : List Char) :
    ∀ (budget : Nat) (acc : List Char), '\n' ∉ l → l.length ≤ budget →
    sgetsAux budget acc l = (acc.reverse ++ l, [], false) := by
  induction l with
  | nil => intro budget acc _ _; cases budget <;> simp [sgetsAux]
  | cons c cs ih =>
    intro budget acc hn hb
    cases budget with
    | zero => simp at hb
    | succ b =>
      have hc : c ≠ '\n' := fun h => hn (by simp [h])
      have hcs : '\n' ∉ cs := fun h => hn (List.mem_cons_of_mem _ h)
      simp only [sgetsAux, if_neg hc]
      rw [ih b (c :: acc) hcs (by simp at hb; omega)]
      simp

/-- A line of at most 2046 characters followed by a newline is read whole. -/
theorem sgets_line (l rest : List Char) (hn : '\n' ∉ l) (hb : l.length < 2047) :
    sgets (l ++ '\n' :: rest) = (l, rest, !rest.isEmpty) := by
  unfold sgets
  rw [sgetsAux_line l 2047 [] rest hn hb]
  simp

/-- A last line of at most 2047 characters is read whole, and nothing is left. -/
theorem sgets_last (l : List Char) (hn : '\n' ∉ l) (hb : l.length ≤ 2047) :
    sgets l = (l, [], false) := by
  unfold sgets
  rw [sgetsAux_last l 2047 [] hn hb]
  simp

/-- What `sgets` leaves unread is no longer than the text, and shorter when it
reports more to read. -/
theorem sgetsAux_unread (u : List Char) :
    ∀ (budget : Nat) (acc : List Char),
    (sgetsAux budget acc u).2.1.length ≤ u.length ∧
    ((sgetsAux budget acc u).2.2 = true → 0 < budget →
      (sgetsAux budget acc u).2.1.length < u.length) := by
  induction u with
  | nil => intro budget acc; cases budget <;> simp [sgetsAux]
  | cons c cs ih =>
    intro budget acc
    cases budget with
    | zero => simp [sgetsAux]
    | succ b =>
      simp only [sgetsAux]
      split
      · simp
      · obtain ⟨h1, h2⟩ := ih b (c :: acc)
        refine ⟨by simp only [List.length_cons]; omega, fun hm _ => ?_⟩
        simp only [List.length_cons]
        omega

/-- The unread text after `sgets`. -/
theorem sgets_unread (u : List Char) :
    (sgets u).2.1.length ≤ u.length ∧
    ((sgets u).2.2 = true → (sgets u).2.1.length < u.length) := by
  obtain ⟨h1, h2⟩ := sgetsAux_unread u 2047 []
  exact ⟨h1, fun hm => h2 hm (by decide)⟩

end OpenTxs

namespace OpenTxs
open Contract

/-- A round that ends in `skipLine` leaves no more unread text than before. -/
theorem skipLine_next (s s1 : ParseState) (b b1 : Bool) (h : skipLine s b = ParseStep.next s1 b1) :
    s1.unread.length ≤ s.unread.length ∧ b1 = b := by
  unfold skipLine at h
  split at h
  · simp at h
  · split at h
    rename_i l u2 more hs
    split at h
    · simp only [ParseStep.next.injEq] at h
      obtain ⟨rfl, rfl⟩ := h
      have := (sgets_unread s.unread).1
      rw [hs] at this
      exact ⟨this, rfl⟩
    · simp at h

/-- A round that ends in `collectLine` leaves the unread text as it is. -/
theorem collectLine_next (s s1 : ParseState) (b b1 : Bool) (line : List Char)
    (h : collectLine s b line = ParseStep.next s1 b1) :
    s1.unread = s.unread ∧ b1 = b := by
  unfold collectLine at h
  split at h
  · split at h
    · simp at h
    · simp only [ParseStep.next.injEq] at h
      obtain ⟨rfl, rfl⟩ := h
      exact ⟨rfl, rfl⟩
  · split at h
    · simp only [ParseStep.next.injEq] at h
      obtain ⟨rfl, rfl⟩ := h
      exact ⟨rfl, rfl⟩
    · simp only [ParseStep.next.injEq] at h
      obtain ⟨rfl, rfl⟩ := h
      exact ⟨rfl, rfl⟩

/-- A round of the loop never leaves more unread text than `sgets` left, and
its flag `bIsEOF` is the negation of what `sgets` returned. -/
theorem parseStep_next (E : ContractEnv) (s s1 : ParseState) (b1 : Bool)
    (h : parseStep E s = ParseStep.next s1 b1) :
    s1.unread.length ≤ (sgets s.unread).2.1.length ∧ b1 = !(sgets s.unread).2.2 := by
  unfold parseStep at h
  generalize sgets s.unread = r at h ⊢
  obtain ⟨line, unread1, more⟩ := r
  simp only at h
  repeat' split at h
  all_goals first
    | (simp only [ParseStep.next.injEq] at h
       obtain ⟨rfl, rfl⟩ := h
       exact ⟨le_refl _, rfl⟩)
    | exact ⟨by rw [(collectLine_next _ _ _ _ _ h).1], (collectLine_next _ _ _ _ _ h).2⟩
    | exact ⟨(skipLine_next _ _ _ _ h).1, (skipLine_next _ _ _ _ h).2⟩
    | (simp at h)

end OpenTxs

namespace OpenTxs
open Contract

/-- More fuel does not change a result of the loop. -/
theorem parseLoop_mono (E : ContractEnv) (fuel : Nat) :
    ∀ (s : ParseState) (k : Nat), parseLoop E fuel s ≠ Run.outOfFuel →
    parseLoop E (fuel + k) s = parseLoop E fuel s := by
  induction fuel with
  | zero => intro s k h; simp [parseLoop] at h
  | succ f ih =>
    intro s k h
    have hk : f + 1 + k = (f + k) + 1 := by omega
    rw [hk]
    simp only [parseLoop] at h ⊢
    cases hs : parseStep E s with
    | returnFalse s1 => rfl
    | assertFailed => rfl
    | next s1 b =>
      rw [hs] at h
      simp only at h ⊢
      cases b with
      | true => rfl
      | false =>
        simp only [Bool.false_eq_true, if_false] at h ⊢
        exact ih s1 k h

/-- The loop ends within as many rounds as there are unread characters, plus one. -/
theorem parseLoop_enough (E : ContractEnv) (fuel : Nat) :
    ∀ (s : ParseState), s.unread.length < fuel → parseLoop E fuel s ≠ Run.outOfFuel := by
  induction fuel with
  | zero => intro s h; simp at h
  | succ f ih =>
    intro s h
    simp only [parseLoop]
    cases hs : parseStep E s with
    | returnFalse s1 => simp
    | assertFailed => simp
    | next s1 b =>
      simp only
      cases b with
      | true => simp
      | false =>
        simp only [Bool.false_eq_true, if_false]
        apply ih
        obtain ⟨h1, h2⟩ := parseStep_next E s s1 false hs
        have h3 := (sgets_unread s.unread).2 (by
          cases hm : (sgets s.unread).2.2 with
          | true => rfl
          | false => rw [hm] at h2; simp at h2)
        omega

/-- A result reached with some fuel is the result with the fuel `ParseRawFile` gives. -/
theorem parseLoop_of_fuel (E : ContractEnv) (n fuel : Nat) (s : ParseState)
    (r : Bool × ParseState) (h : parseLoop E n s = Run.done r) (hf : s.unread.length < fuel) :
    parseLoop E fuel s = Run.done r := by
  rcases Nat.le_total n fuel with hle | hle
  · obtain ⟨k, rfl⟩ := Nat.exists_eq_add_of_le hle
    rw [parseLoop_mono E n s k (by rw [h]; simp), h]
  · obtain ⟨k, rfl⟩ := Nat.exists_eq_add_of_le hle
    rw [← parseLoop_mono E fuel s k (parseLoop_enough E fuel s hf), h]

/-- A round that goes on is one round of the loop. -/
theorem parseLoop_next (E : ContractEnv) (fuel : Nat) (s s1 : ParseState)
    (h : parseStep E s = ParseStep.next s1 false) :
    parseLoop E (fuel + 1) s = parseLoop E fuel s1 := by
  simp [parseLoop, h]

/-- A round that ends at the end of the text ends the loop. -/
theorem parseLoop_last (E : ContractEnv) (fuel : Nat) (s s1 : ParseState)
    (h : parseStep E s = ParseStep.next s1 true) :
    parseLoop E (fuel + 1) s = Run.done (true, s1) := by
  simp [parseLoop, h]

end OpenTxs

namespace OpenTxs
open Contract

theorem startsWith_append (pre x : List Char) : startsWith pre (pre ++ x) = true := by
  induction pre with
  | nil => simp [startsWith]
  | cons p ps ih => simp [startsWith, ih]

theorem containsText_of_startsWith (needle hay : List Char) (h : startsWith needle hay = true) :
    containsText needle hay = true := by
  cases hay with
  | nil => simpa [containsText] using h
  | cons c cs => simp [containsText, h]

theorem containsText_append_left (needle a b : List Char) (h : containsText needle b = true) :
    containsText needle (a ++ b) = true := by
  induction a with
  | nil => simpa using h
  | cons c cs ih => simp [containsText, ih]

theorem charAt_zero_of_head (l : List Char) (h : (l.head? == some '-') = false) :
    charAt l 0 ≠ '-' := by
  cases l with
  | nil => simp [charAt]
  | cons c cs =>
    simp only [List.head?_cons, beq_eq_false_iff_ne, ne_eq, Option.some.injEq] at h
    simpa [charAt] using h

theorem fitsLine_iff (l : List Char) : fitsLine l = true ↔ '\n' ∉ l ∧ l.length < 2047 := by
  simp [fitsLine]

/-- Round on a body line in content mode: the line joins the body. -/
theorem parseStep_bodyLine (E : ContractEnv) (l rest xml hash : List Char)
    (sigs : List OTSignature) (hl : isBodyLine l = true) (hrest : rest ≠ []) :
    parseStep E ⟨l ++ '\n' :: rest, false, true, true, xml, hash, sigs, none⟩ =
      ParseStep.next ⟨rest, false, true, true, xml ++ l ++ ['\n'], hash, sigs, none⟩ false := by
  simp only [isBodyLine, Bool.and_eq_true, Bool.not_eq_true', fitsLine_iff] at hl
  obtain ⟨⟨⟨hn, hlen⟩, hdash⟩, hhash⟩ := hl
  have hne : rest.isEmpty = false := by cases rest <;> simp_all
  have h0 := charAt_zero_of_head l hdash
  unfold parseStep
  rw [sgets_line l rest hn hlen]
  simp only [hne, collectLine, hhash, h0]
  split <;> simp

end OpenTxs

namespace OpenTxs
open Contract

theorem startsWith_exists (pre l : List Char) (h : startsWith pre l = true) :
    ∃ x, l = pre ++ x := by
  induction pre generalizing l with
  | nil => exact ⟨l, rfl⟩
  | cons p ps ih =>
    cases l with
    | nil => simp [startsWith] at h
    | cons c cs =>
      simp only [startsWith, Bool.and_eq_true, decide_eq_true_eq] at h
      obtain ⟨x, hx⟩ := ih cs h.2
      exact ⟨x, by rw [h.1, hx]; rfl⟩

theorem isEmpty_false_of_ne (rest : List Char) (h : rest ≠ []) : rest.isEmpty = false := by
  cases rest <;> simp_all

/-- Round on the opening bookend: a line of four dashes or more that contains
`BEGIN`, read before content mode was entered, enters content mode. -/
theorem parseStep_begin (E : ContractEnv) (L rest xml hash : List Char)
    (sigs : List OTSignature) (hfit : fitsLine ('-' :: '-' :: '-' :: '-' :: L) = true)
    (hB : containsText "BEGIN".data ('-' :: '-' :: '-' :: '-' :: L) = true) (hrest : rest ≠ []) :
    parseStep E ⟨('-' :: '-' :: '-' :: '-' :: L) ++ '\n' :: rest, false, false, false, xml, hash,
        sigs, none⟩ =
      ParseStep.next ⟨rest, false, true, true, xml, hash, sigs, none⟩ false := by
  obtain ⟨hn, hlen⟩ := (fitsLine_iff _).1 hfit
  unfold parseStep
  rw [sgets_line _ rest hn hlen]
  simp [isEmpty_false_of_ne rest hrest, charAt, hB]

/-- Round on the opening bookend of a signature, outside signature mode and
after content mode was entered: signature mode begins with an empty signature. -/
theorem parseStep_sigBegin (E : ContractEnv) (L rest xml hash : List Char)
    (sigs : List OTSignature) (bContent : Bool)
    (hfit : fitsLine ('-' :: '-' :: '-' :: '-' :: L) = true)
    (hS : containsText "SIGNATURE".data ('-' :: '-' :: '-' :: '-' :: L) = true)
    (hrest : rest ≠ []) :
    parseStep E ⟨('-' :: '-' :: '-' :: '-' :: L) ++ '\n' :: rest, false, bContent, true, xml,
        hash, sigs, none⟩ =
      ParseStep.next ⟨rest, true, false, true, xml, hash, sigs, some ⟨[], none⟩⟩ false := by
  obtain ⟨hn, hlen⟩ := (fitsLine_iff _).1 hfit
  unfold parseStep
  rw [sgets_line _ rest hn hlen]
  simp [isEmpty_false_of_ne rest hrest, charAt, hS]

/-- Round on a dash line in signature mode, with more text after it: the
signature is complete. -/
theorem parseStep_sigEnd (E : ContractEnv) (L rest xml hash : List Char)
    (sigs : List OTSignature) (sig : OTSignature)
    (hfit : fitsLine ('-' :: '-' :: L) = true) (hrest : rest ≠ []) :
    parseStep E ⟨('-' :: '-' :: L) ++ '\n' :: rest, true, false, true, xml, hash, sigs,
        some sig⟩ =
      ParseStep.next ⟨rest, false, false, true, xml, hash, sigs ++ [sig], none⟩ false := by
  obtain ⟨hn, hlen⟩ := (fitsLine_iff _).1 hfit
  unfold parseStep
  rw [sgets_line _ rest hn hlen]
  simp [isEmpty_false_of_ne rest hrest, charAt]

/-- Round on a dash line in signature mode that is the last line of the text. -/
theorem parseStep_sigEnd_last (E : ContractEnv) (L xml hash : List Char)
    (sigs : List OTSignature) (sig : OTSignature)
    (hfit : fitsLine ('-' :: '-' :: L) = true) :
    parseStep E ⟨'-' :: '-' :: L, true, false, true, xml, hash, sigs, some sig⟩ =
      ParseStep.next ⟨[], false, false, true, xml, hash, sigs ++ [sig], none⟩ true := by
  obtain ⟨hn, hlen⟩ := (fitsLine_iff _).1 hfit
  unfold parseStep
  rw [sgets_last _ hn (by omega)]
  simp [charAt]

/-- Round on a `Version:` or `Comment:` line in signature mode: the line and
the line after it are dropped. -/
theorem parseStep_version (E : ContractEnv) (L L2 rest xml hash : List Char)
    (sigs : List OTSignature) (sig : OTSignature)
    (hfit : fitsLine L = true) (hfit2 : fitsLine L2 = true)
    (hV : startsWith "Version:".data L = true ∨ startsWith "Comment:".data L = true)
    (hrest : rest ≠ []) :
    parseStep E ⟨L ++ '\n' :: (L2 ++ '\n' :: rest), true, false, true, xml, hash, sigs,
        some sig⟩ =
      ParseStep.next ⟨rest, true, false, true, xml, hash, sigs, some sig⟩ false := by
  obtain ⟨hn, hlen⟩ := (fitsLine_iff _).1 hfit
  obtain ⟨hn2, hlen2⟩ := (fitsLine_iff _).1 hfit2
  have h2 : 2 ≤ L.length ∧ charAt L 0 ≠ '-' := by
    rcases hV with h | h
    · obtain ⟨x, rfl⟩ := startsWith_exists _ _ h
      exact ⟨by simp, by simp [charAt]⟩
    · obtain ⟨x, rfl⟩ := startsWith_exists _ _ h
      exact ⟨by simp, by simp [charAt]⟩
  unfold parseStep
  rw [sgets_line _ _ hn hlen]
  have hlt : ¬ L.length < 2 := by omega
  simp only [hlt, if_false, h2.2, Bool.true_and]
  rcases hV with h | h
  · simp only [h, if_true, skipLine, Bool.false_eq_true, if_false]
    rw [sgets_line _ _ hn2 hlen2]
    simp [isEmpty_false_of_ne rest hrest]
  · simp only [h, if_true, skipLine, Bool.false_eq_true, if_false]
    rw [sgets_line _ _ hn2 hlen2]
    simp [isEmpty_false_of_ne rest hrest]

end OpenTxs

namespace OpenTxs
open Contract

/-- Round on an empty line in signature mode: nothing changes. -/
theorem parseStep_blankSig (E : ContractEnv) (rest xml hash : List Char)
    (sigs : List OTSignature) (sig : OTSignature) (hrest : rest ≠ []) :
    parseStep E ⟨'\n' :: rest, true, false, true, xml, hash, sigs, some sig⟩ =
      ParseStep.next ⟨rest, true, false, true, xml, hash, sigs, some sig⟩ false := by
  have h := sgets_line [] rest (by simp) (by simp)
  simp only [List.nil_append] at h
  unfold parseStep
  rw [h]
  simp [isEmpty_false_of_ne rest hrest]

/-- Round on an empty line between two signatures: nothing changes. -/
theorem parseStep_blankOutside (E : ContractEnv) (rest xml hash : List Char)
    (sigs : List OTSignature) (hrest : rest ≠ []) :
    parseStep E ⟨'\n' :: rest, false, false, true, xml, hash, sigs, none⟩ =
      ParseStep.next ⟨rest, false, false, true, xml, hash, sigs, none⟩ false := by
  have h := sgets_line [] rest (by simp) (by simp)
  simp only [List.nil_append] at h
  unfold parseStep
  rw [h]
  simp [isEmpty_false_of_ne rest hrest, collectLine]

/-- Round on a payload line in signature mode: the line joins the signature. -/
theorem parseStep_payloadLine (E : ContractEnv) (l rest xml hash : List Char)
    (sigs : List OTSignature) (sig : OTSignature) (hl : isPayloadLine l = true)
    (hrest : rest ≠ []) :
    parseStep E ⟨l ++ '\n' :: rest, true, false, true, xml, hash, sigs, some sig⟩ =
      ParseStep.next ⟨rest, true, false, true, xml, hash, sigs,
        some { sig with payload := sig.payload ++ l ++ ['\n'] }⟩ false := by
  simp only [isPayloadLine, Bool.and_eq_true, Bool.not_eq_true', fitsLine_iff,
    decide_eq_true_eq] at hl
  obtain ⟨⟨⟨⟨⟨⟨hn, hlen⟩, h2⟩, hdash⟩, hV⟩, hC⟩, hM⟩ := hl
  have h0 := charAt_zero_of_head l hdash
  have hlt : ¬ l.length < 2 := by omega
  unfold parseStep
  rw [sgets_line l rest hn hlen]
  simp [isEmpty_false_of_ne rest hrest, collectLine, hV, hC, hM, h0, hlt]

/-- Round on the `Meta:` line in signature mode: the metadata is set, and the
line after it is dropped. -/
theorem parseStep_meta (E : ContractEnv) (m : OTSignatureMetadata) (L2 rest xml hash : List Char)
    (sigs : List OTSignature) (sig : OTSignature)
    (hm : isGoodMetadata E m = true) (hfit2 : fitsLine L2 = true) (hrest : rest ≠ []) :
    parseStep E ⟨("Meta:    ".data ++
          [m.metaKeyType, m.metaNymID, m.metaMasterCredID, m.metaChildCredID]) ++
        '\n' :: (L2 ++ '\n' :: rest), true, false, true, xml, hash, sigs, some sig⟩ =
      ParseStep.next ⟨rest, true, false, true, xml, hash, sigs,
        some { sig with metaData := some m }⟩ false := by
  obtain ⟨hn2, hlen2⟩ := (fitsLine_iff _).1 hfit2
  simp only [isGoodMetadata, Bool.and_eq_true, Bool.not_eq_true', beq_eq_false_iff_ne,
    ne_eq] at hm
  obtain ⟨⟨⟨⟨hset, hk⟩, hny⟩, hmc⟩, hcc⟩ := hm
  have hL : "Meta:    ".data ++ [m.metaKeyType, m.metaNymID, m.metaMasterCredID,
      m.metaChildCredID] = ['M', 'e', 't', 'a', ':', ' ', ' ', ' ', ' ', m.metaKeyType,
        m.metaNymID, m.metaMasterCredID, m.metaChildCredID] := rfl
  rw [hL]
  have hn : '\n' ∉ ['M', 'e', 't', 'a', ':', ' ', ' ', ' ', ' ', m.metaKeyType,
        m.metaNymID, m.metaMasterCredID, m.metaChildCredID] := by
    simp only [List.mem_cons, List.mem_singleton, List.not_mem_nil, not_or]
    refine ⟨by decide, by decide, by decide, by decide, by decide, by decide, by decide,
      by decide, by decide, fun h => hk h.symm, fun h => hny h.symm, fun h => hmc h.symm,
      fun h => hcc h.symm, not_false⟩
  unfold parseStep
  rw [sgets_line _ _ hn (by simp)]
  simp only [List.length_cons, List.length_nil, charAt, List.getD_cons_zero, List.getD_cons_succ]
  simp only [skipLine, startsWith, hset]
  rw [sgets_line _ _ hn2 hlen2]
  obtain ⟨k, n, mc, cc⟩ := m
  simp [isEmpty_false_of_ne rest hrest]

/-- Round on the `Hash: ` line in content mode: the hash name is stored in
upper case, and the line after it is dropped. -/
theorem parseStep_hash (E : ContractEnv) (strHashType L2 rest xml hash : List Char)
    (sigs : List OTSignature)
    (hfit : fitsLine ("Hash: ".data ++ strHashType) = true) (hfit2 : fitsLine L2 = true)
    (hrest : rest ≠ []) :
    parseStep E ⟨("Hash: ".data ++ strHashType) ++ '\n' :: (L2 ++ '\n' :: rest), false, true,
        true, xml, hash, sigs, none⟩ =
      ParseStep.next ⟨rest, false, true, true, xml, strHashType.map Char.toUpper, sigs, none⟩
        false := by
  obtain ⟨hn, hlen⟩ := (fitsLine_iff _).1 hfit
  obtain ⟨hn2, hlen2⟩ := (fitsLine_iff _).1 hfit2
  unfold parseStep
  rw [sgets_line _ _ hn hlen]
  have hs : startsWith "Hash: ".data ("Hash: ".data ++ strHashType) = true :=
    startsWith_append _ _
  have hd : ("Hash: ".data ++ strHashType).drop 6 = strHashType := rfl
  have h0 : charAt ("Hash: ".data ++ strHashType) 0 ≠ '-' := by simp [charAt]
  have hlt : ¬ ("Hash: ".data ++ strHashType).length < 2 := by simp
  simp only [hlt, if_false, h0, Bool.false_and, Bool.true_and, hs, if_true, skipLine, hd]
  rw [sgets_line _ _ hn2 hlen2]
  simp [isEmpty_false_of_ne rest hrest]

end OpenTxs

namespace OpenTxs
open Contract

theorem Reaches.refl (E : ContractEnv) (s : ParseState) : Reaches E s s :=
  ⟨0, fun _ => rfl⟩

theorem Reaches.trans {E : ContractEnv} {s s1 s2 : ParseState} (h1 : Reaches E s s1)
    (h2 : Reaches E s1 s2) : Reaches E s s2 := by
  obtain ⟨n1, h1⟩ := h1
  obtain ⟨n2, h2⟩ := h2
  refine ⟨n2 + n1, fun fuel => ?_⟩
  rw [← Nat.add_assoc, h1, h2]

theorem Reaches.of_step {E : ContractEnv} {s s1 : ParseState}
    (h : parseStep E s = ParseStep.next s1 false) : Reaches E s s1 :=
  ⟨1, fun fuel => parseLoop_next E fuel s s1 h⟩

theorem Reaches.finishes {E : ContractEnv} {s s1 : ParseState} {r : Bool × ParseState}
    (h1 : Reaches E s s1) (h2 : Finishes E s1 r) : Finishes E s r := by
  obtain ⟨n1, h1⟩ := h1
  obtain ⟨n2, h2⟩ := h2
  exact ⟨n2 + n1, by rw [h1, h2]⟩

theorem Finishes.of_last_step {E : ContractEnv} {s s1 : ParseState}
    (h : parseStep E s = ParseStep.next s1 true) : Finishes E s (true, s1) :=
  ⟨1, parseLoop_last E 0 s s1 h⟩

theorem unlines_cons (l : List Char) (ls : List (List Char)) :
    unlines (l :: ls) = l ++ '\n' :: unlines ls := by
  simp [unlines]

theorem unlines_nil : unlines [] = [] := rfl

/-- The body lines in content mode: they join the body, in order. -/
theorem Reaches_bodyLines (E : ContractEnv) (ls : List (List Char)) (rest hash : List Char)
    (sigs : List OTSignature) (hrest : rest ≠ []) :
    (∀ l ∈ ls, isBodyLine l = true) → ∀ xml,
    Reaches E ⟨unlines ls ++ rest, false, true, true, xml, hash, sigs, none⟩
      ⟨rest, false, true, true, xml ++ unlines ls, hash, sigs, none⟩ := by
  induction ls with
  | nil => intro _ xml; simpa [unlines_nil] using Reaches.refl E _
  | cons l ls ih =>
    intro h xml
    have hstep := parseStep_bodyLine E l (unlines ls ++ rest) xml hash sigs
      (h l (List.mem_cons_self _ _)) (by simp [hrest])
    have h1 := Reaches.of_step hstep
    have h2 := ih (fun x hx => h x (List.mem_cons_of_mem _ hx)) (xml ++ l ++ ['\n'])
    have := h1.trans h2
    simpa [unlines_cons, List.append_assoc] using this

/-- The payload lines in signature mode: they join the signature, in order. -/
theorem Reaches_payloadLines (E : ContractEnv) (ls : List (List Char)) (rest xml hash : List Char)
    (sigs : List OTSignature) (m : Option OTSignatureMetadata) (hrest : rest ≠ []) :
    (∀ l ∈ ls, isPayloadLine l = true) → ∀ p,
    Reaches E ⟨unlines ls ++ rest, true, false, true, xml, hash, sigs, some ⟨p, m⟩⟩
      ⟨rest, true, false, true, xml, hash, sigs, some ⟨p ++ unlines ls, m⟩⟩ := by
  induction ls with
  | nil => intro _ p; simpa [unlines_nil] using Reaches.refl E _
  | cons l ls ih =>
    intro h p
    have hstep := parseStep_payloadLine E l (unlines ls ++ rest) xml hash sigs ⟨p, m⟩
      (h l (List.mem_cons_self _ _)) (by simp [hrest])
    have h1 := Reaches.of_step hstep
    have h2 := ih (fun x hx => h x (List.mem_cons_of_mem _ hx)) (p ++ l ++ ['\n'])
    have := h1.trans h2
    simpa [unlines_cons, List.append_assoc] using this

end OpenTxs

namespace OpenTxs
open Contract

theorem not_mem_of_contains_false (l : List Char) (h : l.contains '\n' = false) : '\n' ∉ l := by
  intro hm
  have : l.contains '\n' = true := by simpa using hm
  rw [h] at this
  exact Bool.noConfusion this

theorem isLabel_iff (l : List Char) : isLabel l = true ↔ '\n' ∉ l ∧ l.length ≤ 1900 := by
  simp [isLabel]

/-- The opening bookend of a signature fits the buffer and names `SIGNATURE`. -/
theorem sigBegin_line (strContractType : List Char) (ht : isLabel strContractType = true) :
    fitsLine ('-' :: '-' :: '-' :: '-' :: ("-BEGIN ".data ++ strContractType ++
      " SIGNATURE-----".data)) = true ∧
    containsText "SIGNATURE".data ('-' :: '-' :: '-' :: '-' :: ("-BEGIN ".data ++
      strContractType ++ " SIGNATURE-----".data)) = true := by
  obtain ⟨hn, hlen⟩ := (isLabel_iff _).1 ht
  constructor
  · rw [fitsLine_iff]
    constructor
    · simp only [List.mem_cons, List.mem_append, not_or]
      refine ⟨by decide, by decide, by decide, by decide, ⟨by decide, hn⟩, by decide⟩
    · simp only [List.length_cons, List.length_append, List.length_nil]
      omega
  · have h : ('-' :: '-' :: '-' :: '-' :: ("-BEGIN ".data ++ strContractType ++
        " SIGNATURE-----".data)) =
        ('-' :: '-' :: '-' :: '-' :: ("-BEGIN ".data ++ strContractType)) ++
          " SIGNATURE-----".data := by simp
    rw [h]
    exact containsText_append_left _ _ _ (by decide)

/-- The closing bookend of a signature fits the buffer. -/
theorem sigEnd_line (strContractType : List Char) (ht : isLabel strContractType = true) :
    fitsLine ('-' :: '-' :: ("---END ".data ++ strContractType ++ " SIGNATURE-----".data)) =
      true := by
  obtain ⟨hn, hlen⟩ := (isLabel_iff _).1 ht
  rw [fitsLine_iff]
  constructor
  · simp only [List.mem_cons, List.mem_append, not_or]
    refine ⟨by decide, by decide, ⟨by decide, hn⟩, by decide⟩
  · simp only [List.length_cons, List.length_append, List.length_nil]
    omega

/-- The `Version:` line fits the buffer. -/
theorem version_line (E : ContractEnv) (hv : isLabel E.Version = true) :
    fitsLine ("Version: Open Transactions ".data ++ E.Version) = true := by
  obtain ⟨hn, hlen⟩ := (isLabel_iff _).1 hv
  rw [fitsLine_iff]
  constructor
  · simp only [List.mem_append, not_or]
    exact ⟨by decide, hn⟩
  · simp only [List.length_cons, List.length_append, List.length_nil]
    omega

/-- The block of a signature, line by line. -/
theorem signatureBlockCore_lines (E : ContractEnv) (strContractType : List Char)
    (ls : List (List Char)) (m : Option OTSignatureMetadata) (tail : List Char) :
    signatureBlockCore E strContractType (signatureOfLines ls m) ++ tail =
      ('-' :: '-' :: '-' :: '-' :: ("-BEGIN ".data ++ strContractType ++
          " SIGNATURE-----".data)) ++ '\n' ::
        (("Version: Open Transactions ".data ++ E.Version) ++ '\n' ::
          ("Comment: http://github.com/FellowTraveler/Open-Transactions/wiki".data ++ '\n' ::
            ((match m with
              | some m => ("Meta:    ".data ++ [m.metaKeyType, m.metaNymID, m.metaMasterCredID,
                  m.metaChildCredID]) ++ ['\n']
              | none => []) ++ '\n' ::
              (unlines ls ++
                (('-' :: '-' :: ("---END ".data ++ strContractType ++ " SIGNATURE-----".data)) ++
                  tail))))) := by
  have e1 : " SIGNATURE-----\n".data = " SIGNATURE-----".data ++ ['\n'] := rfl
  have e2 : "Comment: http://github.com/FellowTraveler/Open-Transactions/wiki\n".data =
      "Comment: http://github.com/FellowTraveler/Open-Transactions/wiki".data ++ ['\n'] := rfl
  have e3 : "-----BEGIN ".data = '-' :: '-' :: '-' :: '-' :: "-BEGIN ".data := rfl
  have e4 : "-----END ".data = '-' :: '-' :: "---END ".data := rfl
  have e5 : "\n".data = ['\n'] := rfl
  unfold signatureBlockCore signatureOfLines
  rw [e1, e2, e3, e4, e5]
  cases m <;> simp [List.append_assoc]

end OpenTxs

namespace OpenTxs
open Contract

theorem comment_line :
    fitsLine "Comment: http://github.com/FellowTraveler/Open-Transactions/wiki".data = true := by
  decide

theorem isGoodSignature_iff (E : ContractEnv) (ls : List (List Char))
    (m : Option OTSignatureMetadata) :
    isGoodSignature E (ls, m) = true ↔
      (∀ l ∈ ls, isPayloadLine l = true) ∧ ∀ x, m = some x → isGoodMetadata E x = true := by
  unfold isGoodSignature
  cases m <;> simp

/-- The block of a signature up to its closing bookend: signature mode is
entered, the version and comment lines are dropped, the metadata is read, and
the payload lines are collected. -/
theorem Reaches_sigHead (E : ContractEnv) (strContractType : List Char)
    (ls : List (List Char)) (m : Option OTSignatureMetadata) (tail xml hash : List Char)
    (sigs : List OTSignature) (bContent : Bool)
    (ht : isLabel strContractType = true) (hv : isLabel E.Version = true)
    (hs : isGoodSignature E (ls, m) = true) :
    Reaches E
      ⟨signatureBlockCore E strContractType (signatureOfLines ls m) ++ tail, false, bContent,
        true, xml, hash, sigs, none⟩
      ⟨('-' :: '-' :: ("---END ".data ++ strContractType ++ " SIGNATURE-----".data)) ++ tail,
        true, false, true, xml, hash, sigs, some (signatureOfLines ls m)⟩ := by
  obtain ⟨hls, hm⟩ := (isGoodSignature_iff E ls m).1 hs
  rw [signatureBlockCore_lines]
  obtain ⟨hb1, hb2⟩ := sigBegin_line strContractType ht
  have hend : unlines ls ++
      (('-' :: '-' :: ("---END ".data ++ strContractType ++ " SIGNATURE-----".data)) ++ tail)
      ≠ [] := by simp
  clear hs
  cases m with
  | none =>
    simp only [List.nil_append]
    refine (Reaches.of_step (parseStep_sigBegin E _ _ xml hash sigs bContent hb1 hb2
      (by simp))).trans ?_
    refine (Reaches.of_step (parseStep_version E _ _ _ xml hash sigs ⟨[], none⟩
      (version_line E hv) comment_line (Or.inl (startsWith_append _ _)) (by simp))).trans ?_
    refine (Reaches.of_step (parseStep_blankSig E _ xml hash sigs ⟨[], none⟩ hend)).trans ?_
    have r4 := Reaches_payloadLines E ls
      (('-' :: '-' :: ("---END ".data ++ strContractType ++ " SIGNATURE-----".data)) ++ tail)
      xml hash sigs none (by simp) hls []
    simpa [signatureOfLines] using r4
  | some x =>
    have hx := hm x rfl
    clear hm
    simp only [List.append_assoc, List.singleton_append]
    refine (Reaches.of_step (parseStep_sigBegin E _ _ xml hash sigs bContent hb1 hb2
      (by simp))).trans ?_
    refine (Reaches.of_step (parseStep_version E _ _ _ xml hash sigs ⟨[], none⟩
      (version_line E hv) comment_line (Or.inl (startsWith_append _ _)) (by simp))).trans ?_
    have r3 := Reaches.of_step (parseStep_meta E x [] _ xml hash sigs ⟨[], none⟩
      hx (by decide) hend)
    simp only [List.append_assoc, List.singleton_append, List.nil_append] at r3
    refine r3.trans ?_
    have r4 := Reaches_payloadLines E ls
      (('-' :: '-' :: ("---END ".data ++ strContractType ++ " SIGNATURE-----".data)) ++ tail)
      xml hash sigs (some x) (by simp) hls []
    simpa [signatureOfLines] using r4

/-- A whole block of a signature followed by more text: the signature joins the list. -/
theorem Reaches_sigBlock (E : ContractEnv) (strContractType : List Char)
    (ls : List (List Char)) (m : Option OTSignatureMetadata) (rest xml hash : List Char)
    (sigs : List OTSignature) (bContent : Bool)
    (ht : isLabel strContractType = true) (hv : isLabel E.Version = true)
    (hs : isGoodSignature E (ls, m) = true) (hrest : rest ≠ []) :
    Reaches E
      ⟨signatureBlock E strContractType (signatureOfLines ls m) ++ rest, false, bContent,
        true, xml, hash, sigs, none⟩
      ⟨rest, false, false, true, xml, hash, sigs ++ [signatureOfLines ls m], none⟩ := by
  have hblock : signatureBlock E strContractType (signatureOfLines ls m) ++ rest =
      signatureBlockCore E strContractType (signatureOfLines ls m) ++ ('\n' :: '\n' :: rest) := by
    have e : " SIGNATURE-----\n\n".data = " SIGNATURE-----".data ++ ['\n', '\n'] := rfl
    unfold signatureBlock signatureBlockCore
    rw [e]
    simp [List.append_assoc]
  rw [hblock]
  refine (Reaches_sigHead E strContractType ls m _ xml hash sigs bContent ht hv hs).trans ?_
  have r1 := Reaches.of_step (parseStep_sigEnd E _ ('\n' :: rest) xml hash sigs
    (signatureOfLines ls m) (sigEnd_line strContractType ht) (by simp))
  refine r1.trans ?_
  exact Reaches.of_step (parseStep_blankOutside E rest xml hash _ hrest)

/-- The block of the last signature, without the two newlines that trimming
removed: the loop ends with the signature on the list. -/
theorem Finishes_sigBlock (E : ContractEnv) (strContractType : List Char)
    (ls : List (List Char)) (m : Option OTSignatureMetadata) (xml hash : List Char)
    (sigs : List OTSignature) (bContent : Bool)
    (ht : isLabel strContractType = true) (hv : isLabel E.Version = true)
    (hs : isGoodSignature E (ls, m) = true) :
    Finishes E
      ⟨signatureBlockCore E strContractType (signatureOfLines ls m), false, bContent,
        true, xml, hash, sigs, none⟩
      (true, ⟨[], false, false, true, xml, hash, sigs ++ [signatureOfLines ls m], none⟩) := by
  have h := Reaches_sigHead E strContractType ls m [] xml hash sigs bContent ht hv hs
  simp only [List.append_nil] at h
  refine h.finishes ?_
  exact Finishes.of_last_step (parseStep_sigEnd_last E _ xml hash sigs (signatureOfLines ls m)
    (sigEnd_line strContractType ht))

end OpenTxs

namespace OpenTxs
open Contract

theorem dropWhile_append_all (p : Char → Bool) (l1 l2 : List Char) (h : ∀ c ∈ l1, p c = true) :
    (l1 ++ l2).dropWhile p = l2.dropWhile p := by
  induction l1 with
  | nil => rfl
  | cons c cs ih =>
    simp only [List.cons_append, List.dropWhile_cons, h c (List.mem_cons_self _ _), if_true]
    exact ih (fun x hx => h x (List.mem_cons_of_mem _ hx))

/-- Trimming a text that starts and ends with characters that are not
whitespace, followed by whitespace, gives the text. -/
theorem trim_append_whitespace (a z : Char) (mid ws : List Char)
    (ha : isWhitespace a = false) (hz : isWhitespace z = false)
    (hws : ∀ c ∈ ws, isWhitespace c = true) :
    trim (a :: (mid ++ [z]) ++ ws) = a :: (mid ++ [z]) := by
  unfold trim
  have h1 : (a :: (mid ++ [z]) ++ ws).dropWhile isWhitespace = a :: (mid ++ [z]) ++ ws := by
    simp [List.dropWhile_cons, ha]
  rw [h1]
  have h2 : (a :: (mid ++ [z]) ++ ws).reverse = ws.reverse ++ (z :: (a :: mid).reverse) := by
    simp
  rw [h2, dropWhile_append_all _ _ _ (fun c hc => hws c (List.mem_reverse.1 hc))]
  simp [List.dropWhile_cons, hz]

end OpenTxs

namespace OpenTxs
open Contract

/-- The blocks of a run of signatures, each followed by more text: the
signatures join the list, in order. -/
theorem Reaches_sigBlocks (E : ContractEnv) (strContractType : List Char)
    (specs : List (List (List Char) × Option OTSignatureMetadata)) (rest xml hash : List Char)
    (ht : isLabel strContractType = true) (hv : isLabel E.Version = true) (hrest : rest ≠ []) :
    (∀ x ∈ specs, isGoodSignature E x = true) → ∀ (sigs : List OTSignature) (bContent : Bool),
    ∃ b, Reaches E
      ⟨((specs.map (fun x => signatureOfLines x.1 x.2)).map
          (signatureBlock E strContractType)).flatten ++ rest,
        false, bContent, true, xml, hash, sigs, none⟩
      ⟨rest, false, b, true, xml, hash,
        sigs ++ specs.map (fun x => signatureOfLines x.1 x.2), none⟩ := by
  induction specs with
  | nil => intro _ sigs bContent; exact ⟨bContent, by simpa using Reaches.refl E _⟩
  | cons x xs ih =>
    intro h sigs bContent
    obtain ⟨b, hb⟩ := ih (fun y hy => h y (List.mem_cons_of_mem _ hy))
      (sigs ++ [signatureOfLines x.1 x.2]) false
    refine ⟨b, ?_⟩
    have h1 := Reaches_sigBlock E strContractType x.1 x.2
      (((xs.map (fun x => signatureOfLines x.1 x.2)).map
          (signatureBlock E strContractType)).flatten ++ rest) xml hash sigs bContent ht hv
      (h x (List.mem_cons_self _ _)) (by simp [hrest])
    have := h1.trans hb
    simpa [List.append_assoc] using this

/-- Trimming a text `Y` followed by whitespace gives `Y`, when `Y` starts and
ends with characters that are not whitespace. -/
theorem trim_of_shape (X Y ws t i : List Char) (a z : Char) (hX : X = Y ++ ws)
    (hhead : Y = a :: t) (hlast : Y = i ++ [z])
    (ha : isWhitespace a = false) (hz : isWhitespace z = false)
    (hws : ∀ c ∈ ws, isWhitespace c = true) : trim X = Y := by
  subst hX
  cases i with
  | nil =>
    simp only [List.nil_append] at hlast
    subst hlast
    simp only [List.cons.injEq] at hhead
    obtain ⟨rfl, rfl⟩ := hhead
    unfold trim
    have h1 : ([z] ++ ws).dropWhile isWhitespace = [z] ++ ws := by
      simp [List.dropWhile_cons, hz]
    have h2 : ([z] ++ ws).reverse = ws.reverse ++ [z] := by simp
    rw [h1, h2, dropWhile_append_all _ _ _ (fun c hc => hws c (List.mem_reverse.1 hc))]
    simp [List.dropWhile_cons, hz]
  | cons b i =>
    rw [hlast] at hhead
    simp only [List.cons_append, List.cons.injEq] at hhead
    obtain ⟨rfl, rfl⟩ := hhead
    rw [hlast]
    exact trim_append_whitespace b z i ws ha hz hws

/-- The text that `AddBookendsAroundContent` writes for a body made of lines
and a non-empty list of signatures made of lines, line by line: the trimming
removes the two newlines after the last closing bookend. -/
theorem AddBookends_lines (E : ContractEnv) (strContractType strHashType : List Char)
    (bodyLines : List (List Char))
    (init : List (List (List Char) × Option OTSignatureMetadata))
    (last : List (List Char) × Option OTSignatureMetadata) :
    AddBookendsAroundContent E (unlines bodyLines) strContractType strHashType
        ((init ++ [last]).map (fun x => signatureOfLines x.1 x.2)) =
      ('-' :: '-' :: '-' :: '-' :: ("-BEGIN SIGNED ".data ++ strContractType ++ "-----".data)) ++
        '\n' :: (("Hash: ".data ++ strHashType) ++ '\n' :: ([] ++ '\n' ::
          (unlines bodyLines ++
            (((init.map (fun x => signatureOfLines x.1 x.2)).map
                (signatureBlock E strContractType)).flatten ++
              signatureBlockCore E strContractType (signatureOfLines last.1 last.2))))) := by
  have e4 : " SIGNATURE-----\n\n".data = " SIGNATURE-----".data ++ ['\n', '\n'] := rfl
  have e5 : " SIGNATURE-----".data = " SIGNATURE----".data ++ ['-'] := rfl
  have hblock : signatureBlock E strContractType (signatureOfLines last.1 last.2) =
      signatureBlockCore E strContractType (signatureOfLines last.1 last.2) ++ ['\n', '\n'] := by
    unfold signatureBlock signatureBlockCore
    rw [e4]
    simp only [List.append_assoc]
  obtain ⟨core, hcore⟩ : ∃ core, signatureBlockCore E strContractType
      (signatureOfLines last.1 last.2) = core ++ ['-'] := by
    unfold signatureBlockCore
    rw [e5]
    exact ⟨_, (List.append_assoc _ _ _).symm⟩
  unfold AddBookendsAroundContent
  rw [List.map_append, List.map_append, List.flatten_append]
  have hl : (List.map (signatureBlock E strContractType)
      (List.map (fun x => signatureOfLines x.1 x.2) [last])).flatten =
      signatureBlockCore E strContractType (signatureOfLines last.1 last.2) ++ ['\n', '\n'] := by
    simp [hblock]
  rw [hl]
  generalize hB : ((init.map (fun x => signatureOfLines x.1 x.2)).map
    (signatureBlock E strContractType)).flatten = blocks
  refine trim_of_shape _ _ ['\n', '\n'] _
    (('-' :: '-' :: '-' :: '-' :: ("-BEGIN SIGNED ".data ++ strContractType ++ "-----".data)) ++
        '\n' :: (("Hash: ".data ++ strHashType) ++ '\n' :: ([] ++ '\n' ::
          (unlines bodyLines ++ (blocks ++ core))))) '-' '-' ?_ rfl ?_ (by decide) (by decide)
    (by decide)
  · have e1 : "-----BEGIN SIGNED ".data = '-' :: '-' :: '-' :: '-' :: "-BEGIN SIGNED ".data := rfl
    have e2 : "-----\nHash: ".data = "-----".data ++ '\n' :: "Hash: ".data := rfl
    have e3 : "\n\n".data = ['\n', '\n'] := rfl
    rw [e1, e2, e3]
    simp only [List.append_assoc, List.cons_append, List.nil_append]
  · rw [hcore]
    simp only [List.append_assoc, List.cons_append, List.nil_append]

end OpenTxs

namespace OpenTxs
open Contract

/-- The opening bookend fits the buffer and names `BEGIN`. -/
theorem begin_line (strContractType : List Char) (ht : isLabel strContractType = true) :
    fitsLine ('-' :: '-' :: '-' :: '-' :: ("-BEGIN SIGNED ".data ++ strContractType ++
      "-----".data)) = true ∧
    containsText "BEGIN".data ('-' :: '-' :: '-' :: '-' :: ("-BEGIN SIGNED ".data ++
      strContractType ++ "-----".data)) = true := by
  obtain ⟨hn, hlen⟩ := (isLabel_iff _).1 ht
  constructor
  · rw [fitsLine_iff]
    constructor
    · simp only [List.mem_cons, List.mem_append, not_or]
      refine ⟨by decide, by decide, by decide, by decide, ⟨by decide, hn⟩, by decide⟩
    · simp only [List.length_cons, List.length_append, List.length_nil]
      omega
  · simp [containsText, startsWith]

/-- The `Hash: ` line fits the buffer. -/
theorem hash_line (strHashType : List Char) (hh : isLabel strHashType = true) :
    fitsLine ("Hash: ".data ++ strHashType) = true := by
  obtain ⟨hn, hlen⟩ := (isLabel_iff _).1 hh
  rw [fitsLine_iff]
  constructor
  · simp only [List.mem_append, not_or]
    exact ⟨by decide, hn⟩
  · simp only [List.length_cons, List.length_append, List.length_nil]
    omega

theorem signatureBlockCore_ne_nil (E : ContractEnv) (strContractType : List Char)
    (pSig : OTSignature) : signatureBlockCore E strContractType pSig ≠ [] := by
  have e : "-----BEGIN ".data = '-' :: "----BEGIN ".data := rfl
  unfold signatureBlockCore
  rw [e]
  simp

/-- The loop of `ParseRawFile` over the canonical text of a well-formed body,
hash name and non-empty list of signatures ends at the end of the text, with
the body, the hash name in upper case and the signatures collected. -/
theorem Finishes_canonical (E : ContractEnv) (strContractType strHashType : List Char)
    (bodyLines : List (List Char))
    (init : List (List (List Char) × Option OTSignatureMetadata))
    (last : List (List Char) × Option OTSignatureMetadata)
    (xml0 hash0 : List Char) (sigs0 : List OTSignature)
    (ht : isLabel strContractType = true) (hh : isLabel strHashType = true)
    (hv : isLabel E.Version = true)
    (hbody : ∀ l ∈ bodyLines, isBodyLine l = true)
    (hsigs : ∀ x ∈ init ++ [last], isGoodSignature E x = true) :
    Finishes E
      ⟨AddBookendsAroundContent E (unlines bodyLines) strContractType strHashType
          ((init ++ [last]).map (fun x => signatureOfLines x.1 x.2)),
        false, false, false, xml0, hash0, sigs0, none⟩
      (true, ⟨[], false, false, true, xml0 ++ unlines bodyLines,
        strHashType.map Char.toUpper,
        sigs0 ++ (init ++ [last]).map (fun x => signatureOfLines x.1 x.2), none⟩) := by
  rw [AddBookends_lines]
  obtain ⟨hb1, hb2⟩ := begin_line strContractType ht
  have hcore := signatureBlockCore_ne_nil E strContractType (signatureOfLines last.1 last.2)
  have hinit : ∀ x ∈ init, isGoodSignature E x = true :=
    fun x hx => hsigs x (List.mem_append_left _ hx)
  have hlast : isGoodSignature E (last.1, last.2) = true :=
    hsigs last (List.mem_append_right _ (List.mem_singleton_self _))
  have s1 := Reaches.of_step (parseStep_begin E
    ("-BEGIN SIGNED ".data ++ strContractType ++ "-----".data)
    (("Hash: ".data ++ strHashType) ++ '\n' :: ([] ++ '\n' ::
      (unlines bodyLines ++
        (((init.map (fun x => signatureOfLines x.1 x.2)).map
            (signatureBlock E strContractType)).flatten ++
          signatureBlockCore E strContractType (signatureOfLines last.1 last.2)))))
    xml0 hash0 sigs0 hb1 hb2 (by simp))
  have s2 := Reaches.of_step (parseStep_hash E strHashType []
    (unlines bodyLines ++
      (((init.map (fun x => signatureOfLines x.1 x.2)).map
          (signatureBlock E strContractType)).flatten ++
        signatureBlockCore E strContractType (signatureOfLines last.1 last.2)))
    xml0 hash0 sigs0 (hash_line strHashType hh) (by decide) (by simp [hcore]))
  have s3 := Reaches_bodyLines E bodyLines
    (((init.map (fun x => signatureOfLines x.1 x.2)).map
        (signatureBlock E strContractType)).flatten ++
      signatureBlockCore E strContractType (signatureOfLines last.1 last.2))
    (strHashType.map Char.toUpper) sigs0 (by simp [hcore]) hbody xml0
  obtain ⟨b, s4⟩ := Reaches_sigBlocks E strContractType init
    (signatureBlockCore E strContractType (signatureOfLines last.1 last.2))
    (xml0 ++ unlines bodyLines) (strHashType.map Char.toUpper) ht hv hcore hinit sigs0 true
  have s5 := Finishes_sigBlock E strContractType last.1 last.2 (xml0 ++ unlines bodyLines)
    (strHashType.map Char.toUpper) (sigs0 ++ init.map (fun x => signatureOfLines x.1 x.2)) b
    ht hv hlast
  have := (s1.trans (s2.trans (s3.trans s4))).finishes s5
  simpa [List.append_assoc] using this

end OpenTxs

namespace OpenTxs
open Contract

theorem unlines_ne_nil (ls : List (List Char)) (h : ls ≠ []) : unlines ls ≠ [] := by
  cases ls with
  | nil => exact absurd rfl h
  | cons l ls => simp [unlines_cons]

/-- `ParseRawFile` on a text whose trimmed form is canonical: the loop collects
the body, the hash name in upper case and the signatures, and the element loop
is run on the container holding them. -/
theorem ParseRawFile_canonical (E : ContractEnv) (c : Contract)
    (strHashType : List Char) (bodyLines : List (List Char))
    (init : List (List (List Char) × Option OTSignatureMetadata))
    (last : List (List Char) × Option OTSignatureMetadata)
    (ht : isLabel c.m_strContractType = true) (hh : isLabel strHashType = true)
    (hv : isLabel E.Version = true)
    (hbody : ∀ l ∈ bodyLines, isBodyLine l = true) (hne : bodyLines ≠ [])
    (hsigs : ∀ x ∈ init ++ [last], isGoodSignature E x = true)
    (hxml : c.m_xmlUnsigned = []) (hlist : c.m_listSignatures = [])
    (hraw : trim c.m_strRawFile =
      AddBookendsAroundContent E (unlines bodyLines) c.m_strContractType strHashType
        ((init ++ [last]).map (fun x => signatureOfLines x.1 x.2))) :
    ParseRawFile E c = Run.done (E.processXML
      { c with
        m_strRawFile := trim c.m_strRawFile
        m_xmlUnsigned := unlines bodyLines
        m_strSigHashType := strHashType.map Char.toUpper
        m_listSignatures := (init ++ [last]).map (fun x => signatureOfLines x.1 x.2) }) := by
  have hT : trim c.m_strRawFile ≠ [] := by
    rw [hraw, AddBookends_lines]
    simp
  have hlen : ¬ c.m_strRawFile.length = 0 := by
    intro h0
    have : c.m_strRawFile = [] := List.length_eq_zero.1 h0
    rw [this] at hT
    exact hT rfl
  obtain ⟨n, hn⟩ := Finishes_canonical E c.m_strContractType strHashType bodyLines init last
    [] c.m_strSigHashType [] ht hh hv hbody hsigs
  have hloop := parseLoop_of_fuel E n ((trim c.m_strRawFile).length + 1) _ _ hn
    (by rw [← hraw]; exact Nat.lt_succ_self _)
  rw [← hraw] at hloop
  unfold ParseRawFile
  rw [if_neg hlen]
  simp only [hxml, hlist, hloop]
  simp [LoadContractXML, unlines_ne_nil bodyLines hne]

end OpenTxs

namespace OpenTxs
open Contract

/-- C7 (amended): serialization reproduces every text whose trimmed form is
canonical.  Let the trimmed raw text of a container with an empty body and an
empty signature list be what `AddBookendsAroundContent` writes for a non-empty
body of well-formed lines, the type of the container, a well-formed hash name
already in upper case, and at least one well-formed signature; let the element
loop accept the parsed container and leave its body, type, hash name and
signatures as they are.  Then `ParseRawFile` returns true, and
`AddBookendsAroundContent` applied to the parsed body, the contract type, the
parsed hash name and the parsed signatures is the trimmed raw text. -/
theorem AddBookends_inverse_on_canonical (E : ContractEnv) (c : Contract)
    (strHashType : List Char) (bodyLines : List (List Char))
    (init : List (List (List Char) × Option OTSignatureMetadata))
    (last : List (List Char) × Option OTSignatureMetadata)
    (ht : isLabel c.m_strContractType = true) (hh : isLabel strHashType = true)
    (hv : isLabel E.Version = true)
    (hupper : strHashType.map Char.toUpper = strHashType)
    (hbody : ∀ l ∈ bodyLines, isBodyLine l = true) (hne : bodyLines ≠ [])
    (hsigs : ∀ x ∈ init ++ [last], isGoodSignature E x = true)
    (hxml : c.m_xmlUnsigned = []) (hlist : c.m_listSignatures = [])
    (hraw : trim c.m_strRawFile =
      AddBookendsAroundContent E (unlines bodyLines) c.m_strContractType strHashType
        ((init ++ [last]).map (fun x => signatureOfLines x.1 x.2)))
    (hacc : (E.processXML
      { c with
        m_strRawFile := trim c.m_strRawFile
        m_xmlUnsigned := unlines bodyLines
        m_strSigHashType := strHashType.map Char.toUpper
        m_listSignatures := (init ++ [last]).map (fun x => signatureOfLines x.1 x.2) }).1 = true)
    (hframe : ∀ x, (E.processXML x).2.m_xmlUnsigned = x.m_xmlUnsigned ∧
      (E.processXML x).2.m_strContractType = x.m_strContractType ∧
      (E.processXML x).2.m_strSigHashType = x.m_strSigHashType ∧
      (E.processXML x).2.m_listSignatures = x.m_listSignatures) :
    ∃ c1, ParseRawFile E c = Run.done (true, c1) ∧
      c1.m_xmlUnsigned = unlines bodyLines ∧
      c1.m_strSigHashType = strHashType ∧
      c1.m_listSignatures = (init ++ [last]).map (fun x => signatureOfLines x.1 x.2) ∧
      AddBookendsAroundContent E c1.m_xmlUnsigned c1.m_strContractType c1.m_strSigHashType
        c1.m_listSignatures = trim c.m_strRawFile := by
  have hp := ParseRawFile_canonical E c strHashType bodyLines init last ht hh hv hbody hne hsigs
    hxml hlist hraw
  obtain ⟨f1, f2, f3, f4⟩ := hframe
    { c with
      m_strRawFile := trim c.m_strRawFile
      m_xmlUnsigned := unlines bodyLines
      m_strSigHashType := strHashType.map Char.toUpper
      m_listSignatures := (init ++ [last]).map (fun x => signatureOfLines x.1 x.2) }
  refine ⟨_, ?_, f1, ?_, f4, ?_⟩
  · rw [hp, ← hacc]
  · rw [f3]; exact hupper
  · rw [f1, f2, f3, f4, hraw]
    simp only [hupper]

set_option maxRecDepth 100000 in
/-- Witness of C7 (amended): the text `sampleRaw`, canonical for the body
`<a/>`, the hash name `SHA256` and one signature `SIG`. -/
theorem AddBookends_inverse_on_canonical_witness :
    ∃ c1, ParseRawFile sampleEnv { Contract.create sampleEnv with m_strRawFile := sampleRaw } =
        Run.done (true, c1) ∧
      c1.m_xmlUnsigned = unlines ["<a/>".data] ∧
      c1.m_strSigHashType = "SHA256".data ∧
      c1.m_listSignatures = [signatureOfLines ["SIG".data] none] ∧
      AddBookendsAroundContent sampleEnv c1.m_xmlUnsigned c1.m_strContractType
        c1.m_strSigHashType c1.m_listSignatures = trim sampleRaw :=
  AddBookends_inverse_on_canonical sampleEnv
    { Contract.create sampleEnv with m_strRawFile := sampleRaw } "SHA256".data ["<a/>".data]
    [] (["SIG".data], none) (by decide) (by decide) (by decide) (by decide) (by decide)
    (by decide) (by decide) rfl rfl (by decide) rfl (fun _ => ⟨rfl, rfl, rfl, rfl⟩)

end OpenTxs

/-! ## Theorems about `Purse::RecalculateExpirationDates` -/

namespace OpenTxs
open Purse

/-- The window after folding `narrowWindow` over a list of dates. -/
theorem foldl_narrowWindow (ds : List (Int × Int)) :
    ∀ (w : Int × Int),
    (w.1 ≤ (ds.foldl narrowWindow w).1 ∧
      (∀ d ∈ ds, d.1 ≤ (ds.foldl narrowWindow w).1) ∧
      ((ds.foldl narrowWindow w).1 = w.1 ∨ ∃ d ∈ ds, d.1 = (ds.foldl narrowWindow w).1)) ∧
    ((∀ d ∈ ds, d.2 ≠ 0) →
      (ds = [] → (ds.foldl narrowWindow w).2 = w.2) ∧
      (∀ d ∈ ds, (ds.foldl narrowWindow w).2 ≤ d.2) ∧
      (w.2 ≠ 0 → (ds.foldl narrowWindow w).2 ≤ w.2 ∧ (ds.foldl narrowWindow w).2 ≠ 0) ∧
      (ds ≠ [] → ((w.2 ≠ 0 ∧ (ds.foldl narrowWindow w).2 = w.2) ∨
        ∃ d ∈ ds, d.2 = (ds.foldl narrowWindow w).2))) := by
  induction ds with
  | nil => intro w; simp
  | cons d ds ih =>
    intro w
    obtain ⟨⟨i1, i2, i3⟩, i4⟩ := ih (narrowWindow w d)
    simp only [List.foldl_cons]
    have e1 : (narrowWindow w d).1 = if w.1 < d.1 then d.1 else w.1 := rfl
    have e2 : (narrowWindow w d).2 = if OT_TIME_ZERO = w.2 ∨ w.2 > d.2 then d.2 else w.2 := rfl
    refine ⟨⟨?_, ?_, ?_⟩, ?_⟩
    · rw [e1] at i1; split at i1 <;> omega
    · intro u hu
      rcases List.mem_cons.1 hu with rfl | hu
      · rw [e1] at i1; split at i1 <;> omega
      · exact i2 u hu
    · rcases i3 with i3 | ⟨u, hu, hu2⟩
      · rw [e1] at i3
        split at i3
        · right; exact ⟨d, List.mem_cons_self _ _, i3.symm⟩
        · left; exact i3
      · right; exact ⟨u, List.mem_cons_of_mem _ hu, hu2⟩
    · intro hnz
      have hd : d.2 ≠ 0 := hnz d (List.mem_cons_self _ _)
      have hds : ∀ u ∈ ds, u.2 ≠ 0 := fun u hu => hnz u (List.mem_cons_of_mem _ hu)
      obtain ⟨j1, j2, j3, j4⟩ := i4 hds
      have hq0 : (narrowWindow w d).2 ≠ 0 := by
        rw [e2]; unfold OT_TIME_ZERO; split <;> omega
      have hqd : (narrowWindow w d).2 ≤ d.2 := by
        rw [e2]; unfold OT_TIME_ZERO; split <;> omega
      have hqw : w.2 ≠ 0 → (narrowWindow w d).2 ≤ w.2 := by
        rw [e2]; unfold OT_TIME_ZERO; split <;> omega
      have hqc : (w.2 ≠ 0 ∧ (narrowWindow w d).2 = w.2) ∨ (narrowWindow w d).2 = d.2 := by
        rw [e2]; unfold OT_TIME_ZERO; split <;> omega
      obtain ⟨k1, k2⟩ := j3 hq0
      refine ⟨by simp, ?_, ?_, ?_⟩
      · intro u hu
        rcases List.mem_cons.1 hu with rfl | hu
        · omega
        · exact j2 u hu
      · intro hw; exact ⟨by have := hqw hw; omega, k2⟩
      · intro _
        by_cases hnil : ds = []
        · have := j1 hnil
          rcases hqc with ⟨c1, c2⟩ | c
          · left; exact ⟨c1, by omega⟩
          · right; exact ⟨d, List.mem_cons_self _ _, by omega⟩
        · rcases j4 hnil with ⟨_, c⟩ | ⟨u, hu, hu2⟩
          · rcases hqc with ⟨c1, c2⟩ | c3
            · left; exact ⟨c1, by omega⟩
            · right; exact ⟨d, List.mem_cons_self _ _, by omega⟩
          · right; exact ⟨u, List.mem_cons_of_mem _ hu, hu2⟩

/-- The loop of `RecalculateExpirationDates` over envelopes that all open into
tokens: it returns, changes only the window, and the window is the fold of
`narrowWindow` over the dates of the tokens. -/
theorem RecalculateLoop_fold {τ : Type} (K : TokenClass τ) (o : OTNym_or_SymmetricKey)
    (N I : Identifier) (es : List String) :
    ∀ (ts : List τ) (p : Purse), p.m_NotaryID = N → p.m_InstrumentDefinitionID = I →
    List.Forall₂ (fun e T => ∃ s, o.Open_or_Decrypt e = some s ∧
      K.TokenFactory s N I = some T) es ts →
    RecalculateLoop K o es p = Run.done
      { p with
        m_tLatestValidFrom :=
          ((ts.map (fun T => (K.GetValidFrom T, K.GetValidTo T))).foldl narrowWindow
            (p.m_tLatestValidFrom, p.m_tEarliestValidTo)).1
        m_tEarliestValidTo :=
          ((ts.map (fun T => (K.GetValidFrom T, K.GetValidTo T))).foldl narrowWindow
            (p.m_tLatestValidFrom, p.m_tEarliestValidTo)).2 } := by
  induction es with
  | nil =>
    intro ts p _ _ hF
    cases hF
    rfl
  | cons e rest ih =>
    intro ts p hN hI hF
    subst hN hI
    cases hF with
    | cons hT hrest =>
      rename_i T ts1
      obtain ⟨s, hs, hf⟩ := hT
      have hstep : RecalculateStep K o p e = Run.done
          { p with
            m_tLatestValidFrom :=
              (narrowWindow (p.m_tLatestValidFrom, p.m_tEarliestValidTo)
                (K.GetValidFrom T, K.GetValidTo T)).1
            m_tEarliestValidTo :=
              (narrowWindow (p.m_tLatestValidFrom, p.m_tEarliestValidTo)
                (K.GetValidFrom T, K.GetValidTo T)).2 } := by
        unfold RecalculateStep
        rw [hs]
        simp only [hf, narrowWindow]
        split <;> split <;> rfl
      have := ih ts1
        { p with
          m_tLatestValidFrom :=
            (narrowWindow (p.m_tLatestValidFrom, p.m_tEarliestValidTo)
              (K.GetValidFrom T, K.GetValidTo T)).1
          m_tEarliestValidTo :=
            (narrowWindow (p.m_tLatestValidFrom, p.m_tEarliestValidTo)
              (K.GetValidFrom T, K.GetValidTo T)).2 } rfl rfl hrest
      simp only [RecalculateLoop, hstep, List.map_cons, List.foldl_cons]
      exact this

/-- C11 (counterexample): the purse holding `tok1` (valid to 200) in front of
`tokZ` (valid to 0) gets the upper end 0 from `RecalculateExpirationDates`, not
the minimum 200 of the non-zero `validTo` values; and the purse holding only
`tokNeg` (valid from -5) gets the lower end 0, not the maximum -5. -/
theorem Recalculate_not_max_min :
    (purseZeroFirst.m_dequeTokens = ["t1", "tZ"] ∧
      (RecalculateExpirationDates sampleClass purseZeroFirst plainOwner).value?.map
        (fun q => q.m_tEarliestValidTo) = some 0 ∧
      specEarliestValidTo sampleClass [tok1, tokZ] = some 200) ∧
    (purseNegFrom.m_dequeTokens = ["tNeg"] ∧
      (RecalculateExpirationDates sampleClass purseNegFrom plainOwner).value?.map
        (fun q => q.m_tLatestValidFrom) = some 0 ∧
      specLatestValidFrom sampleClass [tokNeg] = some (-5)) := by
  decide

/-- C11 (amended): for every purse whose envelopes all open under the owner
into tokens (the list `ts`, front first) none of which has `validTo` zero,
whatever the window was before, `RecalculateExpirationDates` returns, changes
nothing but the window, sets `latestValidFrom` to the maximum of zero and the
`validFrom` values of the tokens held (their maximum once one of them is not
negative) and sets `earliestValidTo` to the minimum of their `validTo` values
(zero when the purse is empty). -/
theorem Recalculate_window {τ : Type} (K : TokenClass τ) (p : Purse)
    (o : OTNym_or_SymmetricKey) (ts : List τ)
    (hOpen : List.Forall₂ (fun e T => ∃ s, o.Open_or_Decrypt e = some s ∧
      K.TokenFactory s p.m_NotaryID p.m_InstrumentDefinitionID = some T) p.m_dequeTokens ts)
    (hnz : ∀ t ∈ ts, K.GetValidTo t ≠ 0) :
    ∃ p1, RecalculateExpirationDates K p o = Run.done p1 ∧
      p1 = { p with
        m_tLatestValidFrom := p1.m_tLatestValidFrom
        m_tEarliestValidTo := p1.m_tEarliestValidTo } ∧
      (0 ≤ p1.m_tLatestValidFrom ∧
        (∀ t ∈ ts, K.GetValidFrom t ≤ p1.m_tLatestValidFrom) ∧
        (p1.m_tLatestValidFrom = 0 ∨ ∃ t ∈ ts, K.GetValidFrom t = p1.m_tLatestValidFrom)) ∧
      ((∃ t ∈ ts, 0 ≤ K.GetValidFrom t) →
        specLatestValidFrom K ts = some p1.m_tLatestValidFrom) ∧
      (ts = [] → p1.m_tEarliestValidTo = 0) ∧
      (ts ≠ [] → specEarliestValidTo K ts = some p1.m_tEarliestValidTo) := by
  have hloop := RecalculateLoop_fold K o p.m_NotaryID p.m_InstrumentDefinitionID
    p.m_dequeTokens ts
    { p with m_tLatestValidFrom := OT_TIME_ZERO, m_tEarliestValidTo := OT_TIME_ZERO }
    rfl rfl hOpen
  obtain ⟨⟨i1, i2, i3⟩, i4⟩ :=
    foldl_narrowWindow (ts.map (fun T => (K.GetValidFrom T, K.GetValidTo T))) (0, 0)
  have hnz2 : ∀ d ∈ ts.map (fun T => (K.GetValidFrom T, K.GetValidTo T)), d.2 ≠ 0 := by
    intro d hd
    obtain ⟨t, ht, rfl⟩ := List.mem_map.1 hd
    exact hnz t ht
  obtain ⟨j1, j2, _, j4⟩ := i4 hnz2
  generalize hr : (ts.map (fun T => (K.GetValidFrom T, K.GetValidTo T))).foldl narrowWindow
    (0, 0) = r at i1 i2 i3 j1 j2 j4
  have hr2 : (ts.map (fun T => (K.GetValidFrom T, K.GetValidTo T))).foldl narrowWindow
      (OT_TIME_ZERO, OT_TIME_ZERO) = r := hr
  simp only [hr2] at hloop
  have k2 : ∀ t ∈ ts, K.GetValidFrom t ≤ r.1 :=
    fun t ht => i2 _ (List.mem_map.2 ⟨t, ht, rfl⟩)
  have k3 : r.1 = 0 ∨ ∃ t ∈ ts, K.GetValidFrom t = r.1 := by
    rcases i3 with h | ⟨d, hd, hd2⟩
    · exact Or.inl h
    · obtain ⟨t, ht, rfl⟩ := List.mem_map.1 hd
      exact Or.inr ⟨t, ht, hd2⟩
  refine ⟨_, hloop, rfl, ⟨i1, k2, k3⟩, ?_, ?_, ?_⟩
  · rintro ⟨t, ht, ht0⟩
    unfold specLatestValidFrom
    apply int_max?_eq_some
    · rcases k3 with h | ⟨u, hu, hu2⟩
      · have := k2 t ht
        exact List.mem_map.2 ⟨t, ht, by show K.GetValidFrom t = r.1; omega⟩
      · exact List.mem_map.2 ⟨u, hu, hu2⟩
    · intro b hb
      obtain ⟨u, hu, rfl⟩ := List.mem_map.1 hb
      exact k2 u hu
  · intro hts
    exact j1 (by rw [hts]; rfl)
  · intro hts
    unfold specEarliestValidTo
    have hf : (ts.map K.GetValidTo).filter (fun v => decide (v ≠ 0)) = ts.map K.GetValidTo := by
      rw [List.filter_eq_self]
      intro v hv
      obtain ⟨u, hu, rfl⟩ := List.mem_map.1 hv
      simpa using hnz u hu
    rw [hf]
    apply int_min?_eq_some
    · rcases j4 (by simpa using hts) with ⟨c, _⟩ | ⟨d, hd, hd2⟩
      · exact absurd rfl c
      · obtain ⟨t, ht, rfl⟩ := List.mem_map.1 hd
        exact List.mem_map.2 ⟨t, ht, hd2⟩
    · intro b hb
      obtain ⟨u, hu, rfl⟩ := List.mem_map.1 hb
      exact j2 _ (List.mem_map.2 ⟨u, hu, rfl⟩)

/-- Witness of C11 (amended): after the pushes of `tok1` (100, 200) and `tok2`
(150, 180) and a pop the purse is `purseAfterPop`, with the window still
(150, 180); `RecalculateExpirationDates` then gives the window (100, 200). -/
theorem Recalculate_window_witness :
    applyCalls sampleClass samplePurse
      [Call.push plainOwner tok1, Call.push plainOwner tok2, Call.pop plainOwner] =
        Run.done purseAfterPop ∧
    (purseAfterPop.m_tLatestValidFrom = 150 ∧ purseAfterPop.m_tEarliestValidTo = 180) ∧
    RecalculateExpirationDates sampleClass purseAfterPop plainOwner =
      Run.done { purseAfterPop with m_tLatestValidFrom := 100, m_tEarliestValidTo := 200 } ∧
    ∃ p1, RecalculateExpirationDates sampleClass purseAfterPop plainOwner = Run.done p1 ∧
      specLatestValidFrom sampleClass [tok1] = some p1.m_tLatestValidFrom ∧
      specEarliestValidTo sampleClass [tok1] = some p1.m_tEarliestValidTo :=
  have h := Recalculate_window sampleClass purseAfterPop plainOwner [tok1]
    (List.Forall₂.cons ⟨"t1", by decide, by decide⟩ List.Forall₂.nil) (by decide)
  ⟨by decide, ⟨by decide, by decide⟩, by decide,
    h.elim (fun p1 hp => ⟨p1, hp.1, hp.2.2.2.1 ⟨tok1, by decide, by decide⟩,
      hp.2.2.2.2.2 (by decide)⟩)⟩

end OpenTxs

/-! ## The fuel of the model of `Purse::Merge` -/

namespace OpenTxs
open Purse

/-- The body of `Peek` needs no fuel. -/
theorem PeekArmor_ne_outOfFuel {τ : Type} (K : TokenClass τ) (p : Purse)
    (o : OTNym_or_SymmetricKey) (e : String) : PeekArmor K p o e ≠ Run.outOfFuel := by
  unfold PeekArmor
  split
  · split
    · simp
    · split <;> simp
  · simp

/-- What `Pop` does, in all: it aborts, or returns no token and leaves the
purse, or returns a token and leaves the purse with one envelope less. -/
theorem Pop_total {τ : Type} (K : TokenClass τ) (p : Purse) (o : OTNym_or_SymmetricKey) :
    Pop K p o = Run.assertFailed ∨ Pop K p o = Run.done (none, p) ∨
    ∃ T p1, Pop K p o = Run.done (some T, p1) ∧ p1.Count + 1 = p.Count := by
  cases hd : p.m_dequeTokens with
  | nil => right; left; unfold Pop; simp [hd]
  | cons e rest =>
    cases hp : PeekArmor K p o e with
    | assertFailed =>
      left; unfold Pop Peek; simp [hd, hp]
    | outOfFuel => exact absurd hp (PeekArmor_ne_outOfFuel K p o e)
    | done x =>
      cases x with
      | none => right; left; unfold Pop Peek; simp [hd, hp]
      | some T =>
        right; right
        exact ⟨T, _, Pop_of_PeekArmor K p o e rest T hd hp, by simp [Count, hd]⟩

/-- The first drain loop of `Merge` has fuel enough with the count of the purse. -/
theorem MergeDrainThis_ne_outOfFuel {τ : Type} (K : TokenClass τ) (o : OTNym_or_SymmetricKey)
    (fuel : Nat) : ∀ (p : Purse) (m : mapOfTokenPointers τ), p.Count ≤ fuel →
    MergeDrainThis K o fuel p m ≠ Run.outOfFuel := by
  induction fuel with
  | zero =>
    intro p m h
    have : ¬ 0 < p.Count := by omega
    simp [MergeDrainThis, this]
  | succ f ih =>
    intro p m h
    unfold MergeDrainThis
    split
    · rcases Pop_total K p o with hp | hp | ⟨T, p1, hp, hc⟩
      · rw [hp]; simp
      · rw [hp]; simp
      · rw [hp]; exact ih p1 _ (by omega)
    · simp

/-- The second drain loop of `Merge` has fuel enough with the count of the purse. -/
theorem MergeDrainNew_ne_outOfFuel {τ : Type} (K : TokenClass τ) (theSigner : Nym)
    (theOldNym theNewNym : OTNym_or_SymmetricKey) (fuel : Nat) :
    ∀ (p : Purse) (m : mapOfTokenPointers τ), p.Count ≤ fuel →
    MergeDrainNew K theSigner theOldNym theNewNym fuel p m ≠ Run.outOfFuel := by
  induction fuel with
  | zero =>
    intro p m h
    have : ¬ 0 < p.Count := by omega
    simp [MergeDrainNew, this]
  | succ f ih =>
    intro p m h
    unfold MergeDrainNew
    split
    · rcases Pop_total K p theNewNym with hp | hp | ⟨T, p1, hp, hc⟩
      · rw [hp]; simp
      · rw [hp]; simp
      · rw [hp]; exact ih p1 _ (by omega)
    · simp

/-- The model of `Merge` never stops for want of fuel: it returns or it aborts. -/
theorem Merge_ne_outOfFuel {τ : Type} (K : TokenClass τ) (A B : Purse) (theSigner : Nym)
    (theOldNym theNewNym : OTNym_or_SymmetricKey) :
    Merge K A theSigner theOldNym theNewNym B ≠ Run.outOfFuel := by
  unfold Merge
  cases h1 : MergeDrainThis K theOldNym A.Count A [] with
  | assertFailed => simp
  | outOfFuel => exact absurd h1 (MergeDrainThis_ne_outOfFuel K theOldNym _ A [] (le_refl _))
  | done r1 =>
    simp only
    cases h2 : MergeDrainNew K theSigner theOldNym theNewNym B.Count B r1.2 with
    | assertFailed => simp
    | outOfFuel =>
      exact absurd h2
        (MergeDrainNew_ne_outOfFuel K theSigner theOldNym theNewNym _ B _ (le_refl _))
    | done r2 => simp

end OpenTxs

/-! ## Theorems about the result and the aborts of `Purse::Merge` -/

namespace OpenTxs
open Purse

/-- The push loop of `Merge` makes one push for every entry of the map. -/
theorem pushFlags_length {τ : Type} (K : TokenClass τ) (o : OTNym_or_SymmetricKey)
    (m : mapOfTokenPointers τ) : ∀ (p : Purse), (pushFlags K o m p).length = m.length := by
  induction m with
  | nil => intro p; rfl
  | cons it rest ih => intro p; simp [pushFlags, ih]

/-- The push loop of `Merge`: the flag it returns is the flag it started with
and every flag of a push, and the purse it leaves is the one after all the
pushes, the failed ones included. -/
theorem MergePushAll_flags {τ : Type} (K : TokenClass τ) (o : OTNym_or_SymmetricKey)
    (m : mapOfTokenPointers τ) :
    ∀ (b : Bool) (p : Purse),
    MergePushAll K o m b p =
      (b && (pushFlags K o m p).all id, m.foldl (fun q it => (Push K q o it.2).2) p) := by
  induction m with
  | nil => intro b p; simp [MergePushAll, pushFlags]
  | cons it rest ih =>
    intro b p
    cases hP : Push K p o it.2 with
    | mk f p1 =>
      cases f with
      | true => simp [MergePushAll, pushFlags, hP, ih]
      | false => simp [MergePushAll, pushFlags, hP, ih]

/-- C12: the model of `Merge` never stops for want of fuel, and whenever
`Merge` returns, with the map the two drain loops leave, the flag it returns is
true exactly when every push of a token of that map onto this purse returned
true; one push is made for every token of the map, a failed one not ending the
loop, and this purse is left as all these pushes leave it.  The flag
`ReassignOwnership` returns is no part of the result. -/
theorem Merge_true_iff_pushes {τ : Type} (K : TokenClass τ) (A B : Purse) (theSigner : Nym)
    (theOldNym theNewNym : OTNym_or_SymmetricKey) :
    Merge K A theSigner theOldNym theNewNym B ≠ Run.outOfFuel ∧
    ∀ (b : Bool) (A1 B1 : Purse),
      Merge K A theSigner theOldNym theNewNym B = Run.done (b, A1, B1) →
      ∃ A0 theMap1 theMap,
        MergeDrainThis K theOldNym A.Count A [] = Run.done (A0, theMap1) ∧
        MergeDrainNew K theSigner theOldNym theNewNym B.Count B theMap1 =
          Run.done (B1, theMap) ∧
        (pushFlags K theOldNym theMap A0).length = theMap.length ∧
        (b = true ↔ ∀ f ∈ pushFlags K theOldNym theMap A0, f = true) ∧
        A1 = theMap.foldl (fun q it => (Push K q theOldNym it.2).2) A0 := by
  refine ⟨Merge_ne_outOfFuel K A B theSigner theOldNym theNewNym, ?_⟩
  intro b A1 B1 h
  unfold Merge at h
  cases h1 : MergeDrainThis K theOldNym A.Count A [] with
  | assertFailed => rw [h1] at h; simp at h
  | outOfFuel => rw [h1] at h; simp at h
  | done r1 =>
    obtain ⟨A0, theMap1⟩ := r1
    rw [h1] at h
    simp only at h
    cases h2 : MergeDrainNew K theSigner theOldNym theNewNym B.Count B theMap1 with
    | assertFailed => rw [h2] at h; simp at h
    | outOfFuel => rw [h2] at h; simp at h
    | done r2 =>
      obtain ⟨B0, theMap⟩ := r2
      rw [h2] at h
      simp only [MergePushAll_flags, Bool.true_and, Run.done.injEq, Prod.mk.injEq] at h
      obtain ⟨hb, hA1, hB1⟩ := h
      subst hB1
      refine ⟨A0, theMap1, theMap, rfl, h2, pushFlags_length K theOldNym theMap A0, ?_, hA1.symm⟩
      rw [← hb]
      simp [List.all_eq_true]

set_option maxRecDepth 8000 in
/-- Witness of C12: A holds `tok1`, `tok2` and B holds `tok2`, `tok3`, and the
owner of A cannot seal `tok2`.  The merge returns false, the three pushes
return true, false and true, and A ends with `tok3` over `tok1`. -/
theorem Merge_true_iff_pushes_witness :
    Merge sampleClass purseA ⟨"signer"⟩ sealFailsOwner plainOwner purseB =
      Run.done (false,
        { samplePurse with
          m_dequeTokens := ["t3", "t1"], m_lTotalValue := 15,
          m_tLatestValidFrom := 150, m_tEarliestValidTo := 180 },
        { samplePurse with
          m_dequeTokens := [], m_lTotalValue := 0,
          m_tLatestValidFrom := 150, m_tEarliestValidTo := 180 }) ∧
    ∃ A0 theMap1 theMap,
      MergeDrainThis sampleClass sealFailsOwner purseA.Count purseA [] =
        Run.done (A0, theMap1) ∧
      MergeDrainNew sampleClass ⟨"signer"⟩ sealFailsOwner plainOwner purseB.Count purseB theMap1 =
        Run.done ({ samplePurse with
          m_dequeTokens := [], m_lTotalValue := 0,
          m_tLatestValidFrom := 150, m_tEarliestValidTo := 180 }, theMap) ∧
      (pushFlags sampleClass sealFailsOwner theMap A0).length = theMap.length ∧
      (false = true ↔ ∀ f ∈ pushFlags sampleClass sealFailsOwner theMap A0, f = true) ∧
      ({ samplePurse with
          m_dequeTokens := ["t3", "t1"], m_lTotalValue := 15,
          m_tLatestValidFrom := 150, m_tEarliestValidTo := 180 } : Purse) =
        theMap.foldl (fun q it => (Push sampleClass q sealFailsOwner it.2).2) A0 :=
  ⟨by decide,
    (Merge_true_iff_pushes sampleClass purseA purseB ⟨"signer"⟩ sealFailsOwner plainOwner).2
      false _ _ (by decide)⟩

end OpenTxs

namespace OpenTxs
open Purse

/-- An entry of the map after an insertion is the new one or was there before. -/
theorem mem_mapInsert {τ : Type} (k : String) (v : τ) (m : mapOfTokenPointers τ)
    (kv : String × τ) (h : kv ∈ mapInsert k v m) : kv = (k, v) ∨ kv ∈ m := by
  induction m with
  | nil => simpa [mapInsert] using h
  | cons x rest ih =>
    obtain ⟨k1, v1⟩ := x
    unfold mapInsert at h
    split at h
    · rcases List.mem_cons.1 h with h | h
      · exact Or.inl h
      · exact Or.inr h
    · split at h
      · exact Or.inr h
      · rcases List.mem_cons.1 h with h | h
        · exact Or.inr (h ▸ List.mem_cons_self _ _)
        · rcases ih h with h | h
          · exact Or.inl h
          · exact Or.inr (List.mem_cons_of_mem _ h)

/-- The map after a run of rounds holds only entries it had or was given. -/
theorem foldl_mergeStep_subset {τ : Type} (K : TokenClass τ) (items : List (String × τ)) :
    ∀ (m : mapOfTokenPointers τ), ∀ kv ∈ items.foldl (mergeStep K) m, kv ∈ m ∨ kv ∈ items := by
  induction items with
  | nil => intro m kv h; exact Or.inl h
  | cons it rest ih =>
    intro m kv h
    rw [List.foldl_cons] at h
    rcases ih _ kv h with h1 | h1
    · rcases mem_mapInsert _ _ _ kv h1 with h2 | h2
      · exact Or.inr (h2 ▸ List.mem_cons_self _ _)
      · exact Or.inl ((mem_eraseDuplicates K it.1 m kv).1 h2).1
    · exact Or.inr (List.mem_cons_of_mem _ h1)

/-- A token whose reassignment fails goes on as `ReassignOwnership` left it,
without being signed and saved. -/
theorem reassignToken_of_failure {τ : Type} (K : TokenClass τ) (theSigner : Nym)
    (theOldNym theNewNym : OTNym_or_SymmetricKey) (T : τ)
    (h : (K.ReassignOwnership T theNewNym theOldNym).1 = false) :
    reassignToken K theSigner theOldNym theNewNym T =
      (K.ReassignOwnership T theNewNym theOldNym).2 := by
  unfold reassignToken
  cases hr : K.ReassignOwnership T theNewNym theOldNym with
  | mk f t =>
    rw [hr] at h
    simp only at h
    subst h
    rfl

set_option maxRecDepth 8000 in
/-- C13 (counterexample): with a token class whose `ReassignOwnership` fails
for every token, the merge of B (holding `tok2`, `tok3`) into A (holding
`tok1`, `tok2`) returns true. -/
theorem Merge_true_with_failed_reassign :
    (∀ T ∈ [tok3, tok2],
      (failingReassignClass.ReassignOwnership T plainOwner plainOwner).1 = false) ∧
    Merge failingReassignClass purseA ⟨"signer"⟩ plainOwner plainOwner purseB =
      Run.done (true,
        { samplePurse with
          m_dequeTokens := ["t3", "t2", "t1"], m_lTotalValue := 35,
          m_tLatestValidFrom := 150, m_tEarliestValidTo := 180 },
        { samplePurse with
          m_dequeTokens := [], m_lTotalValue := 0,
          m_tLatestValidFrom := 150, m_tEarliestValidTo := 180 }) := by
  decide

end OpenTxs

namespace OpenTxs
open Purse

/-- A pop whose front envelope yields no token returns a null pointer, or
aborts when the envelope opens into a text the factory makes no token of. -/
theorem Pop_no_token {τ : Type} (K : TokenClass τ) (p : Purse) (o : OTNym_or_SymmetricKey)
    (e : String) (rest : List String) (hd : p.m_dequeTokens = e :: rest)
    (hpk : ∀ T, PeekArmor K p o e ≠ Run.done (some T)) :
    Pop K p o = Run.assertFailed ∨ Pop K p o = Run.done (none, p) := by
  unfold Pop Peek
  rw [hd]
  simp only [List.isEmpty_cons, Bool.false_eq_true, if_false]
  cases hp : PeekArmor K p o e with
  | assertFailed => left; rfl
  | outOfFuel =>
    exfalso
    unfold PeekArmor at hp
    split at hp
    · split at hp
      · simp at hp
      · split at hp <;> simp at hp
    · simp at hp
  | done x =>
    cases x with
    | none => right; rfl
    | some T => exact absurd hp (hpk T)

/-- The first drain loop of `Merge` aborts at the first envelope of this purse
that yields no token. -/
theorem MergeDrainThis_abort {τ : Type} (K : TokenClass τ) (o : OTNym_or_SymmetricKey)
    (e : String) (es2 : List String) (es1 : List String) :
    ∀ (ts1 : List τ) (fuel : Nat) (p : Purse) (m : mapOfTokenPointers τ),
    p.m_dequeTokens = es1 ++ e :: es2 →
    List.Forall₂ (fun x T => PeekArmor K p o x = Run.done (some T)) es1 ts1 →
    (∀ T, PeekArmor K p o e ≠ Run.done (some T)) →
    es1.length < fuel →
    MergeDrainThis K o fuel p m = Run.assertFailed := by
  induction es1 with
  | nil =>
    intro ts1 fuel p m hd _ hbad hfuel
    cases fuel with
    | zero => simp at hfuel
    | succ f =>
      have hc : 0 < p.Count := by unfold Count; rw [hd]; simp
      simp only [MergeDrainThis, hc, if_true]
      rcases Pop_no_token K p o e es2 hd hbad with h | h <;> rw [h]
  | cons x rest ih =>
    intro ts1 fuel p m hd hF hbad hfuel
    cases hF with
    | cons hT hrest =>
      rename_i T ts2
      cases fuel with
      | zero => simp at hfuel
      | succ f =>
        have hc : 0 < p.Count := by unfold Count; rw [hd]; simp
        have hpop := Pop_of_PeekArmor K p o x (rest ++ e :: es2) T hd hT
        simp only [MergeDrainThis, hc, if_true, hpop]
        exact ih ts2 f _ _ rfl
          (hrest.imp (fun _ _ h => by rw [← h]; exact PeekArmor_congr K _ _ o _ rfl rfl))
          (fun T0 h0 => hbad T0 (by rw [← h0]; exact PeekArmor_congr K _ _ o e rfl rfl))
          (by simp at hfuel; omega)

/-- The second drain loop of `Merge` aborts at the first envelope of the other
purse that yields no token. -/
theorem MergeDrainNew_abort {τ : Type} (K : TokenClass τ) (theSigner : Nym)
    (theOldNym theNewNym : OTNym_or_SymmetricKey)
    (e : String) (es2 : List String) (es1 : List String) :
    ∀ (ts1 : List τ) (fuel : Nat) (p : Purse) (m : mapOfTokenPointers τ),
    p.m_dequeTokens = es1 ++ e :: es2 →
    List.Forall₂ (fun x T => PeekArmor K p theNewNym x = Run.done (some T)) es1 ts1 →
    (∀ T, PeekArmor K p theNewNym e ≠ Run.done (some T)) →
    es1.length < fuel →
    MergeDrainNew K theSigner theOldNym theNewNym fuel p m = Run.assertFailed := by
  induction es1 with
  | nil =>
    intro ts1 fuel p m hd _ hbad hfuel
    cases fuel with
    | zero => simp at hfuel
    | succ f =>
      have hc : 0 < p.Count := by unfold Count; rw [hd]; simp
      simp only [MergeDrainNew, hc, if_true]
      rcases Pop_no_token K p theNewNym e es2 hd hbad with h | h <;> rw [h]
  | cons x rest ih =>
    intro ts1 fuel p m hd hF hbad hfuel
    cases hF with
    | cons hT hrest =>
      rename_i T ts2
      cases fuel with
      | zero => simp at hfuel
      | succ f =>
        have hc : 0 < p.Count := by unfold Count; rw [hd]; simp
        have hpop := Pop_of_PeekArmor K p theNewNym x (rest ++ e :: es2) T hd hT
        simp only [MergeDrainNew, hc, if_true, hpop]
        exact ih ts2 f _ _ rfl
          (hrest.imp (fun _ _ h => by rw [← h]; exact PeekArmor_congr K _ _ theNewNym _ rfl rfl))
          (fun T0 h0 => hbad T0 (by rw [← h0]; exact PeekArmor_congr K _ _ theNewNym e rfl rfl))
          (by simp at hfuel; omega)

set_option maxRecDepth 8000 in
/-- C14 (counterexample): A holds `tok1`, `tok2` and B holds `tok2`, `tok3`.
Under an owner who cannot open the envelopes of A, `Pop` on A returns no token
with `Count` at 2, and `Merge` aborts at its assertion; the same when it is the
envelopes of B that the owner of B cannot open. -/
theorem Merge_aborts_example :
    (purseA.Count = 2 ∧ Pop sampleClass purseA lockedOwner = Run.done (none, purseA) ∧
      Merge sampleClass purseA ⟨"signer"⟩ lockedOwner plainOwner purseB = Run.assertFailed) ∧
    (purseB.Count = 2 ∧ Pop sampleClass purseB lockedOwner = Run.done (none, purseB) ∧
      Merge sampleClass purseA ⟨"signer"⟩ plainOwner lockedOwner purseB = Run.assertFailed) := by
  decide

/-- C14 (amended): `Merge` aborts the process at its assertion as soon as a
`Pop` yields no token.  If an envelope of this purse yields no token under
`theOldNym` while the envelopes in front of it do, or if every envelope of this
purse yields a token and an envelope of the other purse yields none under
`theNewNym` while the envelopes in front of it do, then `Merge` does not return
a result: it reaches the failing assertion. -/
theorem Merge_aborts {τ : Type} (K : TokenClass τ) (A B : Purse) (theSigner : Nym)
    (theOldNym theNewNym : OTNym_or_SymmetricKey)
    (h : (∃ es1 e es2 ts1, A.m_dequeTokens = es1 ++ e :: es2 ∧
          List.Forall₂ (fun x T => PeekArmor K A theOldNym x = Run.done (some T)) es1 ts1 ∧
          ∀ T : τ, PeekArmor K A theOldNym e ≠ Run.done (some T)) ∨
        (∃ tsA es1 e es2 ts1,
          List.Forall₂ (fun x T => PeekArmor K A theOldNym x = Run.done (some T))
            A.m_dequeTokens tsA ∧
          B.m_dequeTokens = es1 ++ e :: es2 ∧
          List.Forall₂ (fun x T => PeekArmor K B theNewNym x = Run.done (some T)) es1 ts1 ∧
          ∀ T : τ, PeekArmor K B theNewNym e ≠ Run.done (some T))) :
    Merge K A theSigner theOldNym theNewNym B = Run.assertFailed := by
  rcases h with ⟨es1, e, es2, ts1, hd, hF, hbad⟩ | ⟨tsA, es1, e, es2, ts1, hA, hd, hF, hbad⟩
  · have h1 := MergeDrainThis_abort K theOldNym e es2 es1 ts1 A.Count A [] hd hF hbad
      (by unfold Count; rw [hd]; simp)
    unfold Merge
    rw [h1]
  · obtain ⟨p1, hD1, _⟩ :=
      MergeDrainThis_spec K theOldNym A.m_dequeTokens tsA A.Count A [] rfl hA (le_refl _)
    have h2 := MergeDrainNew_abort K theSigner theOldNym theNewNym e es2 es1 ts1 B.Count B
      ((tsA.map (fun T => (K.GetSpendable T, T))).foldl (mergeStep K) []) hd hF hbad
      (by unfold Count; rw [hd]; simp)
    unfold Merge
    rw [hD1]
    simp only
    rw [h2]

/-- Witness of C14 (amended): the purse holding `tok1` alone, under an owner
who cannot open its envelope. -/
theorem Merge_aborts_witness :
    Merge sampleClass purseAfterPop ⟨"signer"⟩ lockedOwner plainOwner purseB =
      Run.assertFailed :=
  Merge_aborts sampleClass purseAfterPop purseB ⟨"signer"⟩ lockedOwner plainOwner
    (Or.inl ⟨[], "t1", [], [], rfl, List.Forall₂.nil,
      fun T hT => absurd (show (Run.done none : Run (Option SimpleToken)) = Run.done (some T)
        from hT) (by simp)⟩)

end OpenTxs

/-! ## Theorems about `Purse::GenerateInternalKey`, `Purse::IsExpired`, `Purse::Peek` and `Purse::Pop` -/

namespace OpenTxs
open Purse

/-- C15: `GenerateInternalKey` returns false and leaves the purse as it was,
in every field, whenever the purse is not empty, is password-protected, or
holds a symmetric key or a cached master key. -/
theorem GenerateInternalKey_refused (G : KeyProvider) (p : Purse)
    (h : p.IsEmpty = false ∨ p.IsPasswordProtected = true ∨
      p.m_pSymmetricKey.isSome = true ∨ p.m_pCachedKey.isSome = true) :
    GenerateInternalKey G p = (false, p) := by
  unfold GenerateInternalKey
  by_cases hc : p.IsPasswordProtected = true ∨ p.m_pSymmetricKey.isSome = true ∨
      p.m_pCachedKey.isSome = true
  · rw [if_pos hc]
  · rw [if_neg hc]
    rcases h with h | h
    · simp [h]
    · exact absurd h hc

/-- Witness of C15: a purse holding one token, a password-protected purse, a
purse with a symmetric key and a purse with a cached master key. -/
theorem GenerateInternalKey_refused_witness :
    GenerateInternalKey sampleKeys purseAfterPop = (false, purseAfterPop) ∧
    GenerateInternalKey sampleKeys { samplePurse with m_bPasswordProtected := true } =
      (false, { samplePurse with m_bPasswordProtected := true }) ∧
    GenerateInternalKey sampleKeys { samplePurse with m_pSymmetricKey := some ⟨true, none⟩ } =
      (false, { samplePurse with m_pSymmetricKey := some ⟨true, none⟩ }) ∧
    GenerateInternalKey sampleKeys { samplePurse with m_pCachedKey := some ⟨true, none⟩ } =
      (false, { samplePurse with m_pCachedKey := some ⟨true, none⟩ }) :=
  ⟨GenerateInternalKey_refused sampleKeys purseAfterPop (Or.inl (by decide)),
    GenerateInternalKey_refused sampleKeys _ (Or.inr (Or.inl (by decide))),
    GenerateInternalKey_refused sampleKeys _ (Or.inr (Or.inr (Or.inl (by decide)))),
    GenerateInternalKey_refused sampleKeys _ (Or.inr (Or.inr (Or.inr (by decide))))⟩

/-- C16: whenever `GenerateInternalKey` returns true, the purse was empty and
unprotected and is now password-protected, holds a generated cached master key
and a generated symmetric key, has an empty nym id with `isNymIDIncluded`
false, is still empty, and has the total value it had; `GetNymID` then returns
false.  Every other field is as it was. -/
theorem GenerateInternalKey_true (G : KeyProvider) (p p1 : Purse)
    (h : GenerateInternalKey G p = (true, p1)) :
    p1.IsPasswordProtected = true ∧
    (∃ k, p1.m_pCachedKey = some k ∧ k.IsGenerated = true) ∧
    (∃ k, p1.m_pSymmetricKey = some k ∧ k.IsGenerated = true) ∧
    p1.m_NymID.IsEmpty = true ∧ p1.IsNymIDIncluded = false ∧
    p1.IsEmpty = true ∧ p1.m_lTotalValue = p.m_lTotalValue ∧
    (GetNymID p1).1 = false ∧
    (p.IsEmpty = true ∧ p.IsPasswordProtected = false) ∧
    p1 = { p with
      m_pCachedKey := p1.m_pCachedKey
      m_pSymmetricKey := p1.m_pSymmetricKey
      m_NymID := ""
      m_bIsNymIDIncluded := false
      m_bPasswordProtected := true } := by
  unfold GenerateInternalKey at h
  split at h
  · simp at h
  · rename_i hc
    split at h
    · simp at h
    · rename_i he
      simp only at h
      split at h
      · simp at h
      · rename_i k hk
        split at h
        · simp at h
        · rename_i hg
          split at h
          · simp at h
          · rename_i hs
            simp only [Prod.mk.injEq, true_and] at h
            subst h
            simp only [not_or, Bool.not_eq_true] at hc
            refine ⟨rfl, ⟨k, hk, by simpa using hg⟩, ⟨_, rfl, by simpa using hs⟩,
              by simp [Identifier.IsEmpty], rfl, by simpa [Purse.IsEmpty] using he, rfl, rfl,
              ⟨by simpa using he, hc.1⟩, rfl⟩

/-- Witness of C16: the empty sample purse with a provider of generated keys. -/
theorem GenerateInternalKey_true_witness :
    GenerateInternalKey sampleKeys samplePurse =
      (true, { samplePurse with
        m_pCachedKey := some ⟨true, some "master"⟩
        m_pSymmetricKey := some ⟨true, some "symmetric"⟩
        m_bPasswordProtected := true }) ∧
    (GetNymID { samplePurse with
        m_pCachedKey := some ⟨true, some "master"⟩
        m_pSymmetricKey := some ⟨true, some "symmetric"⟩
        m_bPasswordProtected := true }).1 = false :=
  ⟨by decide,
    (GenerateInternalKey_true sampleKeys samplePurse _ (by decide)).2.2.2.2.2.2.2.1⟩

end OpenTxs

namespace OpenTxs
open Purse

/-- C17: `IsExpired` returns true exactly when the current time has reached
`earliestValidTo` and `earliestValidTo` is greater than zero.  For a purse whose
`earliestValidTo` is -5, at the time 0, it returns false, although the time has
reached `earliestValidTo` and `earliestValidTo` is not zero; `VerifyCurrentDate`
returns false for this purse as well. -/
theorem IsExpired_negative_validTo :
    (∀ (CURRENT_TIME : Int) (p : Purse), IsExpired CURRENT_TIME p = true ↔
      (CURRENT_TIME ≥ p.m_tEarliestValidTo ∧ p.m_tEarliestValidTo > 0)) ∧
    (IsExpired 0 { samplePurse with m_tEarliestValidTo := -5 } = false ∧
      ((0 : Int) ≥ ({ samplePurse with m_tEarliestValidTo := -5 } : Purse).m_tEarliestValidTo ∧
        ({ samplePurse with m_tEarliestValidTo := -5 } : Purse).m_tEarliestValidTo ≠ 0) ∧
      VerifyCurrentDate 0 { samplePurse with m_tEarliestValidTo := -5 } = false) := by
  refine ⟨fun t p => ?_, by decide⟩
  unfold IsExpired OT_TIME_ZERO
  split <;> simp_all

/-- C18: `Peek` never stops for want of fuel, and it returns the token `T`
exactly when the deque has a front envelope, the envelope opens under the
owner into a text, the factory makes `T` of the text with the scope of the
purse, and the instrument definition and the notary of `T` are those of the
purse.  `Peek` is a `const` member function: it returns a token or none and no
purse, so the purse after the call is the purse before it. -/
theorem Peek_iff {τ : Type} (K : TokenClass τ) (p : Purse) (o : OTNym_or_SymmetricKey) (T : τ) :
    Peek K p o ≠ Run.outOfFuel ∧
    (Peek K p o = Run.done (some T) ↔
      ∃ pArmor rest strToken, p.m_dequeTokens = pArmor :: rest ∧
        o.Open_or_Decrypt pArmor = some strToken ∧
        K.TokenFactory strToken p.m_NotaryID p.m_InstrumentDefinitionID = some T ∧
        K.GetInstrumentDefinitionID T = p.m_InstrumentDefinitionID ∧
        K.GetNotaryID T = p.m_NotaryID) := by
  constructor
  · unfold Peek
    split
    · simp
    · exact PeekArmor_ne_outOfFuel K p o _
  · constructor
    · intro h
      unfold Peek at h
      split at h
      · simp at h
      · rename_i pArmor rest hd
        obtain ⟨s, h1, h2, h3, h4⟩ := PeekArmor_some K p o pArmor T h
        exact ⟨pArmor, rest, s, hd, h1, h2, h3, h4⟩
    · rintro ⟨pArmor, rest, s, hd, h1, h2, h3, h4⟩
      unfold Peek
      rw [hd]
      simp only [PeekArmor, h1, h2, h3, h4, ne_eq, not_true_eq_false, or_self, if_false]

/-- C19: `Pop` on an empty purse returns no token and the purse as it was.  On
a purse whose front envelope does not open, or opens into a token of another
instrument definition or notary, it returns no token and the purse as it was,
the envelope still in front.  On a purse whose front envelope opens into a
token of the scope of the purse, it returns the token and the purse without
that envelope, the total value less the denomination of the token (in `int64`
arithmetic, so exactly when the difference is in range), the window and every
other field as they were. -/
theorem Pop_spec {τ : Type} (K : TokenClass τ) (p : Purse) (o : OTNym_or_SymmetricKey) :
    (p.m_dequeTokens = [] → Pop K p o = Run.done (none, p)) ∧
    (∀ pArmor rest, p.m_dequeTokens = pArmor :: rest →
      (o.Open_or_Decrypt pArmor = none ∨
        ∃ strToken T, o.Open_or_Decrypt pArmor = some strToken ∧
          K.TokenFactory strToken p.m_NotaryID p.m_InstrumentDefinitionID = some T ∧
          (K.GetInstrumentDefinitionID T ≠ p.m_InstrumentDefinitionID ∨
            K.GetNotaryID T ≠ p.m_NotaryID)) →
      Pop K p o = Run.done (none, p)) ∧
    (∀ pArmor rest strToken T, p.m_dequeTokens = pArmor :: rest →
      o.Open_or_Decrypt pArmor = some strToken →
      K.TokenFactory strToken p.m_NotaryID p.m_InstrumentDefinitionID = some T →
      K.GetInstrumentDefinitionID T = p.m_InstrumentDefinitionID →
      K.GetNotaryID T = p.m_NotaryID →
      ∃ p1, Pop K p o = Run.done (some T, p1) ∧
        p1 = { p with
          m_dequeTokens := rest
          m_lTotalValue := wrapInt64 (p.m_lTotalValue - K.GetDenomination T) } ∧
        (-2 ^ 63 ≤ p.m_lTotalValue - K.GetDenomination T →
          p.m_lTotalValue - K.GetDenomination T < 2 ^ 63 →
          p1.m_lTotalValue = p.m_lTotalValue - K.GetDenomination T) ∧
        p1.m_tLatestValidFrom = p.m_tLatestValidFrom ∧
        p1.m_tEarliestValidTo = p.m_tEarliestValidTo) := by
  refine ⟨?_, ?_, ?_⟩
  · intro hd
    unfold Pop
    simp [hd]
  · intro pArmor rest hd h
    have hpk : PeekArmor K p o pArmor = Run.done none := by
      unfold PeekArmor
      rcases h with h | ⟨s, T, h1, h2, h3⟩
      · rw [h]
      · rw [h1]
        simp only [h2]
        rw [if_pos h3]
    unfold Pop Peek
    simp [hd, hpk]
  · intro pArmor rest s T hd h1 h2 h3 h4
    have hpk : PeekArmor K p o pArmor = Run.done (some T) := by
      simp only [PeekArmor, h1, h2, h3, h4, ne_eq, not_true_eq_false, or_self, if_false]
    refine ⟨_, Pop_of_PeekArmor K p o pArmor rest T hd hpk, rfl, ?_, rfl, rfl⟩
    intro r1 r2
    exact wrapInt64_of_inRange _ r1 r2

/-- Witness of C19: the empty sample purse; the purse A under an owner who
cannot open its front envelope; and the purse A under its owner, whose pop
returns `tok2` and leaves `tok1` with the total value 10 and the window
(150, 180). -/
theorem Pop_spec_witness :
    Pop sampleClass samplePurse plainOwner = Run.done (none, samplePurse) ∧
    Pop sampleClass purseA lockedOwner = Run.done (none, purseA) ∧
    ∃ p1, Pop sampleClass purseA plainOwner = Run.done (some tok2, p1) ∧
      p1 = purseAfterPop ∧ p1.m_lTotalValue = 30 - 20 ∧
      p1.m_tLatestValidFrom = purseA.m_tLatestValidFrom ∧
      p1.m_tEarliestValidTo = purseA.m_tEarliestValidTo :=
  ⟨(Pop_spec sampleClass samplePurse plainOwner).1 rfl,
    (Pop_spec sampleClass purseA lockedOwner).2.1 "t2" ["t1"] (by decide) (Or.inl rfl),
    ((Pop_spec sampleClass purseA plainOwner).2.2 "t2" ["t1"] "t2" tok2 (by decide) rfl
      (by decide) (by decide) (by decide)).elim
      (fun p1 hp => ⟨p1, hp.1, hp.2.1.trans (by decide),
        hp.2.2.1 (by decide) (by decide), hp.2.2.2.1, hp.2.2.2.2⟩)⟩

end OpenTxs

/-! ## Theorems about the end of `ParseRawFile` -/

namespace OpenTxs
open Contract

/-- In signature mode there is a signature being collected: what the assertions
of `ParseRawFile` on `pSig` check. -/
theorem skipLine_pSig (s s1 : ParseState) (b b1 : Bool)
    (h : skipLine s b = ParseStep.next s1 b1) :
    s1.bSignatureMode = s.bSignatureMode ∧ s1.pSig = s.pSig := by
  unfold skipLine at h
  split at h
  · simp at h
  · split at h
    split at h
    · simp only [ParseStep.next.injEq] at h
      obtain ⟨rfl, rfl⟩ := h
      exact ⟨rfl, rfl⟩
    · simp at h

theorem skipLine_ne_assertFailed (s : ParseState) (b : Bool) :
    skipLine s b ≠ ParseStep.assertFailed := by
  unfold skipLine
  split
  · simp
  · split
    split <;> simp

theorem collectLine_pSig (s s1 : ParseState) (b b1 : Bool) (line : List Char)
    (h : collectLine s b line = ParseStep.next s1 b1) :
    s1.bSignatureMode = s.bSignatureMode ∧ (s.pSig.isSome = true → s1.pSig.isSome = true) := by
  unfold collectLine at h
  split at h
  · split at h
    · simp at h
    · simp only [ParseStep.next.injEq] at h
      obtain ⟨rfl, rfl⟩ := h
      exact ⟨rfl, fun _ => rfl⟩
  · split at h
    · simp only [ParseStep.next.injEq] at h
      obtain ⟨rfl, rfl⟩ := h
      exact ⟨rfl, fun h => h⟩
    · simp only [ParseStep.next.injEq] at h
      obtain ⟨rfl, rfl⟩ := h
      exact ⟨rfl, fun h => h⟩

theorem collectLine_ne_assertFailed (s : ParseState) (b : Bool) (line : List Char)
    (hinv : s.bSignatureMode = true → s.pSig.isSome = true) :
    collectLine s b line ≠ ParseStep.assertFailed := by
  unfold collectLine
  split
  · rename_i hm
    have := hinv hm
    split
    · rename_i hn; rw [hn] at this; simp at this
    · simp
  · split <;> simp

/-- A round of the loop started with a signature at hand whenever it is in
signature mode fails no assertion and ends the same way. -/
theorem parseStep_pSig (E : ContractEnv) (s : ParseState)
    (hinv : s.bSignatureMode = true → s.pSig.isSome = true) :
    parseStep E s ≠ ParseStep.assertFailed ∧
    ∀ s1 b1, parseStep E s = ParseStep.next s1 b1 →
      (s1.bSignatureMode = true → s1.pSig.isSome = true) := by
  constructor
  · unfold parseStep
    generalize sgets s.unread = r
    obtain ⟨line, unread1, more⟩ := r
    simp only
    repeat' split
    all_goals first
      | (simp; done)
      | exact skipLine_ne_assertFailed _ _
      | exact collectLine_ne_assertFailed _ _ _ hinv
      | (rename_i hm _ _ hn; exact absurd (hinv (by simp_all)) (by simp_all))
  · intro s1 b1 h
    unfold parseStep at h
    generalize sgets s.unread = r at h
    obtain ⟨line, unread1, more⟩ := r
    simp only at h
    repeat' split at h
    all_goals first
      | (simp only [ParseStep.next.injEq] at h
         obtain ⟨rfl, rfl⟩ := h
         first | exact hinv | (intro _; rfl) | (intro hx; simp at hx))
      | (intro hx
         have hc := collectLine_pSig _ _ _ _ _ h
         exact hc.2 (hinv (hc.1 ▸ hx)))
      | (intro hx
         have hc := skipLine_pSig _ _ _ _ h
         rw [hc.2]
         first | exact hinv (hc.1 ▸ hx) | rfl)
      | (simp at h)

/-- The loop of `ParseRawFile`, started with a signature at hand whenever it is
in signature mode and with fuel for the unread text, returns. -/
theorem parseLoop_total (E : ContractEnv) (fuel : Nat) :
    ∀ (s : ParseState), (s.bSignatureMode = true → s.pSig.isSome = true) →
    s.unread.length < fuel → ∃ r, parseLoop E fuel s = Run.done r := by
  induction fuel with
  | zero => intro s _ h; simp at h
  | succ f ih =>
    intro s hinv h
    obtain ⟨hna, hnext⟩ := parseStep_pSig E s hinv
    simp only [parseLoop]
    cases hs : parseStep E s with
    | returnFalse s1 => exact ⟨_, rfl⟩
    | assertFailed => exact absurd hs hna
    | next s1 b =>
      simp only
      cases b with
      | true => exact ⟨_, rfl⟩
      | false =>
        simp only [Bool.false_eq_true, if_false]
        apply ih s1 (hnext s1 false hs)
        obtain ⟨h1, h2⟩ := parseStep_next E s s1 false hs
        have h3 := (sgets_unread s.unread).2 (by
          cases hm : (sgets s.unread).2.2 with
          | true => rfl
          | false => rw [hm] at h2; simp at h2)
        omega

/-- C20: `ParseRawFile` always returns, and it returns false whenever its loop
ends with no opening bookend seen (`bHaveEnteredContentMode` false), while
still collecting the body (`bContentMode` true) or while still inside a
signature (`bSignatureMode` true). -/
theorem ParseRawFile_unterminated (E : ContractEnv) (c : Contract) :
    (∃ r, ParseRawFile E c = Run.done r) ∧
    ∀ (b : Bool) (s : ParseState),
      parseLoop E ((trim c.m_strRawFile).length + 1)
        ⟨trim c.m_strRawFile, false, false, false, c.m_xmlUnsigned, c.m_strSigHashType,
          c.m_listSignatures, none⟩ = Run.done (b, s) →
      (s.bHaveEnteredContentMode = false ∨ s.bContentMode = true ∨ s.bSignatureMode = true) →
      ∃ c1, ParseRawFile E c = Run.done (false, c1) := by
  constructor
  · unfold ParseRawFile
    split
    · exact ⟨_, rfl⟩
    · obtain ⟨r, hr⟩ := parseLoop_total E ((trim c.m_strRawFile).length + 1)
        ⟨trim c.m_strRawFile, false, false, false, c.m_xmlUnsigned, c.m_strSigHashType,
          c.m_listSignatures, none⟩ (by simp) (Nat.lt_succ_self _)
      simp only [hr]
      repeat' split
      all_goals exact ⟨_, rfl⟩
  · intro b s hloop hflags
    unfold ParseRawFile
    split
    · exact ⟨_, rfl⟩
    · simp only [hloop]
      cases b with
      | false => exact ⟨_, rfl⟩
      | true =>
        rcases hflags with h | h | h
        · simp [h]
        · cases h2 : s.bHaveEnteredContentMode <;> simp [h, h2]
        · cases h2 : s.bHaveEnteredContentMode <;> cases h3 : s.bContentMode <;> simp [h, h2, h3]

set_option maxRecDepth 100000 in
/-- Witness of C20: a text that ends in its body, a text that ends inside its
signature, and a text without an opening bookend. -/
theorem ParseRawFile_unterminated_witness :
    (∃ c1, ParseRawFile sampleEnv
      { Contract.create sampleEnv with m_strRawFile := sampleRawNoSignature } =
        Run.done (false, c1)) ∧
    (∃ c1, ParseRawFile sampleEnv
      { Contract.create sampleEnv with m_strRawFile := sampleRawOpenSignature } =
        Run.done (false, c1)) ∧
    (∃ c1, ParseRawFile sampleEnv
      { Contract.create sampleEnv with m_strRawFile := sampleRawNoBegin } =
        Run.done (false, c1)) :=
  ⟨(ParseRawFile_unterminated sampleEnv
      { Contract.create sampleEnv with m_strRawFile := sampleRawNoSignature }).2 true
      ⟨[], false, true, true, "<a/>\n".data, "SHA256".data, [], none⟩ (by decide)
      (Or.inr (Or.inl rfl)),
    (ParseRawFile_unterminated sampleEnv
      { Contract.create sampleEnv with m_strRawFile := sampleRawOpenSignature }).2 true
      ⟨[], true, false, true, "<a/>\n".data, "SHA256".data, [],
        some ⟨"SIG\n".data, none⟩⟩ (by decide) (Or.inr (Or.inr rfl)),
    (ParseRawFile_unterminated sampleEnv
      { Contract.create sampleEnv with m_strRawFile := sampleRawNoBegin }).2 true
      ⟨[], false, false, false, [], "SHA256".data, [], none⟩ (by decide) (Or.inl rfl)⟩

end OpenTxs

/-! ## Theorems about the dates of a purse, the nyms of a container and signature verification -/

namespace OpenTxs
open Purse

/-- C30: for every purse and every current time, `IsExpired` and
`VerifyCurrentDate` both return true exactly when the time equals
`earliestValidTo`, `earliestValidTo` is greater than zero and the time has
reached `latestValidFrom`; so at every other time at most one of the two
returns true. -/
theorem IsExpired_and_VerifyCurrentDate (CURRENT_TIME : Int) (p : Purse) :
    ((IsExpired CURRENT_TIME p = true ∧ VerifyCurrentDate CURRENT_TIME p = true) ↔
      (CURRENT_TIME = p.m_tEarliestValidTo ∧ p.m_tEarliestValidTo > 0 ∧
        CURRENT_TIME ≥ p.m_tLatestValidFrom)) ∧
    (¬ (CURRENT_TIME = p.m_tEarliestValidTo ∧ p.m_tEarliestValidTo > 0 ∧
        CURRENT_TIME ≥ p.m_tLatestValidFrom) →
      IsExpired CURRENT_TIME p = false ∨ VerifyCurrentDate CURRENT_TIME p = false) := by
  have key : (IsExpired CURRENT_TIME p = true ∧ VerifyCurrentDate CURRENT_TIME p = true) ↔
      (CURRENT_TIME = p.m_tEarliestValidTo ∧ p.m_tEarliestValidTo > 0 ∧
        CURRENT_TIME ≥ p.m_tLatestValidFrom) := by
    unfold IsExpired VerifyCurrentDate OT_TIME_ZERO
    constructor
    · rintro ⟨h1, h2⟩
      split at h1
      · split at h2
        · omega
        · simp at h2
      · simp at h1
    · rintro ⟨h1, h2, h3⟩
      constructor
      · rw [if_pos (by omega)]
      · rw [if_pos (by omega)]
  refine ⟨key, fun hn => ?_⟩
  by_contra hboth
  apply hn
  apply key.1
  cases h1 : IsExpired CURRENT_TIME p <;> cases h2 : VerifyCurrentDate CURRENT_TIME p <;>
    simp_all

/-- Witness of C30: the window (100, 200) at the times 200, 150 and 250. -/
theorem IsExpired_and_VerifyCurrentDate_witness :
    (IsExpired 200 { samplePurse with m_tLatestValidFrom := 100, m_tEarliestValidTo := 200 } =
        true ∧
      VerifyCurrentDate 200
        { samplePurse with m_tLatestValidFrom := 100, m_tEarliestValidTo := 200 } = true) ∧
    (IsExpired 150 { samplePurse with m_tLatestValidFrom := 100, m_tEarliestValidTo := 200 } =
        false ∨
      VerifyCurrentDate 150
        { samplePurse with m_tLatestValidFrom := 100, m_tEarliestValidTo := 200 } = false) ∧
    (IsExpired 250 { samplePurse with m_tLatestValidFrom := 100, m_tEarliestValidTo := 200 } =
        false ∨
      VerifyCurrentDate 250
        { samplePurse with m_tLatestValidFrom := 100, m_tEarliestValidTo := 200 } = false) :=
  ⟨(IsExpired_and_VerifyCurrentDate 200
      { samplePurse with m_tLatestValidFrom := 100, m_tEarliestValidTo := 200 }).1.2
      ⟨rfl, by decide, by decide⟩,
    (IsExpired_and_VerifyCurrentDate 150
      { samplePurse with m_tLatestValidFrom := 100, m_tEarliestValidTo := 200 }).2 (by decide),
    (IsExpired_and_VerifyCurrentDate 250
      { samplePurse with m_tLatestValidFrom := 100, m_tEarliestValidTo := 200 }).2 (by decide)⟩

end OpenTxs

namespace OpenTxs
open Contract

/-- C25: a container whose nyms were assigned under `signer` and under
`contract`, in either order, holds the entry `contract` in front of the entry
`signer`, and `GetContractPublicNym` returns the nym under `contract`, not the
one under `signer`.  It returns none exactly when the map has neither key. -/
theorem GetContractPublicNym_contract_first (c : Contract) (nymSigner nymContract : Nym) :
    mapAssign "contract" nymContract (mapAssign "signer" nymSigner []) =
      [("contract", nymContract), ("signer", nymSigner)] ∧
    mapAssign "signer" nymSigner (mapAssign "contract" nymContract []) =
      [("contract", nymContract), ("signer", nymSigner)] ∧
    GetContractPublicNym
      { c with m_mapNyms := [("contract", nymContract), ("signer", nymSigner)] } =
        some nymContract ∧
    (GetContractPublicNym c = none ↔
      ∀ it ∈ c.m_mapNyms, it.1 ≠ "signer" ∧ it.1 ≠ "contract") := by
  refine ⟨rfl, rfl, by simp [GetContractPublicNym], ?_⟩
  unfold GetContractPublicNym
  cases h : c.m_mapNyms.find? (fun it => it.1 == "signer" || it.1 == "contract") with
  | none =>
    simp only [true_iff]
    intro it hit
    have := List.find?_eq_none.1 h it hit
    simpa using this
  | some x =>
    have hx := List.find?_some h
    have hm := List.mem_of_find?_eq_some h
    simp only [Bool.or_eq_true, beq_iff_eq] at hx
    constructor
    · intro h0
      simp at h0
    · intro hall
      have := hall x hm
      tauto

/-- C23: whenever the key has metadata, the signature has metadata and the two
differ, `VerifySignature` returns false whatever the crypto provider is; in
every other case it returns what the provider returns for the trimmed body,
the key, the signature and the hash type. -/
theorem VerifySignature_metadata
    (cryptoVerify : List Char → OTAsymmetricKey → OTSignature → List Char → Bool)
    (c : Contract) (theKey : OTAsymmetricKey) (theSignature : OTSignature)
    (strHashType : List Char) :
    ((∃ keyMeta sigMeta, theKey.m_pMetadata = some (some keyMeta) ∧
        theSignature.metaData = some sigMeta ∧ sigMeta ≠ keyMeta) →
      VerifySignature cryptoVerify c theKey theSignature strHashType = false) ∧
    (¬ (∃ keyMeta sigMeta, theKey.m_pMetadata = some (some keyMeta) ∧
        theSignature.metaData = some sigMeta ∧ sigMeta ≠ keyMeta) →
      VerifySignature cryptoVerify c theKey theSignature strHashType =
        cryptoVerify (trim c.m_xmlUnsigned) theKey theSignature strHashType) := by
  constructor
  · rintro ⟨keyMeta, sigMeta, h1, h2, h3⟩
    unfold VerifySignature
    rw [h1, h2]
    simp [h3]
  · intro hn
    unfold VerifySignature
    split
    · rename_i keyMeta sigMeta h1 h2
      split
      · rename_i h3
        exact absurd ⟨keyMeta, sigMeta, h1, h2, h3⟩ hn
      · rfl
    · rfl

/-- Witness of C23: the signature `SIG` with metadata `SABC`, under the good
key with other metadata (refused although the provider accepts it), and under
the good key with the same metadata, with none, and with a null pointer. -/
theorem VerifySignature_metadata_witness :
    sampleVerify [] ⟨"good", some (some ⟨'S', 'X', 'B', 'C'⟩)⟩
      ⟨"SIG\n".data, some ⟨'S', 'A', 'B', 'C'⟩⟩ "SHA256".data = true ∧
    VerifySignature sampleVerify sampleLoaded ⟨"good", some (some ⟨'S', 'X', 'B', 'C'⟩)⟩
      ⟨"SIG\n".data, some ⟨'S', 'A', 'B', 'C'⟩⟩ "SHA256".data = false ∧
    VerifySignature sampleVerify sampleLoaded ⟨"good", some (some ⟨'S', 'A', 'B', 'C'⟩)⟩
      ⟨"SIG\n".data, some ⟨'S', 'A', 'B', 'C'⟩⟩ "SHA256".data =
        sampleVerify (trim sampleLoaded.m_xmlUnsigned) ⟨"good", some (some ⟨'S', 'A', 'B', 'C'⟩)⟩
          ⟨"SIG\n".data, some ⟨'S', 'A', 'B', 'C'⟩⟩ "SHA256".data ∧
    VerifySignature sampleVerify sampleLoaded ⟨"good", none⟩
      ⟨"SIG\n".data, some ⟨'S', 'A', 'B', 'C'⟩⟩ "SHA256".data =
        sampleVerify (trim sampleLoaded.m_xmlUnsigned) ⟨"good", none⟩
          ⟨"SIG\n".data, some ⟨'S', 'A', 'B', 'C'⟩⟩ "SHA256".data :=
  ⟨by decide,
    (VerifySignature_metadata sampleVerify sampleLoaded _ _ _).1
      ⟨⟨'S', 'X', 'B', 'C'⟩, ⟨'S', 'A', 'B', 'C'⟩, rfl, rfl, by decide⟩,
    (VerifySignature_metadata sampleVerify sampleLoaded _ _ _).2
      (by rintro ⟨k, s, h1, h2, h3⟩; simp at h1 h2; subst h1 h2; exact h3 rfl),
    (VerifySignature_metadata sampleVerify sampleLoaded _ _ _).2
      (by rintro ⟨k, s, h1, h2, h3⟩; simp at h1)⟩

end OpenTxs

namespace OpenTxs
open Contract

/-- `VerifyWithKey` returns true exactly when `VerifySignature` does for one of
the signatures of the container, under the hash type of the container. -/
theorem VerifyWithKey_eq_any
    (cryptoVerify : List Char → OTAsymmetricKey → OTSignature → List Char → Bool)
    (c : Contract) (theKey : OTAsymmetricKey) :
    VerifyWithKey cryptoVerify c theKey =
      c.m_listSignatures.any
        (fun pSig => VerifySignature cryptoVerify c theKey pSig c.m_strSigHashType) := by
  unfold VerifyWithKey
  induction c.m_listSignatures with
  | nil => rfl
  | cons pSig rest ih =>
    simp only [VerifyWithKeyLoop, List.any_cons, ih]
    split
    · rename_i keyMeta sigMeta h1 h2
      split
      · rename_i h3
        have : VerifySignature cryptoVerify c theKey pSig c.m_strSigHashType = false := by
          unfold VerifySignature
          rw [h1, h2]
          simp [h3]
        rw [this]; simp
      · split <;> simp_all
    · split <;> simp_all

end OpenTxs

/-! ## Theorems about texts that `ParseRawFile` refuses -/

namespace OpenTxs
open Contract

/-- The rounds of `ParseRawFile` over the opening of a canonical text. -/
theorem Reaches_opening (E : ContractEnv) (strContractType strHashType rest xml hash : List Char)
    (sigs : List OTSignature) (ht : isLabel strContractType = true)
    (hh : isLabel strHashType = true) (hrest : rest ≠ []) :
    Reaches E
      ⟨openingLines strContractType strHashType ++ rest, false, false, false, xml, hash, sigs,
        none⟩
      ⟨rest, false, true, true, xml, strHashType.map Char.toUpper, sigs, none⟩ := by
  obtain ⟨hb1, hb2⟩ := begin_line strContractType ht
  have e : openingLines strContractType strHashType ++ rest =
      ('-' :: '-' :: '-' :: '-' :: ("-BEGIN SIGNED ".data ++ strContractType ++ "-----".data)) ++
        '\n' :: (("Hash: ".data ++ strHashType) ++ '\n' :: ([] ++ '\n' :: rest)) := by
    simp [openingLines, List.append_assoc]
  rw [e]
  have s1 := Reaches.of_step (parseStep_begin E
    ("-BEGIN SIGNED ".data ++ strContractType ++ "-----".data)
    (("Hash: ".data ++ strHashType) ++ '\n' :: ([] ++ '\n' :: rest))
    xml hash sigs hb1 hb2 (by simp))
  have s2 := Reaches.of_step (parseStep_hash E strHashType [] rest
    xml hash sigs (hash_line strHashType hh) (by decide) hrest)
  exact s1.trans s2

/-- What `ParseRawFile` returns when its loop ends in `return false`, or ends
at the end of the text with one of the flags that make it return false. -/
theorem ParseRawFile_of_refusal (E : ContractEnv) (c : Contract) (b : Bool) (s : ParseState)
    (hlen : c.m_strRawFile.length ≠ 0)
    (hloop : Finishes E
      ⟨trim c.m_strRawFile, false, false, false, c.m_xmlUnsigned, c.m_strSigHashType,
        c.m_listSignatures, none⟩ (b, s))
    (hflags : b = false ∨ s.bHaveEnteredContentMode = false ∨ s.bContentMode = true ∨
      s.bSignatureMode = true) :
    ParseRawFile E c = Run.done (false,
      { c with
        m_strRawFile := trim c.m_strRawFile
        m_xmlUnsigned := s.m_xmlUnsigned
        m_strSigHashType := s.m_strSigHashType
        m_listSignatures := s.m_listSignatures ++ s.pSig.toList }) := by
  obtain ⟨n, hn⟩ := hloop
  have hl := parseLoop_of_fuel E n ((trim c.m_strRawFile).length + 1) _ _ hn
    (Nat.lt_succ_self _)
  unfold ParseRawFile
  rw [if_neg hlen]
  simp only [hl]
  cases b with
  | false => rfl
  | true =>
    rcases hflags with h | h | h | h
    · simp at h
    · simp [h]
    · cases h2 : s.bHaveEnteredContentMode <;> simp [h, h2]
    · cases h2 : s.bHaveEnteredContentMode <;> cases h3 : s.bContentMode <;> simp [h, h2, h3]

/-- Round on the last line of the text, a body line, in content mode: the line
joins the body and the loop ends, still in content mode. -/
theorem parseStep_bodyLine_last (E : ContractEnv) (l xml hash : List Char)
    (sigs : List OTSignature) (hl : isBodyLine l = true) :
    parseStep E ⟨l, false, true, true, xml, hash, sigs, none⟩ =
      ParseStep.next ⟨[], false, true, true, xml ++ l ++ ['\n'], hash, sigs, none⟩ true := by
  simp only [isBodyLine, Bool.and_eq_true, Bool.not_eq_true', fitsLine_iff] at hl
  obtain ⟨⟨⟨hn, hlen⟩, hdash⟩, hhash⟩ := hl
  have h0 := charAt_zero_of_head l hdash
  unfold parseStep
  rw [sgets_last l hn (by omega)]
  simp only [collectLine, hhash, h0]
  split <;> simp

/-- Round on a malformed dash line outside a signature, once the opening
bookend was seen: `return false`. -/
theorem parseStep_malformed (E : ContractEnv) (l tail xml hash : List Char)
    (sigs : List OTSignature) (bContent : Bool) (hl : isMalformedDashLine l = true)
    (htail : tail = [] ∨ ∃ rest, tail = '\n' :: rest) :
    ∃ s, parseStep E ⟨l ++ tail, false, bContent, true, xml, hash, sigs, none⟩ =
      ParseStep.returnFalse s ∧ s.m_xmlUnsigned = xml ∧ s.m_listSignatures = sigs ∧
      s.pSig = none := by
  simp only [isMalformedDashLine, Bool.and_eq_true, fitsLine_iff, decide_eq_true_eq,
    Bool.not_eq_true', Bool.or_eq_true] at hl
  obtain ⟨⟨⟨⟨⟨hn, hlen⟩, h2⟩, h0⟩, hsig⟩, hesc⟩ := hl
  have hsgets : ∃ u m, sgets (l ++ tail) = (l, u, m) := by
    rcases htail with rfl | ⟨rest, rfl⟩
    · exact ⟨_, _, by rw [List.append_nil]; exact sgets_last l hn (by omega)⟩
    · exact ⟨_, _, sgets_line l rest hn hlen⟩
  obtain ⟨u, m, hs⟩ := hsgets
  unfold parseStep
  rw [hs]
  have hlt : ¬ l.length < 2 := by omega
  simp only [hlt, if_false, h0, if_true, Bool.false_eq_true, Bool.not_true, hsig]
  have hesc2 : (decide (l.length < 3) || decide (charAt l 1 ≠ ' ') ||
      decide (charAt l 2 ≠ '-')) = true := by
    simpa using hesc
  simp only [hesc2, if_true]
  exact ⟨_, rfl, rfl, rfl, rfl⟩

end OpenTxs

namespace OpenTxs
open Contract

/-- A round that ends in `return false` ends the loop. -/
theorem Finishes.of_returnFalse {E : ContractEnv} {s s1 : ParseState}
    (h : parseStep E s = ParseStep.returnFalse s1) : Finishes E s (false, s1) :=
  ⟨1, by simp [parseLoop, h]⟩

/-- A text that trims to something is not empty. -/
theorem length_ne_zero_of_trim (raw : List Char) (h : trim raw ≠ []) : raw.length ≠ 0 := by
  intro h0
  have : raw = [] := List.length_eq_zero.1 h0
  rw [this] at h
  exact h rfl

theorem openingLines_ne_nil (strContractType strHashType rest : List Char) :
    openingLines strContractType strHashType ++ rest ≠ [] := by
  simp [openingLines]

set_option maxRecDepth 100000 in
/-- C22 (counterexample): the text made of the opening bookend, the hash line,
a blank line and the body `<a/>`, with no signature block, is refused. -/
theorem ParseRawFile_refuses_unsigned :
    sampleRawBodyOnly =
      openingLines "CONTRACT".data "SHA256".data ++ unlines ["<a/>".data] ∧
    ParseRawFile sampleEnv { Contract.create sampleEnv with m_strRawFile := sampleRawBodyOnly } =
      Run.done (false,
        { Contract.create sampleEnv with
          m_strRawFile := trim sampleRawBodyOnly
          m_xmlUnsigned := "<a/>\n".data }) := by
  decide

/-- C22 (amended): a raw text consisting of the opening bookend, the hash line,
a blank line and a non-empty well-formed body whose last character is not
whitespace before its final newline, with no signature block, is refused:
`ParseRawFile` returns false, the end of the text being reached while the body
is collected.  The body read and the hash name in upper case are left in the
container, and no signature is added. -/
theorem ParseRawFile_zero_signatures (E : ContractEnv) (c : Contract)
    (strContractType strHashType : List Char) (initLines : List (List Char))
    (l0 : List Char) (z : Char)
    (ht : isLabel strContractType = true) (hh : isLabel strHashType = true)
    (hinit : ∀ l ∈ initLines, isBodyLine l = true)
    (hlast : isBodyLine (l0 ++ [z]) = true) (hz : isWhitespace z = false)
    (hraw : c.m_strRawFile =
      openingLines strContractType strHashType ++ unlines (initLines ++ [l0 ++ [z]])) :
    ParseRawFile E c = Run.done (false,
      { c with
        m_strRawFile := trim c.m_strRawFile
        m_xmlUnsigned := c.m_xmlUnsigned ++ unlines (initLines ++ [l0 ++ [z]])
        m_strSigHashType := strHashType.map Char.toUpper
        m_listSignatures := c.m_listSignatures }) := by
  have hunl : unlines (initLines ++ [l0 ++ [z]]) = unlines initLines ++ (l0 ++ [z]) ++ ['\n'] := by
    simp [unlines]
  have htrim : trim c.m_strRawFile =
      openingLines strContractType strHashType ++ (unlines initLines ++ (l0 ++ [z])) := by
    rw [hraw, hunl]
    have e : openingLines strContractType strHashType ++
        (unlines initLines ++ (l0 ++ [z]) ++ ['\n']) =
        '-' :: (('-' :: '-' :: '-' :: ("-BEGIN SIGNED ".data ++ strContractType ++
          "-----".data) ++ '\n' :: (("Hash: ".data ++ strHashType) ++ '\n' :: ['\n']) ++
          unlines initLines ++ l0) ++ [z]) ++ ['\n'] := by
      simp [openingLines, List.append_assoc]
    have e2 : openingLines strContractType strHashType ++ (unlines initLines ++ (l0 ++ [z])) =
        '-' :: (('-' :: '-' :: '-' :: ("-BEGIN SIGNED ".data ++ strContractType ++
          "-----".data) ++ '\n' :: (("Hash: ".data ++ strHashType) ++ '\n' :: ['\n']) ++
          unlines initLines ++ l0) ++ [z]) := by
      simp [openingLines, List.append_assoc]
    rw [e, e2]
    exact trim_append_whitespace '-' z _ ['\n'] (by decide) hz (by decide)
  have hlen : c.m_strRawFile.length ≠ 0 :=
    length_ne_zero_of_trim _ (by rw [htrim]; exact openingLines_ne_nil _ _ _)
  have s1 := Reaches_opening E strContractType strHashType
    (unlines initLines ++ (l0 ++ [z])) c.m_xmlUnsigned c.m_strSigHashType c.m_listSignatures
    ht hh (by simp)
  have s2 := Reaches_bodyLines E initLines (l0 ++ [z]) (strHashType.map Char.toUpper)
    c.m_listSignatures (by simp) hinit c.m_xmlUnsigned
  have s3 := Finishes.of_last_step (parseStep_bodyLine_last E (l0 ++ [z])
    (c.m_xmlUnsigned ++ unlines initLines) (strHashType.map Char.toUpper) c.m_listSignatures
    hlast)
  have hfin := (s1.trans s2).finishes s3
  rw [← htrim] at hfin
  have := ParseRawFile_of_refusal E c true _ hlen hfin (Or.inr (Or.inr (Or.inl rfl)))
  rw [this]
  simp [hunl, List.append_assoc]

set_option maxRecDepth 100000 in
/-- Witness of C22 (amended): the text of the counterexample. -/
theorem ParseRawFile_zero_signatures_witness :
    ParseRawFile sampleEnv { Contract.create sampleEnv with m_strRawFile := sampleRawBodyOnly } =
      Run.done (false,
        { Contract.create sampleEnv with
          m_strRawFile := trim sampleRawBodyOnly
          m_xmlUnsigned := [] ++ unlines ([] ++ ["<a/".data ++ ['>']])
          m_strSigHashType := "SHA256".data.map Char.toUpper
          m_listSignatures := [] }) :=
  ParseRawFile_zero_signatures sampleEnv
    { Contract.create sampleEnv with m_strRawFile := sampleRawBodyOnly }
    "CONTRACT".data "SHA256".data [] "<a/".data '>' (by decide) (by decide) (by decide)
    (by decide) (by decide) (by decide)

set_option maxRecDepth 100000 in
/-- C21 (counterexample): the line `-x` is a malformed dash line, and the
canonical text `sampleRaw` with this line in front of its opening bookend is
accepted: the line is passed over. -/
theorem ParseRawFile_skips_dash_before_opening :
    isMalformedDashLine "-x".data = true ∧
    sampleRawDashBefore = "-x".data ++ '\n' :: sampleRaw ∧
    (ParseRawFile sampleEnv
      { Contract.create sampleEnv with m_strRawFile := sampleRawDashBefore }).value?.map
        (fun r => (r.1, r.2.m_xmlUnsigned, r.2.m_listSignatures)) =
      some (true, "<a/>\n".data, [{ payload := "SIG\n".data, metaData := none }]) := by
  decide

/-- C21 (amended): `ParseRawFile` returns false for every text that trims to
the opening bookend, the hash line and a blank line, then a body of
well-formed lines (possibly none), then complete well-formed signature blocks
(possibly none), and then a malformed dash line: a line of at least two
characters that begins with a dash and is neither escaped with `- -` nor a
`SIGNATURE` bookend.  The line may be the last of the text or be followed by
anything. -/
theorem ParseRawFile_malformed_dash (E : ContractEnv) (c : Contract)
    (strContractType strHashType : List Char) (bodyLines : List (List Char))
    (specs : List (List (List Char) × Option OTSignatureMetadata)) (L tail : List Char)
    (ht : isLabel strContractType = true) (hh : isLabel strHashType = true)
    (hv : isLabel E.Version = true)
    (hbody : ∀ l ∈ bodyLines, isBodyLine l = true)
    (hsigs : ∀ x ∈ specs, isGoodSignature E x = true)
    (hL : isMalformedDashLine L = true)
    (htail : tail = [] ∨ ∃ rest, tail = '\n' :: rest)
    (hraw : trim c.m_strRawFile =
      openingLines strContractType strHashType ++ (unlines bodyLines ++
        (((specs.map (fun x => signatureOfLines x.1 x.2)).map
          (signatureBlock E strContractType)).flatten ++ (L ++ tail)))) :
    ∃ c1, ParseRawFile E c = Run.done (false, c1) := by
  have hLne : L ++ tail ≠ [] := by
    simp only [isMalformedDashLine, Bool.and_eq_true, decide_eq_true_eq] at hL
    intro h
    have : L = [] := (List.append_eq_nil.1 h).1
    rw [this] at hL
    simp at hL
  have hlen : c.m_strRawFile.length ≠ 0 :=
    length_ne_zero_of_trim _ (by rw [hraw]; exact openingLines_ne_nil _ _ _)
  have s1 := Reaches_opening E strContractType strHashType
    (unlines bodyLines ++
      (((specs.map (fun x => signatureOfLines x.1 x.2)).map
        (signatureBlock E strContractType)).flatten ++ (L ++ tail)))
    c.m_xmlUnsigned c.m_strSigHashType c.m_listSignatures ht hh (by simp [hLne])
  have s2 := Reaches_bodyLines E bodyLines
    (((specs.map (fun x => signatureOfLines x.1 x.2)).map
      (signatureBlock E strContractType)).flatten ++ (L ++ tail))
    (strHashType.map Char.toUpper) c.m_listSignatures (by simp [hLne]) hbody c.m_xmlUnsigned
  obtain ⟨b, s3⟩ := Reaches_sigBlocks E strContractType specs (L ++ tail)
    (c.m_xmlUnsigned ++ unlines bodyLines) (strHashType.map Char.toUpper) ht hv hLne hsigs
    c.m_listSignatures true
  obtain ⟨s, hs, _⟩ := parseStep_malformed E L tail (c.m_xmlUnsigned ++ unlines bodyLines)
    (strHashType.map Char.toUpper)
    (c.m_listSignatures ++ specs.map (fun x => signatureOfLines x.1 x.2)) b hL htail
  have hfin := ((s1.trans s2).trans s3).finishes (Finishes.of_returnFalse hs)
  rw [← hraw] at hfin
  exact ⟨_, ParseRawFile_of_refusal E c false s hlen hfin (Or.inl rfl)⟩

set_option maxRecDepth 100000 in
/-- Witness of C21 (amended): the line `-x` after the first line of the body. -/
theorem ParseRawFile_malformed_dash_witness :
    ∃ c1, ParseRawFile sampleEnv
      { Contract.create sampleEnv with m_strRawFile := sampleRawDashInBody } =
        Run.done (false, c1) :=
  ParseRawFile_malformed_dash sampleEnv
    { Contract.create sampleEnv with m_strRawFile := sampleRawDashInBody }
    "CONTRACT".data "SHA256".data ["<a/>".data] [] "-x".data
    ('\n' :: ("<b/>\n-----BEGIN CONTRACT SIGNATURE-----\nVersion: Open Transactions 0.95\n" ++
      "Comment: http://github.com/FellowTraveler/Open-Transactions/wiki\n\nSIG\n" ++
      "-----END CONTRACT SIGNATURE-----").data)
    (by decide) (by decide) (by decide) (by decide) (by decide) (by decide)
    (Or.inr ⟨_, rfl⟩) (by decide)

end OpenTxs

/-! ## Theorems about the order of the tokens after saving and loading a purse -/

namespace OpenTxs
open Purse

/-- `ProcessXMLNode` on an element that is not a `token` leaves the deque. -/
theorem ProcessXMLNode_deque (F : PurseFormat) (p : Purse) (xml : XmlElement)
    (h : xml.nodeName ≠ "token") :
    (ProcessXMLNode F p xml).2.m_dequeTokens = p.m_dequeTokens := by
  unfold ProcessXMLNode
  simp only [h, if_false, apply_ite Prod.snd, apply_ite Purse.m_dequeTokens, ite_self]
  repeat' split
  all_goals rfl

/-- A load that succeeds passes over elements that are not tokens with the
deque as it was. -/
theorem LoadContractXML_frame_deque (F : PurseFormat) (xs : List XmlElement) :
    ∀ (p : Purse) (rest : List XmlElement) (P1 : Purse),
    (∀ x ∈ xs, x.nodeName ≠ "token") →
    LoadContractXML F p (xs ++ rest) = (true, P1) →
    ∃ p1, p1.m_dequeTokens = p.m_dequeTokens ∧ LoadContractXML F p1 rest = (true, P1) := by
  induction xs with
  | nil => intro p rest P1 _ h; exact ⟨p, rfl, h⟩
  | cons x xs ih =>
    intro p rest P1 hx h
    simp only [List.cons_append, LoadContractXML] at h
    split at h
    · simp at h
    · obtain ⟨p1, h1, h2⟩ := ih _ rest P1 (fun y hy => hx y (List.mem_cons_of_mem _ hy)) h
      exact ⟨p1, h1.trans (ProcessXMLNode_deque F p x (hx x (List.mem_cons_self _ _))), h2⟩

/-- None of the tags written in front of the token tags is a `token`. -/
theorem keyTags_not_token (P : Purse) : ∀ x ∈ keyTags P, x.nodeName ≠ "token" := by
  intro x hx
  rcases keyTags_cases P with h | ⟨_, a, b, h⟩
  · rw [h] at hx; exact absurd hx (List.not_mem_nil _)
  · rw [h] at hx
    simp only [List.mem_cons, List.mem_singleton, List.not_mem_nil, or_false] at hx
    rcases hx with rfl | rfl <;> simp

/-- The deque of a purse loaded from what `UpdateContents` writes for `P`, the
envelopes of `P` being longer than two characters and not starting with a
newline: the deque of `P` in reverse order. -/
theorem load_UpdateContents_deque (F : PurseFormat) (P q P1 : Purse)
    (hq : q.m_dequeTokens = [])
    (hTokens : ∀ e ∈ P.m_dequeTokens, 2 < e.data.length ∧ dropLeadingNewline e = e)
    (hload : LoadContractXML F q (UpdateContents F P) = (true, P1)) :
    P1.m_dequeTokens = P.m_dequeTokens.reverse := by
  have hpre : ∀ x ∈ purseTag F P :: keyTags P, x.nodeName ≠ "token" := by
    intro x hx
    rcases List.mem_cons.1 hx with rfl | hx
    · simp [purseTag]
    · exact keyTags_not_token P x hx
  have e : UpdateContents F P = (purseTag F P :: keyTags P) ++ tokenTags P := rfl
  rw [e] at hload
  obtain ⟨p1, h1, h2⟩ := LoadContractXML_frame_deque F _ q _ P1 hpre hload
  unfold tokenTags at h2
  rw [LoadContractXML_tokens F P.m_dequeTokens p1 (fun x hx => (hTokens x hx).1)] at h2
  simp only [Prod.mk.injEq, true_and] at h2
  rw [← h2]
  simp only [h1, hq, List.append_nil]
  congr 1
  exact (List.map_congr_left (fun x hx => (hTokens x hx).2)).trans (List.map_id' _)

end OpenTxs

namespace OpenTxs
open Purse

/-- C28: loading, into a purse without tokens, what `UpdateContents` writes for
a purse `P` whose envelopes are longer than two characters and do not start
with a newline gives, when the load succeeds, the deque of `P` in reverse
order, so that the envelope in front of `P` (popped first) is the last of the
loaded purse; and loading what `UpdateContents` writes for the loaded purse
gives the deque of `P` again. -/
theorem save_load_reverses_deque (F : PurseFormat) (P q P1 : Purse)
    (hq : q.m_dequeTokens = [])
    (hTokens : ∀ e ∈ P.m_dequeTokens, 2 < e.data.length ∧ dropLeadingNewline e = e)
    (hload : LoadContractXML F q (UpdateContents F P) = (true, P1)) :
    P1.m_dequeTokens = P.m_dequeTokens.reverse ∧
    P1.m_dequeTokens.getLast? = P.m_dequeTokens.head? ∧
    ∀ (q2 P2 : Purse), q2.m_dequeTokens = [] →
      LoadContractXML F q2 (UpdateContents F P1) = (true, P2) →
      P2.m_dequeTokens = P.m_dequeTokens := by
  have h1 := load_UpdateContents_deque F P q P1 hq hTokens hload
  refine ⟨h1, by rw [h1, List.getLast?_reverse], ?_⟩
  intro q2 P2 hq2 hload2
  have h2 := load_UpdateContents_deque F P1 q2 P2 hq2
    (fun e he => hTokens e (by rw [h1] at he; exact List.mem_reverse.1 he)) hload2
  rw [h2, h1, List.reverse_reverse]

set_option maxRecDepth 8000 in
/-- Witness of C28: the purse `purseP`, which holds `armor2` in front of
`armor1`; once saved and loaded it holds `armor1` in front of `armor2`, and
after a second round trip it is `purseP` again. -/
theorem save_load_reverses_deque_witness :
    LoadContractXML sampleFormat Purse.default (UpdateContents sampleFormat purseP) =
      (true, { purseP with m_dequeTokens := ["armor1", "armor2"] }) ∧
    LoadContractXML sampleFormat Purse.default
      (UpdateContents sampleFormat { purseP with m_dequeTokens := ["armor1", "armor2"] }) =
      (true, purseP) ∧
    ({ purseP with m_dequeTokens := ["armor1", "armor2"] } : Purse).m_dequeTokens =
      purseP.m_dequeTokens.reverse ∧
    purseP.m_dequeTokens = purseP.m_dequeTokens :=
  have h := save_load_reverses_deque sampleFormat purseP Purse.default
    { purseP with m_dequeTokens := ["armor1", "armor2"] } rfl (by decide) (by decide)
  ⟨by decide, by decide, h.1, h.2.2 Purse.default purseP rfl (by decide)⟩

end OpenTxs

/-! ## Theorems about the temporary map of `Purse::Merge` -/

namespace OpenTxs
open Purse

theorem lexLess_irrefl (a : List Char) : lexLess a a = false := by
  induction a with
  | nil => rfl
  | cons c cs ih => simp [lexLess, ih]

theorem lexLess_trans (a : List Char) :
    ∀ (b c : List Char), lexLess a b = true → lexLess b c = true → lexLess a c = true := by
  induction a with
  | nil =>
    intro b c h1 h2
    cases b with
    | nil => simp [lexLess] at h1
    | cons y ys =>
      cases c with
      | nil => simp [lexLess] at h2
      | cons z zs => rfl
  | cons x xs ih =>
    intro b c h1 h2
    cases b with
    | nil => simp [lexLess] at h1
    | cons y ys =>
      cases c with
      | nil => simp [lexLess] at h2
      | cons z zs =>
        simp only [lexLess] at h1 h2 ⊢
        split at h1
        · split at h2
          · rw [if_pos (by omega)]
          · split at h2
            · rw [if_pos (by omega)]
            · simp at h2
        · split at h1
          · split at h2
            · rw [if_pos (by omega)]
            · split at h2
              · rw [if_neg (by omega), if_pos (by omega)]
                exact ih ys zs h1 h2
              · simp at h2
          · simp at h1

theorem lexLess_total (a : List Char) :
    ∀ (b : List Char), lexLess a b = false → a ≠ b → lexLess b a = true := by
  induction a with
  | nil =>
    intro b h1 h2
    cases b with
    | nil => exact absurd rfl h2
    | cons y ys => simp [lexLess] at h1
  | cons x xs ih =>
    intro b h1 h2
    cases b with
    | nil => rfl
    | cons y ys =>
      simp only [lexLess] at h1 ⊢
      split at h1
      · simp at h1
      · split at h1
        · rename_i hxy
          have hc : x = y := by
            have := congrArg Char.ofNat hxy
            simpa using this
          subst hc
          rw [if_neg (by omega), if_pos rfl]
          exact ih ys h1 (fun h => h2 (by rw [h]))
        · rw [if_pos (by omega)]

theorem stringLess_irrefl (a : String) : stringLess a a = false := lexLess_irrefl _

theorem stringLess_trans (a b c : String) (h1 : stringLess a b = true)
    (h2 : stringLess b c = true) : stringLess a c = true :=
  lexLess_trans _ _ _ h1 h2

theorem stringLess_total (a b : String) (h1 : stringLess a b = false) (h2 : a ≠ b) :
    stringLess b a = true :=
  lexLess_total _ _ h1 (fun h => h2 (String.ext h))

/-- An insertion keeps the map in ascending order of its keys. -/
theorem mapInsert_sorted {τ : Type} (k : String) (v : τ) (m : mapOfTokenPointers τ)
    (h : m.Pairwise (fun a b => stringLess a.1 b.1 = true)) :
    (mapInsert k v m).Pairwise (fun a b => stringLess a.1 b.1 = true) := by
  induction m with
  | nil => simp [mapInsert]
  | cons x rest ih =>
    obtain ⟨k1, v1⟩ := x
    obtain ⟨h1, h2⟩ := List.pairwise_cons.1 h
    unfold mapInsert
    split
    · rename_i hlt
      refine List.pairwise_cons.2 ⟨?_, h⟩
      intro y hy
      rcases List.mem_cons.1 hy with rfl | hy
      · exact hlt
      · exact stringLess_trans _ _ _ hlt (h1 y hy)
    · rename_i hnlt
      split
      · exact h
      · rename_i hne
        refine List.pairwise_cons.2 ⟨?_, ih h2⟩
        intro y hy
        rcases mem_mapInsert k v rest y hy with rfl | hy
        · exact stringLess_total k k1 (by simpa using hnlt) hne
        · exact h1 y hy

/-- The map after a run of rounds is in ascending order of its keys. -/
theorem foldl_mergeStep_sorted {τ : Type} (K : TokenClass τ) (items : List (String × τ)) :
    ∀ (m : mapOfTokenPointers τ), m.Pairwise (fun a b => stringLess a.1 b.1 = true) →
    (items.foldl (mergeStep K) m).Pairwise (fun a b => stringLess a.1 b.1 = true) := by
  induction items with
  | nil => intro m h; exact h
  | cons it rest ih =>
    intro m h
    rw [List.foldl_cons]
    apply ih
    unfold mergeStep
    apply mapInsert_sorted
    unfold eraseDuplicates
    exact List.Pairwise.sublist (List.filter_sublist m) h

/-- Every entry of the map after a run of rounds is the last item given under
its key, or an entry the map had under a key that no item was given under. -/
theorem foldl_mergeStep_last {τ : Type} (K : TokenClass τ) (items : List (String × τ)) :
    ∀ (m : mapOfTokenPointers τ), WellKeyed K m → (m.map Prod.fst).Nodup →
    (∀ it ∈ items, K.GetSpendable it.2 = it.1) →
    ∀ kv ∈ items.foldl (mergeStep K) m,
      items.reverse.find? (fun it => it.1 == kv.1) = some kv ∨
      (items.reverse.find? (fun it => it.1 == kv.1) = none ∧ kv ∈ m) := by
  induction items with
  | nil => intro m _ _ _ kv h; exact Or.inr ⟨rfl, h⟩
  | cons it rest ih =>
    intro m hW hN hit kv hkv
    obtain ⟨_, hW1, hN1⟩ := mergeStep_spec K m it hW hN (hit it (List.mem_cons_self _ _))
    rw [List.foldl_cons] at hkv
    rw [List.reverse_cons, List.find?_append]
    rcases ih (mergeStep K m it) hW1 hN1 (fun x hx => hit x (List.mem_cons_of_mem _ hx))
      kv hkv with h | ⟨h, hmem⟩
    · left; rw [h]; rfl
    · rw [h]
      rcases mem_mapInsert _ _ _ kv hmem with heq | hold
      · left
        have : kv = it := heq
        subst this
        simp
      · right
        obtain ⟨hm, hne⟩ := (mem_eraseDuplicates K it.1 m kv).1 hold
        refine ⟨?_, hm⟩
        have hk : it.1 ≠ kv.1 := by
          rw [hW kv hm]
          exact fun h => hne h.symm
        simp [hk]

end OpenTxs

namespace OpenTxs
open Purse

/-- C26: let every envelope of this purse yield its token under `theOldNym`
(the list `tsA`, in the order of the pops) and every envelope of the other
purse under `theNewNym` (the list `tsB`), the reassignment keeping the
spendable identity.  Then the two drain loops of `Merge` return, and the
temporary map they leave holds no two tokens of equal spendable identity, holds
a token for every identity drained, and holds for each identity the token
drained last with it: a token of the other purse rather than one of this
purse, and within one purse the one popped later. -/
theorem Merge_last_write_wins {τ : Type} (K : TokenClass τ) (A B : Purse) (theSigner : Nym)
    (theOldNym theNewNym : OTNym_or_SymmetricKey) (tsA tsB : List τ)
    (hA : List.Forall₂ (fun e T => PeekArmor K A theOldNym e = Run.done (some T))
      A.m_dequeTokens tsA)
    (hB : List.Forall₂ (fun e T => PeekArmor K B theNewNym e = Run.done (some T))
      B.m_dequeTokens tsB)
    (hKey : ∀ T ∈ tsB,
      K.GetSpendable (reassignToken K theSigner theOldNym theNewNym T) = K.GetSpendable T) :
    ∃ A0 B1 theMap1 theMap,
      MergeDrainThis K theOldNym A.Count A [] = Run.done (A0, theMap1) ∧
      MergeDrainNew K theSigner theOldNym theNewNym B.Count B theMap1 =
        Run.done (B1, theMap) ∧
      (theMap.map (fun kv => K.GetSpendable kv.2)).Nodup ∧
      (∀ kv ∈ theMap,
        (tsA ++ tsB.map (reassignToken K theSigner theOldNym theNewNym)).reverse.find?
          (fun T => K.GetSpendable T == K.GetSpendable kv.2) = some kv.2) ∧
      (∀ T ∈ tsA ++ tsB.map (reassignToken K theSigner theOldNym theNewNym),
        ∃ kv ∈ theMap, K.GetSpendable kv.2 = K.GetSpendable T) := by
  obtain ⟨A0, hD1, _, _, _⟩ :=
    MergeDrainThis_spec K theOldNym A.m_dequeTokens tsA A.Count A [] rfl hA (le_refl _)
  obtain ⟨B1, hD2, _⟩ :=
    MergeDrainNew_spec K theSigner theOldNym theNewNym B.m_dequeTokens tsB B.Count B
      ((tsA.map (fun T => (K.GetSpendable T, T))).foldl (mergeStep K) []) rfl hB (le_refl _)
  have hitems : (tsB.map (fun T => (K.GetSpendable T,
        reassignToken K theSigner theOldNym theNewNym T))).foldl (mergeStep K)
        ((tsA.map (fun T => (K.GetSpendable T, T))).foldl (mergeStep K) []) =
      ((tsA ++ tsB.map (reassignToken K theSigner theOldNym theNewNym)).map
        (fun T => (K.GetSpendable T, T))).foldl (mergeStep K) [] := by
    rw [List.map_append, List.foldl_append, List.map_map]
    congr 1
    apply List.map_congr_left
    intro T hT
    simp only [Function.comp, Prod.mk.injEq, and_true]
    exact (hKey T hT).symm
  rw [hitems] at hD2
  generalize hdr : tsA ++ tsB.map (reassignToken K theSigner theOldNym theNewNym) = drained
    at hD2
  have hit : ∀ it ∈ drained.map (fun T => (K.GetSpendable T, T)), K.GetSpendable it.2 = it.1 := by
    intro it h
    obtain ⟨T, _, rfl⟩ := List.mem_map.1 h
    rfl
  obtain ⟨hW, hNd, _, hkeys⟩ := foldl_mergeStep_spec K _ []
    (fun _ h => absurd h (List.not_mem_nil _)) List.nodup_nil hit
  have hlast := foldl_mergeStep_last K _ []
    (fun _ h => absurd h (List.not_mem_nil _)) List.nodup_nil hit
  generalize hm : (drained.map (fun T => (K.GetSpendable T, T))).foldl (mergeStep K) [] = m
    at hD2 hW hNd hkeys hlast
  refine ⟨A0, B1, _, m, hD1, hD2, ?_, ?_, ?_⟩
  · have : m.map (fun kv => K.GetSpendable kv.2) = m.map Prod.fst :=
      List.map_congr_left (fun kv hkv => (hW kv hkv).symm)
    rw [this]; exact hNd
  · intro kv hkv
    rcases hlast kv hkv with h | ⟨_, h⟩
    · rw [← List.map_reverse, List.find?_map] at h
      cases hf : drained.reverse.find? ((fun it => it.1 == kv.1) ∘
          (fun T => (K.GetSpendable T, T))) with
      | none => rw [hf] at h; simp at h
      | some T =>
        rw [hf] at h
        simp only [Option.map_some', Option.some.injEq] at h
        have hk : (fun T => K.GetSpendable T == K.GetSpendable kv.2) =
            ((fun it : String × τ => it.1 == kv.1) ∘ (fun T => (K.GetSpendable T, T))) := by
          funext T0
          simp only [Function.comp]
          rw [hW kv hkv]
        rw [hk, hf, ← h]
    · exact absurd h (List.not_mem_nil _)
  · intro T hT
    have : K.GetSpendable T ∈ m.map Prod.fst := by
      rw [hkeys]
      right
      exact List.mem_map.2 ⟨(K.GetSpendable T, T), List.mem_map.2 ⟨T, hT, rfl⟩, rfl⟩
    obtain ⟨kv, hkv, hk⟩ := List.mem_map.1 this
    exact ⟨kv, hkv, by rw [← hW kv hkv]; exact hk⟩

set_option maxRecDepth 8000 in
/-- Witness of C26: this purse holds `tok1` and `tok2`, the other purse holds
`tok2b`, of the identity of `tok2`, and `tok3`; after the merge this purse
holds `tok3`, `tok2b` and `tok1`. -/
theorem Merge_last_write_wins_witness :
    (∃ A0 B1 theMap1 theMap,
      MergeDrainThis sampleClassB plainOwner purseA.Count purseA [] =
        Run.done (A0, theMap1) ∧
      MergeDrainNew sampleClassB ⟨"signer"⟩ plainOwner plainOwner purseB2.Count purseB2 theMap1 =
        Run.done (B1, theMap) ∧
      (theMap.map (fun kv => sampleClassB.GetSpendable kv.2)).Nodup ∧
      (∀ kv ∈ theMap,
        ([tok2, tok1] ++ [tok3, tok2b].map
            (reassignToken sampleClassB ⟨"signer"⟩ plainOwner plainOwner)).reverse.find?
          (fun T => sampleClassB.GetSpendable T == sampleClassB.GetSpendable kv.2) =
            some kv.2) ∧
      (∀ T ∈ [tok2, tok1] ++ [tok3, tok2b].map
          (reassignToken sampleClassB ⟨"signer"⟩ plainOwner plainOwner),
        ∃ kv ∈ theMap, sampleClassB.GetSpendable kv.2 = sampleClassB.GetSpendable T)) ∧
    (Merge sampleClassB purseA ⟨"signer"⟩ plainOwner plainOwner purseB2).value?.map
      (fun r => (r.1, r.2.1.m_dequeTokens, r.2.1.m_lTotalValue)) =
        some (true, ["t3", "t2b", "t1"], 65) :=
  ⟨Merge_last_write_wins sampleClassB purseA purseB2 ⟨"signer"⟩ plainOwner plainOwner
      [tok2, tok1] [tok3, tok2b]
      (List.Forall₂.cons (by decide) (List.Forall₂.cons (by decide) List.Forall₂.nil))
      (List.Forall₂.cons (by decide) (List.Forall₂.cons (by decide) List.Forall₂.nil))
      (by decide),
    by decide⟩

end OpenTxs

namespace OpenTxs
open Purse

/-- Successive pops on a purse whose every envelope yields a token return
these tokens, front first, and leave the purse empty. -/
theorem popAll_of_PeekArmor {τ : Type} (K : TokenClass τ) (o : OTNym_or_SymmetricKey)
    (es : List String) :
    ∀ (ts : List τ) (fuel : Nat) (p : Purse),
    p.m_dequeTokens = es →
    List.Forall₂ (fun e T => PeekArmor K p o e = Run.done (some T)) es ts →
    es.length ≤ fuel →
    ∃ p1, popAll K o fuel p = Run.done (ts, p1) ∧ p1.m_dequeTokens = [] := by
  induction es with
  | nil =>
    intro ts fuel p hd hF _
    cases hF
    refine ⟨p, ?_, hd⟩
    cases fuel <;> simp [popAll, Purse.IsEmpty, hd]
  | cons e rest ih =>
    intro ts fuel p hd hF hfuel
    cases hF with
    | cons hT hrest =>
      rename_i T ts1
      cases fuel with
      | zero => simp at hfuel
      | succ f =>
        have hpop := Pop_of_PeekArmor K p o e rest T hd hT
        obtain ⟨p1, h1, h2⟩ := ih ts1 f
          { p with
            m_dequeTokens := rest
            m_lTotalValue := wrapInt64 (p.m_lTotalValue - K.GetDenomination T) } rfl
          (hrest.imp (fun _ _ h => by rw [← h]; exact PeekArmor_congr K _ _ o _ rfl rfl))
          (by simp at hfuel; omega)
        refine ⟨p1, ?_, h2⟩
        simp only [popAll, Purse.IsEmpty, hd, List.isEmpty_cons, Bool.false_eq_true, if_false,
          hpop, h1]

/-- The pushes of `Merge` leave the scope of the purse as it was. -/
theorem foldl_Push_scope {τ : Type} (K : TokenClass τ) (o : OTNym_or_SymmetricKey)
    (m : mapOfTokenPointers τ) :
    ∀ (p : Purse),
    (m.foldl (fun q it => (Push K q o it.2).2) p).m_NotaryID = p.m_NotaryID ∧
    (m.foldl (fun q it => (Push K q o it.2).2) p).m_InstrumentDefinitionID =
      p.m_InstrumentDefinitionID := by
  induction m with
  | nil => intro p; exact ⟨rfl, rfl⟩
  | cons it rest ih =>
    intro p
    obtain ⟨h1, h2⟩ := ih (Push K p o it.2).2
    obtain ⟨h3, h4⟩ := Push_scope K p o it.2
    exact ⟨h1.trans h3, h2.trans h4⟩

/-- A pointwise relation can be strengthened with what holds of the elements
on the right. -/
theorem forall₂_imp_of_mem {α β : Type} (R S : α → β → Prop) (l1 : List α) (l2 : List β)
    (h : List.Forall₂ R l1 l2) : (∀ a b, b ∈ l2 → R a b → S a b) → List.Forall₂ S l1 l2 := by
  induction h with
  | nil => intro _; exact List.Forall₂.nil
  | cons hab _ ih =>
    intro himp
    exact List.Forall₂.cons (himp _ _ (List.mem_cons_self _ _) hab)
      (ih (fun a b hb hr => himp a b (List.mem_cons_of_mem _ hb) hr))

/-- C29: let every envelope of this purse yield its token under `theOldNym`
(the list `tsA`) and every envelope of the other purse under `theNewNym` (the
list `tsB`), the reassignment keeping the spendable identity, and let every
token drained, sealed under `theOldNym`, open again under `theOldNym` into the
same token with the scope of this purse.  Then `Merge` returns true, and the
successive pops on this purse return, until it is empty, one token for each
spendable identity drained, in strictly descending order of the identity
strings, whatever the order of the envelopes in the two purses was. -/
theorem Merge_pops_descending {τ : Type} (K : TokenClass τ) (A B : Purse) (theSigner : Nym)
    (theOldNym theNewNym : OTNym_or_SymmetricKey) (tsA tsB : List τ)
    (hA : List.Forall₂ (fun e T => PeekArmor K A theOldNym e = Run.done (some T))
      A.m_dequeTokens tsA)
    (hB : List.Forall₂ (fun e T => PeekArmor K B theNewNym e = Run.done (some T))
      B.m_dequeTokens tsB)
    (hKey : ∀ T ∈ tsB,
      K.GetSpendable (reassignToken K theSigner theOldNym theNewNym T) = K.GetSpendable T)
    (hRound : ∀ T ∈ tsA ++ tsB.map (reassignToken K theSigner theOldNym theNewNym),
      ∃ e, theOldNym.Seal_or_Encrypt (K.toText T) = some e ∧
        PeekArmor K A theOldNym e = Run.done (some T)) :
    ∃ A1 B1 A2 survivors,
      Merge K A theSigner theOldNym theNewNym B = Run.done (true, A1, B1) ∧
      popAll K theOldNym A1.Count A1 = Run.done (survivors, A2) ∧
      A2.m_dequeTokens = [] ∧
      survivors.Pairwise
        (fun a b => stringLess (K.GetSpendable b) (K.GetSpendable a) = true) ∧
      (∀ id, id ∈ survivors.map K.GetSpendable ↔
        id ∈ tsA.map K.GetSpendable ∨ id ∈ tsB.map K.GetSpendable) := by
  obtain ⟨p1, hD1, hp1d, hp1N, hp1I⟩ :=
    MergeDrainThis_spec K theOldNym A.m_dequeTokens tsA A.Count A [] rfl hA (le_refl _)
  obtain ⟨B1, hD2, _⟩ :=
    MergeDrainNew_spec K theSigner theOldNym theNewNym B.m_dequeTokens tsB B.Count B
      ((tsA.map (fun T => (K.GetSpendable T, T))).foldl (mergeStep K) []) rfl hB (le_refl _)
  let itemsA : List (String × τ) := tsA.map (fun T => (K.GetSpendable T, T))
  let itemsB : List (String × τ) :=
    tsB.map (fun T => (K.GetSpendable T, reassignToken K theSigner theOldNym theNewNym T))
  have hfold : itemsB.foldl (mergeStep K) (itemsA.foldl (mergeStep K) []) =
      (itemsA ++ itemsB).foldl (mergeStep K) [] := by
    rw [List.foldl_append]
  have hitems : ∀ it ∈ itemsA ++ itemsB, K.GetSpendable it.2 = it.1 := by
    intro it hit
    rcases List.mem_append.1 hit with h | h
    · obtain ⟨T, _, rfl⟩ := List.mem_map.1 h
      rfl
    · obtain ⟨T, hT, rfl⟩ := List.mem_map.1 h
      exact hKey T hT
  obtain ⟨hW, _, hsub, hkeys⟩ := foldl_mergeStep_spec K (itemsA ++ itemsB) []
    (fun _ h => absurd h (List.not_mem_nil _)) List.nodup_nil hitems
  have hsorted := foldl_mergeStep_sorted K (itemsA ++ itemsB) [] List.Pairwise.nil
  generalize hm : (itemsA ++ itemsB).foldl (mergeStep K) [] = m at hW hsub hkeys hsorted
  have hdrained : ∀ kv ∈ m,
      kv.2 ∈ tsA ++ tsB.map (reassignToken K theSigner theOldNym theNewNym) := by
    intro kv hkv
    rcases hsub kv hkv with h | h
    · exact absurd h (List.not_mem_nil _)
    · rcases List.mem_append.1 h with h | h
      · obtain ⟨T, hT, rfl⟩ := List.mem_map.1 h
        exact List.mem_append_left _ hT
      · obtain ⟨T, hT, rfl⟩ := List.mem_map.1 h
        exact List.mem_append_right _ (List.mem_map.2 ⟨T, hT, rfl⟩)
  have hpushable : ∀ kv ∈ m, K.GetInstrumentDefinitionID kv.2 = p1.m_InstrumentDefinitionID ∧
      (theOldNym.Seal_or_Encrypt (K.toText kv.2)).isSome := by
    intro kv hkv
    obtain ⟨e, he, hpk⟩ := hRound kv.2 (hdrained kv hkv)
    obtain ⟨_, _, _, hI, _⟩ := PeekArmor_some K A theOldNym e kv.2 hpk
    exact ⟨hI.trans hp1I.symm, by rw [he]; rfl⟩
  obtain ⟨A1, es, hPush, hF, hdq⟩ := MergePushAll_spec K theOldNym m true p1 hpushable
  rw [hp1d, List.append_nil] at hdq
  have hA1 : A1 = m.foldl (fun q it => (Push K q theOldNym it.2).2) p1 := by
    have := MergePushAll_flags K theOldNym m true p1
    rw [hPush] at this
    exact (Prod.mk.inj this).2
  have hscope : A1.m_NotaryID = A.m_NotaryID ∧
      A1.m_InstrumentDefinitionID = A.m_InstrumentDefinitionID := by
    obtain ⟨h1, h2⟩ := foldl_Push_scope K theOldNym m p1
    rw [hA1]
    exact ⟨h1.trans hp1N, h2.trans hp1I⟩
  have hpeek : List.Forall₂ (fun e T => PeekArmor K A1 theOldNym e = Run.done (some T))
      A1.m_dequeTokens (m.map Prod.snd).reverse := by
    rw [hdq, List.forall₂_reverse_iff, List.forall₂_map_right_iff]
    refine forall₂_imp_of_mem _ _ _ _ hF ?_
    intro e kv hkv hseal
    obtain ⟨e1, he1, hpk⟩ := hRound kv.2 (hdrained kv hkv)
    rw [hseal] at he1
    simp only [Option.some.injEq] at he1
    subst he1
    rw [← hpk]
    exact PeekArmor_congr K A1 A theOldNym e hscope.1 hscope.2
  obtain ⟨A2, hpop, hA2⟩ := popAll_of_PeekArmor K theOldNym A1.m_dequeTokens
    (m.map Prod.snd).reverse A1.Count A1 rfl hpeek (le_refl _)
  refine ⟨A1, B1, A2, (m.map Prod.snd).reverse, ?_, hpop, hA2, ?_, ?_⟩
  · unfold Merge
    rw [hD1]
    simp only
    rw [hD2]
    simp only
    rw [hfold, hm, hPush]
  · rw [List.pairwise_reverse, List.pairwise_map]
    refine List.Pairwise.imp_of_mem ?_ hsorted
    intro a b ha hb hab
    rw [← hW a ha, ← hW b hb]
    exact hab
  · intro id
    have hmk : ((m.map Prod.snd).reverse).map K.GetSpendable = (m.map Prod.fst).reverse := by
      rw [List.map_reverse, List.map_map]
      congr 1
      exact List.map_congr_left (fun kv hkv => (hW kv hkv).symm)
    rw [hmk, List.mem_reverse, hkeys id]
    simp [itemsA, itemsB, List.map_map, Function.comp_def]

set_option maxRecDepth 8000 in
/-- Witness of C29: this purse holds `tok3`, `tok1`, `tok2`, pushed in this
order, and the other purse holds `tok2`, `tok3`; after the merge the pops
return `tok3`, `tok2`, `tok1`. -/
theorem Merge_pops_descending_witness :
    purseC.m_dequeTokens = ["t2", "t1", "t3"] ∧
    (∃ A1 B1 A2 survivors,
      Merge sampleClass purseC ⟨"signer"⟩ plainOwner plainOwner purseB =
        Run.done (true, A1, B1) ∧
      popAll sampleClass plainOwner A1.Count A1 = Run.done (survivors, A2) ∧
      A2.m_dequeTokens = [] ∧
      survivors.Pairwise (fun a b =>
        stringLess (sampleClass.GetSpendable b) (sampleClass.GetSpendable a) = true) ∧
      (∀ id, id ∈ survivors.map sampleClass.GetSpendable ↔
        id ∈ [tok2, tok1, tok3].map sampleClass.GetSpendable ∨
        id ∈ [tok3, tok2].map sampleClass.GetSpendable)) ∧
    ((Merge sampleClass purseC ⟨"signer"⟩ plainOwner plainOwner purseB).value?.map
      (fun r => (popAll sampleClass plainOwner r.2.1.Count r.2.1).value?.map Prod.fst)) =
        some (some [tok3, tok2, tok1]) :=
  ⟨by decide,
    Merge_pops_descending sampleClass purseC purseB ⟨"signer"⟩ plainOwner plainOwner
      [tok2, tok1, tok3] [tok3, tok2]
      (List.Forall₂.cons (by decide) (List.Forall₂.cons (by decide)
        (List.Forall₂.cons (by decide) List.Forall₂.nil)))
      (List.Forall₂.cons (by decide) (List.Forall₂.cons (by decide) List.Forall₂.nil))
      (by decide) (by decide),
    by decide⟩

end OpenTxs

/-! ## Theorems about parsing what `AddBookendsAroundContent` writes -/

namespace OpenTxs
open Contract

/-- A text that `dropWhile` leaves as it is does not start with a dropped character. -/
theorem head_of_dropWhile_eq_self (p : Char → Bool) (a : Char) (r : List Char)
    (h : (a :: r).dropWhile p = a :: r) : p a = false := by
  cases hp : p a with
  | false => rfl
  | true =>
    rw [List.dropWhile_cons, if_pos hp] at h
    have h1 : (r.dropWhile p).length ≤ r.length := (List.dropWhile_sublist p).length_le
    rw [h] at h1
    simp at h1

/-- Dropping from the front what was already dropped changes nothing. -/
theorem dropWhile_dropWhile (p : Char → Bool) (l : List Char) :
    (l.dropWhile p).dropWhile p = l.dropWhile p := by
  induction l with
  | nil => rfl
  | cons c cs ih =>
    rw [List.dropWhile_cons]
    split
    · exact ih
    · rename_i hc
      rw [List.dropWhile_cons, if_neg hc]

/-- Trimming a trimmed text changes nothing. -/
theorem trim_trim (s : List Char) : trim (trim s) = trim s := by
  have key : ∀ u : List Char, u.dropWhile isWhitespace = u →
      ((u.reverse.dropWhile isWhitespace).reverse).dropWhile isWhitespace =
        (u.reverse.dropWhile isWhitespace).reverse := by
    intro u hu
    have hsplit : u = (u.reverse.dropWhile isWhitespace).reverse ++
        (u.reverse.takeWhile isWhitespace).reverse := by
      rw [← List.reverse_append, List.takeWhile_append_dropWhile, List.reverse_reverse]
    cases ht : (u.reverse.dropWhile isWhitespace).reverse with
    | nil => rfl
    | cons a t =>
      rw [ht] at hsplit
      rw [hsplit] at hu
      have ha := head_of_dropWhile_eq_self isWhitespace a _ hu
      rw [List.dropWhile_cons, if_neg (by simp [ha])]
  unfold trim
  rw [key _ (dropWhile_dropWhile _ s), List.reverse_reverse, dropWhile_dropWhile]

/-- The text that `AddBookendsAroundContent` writes for a body made of lines
and a non-empty list of signatures made of lines starts with the opening. -/
theorem AddBookends_opening (E : ContractEnv) (strContractType strHashType : List Char)
    (bodyLines : List (List Char))
    (init : List (List (List Char) × Option OTSignatureMetadata))
    (last : List (List Char) × Option OTSignatureMetadata) :
    AddBookendsAroundContent E (unlines bodyLines) strContractType strHashType
        ((init ++ [last]).map (fun x => signatureOfLines x.1 x.2)) =
      openingLines strContractType strHashType ++
        (unlines bodyLines ++
          (((init.map (fun x => signatureOfLines x.1 x.2)).map
              (signatureBlock E strContractType)).flatten ++
            signatureBlockCore E strContractType (signatureOfLines last.1 last.2))) := by
  rw [AddBookends_lines]
  simp [openingLines, List.append_assoc]

/-- What `ParseRawFile` returns when its loop ends at the end of the text,
after the opening bookend, out of the body and out of a signature: the result
of `LoadContractXML` on the container with what the loop collected. -/
theorem ParseRawFile_of_success (E : ContractEnv) (c : Contract) (s : ParseState)
    (hlen : c.m_strRawFile.length ≠ 0)
    (hloop : Finishes E
      ⟨trim c.m_strRawFile, false, false, false, c.m_xmlUnsigned, c.m_strSigHashType,
        c.m_listSignatures, none⟩ (true, s))
    (h1 : s.bHaveEnteredContentMode = true) (h2 : s.bContentMode = false)
    (h3 : s.bSignatureMode = false) :
    ParseRawFile E c = Run.done (LoadContractXML E
      { c with
        m_strRawFile := trim c.m_strRawFile
        m_xmlUnsigned := s.m_xmlUnsigned
        m_strSigHashType := s.m_strSigHashType
        m_listSignatures := s.m_listSignatures ++ s.pSig.toList }) := by
  obtain ⟨n, hn⟩ := hloop
  have hl := parseLoop_of_fuel E n ((trim c.m_strRawFile).length + 1) _ _ hn
    (Nat.lt_succ_self _)
  unfold ParseRawFile
  rw [if_neg hlen]
  simp only [hl]
  simp [h1, h2, h3]

end OpenTxs

namespace OpenTxs
open Contract

/-- Reading a line that fills the buffer: the characters that fit are read and
the rest of the text, the newline of the line first, is left. -/
theorem sgetsAux_full (l : List Char) :
    ∀ (budget : Nat) (acc : List Char) (c : Char) (rest : List Char),
    '\n' ∉ l → l.length = budget →
    sgetsAux budget acc (l ++ c :: rest) = (acc.reverse ++ l, c :: rest, true) := by
  induction l with
  | nil =>
    intro budget acc c rest _ hb
    simp only [List.length_nil] at hb
    subst hb
    simp [sgetsAux]
  | cons x xs ih =>
    intro budget acc c rest hn hb
    cases budget with
    | zero => simp at hb
    | succ b =>
      have hx : x ≠ '\n' := fun h => hn (by simp [h])
      have hxs : '\n' ∉ xs := fun h => hn (List.mem_cons_of_mem _ h)
      simp only [List.cons_append, sgetsAux, if_neg hx]
      show sgetsAux b (x :: acc) (xs ++ c :: rest) = _
      rw [ih b (x :: acc) c rest hxs (by simpa using hb)]
      simp

/-- A line of 2047 characters followed by a newline: `sgets` reads the 2047
characters and leaves the newline. -/
theorem sgets_full (l rest : List Char) (hn : '\n' ∉ l) (hb : l.length = 2047) :
    sgets (l ++ '\n' :: rest) = (l, '\n' :: rest, true) := by
  unfold sgets
  rw [sgetsAux_full l 2047 [] '\n' rest hn hb]
  simp

/-- Round on a body line of 2047 characters in content mode: the line joins the
body, and its newline is left to be read as a line of its own. -/
theorem parseStep_fullLine (E : ContractEnv) (l rest xml hash : List Char)
    (sigs : List OTSignature) (hn : '\n' ∉ l) (hb : l.length = 2047)
    (h0 : charAt l 0 ≠ '-') (hhash : startsWith "Hash: ".data l = false) :
    parseStep E ⟨l ++ '\n' :: rest, false, true, true, xml, hash, sigs, none⟩ =
      ParseStep.next ⟨'\n' :: rest, false, true, true, xml ++ l ++ ['\n'], hash, sigs, none⟩
        false := by
  unfold parseStep
  rw [sgets_full l rest hn hb]
  have hlt : ¬ l.length < 2 := by omega
  simp [collectLine, hhash, h0, hlt]

/-- The loop of `ParseRawFile` over the canonical text of a body that is one
line of 2047 characters and of one signature: the body collected has one
newline more than the body written. -/
theorem Finishes_fullLine (E : ContractEnv) (strContractType strHashType l : List Char)
    (last : List (List Char) × Option OTSignatureMetadata)
    (xml0 hash0 : List Char) (sigs0 : List OTSignature)
    (ht : isLabel strContractType = true) (hh : isLabel strHashType = true)
    (hv : isLabel E.Version = true)
    (hn : '\n' ∉ l) (hb : l.length = 2047)
    (h0 : charAt l 0 ≠ '-') (hhash : startsWith "Hash: ".data l = false)
    (hsig : isGoodSignature E last = true) :
    Finishes E
      ⟨AddBookendsAroundContent E (l ++ ['\n']) strContractType strHashType
          [signatureOfLines last.1 last.2],
        false, false, false, xml0, hash0, sigs0, none⟩
      (true, ⟨[], false, false, true, xml0 ++ l ++ ['\n', '\n'],
        strHashType.map Char.toUpper, sigs0 ++ [signatureOfLines last.1 last.2], none⟩) := by
  have e1 : l ++ ['\n'] = unlines [l] := by simp [unlines]
  have e2 : [signatureOfLines last.1 last.2] =
      (([] : List (List (List Char) × Option OTSignatureMetadata)) ++ [last]).map
        (fun x => signatureOfLines x.1 x.2) := rfl
  rw [e1, e2, AddBookends_opening]
  have hcore := signatureBlockCore_ne_nil E strContractType (signatureOfLines last.1 last.2)
  have e3 : unlines [l] ++ ((List.map (signatureBlock E strContractType)
        (List.map (fun x => signatureOfLines x.1 x.2)
          ([] : List (List (List Char) × Option OTSignatureMetadata)))).flatten ++
        signatureBlockCore E strContractType (signatureOfLines last.1 last.2)) =
      l ++ '\n' :: signatureBlockCore E strContractType (signatureOfLines last.1 last.2) := by
    simp [unlines]
  rw [e3]
  have s1 := Reaches_opening E strContractType strHashType
    (l ++ '\n' :: signatureBlockCore E strContractType (signatureOfLines last.1 last.2))
    xml0 hash0 sigs0 ht hh (by simp)
  have s2 := Reaches.of_step (parseStep_fullLine E l
    (signatureBlockCore E strContractType (signatureOfLines last.1 last.2))
    xml0 (strHashType.map Char.toUpper) sigs0 hn hb h0 hhash)
  have s3 := Reaches.of_step (parseStep_bodyLine E []
    (signatureBlockCore E strContractType (signatureOfLines last.1 last.2))
    (xml0 ++ l ++ ['\n']) (strHashType.map Char.toUpper) sigs0 (by decide) hcore)
  have s4 := Finishes_sigBlock E strContractType last.1 last.2
    (xml0 ++ l ++ ['\n'] ++ [] ++ ['\n']) (strHashType.map Char.toUpper) sigs0 true ht hv hsig
  have := (s1.trans (s2.trans s3)).finishes s4
  simpa [List.append_assoc] using this

theorem startsWith_cons_ne (p c : Char) (ps cs : List Char) (h : p ≠ c) :
    startsWith (p :: ps) (c :: cs) = false := by
  simp [startsWith, h]

/-- `ParseRawFile` on the canonical text of a body that is one line of 2047
characters and of one signature: the element loop is run on a body that has
one newline more than the body written. -/
theorem ParseRawFile_fullLine (E : ContractEnv) (c : Contract)
    (strContractType strHashType l : List Char)
    (last : List (List Char) × Option OTSignatureMetadata)
    (ht : isLabel strContractType = true) (hh : isLabel strHashType = true)
    (hv : isLabel E.Version = true)
    (hn : '\n' ∉ l) (hb : l.length = 2047)
    (h0 : charAt l 0 ≠ '-') (hhash : startsWith "Hash: ".data l = false)
    (hsig : isGoodSignature E last = true)
    (hxml : c.m_xmlUnsigned = []) (hlist : c.m_listSignatures = [])
    (hraw : c.m_strRawFile = AddBookendsAroundContent E (l ++ ['\n']) strContractType
      strHashType [signatureOfLines last.1 last.2]) :
    ParseRawFile E c = Run.done (E.processXML
      { c with
        m_xmlUnsigned := l ++ ['\n', '\n']
        m_strSigHashType := strHashType.map Char.toUpper
        m_listSignatures := [signatureOfLines last.1 last.2] }) := by
  have hfin := Finishes_fullLine E strContractType strHashType l last [] c.m_strSigHashType []
    ht hh hv hn hb h0 hhash hsig
  have htrim : trim c.m_strRawFile = c.m_strRawFile := by
    rw [hraw]; exact trim_trim _
  have hne : c.m_strRawFile ≠ [] := by
    have e1 : l ++ ['\n'] = unlines [l] := by simp [unlines]
    have e2 : [signatureOfLines last.1 last.2] =
        (([] : List (List (List Char) × Option OTSignatureMetadata)) ++ [last]).map
          (fun x => signatureOfLines x.1 x.2) := rfl
    rw [hraw, e1, e2, AddBookends_opening]
    exact openingLines_ne_nil _ _ _
  have hlen : c.m_strRawFile.length ≠ 0 := fun h => hne (List.length_eq_zero.1 h)
  rw [← hraw, ← htrim] at hfin
  have hres := ParseRawFile_of_success E c _ hlen
    (by rw [hxml, hlist]; exact hfin) rfl rfl rfl
  rw [hres]
  have hx : (l ++ ['\n', '\n']).isEmpty = false := by
    cases l with
    | nil => simp at hb
    | cons x xs => rfl
  simp only [LoadContractXML, List.nil_append, Option.toList, List.append_nil, hx,
    htrim]
  simp

/-- C27 (counterexample): the body made of one line of 2047 letters, which has
no line longer than 2047 characters, written with one signature and parsed
again comes back with a second newline at its end. -/
theorem ParseRawFile_line_of_2047 :
    (List.replicate 2047 'a').length = 2047 ∧
    ParseRawFile sampleEnv
      { Contract.create sampleEnv with
        m_strRawFile := AddBookendsAroundContent sampleEnv
          (List.replicate 2047 'a' ++ ['\n']) "CONTRACT".data "SHA256".data
          [{ payload := "SIG\n".data, metaData := none }] } =
      Run.done (true,
        { Contract.create sampleEnv with
          m_strRawFile := AddBookendsAroundContent sampleEnv
            (List.replicate 2047 'a' ++ ['\n']) "CONTRACT".data "SHA256".data
            [{ payload := "SIG\n".data, metaData := none }]
          m_xmlUnsigned := List.replicate 2047 'a' ++ ['\n', '\n']
          m_listSignatures := [{ payload := "SIG\n".data, metaData := none }] }) ∧
    List.replicate 2047 'a' ++ ['\n', '\n'] ≠ List.replicate 2047 'a' ++ ['\n'] := by
  have hn : '\n' ∉ List.replicate 2047 'a' := by
    intro h
    have := List.eq_of_mem_replicate h
    exact absurd this (by decide)
  have hhead : List.replicate 2047 'a' = 'a' :: List.replicate 2046 'a' := rfl
  refine ⟨List.length_replicate _ _, ?_, ?_⟩
  · have hlen0 : (List.replicate 2047 'a').length = 2047 := List.length_replicate _ _
    revert hlen0
    have h0 : charAt (List.replicate 2047 'a') 0 ≠ '-' := by
      rw [hhead]; exact fun h => absurd (show 'a' = '-' from h) (by decide)
    have hH : startsWith "Hash: ".data (List.replicate 2047 'a') = false := by
      rw [hhead]; exact startsWith_cons_ne 'H' 'a' _ _ (by decide)
    generalize List.replicate 2047 'a' = l at hn h0 hH
    intro hlen
    have h := ParseRawFile_fullLine sampleEnv
      { Contract.create sampleEnv with
        m_strRawFile := AddBookendsAroundContent sampleEnv
          (l ++ ['\n']) "CONTRACT".data "SHA256".data
          [{ payload := "SIG\n".data, metaData := none }] }
      "CONTRACT".data "SHA256".data l (["SIG".data], none)
      (by decide) (by decide) (by decide) hn hlen h0 hH (by decide) rfl rfl rfl
    rw [h]
    rfl
  · intro h
    have := congrArg List.length h
    simp only [List.length_append, List.length_replicate, List.length_cons,
      List.length_nil] at this
    omega

end OpenTxs

namespace OpenTxs
open Contract

/-- C27 (amended): for every non-empty body made of lines of at most 2046
characters that start neither with a dash nor with `Hash: `, every contract
type, hash name and version without newline and of at most 1900 characters,
and every non-empty list of signatures whose payloads are made of lines of 2
to 2046 characters that start neither with a dash nor with `Version:`,
`Comment:` or `Meta:` and whose metadata, if any, `SetMetadata` accepts:
`ParseRawFile`, applied in a container without body and signatures to what
`AddBookendsAroundContent` writes, reaches the element loop with exactly the
body, the hash name in upper case, and the same signatures in the same order,
payloads and metadata included. -/
theorem ParseRawFile_AddBookends_recovers (E : ContractEnv) (c : Contract)
    (strContractType strHashType : List Char) (bodyLines : List (List Char))
    (init : List (List (List Char) × Option OTSignatureMetadata))
    (last : List (List Char) × Option OTSignatureMetadata)
    (ht : isLabel strContractType = true) (hh : isLabel strHashType = true)
    (hv : isLabel E.Version = true)
    (hbody : ∀ l ∈ bodyLines, isBodyLine l = true) (hne : bodyLines ≠ [])
    (hsigs : ∀ x ∈ init ++ [last], isGoodSignature E x = true)
    (hxml : c.m_xmlUnsigned = []) (hlist : c.m_listSignatures = [])
    (hraw : c.m_strRawFile =
      AddBookendsAroundContent E (unlines bodyLines) strContractType strHashType
        ((init ++ [last]).map (fun x => signatureOfLines x.1 x.2))) :
    ∃ c2, ParseRawFile E c = Run.done (E.processXML c2) ∧
      c2.m_xmlUnsigned = unlines bodyLines ∧
      c2.m_strSigHashType = strHashType.map Char.toUpper ∧
      c2.m_listSignatures = (init ++ [last]).map (fun x => signatureOfLines x.1 x.2) ∧
      c2.m_strRawFile = c.m_strRawFile := by
  have hfin := Finishes_canonical E strContractType strHashType bodyLines init last []
    c.m_strSigHashType [] ht hh hv hbody hsigs
  have htrim : trim c.m_strRawFile = c.m_strRawFile := by
    rw [hraw]; exact trim_trim _
  have hnil : c.m_strRawFile ≠ [] := by
    rw [hraw, AddBookends_opening]
    exact openingLines_ne_nil _ _ _
  have hlen : c.m_strRawFile.length ≠ 0 := fun h => hnil (List.length_eq_zero.1 h)
  rw [← hraw, ← htrim] at hfin
  have hres := ParseRawFile_of_success E c _ hlen
    (by rw [hxml, hlist]; exact hfin) rfl rfl rfl
  refine ⟨{ c with
      m_xmlUnsigned := unlines bodyLines
      m_strSigHashType := strHashType.map Char.toUpper
      m_listSignatures := (init ++ [last]).map (fun x => signatureOfLines x.1 x.2) },
    ?_, rfl, rfl, rfl, rfl⟩
  rw [hres]
  have hx : (unlines bodyLines).isEmpty = false :=
    isEmpty_false_of_ne _ (unlines_ne_nil bodyLines hne)
  simp only [LoadContractXML, List.nil_append, Option.toList, List.append_nil, hx, htrim]
  simp

set_option maxRecDepth 100000 in
/-- Witness of C27 (amended): the body `<a/>` with two signatures, the first
with metadata, the second with a payload of two lines. -/
theorem ParseRawFile_AddBookends_recovers_witness :
    ∃ c2, ParseRawFile sampleEnv
        { Contract.create sampleEnv with
          m_strRawFile := AddBookendsAroundContent sampleEnv (unlines ["<a/>".data])
            "CONTRACT".data "sha256".data
            (([sampleSigFirst] ++ [sampleSigLast]).map (fun x => signatureOfLines x.1 x.2)) } =
          Run.done (sampleEnv.processXML c2) ∧
      c2.m_xmlUnsigned = unlines ["<a/>".data] ∧
      c2.m_strSigHashType = "sha256".data.map Char.toUpper ∧
      c2.m_listSignatures =
        ([sampleSigFirst] ++ [sampleSigLast]).map (fun x => signatureOfLines x.1 x.2) ∧
      c2.m_strRawFile = AddBookendsAroundContent sampleEnv (unlines ["<a/>".data])
        "CONTRACT".data "sha256".data
        (([sampleSigFirst] ++ [sampleSigLast]).map (fun x => signatureOfLines x.1 x.2)) :=
  ParseRawFile_AddBookends_recovers sampleEnv
    { Contract.create sampleEnv with
      m_strRawFile := AddBookendsAroundContent sampleEnv (unlines ["<a/>".data])
        "CONTRACT".data "sha256".data
        (([sampleSigFirst] ++ [sampleSigLast]).map (fun x => signatureOfLines x.1 x.2)) }
    "CONTRACT".data "sha256".data ["<a/>".data]
    [sampleSigFirst] sampleSigLast
    (by decide) (by decide) (by decide) (by decide) (by decide) (by decide) rfl rfl rfl

end OpenTxs

/-! ## Theorems about the amounts of an asset contract -/

namespace OpenTxs
open AssetContract

/-- The character of a decimal digit. -/
theorem digitChar_spec (d : Nat) (h : d < 10) :
    isdigit (Char.ofNat (48 + d)) = true ∧ ((Char.ofNat (48 + d)).toNat : Int) - 48 = d := by
  interval_cases d <;> exact ⟨by decide, by decide⟩

/-- What `isdigit` tells about a character. -/
theorem isdigit_spec (c : Char) (h : isdigit c = true) :
    iscntrl c = false ∧ c ≠ ',' ∧ c ≠ '.' ∧ c ≠ '-' ∧
    0 ≤ (c.toNat : Int) - 48 ∧ (c.toNat : Int) - 48 ≤ 9 := by
  simp only [isdigit, decide_eq_true_eq] at h
  refine ⟨?_, ?_, ?_, ?_, by omega, by omega⟩
  · simp only [iscntrl, decide_eq_false_iff_not]; omega
  · rintro rfl; simp at h
  · rintro rfl; simp at h
  · rintro rfl; simp at h

theorem digitsValue_append (acc : Int) (l1 l2 : List Char) :
    digitsValue acc (l1 ++ l2) = digitsValue (digitsValue acc l1) l2 := by
  simp [digitsValue, List.foldl_append]

theorem dollarsValue_append (acc : Int) (l1 l2 : List Char) :
    dollarsValue acc (l1 ++ l2) = dollarsValue (dollarsValue acc l1) l2 := by
  simp [dollarsValue, List.foldl_append]

/-- On a text of digits the separator plays no part. -/
theorem dollarsValue_digits (l : List Char) :
    ∀ (acc : Int), (∀ c ∈ l, isdigit c = true) → dollarsValue acc l = digitsValue acc l := by
  induction l with
  | nil => intro acc _; rfl
  | cons c cs ih =>
    intro acc h
    have hc := (isdigit_spec c (h c (List.mem_cons_self _ _))).2.1
    simp only [dollarsValue, digitsValue, List.foldl_cons, if_neg hc]
    exact ih _ (fun x hx => h x (List.mem_cons_of_mem _ hx))

/-- The decimal digits of a number below `10 ^ k`: at least one and at most
`k`, all digits, denoting the number. -/
theorem decimalDigits_spec (fuel : Nat) :
    ∀ (n k : Nat), n < 10 ^ k → 1 ≤ k → k ≤ fuel →
    (decimalDigits fuel n).length ≤ k ∧ 1 ≤ (decimalDigits fuel n).length ∧
    (∀ c ∈ decimalDigits fuel n, isdigit c = true) ∧
    ∀ acc : Int, digitsValue acc (decimalDigits fuel n) =
      acc * 10 ^ (decimalDigits fuel n).length + n := by
  induction fuel with
  | zero => intro n k _ h1 h2; omega
  | succ f ih =>
    intro n k hn hk hf
    unfold decimalDigits
    split
    · rename_i h10
      obtain ⟨hd1, hd2⟩ := digitChar_spec n h10
      refine ⟨by simpa using hk, by simp, ?_, ?_⟩
      · intro c hc
        simp only [List.mem_singleton] at hc
        rw [hc]; exact hd1
      · intro acc
        simp only [digitsValue, List.foldl_cons, List.foldl_nil, List.length_singleton, pow_one]
        rw [hd2]
    · rename_i h10
      have hk2 : 2 ≤ k := by
        by_contra hlt
        have : k = 1 := by omega
        rw [this] at hn
        omega
      have hn2 : n / 10 < 10 ^ (k - 1) := by
        have e : 10 ^ k = 10 ^ (k - 1) * 10 := by
          rw [← pow_succ]; congr 1; omega
        rw [e] at hn
        exact Nat.div_lt_of_lt_mul (by rw [Nat.mul_comm]; exact hn)
      obtain ⟨i1, i2, i3, i4⟩ := ih (n / 10) (k - 1) hn2 (by omega) (by omega)
      obtain ⟨hd1, hd2⟩ := digitChar_spec (n % 10) (Nat.mod_lt _ (by decide))
      refine ⟨by simp only [List.length_append, List.length_singleton]; omega, by simp, ?_, ?_⟩
      · intro c hc
        rcases List.mem_append.1 hc with h | h
        · exact i3 c h
        · simp only [List.mem_singleton] at h
          rw [h]; exact hd1
      · intro acc
        rw [digitsValue_append, i4 acc]
        simp only [digitsValue, List.foldl_cons, List.foldl_nil, List.length_append,
          List.length_singleton]
        rw [hd2, pow_succ]
        have : (n : Int) = (n / 10 : Nat) * 10 + (n % 10 : Nat) := by
          have := Nat.div_add_mod n 10
          omega
        rw [this]
        push_cast
        ring

theorem digitsValue_replicate_zero (m : Nat) :
    ∀ acc : Int, digitsValue acc (List.replicate m '0') = acc * 10 ^ m := by
  induction m with
  | zero => intro acc; simp [digitsValue]
  | succ k ih =>
    intro acc
    rw [List.replicate_succ]
    have : digitsValue acc ('0' :: List.replicate k '0') =
        digitsValue (acc * 10 + 0) (List.replicate k '0') := rfl
    rw [this, ih, pow_succ]
    ring

/-- The text of a number below `10 ^ k` written with the width `k` and zeros
in front: `k` digits denoting the number. -/
theorem streamIntWidth_spec (k : Nat) (r : Int) (hk1 : 1 ≤ k) (hk : k ≤ 20) (h0 : 0 ≤ r)
    (hr : r < 10 ^ k) :
    (streamIntWidth k r).length = k ∧ (∀ c ∈ streamIntWidth k r, isdigit c = true) ∧
    ∀ acc : Int, digitsValue acc (streamIntWidth k r) = acc * 10 ^ k + r := by
  have hs : streamInt r = decimalDigits 20 r.toNat := by
    unfold streamInt; rw [if_neg (by omega)]
  have hrn : r.toNat < 10 ^ k := by
    have : ((r.toNat : Nat) : Int) < ((10 ^ k : Nat) : Int) := by
      rw [Int.toNat_of_nonneg h0]; push_cast; exact hr
    exact_mod_cast this
  obtain ⟨i1, i2, i3, i4⟩ := decimalDigits_spec 20 r.toNat k hrn hk1 hk
  unfold streamIntWidth
  rw [hs]
  simp only [Int.toNat_ofNat]
  refine ⟨?_, ?_, ?_⟩
  · simp only [List.length_append, List.length_replicate]; omega
  · intro c hc
    rcases List.mem_append.1 hc with h | h
    · rw [List.eq_of_mem_replicate h]; decide
    · exact i3 c h
  · intro acc
    rw [digitsValue_append, digitsValue_replicate_zero, i4, mul_assoc, ← pow_add]
    have : k - (decimalDigits 20 r.toNat).length + (decimalDigits 20 r.toNat).length = k := by
      omega
    rw [this, Int.toNat_of_nonneg h0]

end OpenTxs

namespace OpenTxs
open AssetContract

/-- What `separateThousands` writes for a number that is not negative, with
fuel for its groups of three digits: digits and separators, the first
character a digit, denoting the number. -/
theorem separateThousands_spec (fuel : Nat) :
    ∀ (value : Int), 0 ≤ value → value < 1000 ^ (fuel + 1) →
    ∃ s, separateThousands (fuel + 1) value ",".data = Run.done s ∧
      (∀ c ∈ s, isdigit c = true ∨ c = ',') ∧ (∃ c ∈ s, isdigit c = true) ∧
      dollarsValue 0 s = value := by
  have hbase : ∀ (value : Int), 0 ≤ value → value < 1000 →
      ∃ s, Run.done (streamInt value) = Run.done s ∧
        (∀ c ∈ s, isdigit c = true ∨ c = ',') ∧ (∃ c ∈ s, isdigit c = true) ∧
        dollarsValue 0 s = value := by
    intro value h0 hlt
    have hs : streamInt value = decimalDigits 20 value.toNat := by
      unfold streamInt; rw [if_neg (by omega)]
    have hn : value.toNat < 10 ^ 3 := by omega
    obtain ⟨_, i2, i3, i4⟩ := decimalDigits_spec 20 value.toNat 3 hn (by decide) (by decide)
    refine ⟨_, rfl, ?_, ?_, ?_⟩
    · intro c hc; rw [hs] at hc; exact Or.inl (i3 c hc)
    · rw [hs]
      cases hd : decimalDigits 20 value.toNat with
      | nil => rw [hd] at i2; simp at i2
      | cons c cs =>
        exact ⟨c, List.mem_cons_self _ _, i3 c (by rw [hd]; exact List.mem_cons_self _ _)⟩
    · rw [hs, dollarsValue_digits _ _ i3, i4]
      simp only [zero_mul, zero_add]
      exact Int.toNat_of_nonneg h0
  induction fuel with
  | zero =>
    intro value h0 h1
    unfold separateThousands
    rw [if_pos (by simpa using h1)]
    exact hbase value h0 (by simpa using h1)
  | succ f ih =>
    intro value h0 h1
    unfold separateThousands
    split
    · rename_i hlt
      exact hbase value h0 hlt
    · rename_i hge
      have hd0 : 0 ≤ value.tdiv 1000 := Int.tdiv_nonneg h0 (by decide)
      have hdiv : value.tdiv 1000 = value / 1000 := Int.tdiv_eq_ediv h0 (by decide)
      have hmod : value.tmod 1000 = value % 1000 := Int.tmod_eq_emod h0 (by decide)
      have hd1 : value.tdiv 1000 < 1000 ^ (f + 1) := by
        rw [hdiv]
        rw [pow_succ] at h1
        omega
      obtain ⟨s, hs, j1, j2, j3⟩ := ih (value.tdiv 1000) hd0 hd1
      rw [hs]
      have hm0 : 0 ≤ value.tmod 1000 := by rw [hmod]; omega
      have hm1 : value.tmod 1000 < 10 ^ 3 := by rw [hmod]; omega
      have hk := streamIntWidth_spec 3 (value.tmod 1000) (by decide) (by decide) hm0 hm1
      simp only [Nat.cast_ofNat] at hk
      obtain ⟨_, k2, k3⟩ := hk
      refine ⟨_, rfl, ?_, ?_, ?_⟩
      · intro c hc
        rcases List.mem_append.1 hc with h | h
        · rcases List.mem_append.1 h with h | h
          · exact j1 c h
          · right; simpa using h
        · exact Or.inl (k2 c h)
      · obtain ⟨c, hc, hcd⟩ := j2
        exact ⟨c, List.mem_append_left _ (List.mem_append_left _ hc), hcd⟩
      · rw [dollarsValue_append, dollarsValue_append, j3]
        have e1 : dollarsValue (value.tdiv 1000) ",".data = value.tdiv 1000 := rfl
        rw [e1, dollarsValue_digits _ _ k2, k3 (value.tdiv 1000), hdiv, hmod]
        omega

/-- The value read grows with the text. -/
theorem dollarsValue_mono (ds : List Char) :
    ∀ (acc : Int), (∀ c ∈ ds, isdigit c = true ∨ c = ',') → 0 ≤ acc →
    acc ≤ dollarsValue acc ds := by
  induction ds with
  | nil => intro acc _ _; exact le_refl _
  | cons c cs ih =>
    intro acc h h0
    have hcs : ∀ x ∈ cs, isdigit x = true ∨ x = ',' := fun x hx => h x (List.mem_cons_of_mem _ hx)
    simp only [dollarsValue, List.foldl_cons]
    split
    · exact ih acc hcs h0
    · rename_i hne
      rcases h c (List.mem_cons_self _ _) with hd | hd
      · obtain ⟨_, _, _, _, d0, _⟩ := isdigit_spec c hd
        have := ih (acc * 10 + ((c.toNat : Int) - 48)) hcs (by omega)
        exact le_trans (by omega) this
      · exact absurd hd hne

/-- The loop of `ParseFormatted` over a text in front of the number: every
character that is not a control character, a digit, the decimal point or the
minus sign is passed over. -/
theorem parseChars_symbol (nPower : Int) (pre : List Char) :
    ∀ (st : ParseFormattedState) (rest : List Char),
    (∀ c ∈ pre, isdigit c = false ∧ iscntrl c = false ∧ c ≠ '.' ∧ c ≠ '-') →
    st.bHasEnteredDollars = false → st.bHasEnteredCents = false →
    parseChars ',' '.' nPower (pre ++ rest) st = parseChars ',' '.' nPower rest st := by
  induction pre with
  | nil => intro st rest _ _ _; rfl
  | cons c cs ih =>
    intro st rest h hd hc
    obtain ⟨h1, h2, h3, h4⟩ := h c (List.mem_cons_self _ _)
    have hstep : parseChar ',' '.' nPower st c = (true, st) := by
      unfold parseChar
      simp only [h2, h1, hd, hc, Bool.false_eq_true, if_false, Bool.not_false, if_true,
        Bool.or_self]
      split
      · rfl
      · rw [if_neg (fun h => h3 h.symm), if_neg (fun h => h4 h.symm)]
    simp only [List.cons_append, parseChars, hstep]
    exact ih st rest (fun x hx => h x (List.mem_cons_of_mem _ hx)) hd hc

/-- The loop of `ParseFormatted` over the digits and separators of the whole
part of the number: the digits are collected into `lDollars`. -/
theorem parseChars_dollars (nPower : Int) (ds : List Char) :
    ∀ (st : ParseFormattedState) (rest : List Char),
    (∀ c ∈ ds, isdigit c = true ∨ c = ',') →
    st.bHasEnteredCents = false → 0 ≤ st.lDollars → dollarsValue st.lDollars ds < 2 ^ 63 →
    ∃ n, parseChars ',' '.' nPower (ds ++ rest) st =
      parseChars ',' '.' nPower rest
        { st with
          lDollars := dollarsValue st.lDollars ds
          bHasEnteredDollars := st.bHasEnteredDollars || ds.any isdigit
          nDigitsCollectedBeforeDot := n } := by
  induction ds with
  | nil =>
    intro st rest _ _ _ _
    exact ⟨st.nDigitsCollectedBeforeDot, by simp [dollarsValue]⟩
  | cons c cs ih =>
    intro st rest h hc h0 hlt
    have hcs : ∀ x ∈ cs, isdigit x = true ∨ x = ',' := fun x hx => h x (List.mem_cons_of_mem _ hx)
    by_cases hsep : c = ','
    · subst hsep
      have hstep : parseChar ',' '.' nPower st ',' = (true, st) := by
        unfold parseChar
        rw [if_neg (by decide), if_pos (by decide), if_pos rfl]
      have hv : dollarsValue st.lDollars (',' :: cs) = dollarsValue st.lDollars cs := rfl
      rw [hv] at hlt ⊢
      obtain ⟨n, hn⟩ := ih st rest hcs hc h0 hlt
      refine ⟨n, ?_⟩
      have hcomma : isdigit ',' = false := by decide
      simp only [List.cons_append, parseChars, hstep, List.any_cons, hcomma, Bool.false_or]
      exact hn
    · have hd : isdigit c = true := by
        rcases h c (List.mem_cons_self _ _) with hd | hd
        · exact hd
        · exact absurd hd hsep
      obtain ⟨g1, _, _, _, d0, d9⟩ := isdigit_spec c hd
      have hv : dollarsValue st.lDollars (c :: cs) =
          dollarsValue (st.lDollars * 10 + ((c.toNat : Int) - 48)) cs := by
        simp only [dollarsValue, List.foldl_cons, if_neg hsep]
      rw [hv] at hlt ⊢
      have hmono := dollarsValue_mono cs (st.lDollars * 10 + ((c.toNat : Int) - 48)) hcs
        (by omega)
      have hw1 : wrapInt64 (st.lDollars * 10) = st.lDollars * 10 :=
        wrapInt64_of_inRange _ (by omega) (by omega)
      have hw2 : wrapInt64 (st.lDollars * 10 + ((c.toNat : Int) - 48)) =
          st.lDollars * 10 + ((c.toNat : Int) - 48) :=
        wrapInt64_of_inRange _ (by omega) (by omega)
      have hstep : parseChar ',' '.' nPower st c = (true,
          { st with
            bHasEnteredDollars := true
            nDigitsCollectedBeforeDot := wrapInt32 (st.nDigitsCollectedBeforeDot + 1)
            lDollars := st.lDollars * 10 + ((c.toNat : Int) - 48) }) := by
        unfold parseChar
        simp only [g1, hd, hc, Bool.false_eq_true, if_false, Bool.not_true, hw1, hw2]
      obtain ⟨n, hn⟩ := ih
        { st with
          bHasEnteredDollars := true
          nDigitsCollectedBeforeDot := wrapInt32 (st.nDigitsCollectedBeforeDot + 1)
          lDollars := st.lDollars * 10 + ((c.toNat : Int) - 48) } rest hcs hc (by simp; omega)
        hlt
      refine ⟨n, ?_⟩
      simp only [List.cons_append, parseChars, hstep, List.any_cons, hd, Bool.true_or,
        Bool.or_true]
      simpa using hn

end OpenTxs

namespace OpenTxs
open AssetContract

/-- The loop of `ParseFormatted` over the digits after the decimal point, as
long as there is room for them: they are collected into `deque_cents`. -/
theorem parseChars_cents (p : Nat) (hp : p ≤ 9) (cs : List Char) :
    ∀ (st : ParseFormattedState),
    (∀ c ∈ cs, isdigit c = true) → st.bHasEnteredCents = true →
    0 ≤ st.nDigitsCollectedAfterDot → st.nDigitsCollectedAfterDot + cs.length ≤ p →
    (parseChars ',' '.' (p : Int) cs st).deque_cents =
        st.deque_cents ++ cs.map (fun c => (c.toNat : Int) - 48) ∧
      (parseChars ',' '.' (p : Int) cs st).lDollars = st.lDollars ∧
      (parseChars ',' '.' (p : Int) cs st).lSign = st.lSign := by
  induction cs with
  | nil => intro st _ _ _ _; simp [parseChars]
  | cons c cs ih =>
    intro st h hc h0 hlen
    have hd := h c (List.mem_cons_self _ _)
    obtain ⟨g1, _, _, _, _, _⟩ := isdigit_spec c hd
    simp only [List.length_cons, Nat.cast_add, Nat.cast_one] at hlen
    have hw : wrapInt32 (st.nDigitsCollectedAfterDot + 1) = st.nDigitsCollectedAfterDot + 1 := by
      unfold wrapInt32; omega
    have hstep : parseChar ',' '.' (p : Int) st c = (true,
        { st with
          nDigitsCollectedAfterDot := st.nDigitsCollectedAfterDot + 1
          deque_cents := st.deque_cents ++ [(c.toNat : Int) - 48] }) := by
      unfold parseChar
      simp only [g1, hd, hc, Bool.false_eq_true, if_false, Bool.not_true, if_true, hw]
      rw [if_neg (by omega)]
    simp only [parseChars, hstep]
    obtain ⟨i1, i2, i3⟩ := ih
      { st with
        nDigitsCollectedAfterDot := st.nDigitsCollectedAfterDot + 1
        deque_cents := st.deque_cents ++ [(c.toNat : Int) - 48] }
      (fun x hx => h x (List.mem_cons_of_mem _ hx)) hc (by simp; omega) (by simp; omega)
    refine ⟨?_, i2, i3⟩
    rw [i1]
    simp

/-- The number a text of digits denotes, in terms of the list of its digits. -/
theorem digitsValue_centsValue (cs : List Char) :
    ∀ (acc : Int), digitsValue acc cs =
      acc * 10 ^ cs.length + centsValue (cs.map (fun c => (c.toNat : Int) - 48)) := by
  induction cs with
  | nil => intro acc; simp [digitsValue, centsValue]
  | cons c cs ih =>
    intro acc
    have e : digitsValue acc (c :: cs) = digitsValue (acc * 10 + ((c.toNat : Int) - 48)) cs := rfl
    rw [e, ih]
    simp only [List.map_cons, centsValue, List.length_cons, List.length_map, pow_succ]
    ring

/-- The digits of a list of digits denote a number that is not negative. -/
theorem centsValue_nonneg (dq : List Int) (h : ∀ d ∈ dq, 0 ≤ d) : 0 ≤ centsValue dq := by
  induction dq with
  | nil => simp [centsValue]
  | cons d rest ih =>
    simp only [centsValue]
    have h1 := h d (List.mem_cons_self _ _)
    have h2 := ih (fun x hx => h x (List.mem_cons_of_mem _ hx))
    have h3 : (0 : Int) ≤ 10 ^ rest.length := by positivity
    have := mul_nonneg h1 h3
    omega

/-- The loop `while (nTempPower > 0)` of `ParseFormatted` over as many digits
as the power counts, without overflow: ten times the number they denote. -/
theorem centsLoop_spec (n : Nat) :
    ∀ (k : Nat) (acc : Int) (dq : List Int), dq.length = n → (∀ d ∈ dq, 0 ≤ d ∧ d ≤ 9) →
    0 ≤ acc → acc + 10 ≤ 10 ^ k → k + n ≤ 18 →
    centsLoop n acc dq = acc * 10 ^ n + centsValue dq * 10 := by
  induction n with
  | zero =>
    intro k acc dq hlen _ _ _ _
    have : dq = [] := List.length_eq_zero.1 hlen
    subst this
    simp [centsLoop, centsValue]
  | succ n ih =>
    intro k acc dq hlen hd h0 hk hkn
    cases dq with
    | nil => simp at hlen
    | cons front rest =>
      obtain ⟨f0, f9⟩ := hd front (List.mem_cons_self _ _)
      have hpow : (10 : Int) ^ (k + 1) ≤ 10 ^ 18 := by
        exact_mod_cast Nat.pow_le_pow_right (by decide) (by omega : k + 1 ≤ 18)
      have hpk : (10 : Int) ^ (k + 1) = 10 ^ k * 10 := pow_succ _ _
      have hw1 : wrapInt64 (acc + front) = acc + front :=
        wrapInt64_of_inRange _ (by omega) (by omega)
      have hw2 : wrapInt64 ((acc + front) * 10) = (acc + front) * 10 :=
        wrapInt64_of_inRange _ (by omega) (by omega)
      simp only [centsLoop, hw1, hw2]
      rw [ih (k + 1) ((acc + front) * 10) rest (by simpa using hlen)
        (fun d hd1 => hd d (List.mem_cons_of_mem _ hd1)) (by omega) (by omega) (by omega)]
      simp only [centsValue, pow_succ]
      have hl : rest.length = n := by simpa using hlen
      rw [hl]
      ring

end OpenTxs

namespace OpenTxs
open AssetContract

/-- The loop of `ParseFormatted` over a symbol, a whole part with separators
and a fraction of at most as many digits as the power counts: what it has
collected at the end. -/
theorem parseChars_fields (p : Nat) (hp : p ≤ 9) (pre ds frac : List Char)
    (st : ParseFormattedState)
    (hpre : ∀ c ∈ pre, isdigit c = false ∧ iscntrl c = false ∧ c ≠ '.' ∧ c ≠ '-')
    (hds : ∀ c ∈ ds, isdigit c = true ∨ c = ',')
    (hD : dollarsValue 0 ds < 2 ^ 63)
    (hfrac : frac = [] ∨
      ∃ cs, frac = '.' :: cs ∧ cs.length ≤ p ∧ ∀ c ∈ cs, isdigit c = true)
    (h1 : st.bHasEnteredDollars = false) (h2 : st.bHasEnteredCents = false)
    (h3 : st.lDollars = 0) (h4 : st.nDigitsCollectedAfterDot = 0) (h5 : st.deque_cents = []) :
    (parseChars ',' '.' (p : Int) (pre ++ (ds ++ frac)) st).lDollars = dollarsValue 0 ds ∧
    (parseChars ',' '.' (p : Int) (pre ++ (ds ++ frac)) st).lSign = st.lSign ∧
    (parseChars ',' '.' (p : Int) (pre ++ (ds ++ frac)) st).deque_cents =
      frac.tail.map (fun c => (c.toNat : Int) - 48) := by
  rw [parseChars_symbol (p : Int) pre st (ds ++ frac) hpre h1 h2]
  obtain ⟨n, hn⟩ := parseChars_dollars (p : Int) ds st frac hds h2 (by rw [h3])
    (by rw [h3]; exact hD)
  rw [hn, h3]
  rcases hfrac with hf | ⟨cs, hf, hlen, hcs⟩
  · subst hf
    simp [parseChars, h5]
  · subst hf
    have hstep : parseChar ',' '.' (p : Int)
        { st with
          lDollars := dollarsValue 0 ds
          bHasEnteredDollars := st.bHasEnteredDollars || ds.any isdigit
          nDigitsCollectedBeforeDot := n } '.' = (true,
        { st with
          lDollars := dollarsValue 0 ds
          bHasEnteredDollars := true
          bHasEnteredCents := true
          nDigitsCollectedBeforeDot := n }) := by
      unfold parseChar
      have e1 : iscntrl '.' = false := by decide
      have e2 : isdigit '.' = false := by decide
      have e3 : ¬ (',' = '.') := by decide
      simp only [e1, e2, h2, Bool.false_eq_true, if_false, Bool.not_false, if_true, e3]
    simp only [parseChars, hstep]
    obtain ⟨i1, i2, i3⟩ := parseChars_cents p hp cs
      { st with
        lDollars := dollarsValue 0 ds
        bHasEnteredDollars := true
        bHasEnteredCents := true
        nDigitsCollectedBeforeDot := n } hcs rfl (by simp [h4]) (by simp [h4]; exact hlen)
    refine ⟨i2, i3, ?_⟩
    rw [i1]
    simp [h5]

end OpenTxs

namespace OpenTxs
open AssetContract

/-- What `ParseFormatted` reads from a text made of an optional minus sign, a
symbol, the whole part of an amount with separators, and its fraction written
the way `formatLongAmount` writes it. -/
theorem ParseFormatted_of_text (a : Int) (p : Nat) (hp : p ≤ 9) (neg : Bool)
    (pre ds : List Char) (ha0 : 0 ≤ a) (ha : a < 2 ^ 63)
    (hpre : ∀ c ∈ pre, isdigit c = false ∧ iscntrl c = false ∧ c ≠ '.' ∧ c ≠ '-')
    (hds : ∀ c ∈ ds, isdigit c = true ∨ c = ',')
    (hD : dollarsValue 0 ds = a.tdiv (10 ^ p)) :
    ParseFormatted ((if neg = true then ['-'] else []) ++ pre ++ ds ++
        (if 1 < (10 : Int) ^ p then ".".data ++ streamIntWidth p (a.tmod (10 ^ p)) else []))
      (10 ^ p) p (some ",".data) (some ".".data) =
    Run.done (true, if neg = true then -a else a) := by
  have hF0 : (0 : Int) < 10 ^ p := by positivity
  have hdiv : a.tdiv (10 ^ p) = a / 10 ^ p := Int.tdiv_eq_ediv ha0 (le_of_lt hF0)
  have hmod : a.tmod (10 ^ p) = a % 10 ^ p := Int.tmod_eq_emod ha0 (le_of_lt hF0)
  have hR0 : 0 ≤ a % 10 ^ p := Int.emod_nonneg _ (ne_of_gt hF0)
  have hR1 : a % 10 ^ p < 10 ^ p := Int.emod_lt_of_pos _ hF0
  have hsplit : a / 10 ^ p * 10 ^ p + a % 10 ^ p = a := by
    have := Int.emod_add_ediv a (10 ^ p)
    linarith [mul_comm (a / 10 ^ p) ((10 : Int) ^ p)]
  have hDF0 : 0 ≤ a / 10 ^ p := Int.ediv_nonneg ha0 (le_of_lt hF0)
  have hDF : a / 10 ^ p ≤ a / 10 ^ p * 10 ^ p := le_mul_of_one_le_right hDF0 (by omega)
  generalize hfrac : (if 1 < (10 : Int) ^ p then
    ".".data ++ streamIntWidth p (a.tmod (10 ^ p)) else []) = frac
  have hfr : (frac = [] ∧ p = 0) ∨ ∃ cs, frac = '.' :: cs ∧ cs.length = p ∧
      (∀ c ∈ cs, isdigit c = true) ∧ digitsValue 0 cs = a % 10 ^ p := by
    by_cases h1 : 1 < (10 : Int) ^ p
    · right
      have hp1 : 1 ≤ p := by
        rcases Nat.eq_zero_or_pos p with h | h
        · subst h; simp at h1
        · exact h
      obtain ⟨k1, k2, k3⟩ := streamIntWidth_spec p (a.tmod (10 ^ p)) hp1 (by omega)
        (by rw [hmod]; exact hR0) (by rw [hmod]; exact hR1)
      refine ⟨streamIntWidth p (a.tmod (10 ^ p)), ?_, k1, k2, ?_⟩
      · rw [← hfrac, if_pos h1]; rfl
      · rw [k3 0, hmod]; simp
    · left
      refine ⟨by rw [← hfrac, if_neg h1], ?_⟩
      rcases Nat.eq_zero_or_pos p with h | h
      · exact h
      · exfalso
        apply h1
        have : (10 : Int) ^ 1 ≤ 10 ^ p := by
          exact_mod_cast Nat.pow_le_pow_right (by decide) h
        omega
  have hsign : parseChars ',' '.' (p : Int)
      ((if neg = true then ['-'] else []) ++ pre ++ ds ++ frac)
      { lDollars := 0, lSign := 1, bHasEnteredDollars := false, bHasEnteredCents := false,
        nDigitsCollectedBeforeDot := 0, nDigitsCollectedAfterDot := 0, deque_cents := [] } =
      parseChars ',' '.' (p : Int) (pre ++ (ds ++ frac))
      { lDollars := 0, lSign := if neg = true then -1 else 1, bHasEnteredDollars := false,
        bHasEnteredCents := false, nDigitsCollectedBeforeDot := 0,
        nDigitsCollectedAfterDot := 0, deque_cents := [] } := by
    cases neg
    · simp
    · have e1 : iscntrl '-' = false := by decide
      have e2 : isdigit '-' = false := by decide
      have e3 : ¬ (',' = '-') := by decide
      have e4 : ¬ ('.' = '-') := by decide
      simp [parseChars, parseChar, e1, e2, e3, e4]
  obtain ⟨f1, f2, f3⟩ := parseChars_fields p hp pre ds frac
    { lDollars := 0, lSign := if neg = true then -1 else 1, bHasEnteredDollars := false,
      bHasEnteredCents := false, nDigitsCollectedBeforeDot := 0,
      nDigitsCollectedAfterDot := 0, deque_cents := [] } hpre hds
    (by rw [hD, hdiv]; omega)
    (by
      rcases hfr with ⟨h, _⟩ | ⟨cs, h, hl, hc, _⟩
      · exact Or.inl h
      · exact Or.inr ⟨cs, h, le_of_eq hl, hc⟩) rfl rfl rfl rfl rfl
  have hcents : (centsLoop p 0
      (frac.tail.map (fun c => (c.toNat : Int) - 48))).tdiv 10 = a % 10 ^ p := by
    rcases hfr with ⟨h, hp0⟩ | ⟨cs, h, hl, hc, hv⟩
    · subst h; subst hp0
      simp [centsLoop]
    · subst h
      simp only [List.tail_cons]
      rw [centsLoop_spec p 1 0 _ (by simpa using hl)
        (by
          intro d hd
          obtain ⟨c, hcm, rfl⟩ := List.mem_map.1 hd
          obtain ⟨_, _, _, _, d0, d9⟩ := isdigit_spec c (hc c hcm)
          exact ⟨d0, d9⟩) (le_refl _) (by norm_num) (by omega)]
      have hcv := digitsValue_centsValue cs 0
      rw [hv] at hcv
      simp only [zero_mul, zero_add] at hcv ⊢
      rw [← hcv, Int.tdiv_eq_ediv (by omega) (by decide)]
      omega
  have hsd : ",".data.headD '\x00' = ',' := rfl
  have hdd : ".".data.headD '\x00' = '.' := rfl
  simp only [ParseFormatted, hsd, hdd, Int.toNat_ofNat, hsign, f1, f2, f3, hcents, hD, hdiv,
    zero_add]
  have hw1 : wrapInt64 (a / 10 ^ p) = a / 10 ^ p :=
    wrapInt64_of_inRange _ (by omega) (by omega)
  have hw2 : wrapInt64 (a / 10 ^ p * 10 ^ p) = a / 10 ^ p * 10 ^ p :=
    wrapInt64_of_inRange _ (by omega) (by omega)
  have hw3 : wrapInt64 (a / 10 ^ p * 10 ^ p + a % 10 ^ p) = a := by
    rw [hsplit]; exact wrapInt64_of_inRange _ (by omega) (by omega)
  rw [hw1, hw2, hw3]
  cases neg
  · simp only [Bool.false_eq_true, if_false, mul_one]
    rw [wrapInt64_of_inRange _ (by omega) (by omega)]
  · simp only [if_true, mul_neg, mul_one]
    rw [wrapInt64_of_inRange _ (by omega) (by omega)]

/-- Claim C24: parsing undoes formatting of amounts.  For an `int64_t` amount
other than the least one, a decimal power `p` whose factor `10 ^ p` fits an
`int32_t`, and a currency symbol without digit, control character, minus sign
or decimal point, `formatLongAmount` with the separator `,` and the decimal
point `.` returns a text, and `ParseFormatted` on that text returns true with
the amount as its result. -/
theorem ParseFormatted_formatLongAmount (v : Int) (p : Nat) (symbol : List Char)
    (hmin : -2 ^ 63 < v) (hmax : v < 2 ^ 63) (hfactor : (10 : Int) ^ p < 2 ^ 31)
    (hsym : ∀ c ∈ symbol, isdigit c = false ∧ iscntrl c = false ∧ c ≠ '-' ∧ c ≠ '.') :
    ∃ s, formatLongAmount v (10 ^ p) p (some symbol) ",".data ".".data = Run.done s ∧
      ParseFormatted s (10 ^ p) p (some ",".data) (some ".".data) = Run.done (true, v) := by
  have hp : p ≤ 9 := by
    by_contra h
    have h10 : (10 : Int) ^ 10 ≤ 10 ^ p := by
      exact_mod_cast Nat.pow_le_pow_right (by decide) (by omega : 10 ≤ p)
    omega
  have hF0 : (0 : Int) < 10 ^ p := by positivity
  have hpre : ∀ c ∈ symbol ++ [' '],
      isdigit c = false ∧ iscntrl c = false ∧ c ≠ '.' ∧ c ≠ '-' := by
    intro c hc
    rcases List.mem_append.1 hc with h | h
    · obtain ⟨a1, a2, a3, a4⟩ := hsym c h
      exact ⟨a1, a2, a4, a3⟩
    · have : c = ' ' := by simpa using h
      subst this
      exact ⟨by decide, by decide, by decide, by decide⟩
  have key : ∀ (a : Int) (neg : Bool), 0 ≤ a → a < 2 ^ 63 →
      ∃ ds, separateThousands 7 (a.tdiv (10 ^ p)) ",".data = Run.done ds ∧
        ParseFormatted ((if neg = true then ['-'] else []) ++ (symbol ++ [' ']) ++ ds ++
          (if 1 < (10 : Int) ^ p then ".".data ++ streamIntWidth p (a.tmod (10 ^ p)) else []))
          (10 ^ p) p (some ",".data) (some ".".data) =
        Run.done (true, if neg = true then -a else a) := by
    intro a neg ha0 ha
    have hdiv : a.tdiv (10 ^ p) = a / 10 ^ p := Int.tdiv_eq_ediv ha0 (le_of_lt hF0)
    have hD0 : 0 ≤ a / 10 ^ p := Int.ediv_nonneg ha0 (le_of_lt hF0)
    have hD1 : a / 10 ^ p ≤ a := Int.ediv_le_self _ ha0
    obtain ⟨ds, h1, h2, _, h4⟩ := separateThousands_spec 6 (a.tdiv (10 ^ p))
      (by rw [hdiv]; exact hD0) (by rw [hdiv]; omega)
    exact ⟨ds, h1, ParseFormatted_of_text a p hp neg (symbol ++ [' ']) ds ha0 ha hpre h2 h4⟩
  have hne : ¬ ((10 : Int) ^ p = 0) := ne_of_gt hF0
  by_cases hneg : v < 0
  · obtain ⟨ds, h1, h2⟩ := key (-v) true (by omega) (by omega)
    have hw : wrapInt64 (-v) = -v := wrapInt64_of_inRange _ (by omega) (by omega)
    simp only [if_true, neg_neg] at h2
    refine ⟨_, ?_, h2⟩
    simp only [formatLongAmount, if_pos hneg, hw, if_neg hne, h1]
  · obtain ⟨ds, h1, h2⟩ := key v false (by omega) hmax
    simp only [Bool.false_eq_true, if_false] at h2
    refine ⟨_, ?_, h2⟩
    simp only [formatLongAmount, if_neg hneg, if_neg hne, h1]

/-- The round trip of claim C24 on the amount 912545 with the factor 100, the
power 2 and the symbol `$`: the text is `$ 9,125.45`, and the text `$9,125.45`
of the documentation parses to the same amount. -/
theorem ParseFormatted_formatLongAmount_witness :
    formatLongAmount 912545 (10 ^ 2) (2 : Nat) (some "$".data) ",".data ".".data =
        Run.done "$ 9,125.45".data ∧
      ParseFormatted "$9,125.45".data 100 2 (some ",".data) (some ".".data) =
        Run.done (true, 912545) ∧
      ∃ s, formatLongAmount 912545 (10 ^ 2) (2 : Nat) (some "$".data) ",".data ".".data =
          Run.done s ∧
        ParseFormatted s (10 ^ 2) (2 : Nat) (some ",".data) (some ".".data) =
          Run.done (true, 912545) :=
  ⟨by decide, by decide,
    ParseFormatted_formatLongAmount 912545 2 "$".data (by decide) (by decide) (by decide)
      (by decide)⟩

end OpenTxs

/-! ## The reassignment phase of `Purse::Merge` -/

namespace OpenTxs
open Purse

/-- What `Purse::Merge` does to a token of the other purse, as a choice on the
flag of `ReassignOwnership`. -/
theorem reassignToken_eq_ite {τ : Type} (K : TokenClass τ) (theSigner : Nym)
    (theOldNym theNewNym : OTNym_or_SymmetricKey) (T : τ) :
    reassignToken K theSigner theOldNym theNewNym T =
      if (K.ReassignOwnership T theNewNym theOldNym).1 = true then
        K.SignAndSave theSigner (K.ReassignOwnership T theNewNym theOldNym).2
      else (K.ReassignOwnership T theNewNym theOldNym).2 := by
  unfold reassignToken
  cases hr : K.ReassignOwnership T theNewNym theOldNym with
  | mk f t => cases f <;> simp

/-- C13 (amended): a failure of `ReassignOwnership` does not downgrade the
result of `Merge`.  Let every envelope of A yield its token under `theOldNym`
(the list `tsA`) and every envelope of B under `theNewNym` (the list `tsB`);
whichever calls of `ReassignOwnership` fail, `Merge` returns.  Each token of B
goes through the same round on the temporary map as every other token, as
`ReassignOwnership` left it and not signed again when the call failed; every
token of the final map is pushed once onto the emptied purse A, and the flag
returned is true exactly when every one of these pushes returns true.  When
the reassignment keeps the spendable identity, a token of B whose reassignment
failed and whose identity no other token of B has is on the final map as
`ReassignOwnership` left it; and when every token of the final map has the
instrument definition of A and can be sealed, `Merge` returns true and A holds
the envelope of every token of the map. -/
theorem Merge_reassign_failure_kept {τ : Type} (K : TokenClass τ) (A B : Purse)
    (theSigner : Nym) (theOldNym theNewNym : OTNym_or_SymmetricKey) (tsA tsB : List τ)
    (hA : List.Forall₂ (fun e T => PeekArmor K A theOldNym e = Run.done (some T))
      A.m_dequeTokens tsA)
    (hB : List.Forall₂ (fun e T => PeekArmor K B theNewNym e = Run.done (some T))
      B.m_dequeTokens tsB) :
    ∃ A0 B1 theMap b A1,
      theMap = (tsB.map (fun T => (K.GetSpendable T,
          if (K.ReassignOwnership T theNewNym theOldNym).1 = true then
            K.SignAndSave theSigner (K.ReassignOwnership T theNewNym theOldNym).2
          else (K.ReassignOwnership T theNewNym theOldNym).2))).foldl (mergeStep K)
        ((tsA.map (fun T => (K.GetSpendable T, T))).foldl (mergeStep K) []) ∧
      MergeDrainThis K theOldNym A.Count A [] =
        Run.done (A0, (tsA.map (fun T => (K.GetSpendable T, T))).foldl (mergeStep K) []) ∧
      A0.m_dequeTokens = [] ∧ B1.m_dequeTokens = [] ∧
      Merge K A theSigner theOldNym theNewNym B = Run.done (b, A1, B1) ∧
      A1 = theMap.foldl (fun q it => (Push K q theOldNym it.2).2) A0 ∧
      (pushFlags K theOldNym theMap A0).length = theMap.length ∧
      (b = true ↔ ∀ f ∈ pushFlags K theOldNym theMap A0, f = true) ∧
      ((∀ T ∈ tsB, K.GetSpendable (reassignToken K theSigner theOldNym theNewNym T) =
          K.GetSpendable T) →
        ∀ T0 ∈ tsB, (K.ReassignOwnership T0 theNewNym theOldNym).1 = false →
          (∀ T ∈ tsB, K.GetSpendable T = K.GetSpendable T0 → T = T0) →
          (K.GetSpendable T0, (K.ReassignOwnership T0 theNewNym theOldNym).2) ∈ theMap) ∧
      ((∀ kv ∈ theMap, K.GetInstrumentDefinitionID kv.2 = A.m_InstrumentDefinitionID ∧
          (theOldNym.Seal_or_Encrypt (K.toText kv.2)).isSome) →
        b = true ∧ ∃ es,
          List.Forall₂ (fun e kv => theOldNym.Seal_or_Encrypt (K.toText kv.2) = some e)
            es theMap ∧
          A1.m_dequeTokens = es.reverse) := by
  obtain ⟨A0, hD1, hA0d, _, hA0I⟩ :=
    MergeDrainThis_spec K theOldNym A.m_dequeTokens tsA A.Count A [] rfl hA (le_refl _)
  obtain ⟨B1, hD2, hB1d⟩ :=
    MergeDrainNew_spec K theSigner theOldNym theNewNym B.m_dequeTokens tsB B.Count B
      ((tsA.map (fun T => (K.GetSpendable T, T))).foldl (mergeStep K) []) rfl hB (le_refl _)
  have hfun : (fun T => (K.GetSpendable T, reassignToken K theSigner theOldNym theNewNym T)) =
      (fun T => (K.GetSpendable T,
        if (K.ReassignOwnership T theNewNym theOldNym).1 = true then
          K.SignAndSave theSigner (K.ReassignOwnership T theNewNym theOldNym).2
        else (K.ReassignOwnership T theNewNym theOldNym).2)) := by
    funext T
    rw [reassignToken_eq_ite]
  have hmerge : Merge K A theSigner theOldNym theNewNym B =
      Run.done ((pushFlags K theOldNym
          ((tsB.map (fun T => (K.GetSpendable T,
            reassignToken K theSigner theOldNym theNewNym T))).foldl (mergeStep K)
            ((tsA.map (fun T => (K.GetSpendable T, T))).foldl (mergeStep K) [])) A0).all id,
        ((tsB.map (fun T => (K.GetSpendable T,
            reassignToken K theSigner theOldNym theNewNym T))).foldl (mergeStep K)
            ((tsA.map (fun T => (K.GetSpendable T, T))).foldl (mergeStep K) [])).foldl
          (fun q it => (Push K q theOldNym it.2).2) A0, B1) := by
    unfold Merge
    rw [hD1]
    simp only
    rw [hD2]
    simp only
    rw [MergePushAll_flags]
    simp
  have hlastB : (∀ T ∈ tsB, K.GetSpendable (reassignToken K theSigner theOldNym theNewNym T) =
      K.GetSpendable T) →
      ∀ T0 ∈ tsB, (K.ReassignOwnership T0 theNewNym theOldNym).1 = false →
        (∀ T ∈ tsB, K.GetSpendable T = K.GetSpendable T0 → T = T0) →
        (K.GetSpendable T0, (K.ReassignOwnership T0 theNewNym theOldNym).2) ∈
          (tsB.map (fun T => (K.GetSpendable T,
            reassignToken K theSigner theOldNym theNewNym T))).foldl (mergeStep K)
            ((tsA.map (fun T => (K.GetSpendable T, T))).foldl (mergeStep K) []) := by
    intro hKey T0 hT0 hfail huniq
    rw [← reassignToken_of_failure K theSigner theOldNym theNewNym T0 hfail]
    rw [← List.foldl_append]
    generalize hitems : tsA.map (fun T => (K.GetSpendable T, T)) ++
      tsB.map (fun T => (K.GetSpendable T,
        reassignToken K theSigner theOldNym theNewNym T)) = items
    have hit : ∀ it ∈ items, K.GetSpendable it.2 = it.1 := by
      intro it h
      rw [← hitems] at h
      rcases List.mem_append.1 h with h | h
      · obtain ⟨T, _, rfl⟩ := List.mem_map.1 h
        rfl
      · obtain ⟨T, hT, rfl⟩ := List.mem_map.1 h
        exact hKey T hT
    obtain ⟨_, _, _, hkeys⟩ := foldl_mergeStep_spec K items []
      (fun _ h => absurd h (List.not_mem_nil _)) List.nodup_nil hit
    have hlast := foldl_mergeStep_last K items []
      (fun _ h => absurd h (List.not_mem_nil _)) List.nodup_nil hit
    have hmemB : (K.GetSpendable T0, reassignToken K theSigner theOldNym theNewNym T0) ∈
        tsB.map (fun T => (K.GetSpendable T,
          reassignToken K theSigner theOldNym theNewNym T)) :=
      List.mem_map.2 ⟨T0, hT0, rfl⟩
    have hkey0 : K.GetSpendable T0 ∈ (items.foldl (mergeStep K) []).map Prod.fst := by
      rw [hkeys]
      right
      rw [← hitems]
      exact List.mem_map.2 ⟨_, List.mem_append_right _ hmemB, rfl⟩
    obtain ⟨kv, hkv, hk⟩ := List.mem_map.1 hkey0
    have hfind : items.reverse.find? (fun it => it.1 == kv.1) =
        some (K.GetSpendable T0, reassignToken K theSigner theOldNym theNewNym T0) := by
      rw [← hitems, List.reverse_append, List.find?_append]
      cases hf : (tsB.map (fun T => (K.GetSpendable T,
          reassignToken K theSigner theOldNym theNewNym T))).reverse.find?
          (fun it => it.1 == kv.1) with
      | none =>
        have hnone := List.find?_eq_none.1 hf _ (List.mem_reverse.2 hmemB)
        exact absurd (by simpa using hk.symm) hnone
      | some y =>
        have hy1 := List.find?_some hf
        have hy2 := List.mem_reverse.1 (List.mem_of_find?_eq_some hf)
        obtain ⟨T, hT, rfl⟩ := List.mem_map.1 hy2
        have hTk : K.GetSpendable T = K.GetSpendable T0 := by
          have : K.GetSpendable T = kv.1 := by simpa using hy1
          rw [this, hk]
        rw [huniq T hT hTk]
        rfl
    rcases hlast kv hkv with h | ⟨_, h⟩
    · rw [hfind] at h
      rw [Option.some.inj h]
      exact hkv
    · exact absurd h (List.not_mem_nil _)
  rw [hfun] at hmerge hlastB
  generalize hm : (tsB.map (fun T => (K.GetSpendable T,
      if (K.ReassignOwnership T theNewNym theOldNym).1 = true then
        K.SignAndSave theSigner (K.ReassignOwnership T theNewNym theOldNym).2
      else (K.ReassignOwnership T theNewNym theOldNym).2))).foldl (mergeStep K)
    ((tsA.map (fun T => (K.GetSpendable T, T))).foldl (mergeStep K) []) = m
    at hmerge hlastB
  have hAll0 := MergePushAll_flags K theOldNym m true A0
  refine ⟨A0, B1, m, _, _, rfl, hD1, hA0d, hB1d, hmerge, rfl,
    pushFlags_length K theOldNym m A0, ?_, hlastB, ?_⟩
  · simp [List.all_eq_true]
  · intro hpushable
    obtain ⟨A1, es, hPush, hF, hdq⟩ := MergePushAll_spec K theOldNym m true A0
      (fun kv hkv => ⟨(hpushable kv hkv).1.trans hA0I.symm, (hpushable kv hkv).2⟩)
    rw [hAll0] at hPush
    have h1 := congrArg Prod.fst hPush
    have h2 := congrArg Prod.snd hPush
    simp only [Bool.true_and] at h1 h2
    refine ⟨h1, es, hF, ?_⟩
    rw [h2, hdq, hA0d, List.append_nil]

end OpenTxs

namespace OpenTxs
open Purse

set_option maxRecDepth 8000 in
/-- Witness of C13 (amended): with a token class whose `ReassignOwnership`
fails for `tok3` and succeeds for `tok2`, the merge of B (holding `tok2`,
`tok3`) into A (holding `tok1`, `tok2`) returns true, and A holds the envelope
of `tok3` with the others. -/
theorem Merge_reassign_failure_kept_witness :
    (partlyFailingClass.ReassignOwnership tok3 plainOwner plainOwner).1 = false ∧
    (partlyFailingClass.ReassignOwnership tok2 plainOwner plainOwner).1 = true ∧
    Merge partlyFailingClass purseA ⟨"signer"⟩ plainOwner plainOwner purseB =
      Run.done (true,
        { samplePurse with
          m_dequeTokens := ["t3", "t2", "t1"], m_lTotalValue := 35,
          m_tLatestValidFrom := 150, m_tEarliestValidTo := 180 },
        { samplePurse with
          m_dequeTokens := [], m_lTotalValue := 0,
          m_tLatestValidFrom := 150, m_tEarliestValidTo := 180 }) ∧
    ∃ A0 B1 theMap b A1,
      theMap = ([tok3, tok2].map (fun T => (partlyFailingClass.GetSpendable T,
          if (partlyFailingClass.ReassignOwnership T plainOwner plainOwner).1 = true then
            partlyFailingClass.SignAndSave ⟨"signer"⟩
              (partlyFailingClass.ReassignOwnership T plainOwner plainOwner).2
          else (partlyFailingClass.ReassignOwnership T plainOwner plainOwner).2))).foldl
        (mergeStep partlyFailingClass)
        (([tok2, tok1].map (fun T => (partlyFailingClass.GetSpendable T, T))).foldl
          (mergeStep partlyFailingClass) []) ∧
      MergeDrainThis partlyFailingClass plainOwner purseA.Count purseA [] =
        Run.done (A0, ([tok2, tok1].map
          (fun T => (partlyFailingClass.GetSpendable T, T))).foldl
            (mergeStep partlyFailingClass) []) ∧
      A0.m_dequeTokens = [] ∧ B1.m_dequeTokens = [] ∧
      Merge partlyFailingClass purseA ⟨"signer"⟩ plainOwner plainOwner purseB =
        Run.done (b, A1, B1) ∧
      A1 = theMap.foldl (fun q it => (Push partlyFailingClass q plainOwner it.2).2) A0 ∧
      (pushFlags partlyFailingClass plainOwner theMap A0).length = theMap.length ∧
      (b = true ↔ ∀ f ∈ pushFlags partlyFailingClass plainOwner theMap A0, f = true) ∧
      ((∀ T ∈ [tok3, tok2], partlyFailingClass.GetSpendable
          (reassignToken partlyFailingClass ⟨"signer"⟩ plainOwner plainOwner T) =
          partlyFailingClass.GetSpendable T) →
        ∀ T0 ∈ [tok3, tok2],
          (partlyFailingClass.ReassignOwnership T0 plainOwner plainOwner).1 = false →
          (∀ T ∈ [tok3, tok2], partlyFailingClass.GetSpendable T =
            partlyFailingClass.GetSpendable T0 → T = T0) →
          (partlyFailingClass.GetSpendable T0,
            (partlyFailingClass.ReassignOwnership T0 plainOwner plainOwner).2) ∈ theMap) ∧
      ((∀ kv ∈ theMap,
          partlyFailingClass.GetInstrumentDefinitionID kv.2 = purseA.m_InstrumentDefinitionID ∧
          (plainOwner.Seal_or_Encrypt (partlyFailingClass.toText kv.2)).isSome) →
        b = true ∧ ∃ es,
          List.Forall₂ (fun e kv =>
            plainOwner.Seal_or_Encrypt (partlyFailingClass.toText kv.2) = some e) es theMap ∧
          A1.m_dequeTokens = es.reverse) :=
  ⟨by decide, by decide, by decide,
    Merge_reassign_failure_kept partlyFailingClass purseA purseB ⟨"signer"⟩ plainOwner
      plainOwner [tok2, tok1] [tok3, tok2]
      (List.Forall₂.cons (by decide) (List.Forall₂.cons (by decide) List.Forall₂.nil))
      (List.Forall₂.cons (by decide) (List.Forall₂.cons (by decide) List.Forall₂.nil))⟩

end OpenTxs
